import Mathlib

/-!
# Red-black tree (RBTree.c): pointer-level embedding and verification

The C program keeps its nodes in dynamically allocated memory and links them
with `parent`, `left` and `right` pointers.  The embedding keeps that shape:
a node memory maps addresses to node records, a pointer is an optional
address (`none` is `NULL`), and every C function is a state-passing function
returning either a fault (a dereference of `NULL` or of an address that holds
no live node, a call through a `NULL` function pointer, or exhausted fuel) or
its result together with the new state.  Recursion and loops of the C code
are bounded by a fuel argument; the theorems show that enough fuel always
yields a result.
-/

namespace RBT

/-! ## Data model -/

/-- Modelled from the spec: the colour tag of a node.  Its declaration is in
the header RBTree.h, which is not among the sources; the code uses the two
constants `RED` and `BLACK`. -/
inductive Color where
  | RED
  | BLACK
deriving DecidableEq

/-- A pointer to a node: `none` is `NULL`, `some a` is the address `a`. -/
abbrev Ptr := Option Nat

/-- Modelled from the spec: the `Node` struct.  Its declaration is in the
header RBTree.h, which is not among the sources; the fields are those the
code reads and writes: `data`, `parent`, `left`, `right`, `color`. -/
structure Node (α : Type) where
  data : α
  parent : Ptr
  left : Ptr
  right : Ptr
  color : Color
deriving DecidableEq

/-- Ways in which a run of the embedded code can fail to return. -/
inductive Fault where
  | nullDeref
  | wildDeref
  | nullCall
  | outOfFuel
deriving DecidableEq

/-- Modelled from the spec: the `RBTree` struct, declared in the header
RBTree.h, which is not among the sources.  The fields `root`, `compFunc` and
`size` are those the code uses; `mem` is the node memory the pointers refer
to.  The `freeFunc` field is represented by its effect: `freed` is the list
of values the destructor has been called on, oldest first. -/
structure RBTree (α : Type) where
  root : Ptr
  compFunc : α → α → Int
  size : Int
  mem : Nat → Option (Node α)
  freed : List α

/-- A `Node **`: the place a node pointer is stored in, either the `root`
field of the tree or the `left` / `right` field of the node at an address. -/
inductive Link where
  | root
  | left (a : Nat)
  | right (a : Nat)
deriving DecidableEq

variable {α : Type}

/-! ## Memory access -/

/-- Read the node `p` points to. -/
def load (tree : RBTree α) (p : Ptr) : Except Fault (Node α) :=
  match p with
  | none => .error .nullDeref
  | some a =>
    match tree.mem a with
    | none => .error .wildDeref
    | some n => .ok n

/-- Overwrite the node stored at address `a`. -/
def store (tree : RBTree α) (a : Nat) (n : Node α) : RBTree α :=
  { tree with mem := Function.update tree.mem a (some n) }

/-- The assignment `p->parent = q`. -/
def setParent (tree : RBTree α) (p q : Ptr) : Except Fault (RBTree α) :=
  match p with
  | none => .error .nullDeref
  | some a =>
    match tree.mem a with
    | none => .error .wildDeref
    | some n => .ok (store tree a { n with parent := q })

/-- The assignment `p->left = q`. -/
def setLeft (tree : RBTree α) (p q : Ptr) : Except Fault (RBTree α) :=
  match p with
  | none => .error .nullDeref
  | some a =>
    match tree.mem a with
    | none => .error .wildDeref
    | some n => .ok (store tree a { n with left := q })

/-- The assignment `p->right = q`. -/
def setRight (tree : RBTree α) (p q : Ptr) : Except Fault (RBTree α) :=
  match p with
  | none => .error .nullDeref
  | some a =>
    match tree.mem a with
    | none => .error .wildDeref
    | some n => .ok (store tree a { n with right := q })

/-- The assignment `p->color = c`. -/
def setColor (tree : RBTree α) (p : Ptr) (c : Color) : Except Fault (RBTree α) :=
  match p with
  | none => .error .nullDeref
  | some a =>
    match tree.mem a with
    | none => .error .wildDeref
    | some n => .ok (store tree a { n with color := c })

/-- The assignment `p->data = d`. -/
def setData (tree : RBTree α) (p : Ptr) (d : α) : Except Fault (RBTree α) :=
  match p with
  | none => .error .nullDeref
  | some a =>
    match tree.mem a with
    | none => .error .wildDeref
    | some n => .ok (store tree a { n with data := d })

/-- Read `*node` for a `Node **node`. -/
def readLink (tree : RBTree α) (node : Link) : Except Fault Ptr :=
  match node with
  | .root => .ok tree.root
  | .left a => do
    let n ← load tree (some a)
    pure n.left
  | .right a => do
    let n ← load tree (some a)
    pure n.right

/-- The assignment `*node = q` for a `Node **node`. -/
def writeLink (tree : RBTree α) (node : Link) (q : Ptr) : Except Fault (RBTree α) :=
  match node with
  | .root => .ok { tree with root := q }
  | .left a => setLeft tree (some a) q
  | .right a => setRight tree (some a) q

/-- The call `free(p)` on a node: the address holds no live node afterwards. -/
def freeNode (tree : RBTree α) (p : Ptr) : RBTree α :=
  match p with
  | none => tree
  | some a => { tree with mem := Function.update tree.mem a none }

/-- The short-circuit conjunction `a && b` of C: `b` is evaluated only when
`a` holds. -/
def andAlso (a b : Except Fault Bool) : Except Fault Bool := do
  if (← a) then b else pure false

/-! ## Creation and insertion -/

/-- `newRBTree`: `treeAlloc` hands out a zeroed struct (`root = NULL`,
`size = 0`); no node is live and the destructor has not been called. -/
def newRBTree (compFunc : α → α → Int) : RBTree α :=
  { root := none, compFunc := compFunc, size := 0, mem := fun _ => none, freed := [] }

/-- `createNode`: `fresh` is what `malloc` returns, `none` when it fails.
The new node is red and has no links. -/
def createNode (tree : RBTree α) (data : α) (fresh : Ptr) : Ptr × RBTree α :=
  match fresh with
  | none => (none, tree)
  | some a => (some a, store tree a
      { data := data, parent := none, left := none, right := none, color := .RED })

/-- `insertToNormalBst`: descend by the comparator to an absent position and
link a new red node there; `NULL` when an equal value is met or on failure. -/
def insertToNormalBst : Nat → Option (RBTree α) → Ptr → Link → α → Ptr →
    Except Fault (Ptr × Option (RBTree α))
  | 0, _, _, _, _, _ => .error .outOfFuel
  | _ + 1, none, _, _, _, _ => .ok (none, none)
  | fuel + 1, some tree, parent, node, data, fresh => do
    let cur ← readLink tree node
    match cur with
    | none =>
      let (created, tree) := createNode tree data fresh
      let tree ← writeLink tree node created
      let cur ← readLink tree node
      match cur with
      | none => pure (none, some tree)
      | some _ =>
        let tree ← setParent tree cur parent
        let cur ← readLink tree node
        pure (cur, some tree)
    | some c =>
      let n ← load tree cur
      let res := tree.compFunc data n.data
      if res = 0 then pure (none, some tree)
      else if res > 0 then insertToNormalBst fuel (some tree) cur (.right c) data fresh
      else insertToNormalBst fuel (some tree) cur (.left c) data fresh

/-- `rightRotation` on the node `y`. -/
def rightRotation (tree : RBTree α) (y : Ptr) : Except Fault (RBTree α) :=
  match y with
  | none => pure tree
  | some _ => do
    let yn ← load tree y
    match yn.left with
    | none => pure tree
    | some _ =>
      let x := yn.left
      let xn ← load tree x
      let t2 := xn.right
      let tree ← setParent tree x yn.parent
      let xn ← load tree x
      let tree ← (match xn.parent with
        | some _ => do
          let pn ← load tree xn.parent
          if pn.left = y then setLeft tree xn.parent x else setRight tree xn.parent x
        | none => pure { tree with root := x })
      let tree ← setRight tree x y
      let tree ← setParent tree y x
      let tree ← setLeft tree y t2
      match t2 with
      | some _ => setParent tree t2 y
      | none => pure tree

/-- `leftRotation` on the node `x`. -/
def leftRotation (tree : RBTree α) (x : Ptr) : Except Fault (RBTree α) :=
  match x with
  | none => pure tree
  | some _ => do
    let xn ← load tree x
    match xn.right with
    | none => pure tree
    | some _ =>
      let y := xn.right
      let yn ← load tree y
      let t2 := yn.left
      let tree ← setParent tree y xn.parent
      let yn ← load tree y
      let tree ← (match yn.parent with
        | some _ => do
          let pn ← load tree yn.parent
          if pn.left = x then setLeft tree yn.parent y else setRight tree yn.parent y
        | none => pure { tree with root := y })
      let tree ← setLeft tree y x
      let tree ← setParent tree x y
      let tree ← setRight tree x t2
      match t2 with
      | some _ => setParent tree t2 x
      | none => pure tree

/-- `getBrother`. -/
def getBrother (tree : RBTree α) (node : Ptr) : Except Fault Ptr :=
  match node with
  | none => pure none
  | some _ => do
    let n ← load tree node
    match n.parent with
    | none => pure none
    | some _ =>
      let pn ← load tree n.parent
      if pn.left = node then pure pn.right else pure pn.left

/-- `getUncle`. -/
def getUncle (tree : RBTree α) (node : Ptr) : Except Fault Ptr :=
  match node with
  | none => pure none
  | some _ => do
    let n ← load tree node
    getBrother tree n.parent

/-- `getGrandpa`. -/
def getGrandpa (tree : RBTree α) (node : Ptr) : Except Fault Ptr :=
  match node with
  | none => pure none
  | some _ => do
    let n ← load tree node
    match n.parent with
    | none => pure none
    | some _ =>
      let pn ← load tree n.parent
      pure pn.parent

/-- The test `uncle != NULL && uncle->color == RED`. -/
def isRedNode (tree : RBTree α) (p : Ptr) : Except Fault Bool :=
  match p with
  | none => pure false
  | some _ => do
    let n ← load tree p
    pure (decide (n.color = .RED))

/-- `fixInsertToRBTree`. -/
def fixInsertToRBTree : Nat → RBTree α → Ptr → Except Fault (RBTree α)
  | 0, _, _ => .error .outOfFuel
  | fuel + 1, tree, n => do
    let nn ← load tree n
    let parent := nn.parent
    let grandpa ← getGrandpa tree n
    let uncle ← getUncle tree n
    match parent with
    | none => setColor tree n .BLACK
    | some _ =>
      let pn ← load tree parent
      if pn.color = .BLACK then pure tree
      else if (← isRedNode tree uncle) then
        let tree ← setColor tree parent .BLACK
        let tree ← setColor tree uncle .BLACK
        let tree ← setColor tree grandpa .RED
        fixInsertToRBTree fuel tree grandpa
      else
        let gn ← load tree grandpa
        if gn.right = parent ∧ pn.right = n then
          let tree ← leftRotation tree grandpa
          let tree ← setColor tree parent .BLACK
          setColor tree grandpa .RED
        else if gn.left = parent ∧ pn.left = n then
          let tree ← rightRotation tree grandpa
          let tree ← setColor tree parent .BLACK
          setColor tree grandpa .RED
        else if gn.right = parent ∧ pn.left = n then
          let tree ← rightRotation tree parent
          let tree ← leftRotation tree grandpa
          let tree ← setColor tree n .BLACK
          setColor tree grandpa .RED
        else
          let tree ← leftRotation tree parent
          let tree ← rightRotation tree grandpa
          let tree ← setColor tree n .BLACK
          setColor tree grandpa .RED

/-- `insertToRBTree`: `data = none` is a `NULL` value, `fresh` is the answer
of `malloc` should a node be created. -/
def insertToRBTree (fuel : Nat) (tree : Option (RBTree α)) (data : Option α) (fresh : Ptr) :
    Except Fault (Bool × Option (RBTree α)) :=
  match data with
  | none => pure (false, tree)
  | some d => do
    let (n, tree) ← insertToNormalBst fuel tree none .root d fresh
    match n, tree with
    | none, tree => pure (false, tree)
    | some _, none => .error .nullDeref
    | some _, some tree =>
      let tree := { tree with size := tree.size + 1 }
      let tree ← fixInsertToRBTree fuel tree n
      pure (true, some tree)

/-! ## Search and traversal -/

/-- `findXNormalBST`: `data = none` is a `NULL` value. -/
def findXNormalBST : Nat → RBTree α → Ptr → Option α → Except Fault Ptr
  | 0, _, _, _ => .error .outOfFuel
  | _ + 1, _, none, _ => pure none
  | _ + 1, _, some _, none => pure none
  | fuel + 1, tree, some a, some d => do
    let n ← load tree (some a)
    let res := tree.compFunc d n.data
    if res = 0 then pure (some a)
    else if res > 0 then findXNormalBST fuel tree n.right (some d)
    else findXNormalBST fuel tree n.left (some d)

/-- `RBTreeContains`. -/
def RBTreeContains (fuel : Nat) (tree : Option (RBTree α)) (data : Option α) :
    Except Fault Bool :=
  match tree, data with
  | none, _ => pure false
  | some _, none => pure false
  | some tree, some d => do
    let r ← findXNormalBST fuel tree tree.root (some d)
    match r with
    | none => pure false
    | some _ => pure true

/-- `findMin`. -/
def findMin : Nat → RBTree α → Ptr → Except Fault Ptr
  | 0, _, _ => .error .outOfFuel
  | fuel + 1, tree, node => do
    let n ← load tree node
    match n.left with
    | none => pure node
    | some _ => findMin fuel tree n.left

/-- The `while` loop of `getSuccessor`. -/
def climb : Nat → RBTree α → Ptr → Ptr → Except Fault Ptr
  | 0, _, _, _ => .error .outOfFuel
  | fuel + 1, tree, n, p =>
    match p with
    | none => pure p
    | some _ => do
      let pn ← load tree p
      if n = pn.right then climb fuel tree p pn.parent else pure p

/-- `getSuccessor`. -/
def getSuccessor (fuel : Nat) (tree : RBTree α) (n : Ptr) : Except Fault Ptr := do
  let nn ← load tree n
  match nn.right with
  | some _ => findMin fuel tree nn.right
  | none => climb fuel tree n nn.parent

/-- The `while` loop of `forEachRBTree`.  The visitor `func` receives a value
and the current `args` and returns its `int` result and the new `args`;
`func = none` is a `NULL` function pointer.  The result carries, next to the
boolean returned, the final `args` and the values the visitor was called on,
in call order. -/
def forEachLoop {σ : Type} (func : Option (α → σ → Int × σ)) :
    Nat → RBTree α → Ptr → σ → List α → Except Fault (Bool × σ × List α)
  | 0, _, _, _, _ => .error .outOfFuel
  | fuel + 1, tree, curNode, args, seen =>
    match curNode with
    | none => pure (true, args, seen)
    | some _ => do
      let n ← load tree curNode
      match func with
      | none => .error .nullCall
      | some f =>
        let (r, args) := f n.data args
        if r = 0 then pure (false, args, seen ++ [n.data])
        else
          let next ← getSuccessor fuel tree curNode
          forEachLoop func fuel tree next args (seen ++ [n.data])

/-- `forEachRBTree`. -/
def forEachRBTree {σ : Type} (fuel : Nat) (tree : Option (RBTree α))
    (func : Option (α → σ → Int × σ)) (args : σ) : Except Fault (Bool × σ × List α) :=
  match tree with
  | none => pure (false, args, [])
  | some tree =>
    match tree.root with
    | none => pure (true, args, [])
    | some _ => do
      let curNode ← findMin fuel tree tree.root
      forEachLoop func fuel tree curNode args []

/-! ## Deletion -/

/-- `deleteNormalBST`: for a node with two children, swap its value with its
successor's and hand back the successor. -/
def deleteNormalBST (fuel : Nat) (tree : RBTree α) (node : Ptr) :
    Except Fault (Ptr × RBTree α) := do
  let n ← load tree node
  if n.left ≠ none ∧ n.right ≠ none then
    let successor ← getSuccessor fuel tree node
    let nodeData := n.data
    let sn ← load tree successor
    let tree ← setData tree node sn.data
    let tree ← setData tree successor nodeData
    pure (successor, tree)
  else pure (node, tree)

/-- `replaceNode`. -/
def replaceNode (tree : RBTree α) (n child : Ptr) : Except Fault (RBTree α) := do
  let nn ← load tree n
  let parent := nn.parent
  match child, parent with
  | none, none => pure tree
  | some _, none => setParent tree child parent
  | none, some _ =>
    let pn ← load tree parent
    if pn.left = n then setLeft tree parent child else setRight tree parent child
  | some _, some _ =>
    let tree ← setParent tree child parent
    let nn ← load tree n
    let pn ← load tree nn.parent
    if pn.left = n then setLeft tree nn.parent child else setRight tree nn.parent child

/-- The sibling expression `(parent->left == node) ? parent->right : parent->left`. -/
def siblingOf (tree : RBTree α) (node parent : Ptr) : Except Fault Ptr := do
  let pn ← load tree parent
  if pn.left = node then pure pn.right else pure pn.left

/-- The test `p == NULL || p->color == BLACK`. -/
def isBlackOrNull (tree : RBTree α) (p : Ptr) : Except Fault Bool :=
  match p with
  | none => pure true
  | some _ => do
    let n ← load tree p
    pure (decide (n.color = .BLACK))

/-- `nodeAndthoSunsAreBlack`. -/
def nodeAndthoSunsAreBlack (tree : RBTree α) (node : Ptr) : Except Fault Bool :=
  match node with
  | none => pure true
  | some _ => do
    let n ← load tree node
    andAlso (pure (decide (n.color = .BLACK)))
      (andAlso (isBlackOrNull tree n.left) (isBlackOrNull tree n.right))

/-- `theColorOfchildrenAre`: 2 is `LEFT_RED_RIGHT_BLACK`, 1 is
`LEFT_BLACK_RIGHT_RED`, 0 is `LEFT_BLACK_RIGHT_BLACK`. -/
def theColorOfchildrenAre (tree : RBTree α) (node : Ptr) : Except Fault Nat :=
  match node with
  | none => pure 0
  | some _ => do
    let n ← load tree node
    if (← andAlso (isBlackOrNull tree n.right) (isRedNode tree n.left)) then pure 2
    else if (← andAlso (isBlackOrNull tree n.left) (isRedNode tree n.right)) then pure 1
    else pure 0

/-- `deleteLevel6`. -/
def deleteLevel6 (tree : RBTree α) (node parent : Ptr) : Except Fault (RBTree α) := do
  let s ← siblingOf tree node parent
  let pn ← load tree parent
  let tree ← setColor tree s pn.color
  let tree ← setColor tree parent .BLACK
  let pn ← load tree parent
  if pn.left = node then
    let sn ← load tree s
    let tree ← setColor tree sn.right .BLACK
    leftRotation tree parent
  else
    let sn ← load tree s
    let tree ← setColor tree sn.left .BLACK
    rightRotation tree parent

/-- `deleteLevel5`. -/
def deleteLevel5 (tree : RBTree α) (node parent : Ptr) : Except Fault (RBTree α) := do
  let s ← siblingOf tree node parent
  let tree ← (do
    if (← isBlackOrNull tree s) then
      let pn ← load tree parent
      if (← andAlso (pure (decide (pn.left = node)))
            (do pure (decide ((← theColorOfchildrenAre tree s) = 2)))) then
        let tree ← setColor tree s .RED
        let sn ← load tree s
        let tree ← setColor tree sn.left .BLACK
        rightRotation tree s
      else if (← andAlso (pure (decide (pn.right = node)))
            (do pure (decide ((← theColorOfchildrenAre tree s) = 1)))) then
        let tree ← setColor tree s .RED
        let sn ← load tree s
        let tree ← setColor tree sn.right .BLACK
        leftRotation tree s
      else pure tree
    else pure tree)
  deleteLevel6 tree node parent

/-- `deleteLevel4`. -/
def deleteLevel4 (tree : RBTree α) (node parent : Ptr) : Except Fault (RBTree α) := do
  let s ← siblingOf tree node parent
  let pn ← load tree parent
  if (← andAlso (pure (decide (pn.color = .RED))) (nodeAndthoSunsAreBlack tree s)) then
    let tree ← (match s with
      | some _ => setColor tree s .RED
      | none => pure tree)
    setColor tree parent .BLACK
  else deleteLevel5 tree node parent

mutual

/-- `deleteLevel1`. -/
def deleteLevel1 : Nat → RBTree α → Ptr → Ptr → Except Fault (RBTree α)
  | 0, _, _, _ => .error .outOfFuel
  | fuel + 1, tree, node, parent =>
    match parent with
    | some _ => deleteLevel2 fuel tree node parent
    | none => pure tree

/-- `deleteLevel2`. -/
def deleteLevel2 : Nat → RBTree α → Ptr → Ptr → Except Fault (RBTree α)
  | 0, _, _, _ => .error .outOfFuel
  | fuel + 1, tree, node, parent => do
    let s ← siblingOf tree node parent
    if (← isRedNode tree s) then
      let tree ← setColor tree parent .RED
      let tree ← setColor tree s .BLACK
      let pn ← load tree parent
      let tree ← (if pn.left = node then leftRotation tree parent
                  else rightRotation tree parent)
      deleteLevel3 fuel tree node parent
    else deleteLevel3 fuel tree node parent

/-- `deleteLevel3`. -/
def deleteLevel3 : Nat → RBTree α → Ptr → Ptr → Except Fault (RBTree α)
  | 0, _, _, _ => .error .outOfFuel
  | fuel + 1, tree, node, parent => do
    let s ← siblingOf tree node parent
    let pn ← load tree parent
    if (← andAlso (pure (decide (pn.color = .BLACK))) (nodeAndthoSunsAreBlack tree s)) then
      let tree ← (match s with
        | some _ => setColor tree s .RED
        | none => pure tree)
      let pn ← load tree parent
      deleteLevel1 fuel tree parent pn.parent
    else deleteLevel4 tree node parent

end

/-- `deleteOneChild`; the node pointer is passed by value, the final
`*n = NULL` only clears the caller's local variable. -/
def deleteOneChild (fuel : Nat) (tree : RBTree α) (n : Ptr) : Except Fault (RBTree α) := do
  let nn ← load tree n
  let child := if nn.right = none then nn.left else nn.right
  let tree ← replaceNode tree n child
  let nn ← load tree n
  let tree ← (if nn.color = .BLACK then do
      if (← isRedNode tree child) then setColor tree child .BLACK
      else deleteLevel1 fuel tree child nn.parent
    else pure tree)
  let nn ← load tree n
  let tree := { tree with freed := tree.freed ++ [nn.data] }
  let tree := freeNode tree n
  let tree := { tree with size := tree.size - 1 }
  let tree := if tree.size = 1 ∧ child ≠ none then { tree with root := child } else tree
  let tree := if tree.size = 0 then { tree with root := none } else tree
  pure tree

/-- `deleteFromRBTree`. -/
def deleteFromRBTree (fuel : Nat) (tree : Option (RBTree α)) (data : Option α) :
    Except Fault (Bool × Option (RBTree α)) :=
  match tree with
  | none => pure (false, none)
  | some tree => do
    let initNode ← findXNormalBST fuel tree tree.root data
    match initNode with
    | none => pure (false, some tree)
    | some _ =>
      let (node, tree) ← deleteNormalBST fuel tree initNode
      let tree ← deleteOneChild fuel tree node
      pure (true, some tree)

/-! ## Release -/

/-- `freeNodes`. -/
def freeNodes : Nat → RBTree α → Link → Except Fault (RBTree α)
  | 0, _, _ => .error .outOfFuel
  | fuel + 1, tree, node => do
    let cur ← readLink tree node
    match cur with
    | none => pure tree
    | some a =>
      let tree ← freeNodes fuel tree (.left a)
      let cur ← readLink tree node
      match cur with
      | none => .error .nullDeref
      | some b =>
        let tree ← freeNodes fuel tree (.right b)
        let cur ← readLink tree node
        let n ← load tree cur
        let tree := { tree with freed := tree.freed ++ [n.data] }
        let tree := freeNode tree cur
        writeLink tree node none

/-- `freeRBTree` on a `RBTree **`: the result is the caller's tree pointer
afterwards (always `NULL`) and, for inspection, the final state of the memory
that was released. -/
def freeRBTree (fuel : Nat) (tree : Option (RBTree α)) :
    Except Fault (Option (RBTree α) × Option (RBTree α)) :=
  match tree with
  | none => pure (none, none)
  | some t =>
    match t.root with
    | none => pure (none, some t)
    | some _ => do
      let t ← freeNodes fuel t .root
      pure (none, some t)

/-! ## Abstract view of the node memory

A `Tree` is the shape the `left` / `right` links of a well-formed memory
spell out; every node carries its address, so that the memory can be
recovered from it. -/

/-- Binary trees of coloured, addressed nodes. -/
inductive Tree (α : Type) where
  | nil
  | node (a : Nat) (c : Color) (l : Tree α) (v : α) (r : Tree α)

/-- Pointer to the root node of a tree (`NULL` for the empty tree). -/
def Tree.ptr : Tree α → Ptr
  | .nil => none
  | .node a _ _ _ _ => some a

/-- Addresses of all nodes. -/
def Tree.addrs : Tree α → List Nat
  | .nil => []
  | .node a _ l _ r => a :: (l.addrs ++ r.addrs)

/-- The in-order sequence of values. -/
def Tree.inorder : Tree α → List α
  | .nil => []
  | .node _ _ l v r => l.inorder ++ v :: r.inorder

/-- Number of nodes. -/
def Tree.count : Tree α → Nat
  | .nil => 0
  | .node _ _ l _ r => l.count + r.count + 1

/-- Number of nodes on the longest path from the root down to a leaf. -/
def Tree.height : Tree α → Nat
  | .nil => 0
  | .node _ _ l _ r => max l.height r.height + 1

/-- An absent node counts as black. -/
def Tree.isBlack : Tree α → Bool
  | .nil => true
  | .node _ c _ _ _ => decide (c = .BLACK)

/-- A present red node. -/
def Tree.isRed : Tree α → Bool
  | .nil => false
  | .node _ c _ _ _ => decide (c = .RED)

/-- Number of black nodes on the leftmost path to an absent position. -/
def Tree.bh : Tree α → Nat
  | .nil => 0
  | .node _ c l _ _ => l.bh + (if c = .BLACK then 1 else 0)

/-- Every path from the root to an absent position passes through the same
number of black nodes. -/
def Tree.Balanced : Tree α → Prop
  | .nil => True
  | .node _ _ l _ r => l.bh = r.bh ∧ l.Balanced ∧ r.Balanced

/-- No red node has a red child. -/
def Tree.NoRedRed : Tree α → Prop
  | .nil => True
  | .node _ c l _ r => (c = .RED → l.isBlack = true ∧ r.isBlack = true) ∧ l.NoRedRed ∧ r.NoRedRed

/-- The in-order sequence is strictly increasing under the comparator. -/
def Tree.Ordered (cmp : α → α → Int) (t : Tree α) : Prop :=
  t.inorder.Pairwise (fun a b => cmp a b < 0)

/-- The four red-black invariants: black root (or empty tree), no red node
with a red child, equal black-height on every path, strictly increasing
in-order sequence. -/
structure Tree.RedBlack (cmp : α → α → Int) (t : Tree α) : Prop where
  rootBlack : t.isBlack = true
  noRedRed : t.NoRedRed
  balanced : t.Balanced
  ordered : t.Ordered cmp

/-- The comparator is a total order up to the values it deems equal: the sign
flips when the arguments are swapped, and "not greater" is transitive. -/
structure TotalCmp (cmp : α → α → Int) : Prop where
  swap : ∀ a b, cmp a b < 0 ↔ 0 < cmp b a
  trans : ∀ a b c, cmp a b ≤ 0 → cmp b c ≤ 0 → cmp a c ≤ 0

/-- The memory holds the tree `t` below a node (or root link) `par`: each
node record carries the value and colour of `t`, its `left` / `right` fields
point to the roots of the subtrees and its `parent` field points back. -/
def Rep (mem : Nat → Option (Node α)) : Ptr → Tree α → Prop
  | _, .nil => True
  | par, .node a c l v r =>
    mem a = some { data := v, parent := par, left := l.ptr, right := r.ptr, color := c }
      ∧ Rep mem (some a) l ∧ Rep mem (some a) r

/-- The links of the state spell out the tree `t`: the root pointer points to
its root, which has no parent, the memory holds `t` with parent links inverse
to the child links, and no node is reached twice. -/
structure Linked (s : RBTree α) (t : Tree α) : Prop where
  root : s.root = t.ptr
  rep : Rep s.mem none t
  nodup : t.addrs.Nodup

/-- A well-formed tree object: linked as `t`, and `size` is the number of
nodes. -/
structure Models (s : RBTree α) (t : Tree α) : Prop where
  linked : Linked s t
  size : s.size = t.count

/-- Outside the addresses in `as` the memory is the same in both states, and so
are the comparator, the size and the destructor calls. -/
structure Frame (as : List Nat) (s s' : RBTree α) : Prop where
  mem : ∀ a, a ∉ as → s'.mem a = s.mem a
  compFunc : s'.compFunc = s.compFunc
  size : s'.size = s.size
  freed : s'.freed = s.freed

/-- A run of code took the state `s`, linked as `t`, to the state `s'`, linked
as `t'`, using the same nodes and touching nothing else. -/
structure Evolves (s s' : RBTree α) (t t' : Tree α) : Prop where
  linked : Linked s' t'
  frame : Frame t.addrs s s'
  nodes : t'.addrs.Perm t.addrs

/-! ### Trees with a hole -/

/-- One step of a path from a node down to a hole below it: the node's
address, colour and value, and the subtree on the other side. -/
inductive Step (α : Type) where
  | L (a : Nat) (c : Color) (v : α) (r : Tree α)
  | R (a : Nat) (c : Color) (l : Tree α) (v : α)

/-- Put a tree into the hole of a step. -/
def Step.fill : Step α → Tree α → Tree α
  | .L a c v r, t => .node a c t v r
  | .R a c l v, t => .node a c l v t

/-- Address of the node of a step. -/
def Step.addr : Step α → Nat
  | .L a _ _ _ => a
  | .R a _ _ _ => a

/-- Colour of the node of a step. -/
def Step.color : Step α → Color
  | .L _ c _ _ => c
  | .R _ c _ _ => c

/-- The subtree on the other side of the hole. -/
def Step.sib : Step α → Tree α
  | .L _ _ _ r => r
  | .R _ _ l _ => l

/-- Link field of the step's node that holds the hole. -/
def Step.link : Step α → Link
  | .L a _ _ _ => .left a
  | .R a _ _ _ => .right a

/-- A path from a hole up to the root, innermost step first. -/
abbrev Path (α : Type) := List (Step α)

/-- Fill the hole at the end of a path. -/
def plug : Path α → Tree α → Tree α
  | [], t => t
  | f :: p, t => plug p (f.fill t)

/-- Pointer to the node directly above the hole. -/
def pathPtr : Path α → Ptr
  | [] => none
  | f :: _ => some f.addr

/-- The place where the pointer to the hole is stored. -/
def pathLink : Path α → Link
  | [] => .root
  | f :: _ => f.link

/-- Addresses on a path and in the subtrees hanging off it. -/
def pathAddrs : Path α → List Nat
  | [] => []
  | f :: p => f.addr :: (f.sib.addrs ++ pathAddrs p)

/-- Values before the hole in the in-order sequence. -/
def pathPre : Path α → List α
  | [] => []
  | .L _ _ _ _ :: p => pathPre p
  | .R _ _ l v :: p => pathPre p ++ (l.inorder ++ [v])

/-- Values after the hole in the in-order sequence. -/
def pathPost : Path α → List α
  | [] => []
  | .L _ _ v r :: p => (v :: r.inorder) ++ pathPost p
  | .R _ _ _ _ :: p => pathPost p

/-- The memory holds the path `p` around a hole whose pointer is `h`. -/
def RepPath (mem : Nat → Option (Node α)) : Path α → Ptr → Prop
  | [], _ => True
  | .L a c v r :: p, h =>
    mem a = some { data := v, parent := pathPtr p, left := h, right := r.ptr, color := c }
      ∧ Rep mem (some a) r ∧ RepPath mem p (some a)
  | .R a c l v :: p, h =>
    mem a = some { data := v, parent := pathPtr p, left := l.ptr, right := h, color := c }
      ∧ Rep mem (some a) l ∧ RepPath mem p (some a)

/-- Replace the colour of the root node. -/
def Tree.paint (c : Color) : Tree α → Tree α
  | .nil => .nil
  | .node a _ l v r => .node a c l v r

/-- The comparator-directed descent shared by search, insertion and
deletion: the subtree where it stops and the path leading there. -/
def descend (cmp : α → α → Int) (d : α) : Tree α → Path α → Path α × Tree α
  | .nil, p => (p, .nil)
  | .node a c l v r, p =>
    if cmp d v = 0 then (p, .node a c l v r)
    else if cmp d v > 0 then descend cmp d r (.R a c l v :: p)
    else descend cmp d l (.L a c v r :: p)

/-- Descent along left links to the minimum. -/
def descendMin : Tree α → Path α → Path α × Tree α
  | .nil, p => (p, .nil)
  | .node a c .nil v r, p => (p, .node a c .nil v r)
  | .node a c (.node la lc ll lv lr) v r, p =>
    descendMin (.node la lc ll lv lr) (.L a c v r :: p)

/-! ### The fix-up procedures as functions on trees with a hole

These functions describe, on the abstract view, the tree the corresponding C
procedure leaves in memory (`none` where no claim is made).  The theorems
`fixInsert_sim` and `deleteLevel1_sim` below tie them to the code. -/

/-- Repaint the node of a step. -/
def Step.paint (c : Color) : Step α → Step α
  | .L a _ v r => .L a c v r
  | .R a _ l v => .R a c l v

/-- Repaint the root of the subtree beside the hole. -/
def Step.paintSib (c : Color) : Step α → Step α
  | .L a k v r => .L a k v (r.paint c)
  | .R a k l v => .R a k (l.paint c) v

/-- The tree `fixInsertToRBTree` leaves when started on the root of `t`
below the path `p`. -/
def fixInsZ : Path α → Tree α → Option (Tree α)
  | _, .nil => none
  | [], .node n _ l v r => some (.node n .BLACK l v r)
  | [f], .node n c l v r =>
    if f.color = .BLACK then some (f.fill (.node n c l v r)) else none
  | f :: g :: rest, .node n c l v r =>
    if f.color = .BLACK then some (plug (f :: g :: rest) (.node n c l v r))
    else if g.sib.isRed then
      fixInsZ rest (((g.paint .RED).paintSib .BLACK).fill ((f.paint .BLACK).fill (.node n c l v r)))
    else
      match g, f with
      | .R ga _ u gv, .R pa _ pl pv =>
        some (plug rest (.node pa .BLACK (.node ga .RED u gv pl) pv (.node n c l v r)))
      | .L ga _ gv u, .L pa _ pv pr =>
        some (plug rest (.node pa .BLACK (.node n c l v r) pv (.node ga .RED pr gv u)))
      | .R ga _ u gv, .L pa pc pv pr =>
        some (plug rest (.node n .BLACK (.node ga .RED u gv l) v (.node pa pc r pv pr)))
      | .L ga _ gv u, .R pa pc pl pv =>
        some (plug rest (.node n .BLACK (.node pa pc pl pv l) v (.node ga .RED r gv u)))

/-- Stage 5 on the sibling when the deficient position is a left child. -/
def del5L : Tree α → Tree α
  | .node s sc (.node sl .RED sll slv slr) sv sr =>
    if sc = .BLACK ∧ sr.isBlack = true then
      .node sl .BLACK sll slv (.node s .RED slr sv sr)
    else .node s sc (.node sl .RED sll slv slr) sv sr
  | t => t

/-- Stage 5 on the sibling when the deficient position is a right child. -/
def del5R : Tree α → Tree α
  | .node s sc sl sv (.node sr .RED srl srv srr) =>
    if sc = .BLACK ∧ sl.isBlack = true then
      .node sr .BLACK (.node s .RED sl sv srl) srv srr
    else .node s sc sl sv (.node sr .RED srl srv srr)
  | t => t

/-- Stage 6 when the deficient position `t` is the left child of `pa`. -/
def del6L (pa : Nat) (pc : Color) (pv : α) (t : Tree α) : Tree α → Option (Tree α)
  | .node s _ sl sv (.node sr _ srl srv srr) =>
    some (.node s pc (.node pa .BLACK t pv sl) sv (.node sr .BLACK srl srv srr))
  | _ => none

/-- Stage 6 when the deficient position `t` is the right child of `pa`. -/
def del6R (pa : Nat) (pc : Color) (pv : α) (t : Tree α) : Tree α → Option (Tree α)
  | .node s _ (.node sl _ sll slv slr) sv sr =>
    some (.node s pc (.node sl .BLACK sll slv slr) sv (.node pa .BLACK sr pv t))
  | _ => none

/-- Stages 4 to 6 of the deletion fix-up: the subtree that replaces the one
rooted at the parent. -/
def delLate : Step α → Tree α → Option (Tree α)
  | .L pa pc pv (.node s sc sl sv sr), t =>
    if pc = .RED ∧ sc = .BLACK ∧ sl.isBlack = true ∧ sr.isBlack = true then
      some (.node pa .BLACK t pv (.node s .RED sl sv sr))
    else del6L pa pc pv t (del5L (.node s sc sl sv sr))
  | .R pa pc (.node s sc sl sv sr) pv, t =>
    if pc = .RED ∧ sc = .BLACK ∧ sl.isBlack = true ∧ sr.isBlack = true then
      some (.node pa .BLACK (.node s .RED sl sv sr) pv t)
    else del6R pa pc pv t (del5R (.node s sc sl sv sr))
  | _, _ => none

/-- The tree the deletion fix-up (`deleteLevel1` to `deleteLevel6`) leaves
when started on the deficient position `t` below the path `p`. -/
def delFixZ : Path α → Tree α → Option (Tree α)
  | [], t => some t
  | .L pa pc pv (.node s sc sl sv sr) :: rest, t =>
    if sc = .RED then
      (delLate (.L pa .RED pv sl) t).map
        (fun u => plug (.L s .BLACK sv sr :: rest) u)
    else if pc = .BLACK ∧ sl.isBlack = true ∧ sr.isBlack = true then
      delFixZ rest (.node pa pc t pv (.node s .RED sl sv sr))
    else (delLate (.L pa pc pv (.node s sc sl sv sr)) t).map (fun u => plug rest u)
  | .R pa pc (.node s sc sl sv sr) pv :: rest, t =>
    if sc = .RED then
      (delLate (.R pa .RED sr pv) t).map
        (fun u => plug (.R s .BLACK sl sv :: rest) u)
    else if pc = .BLACK ∧ sl.isBlack = true ∧ sr.isBlack = true then
      delFixZ rest (.node pa pc (.node s .RED sl sv sr) pv t)
    else (delLate (.R pa pc (.node s sc sl sv sr) pv) t).map (fun u => plug rest u)
  | _ :: _, _ => none

/-- The node `deleteNormalBST` hands on for removal, with the path leading to
it: for a node with two children the minimum of the right subtree, after the
two values have been exchanged; otherwise the node itself. -/
def swapDown : Path α → Tree α → Path α × Tree α
  | p, .node x c (.node la lc ll lv lr) v (.node ra rc rl rv rr) =>
    match descendMin (.node ra rc rl rv rr) [] with
    | (q, .node m mc ml mv mr) =>
      (q ++ .R x c (.node la lc ll lv lr) mv :: p, .node m mc ml v mr)
    | (_, .nil) => (p, .node x c (.node la lc ll lv lr) v (.node ra rc rl rv rr))
  | p, t => (p, t)

/-- The child that takes the place of a removed node:
`(n->right == NULL) ? n->left : n->right`. -/
def Tree.onlyChild : Tree α → Tree α
  | .nil => .nil
  | .node _ _ l _ .nil => l
  | .node _ _ _ _ (.node ra rc rl rv rr) => .node ra rc rl rv rr

/-- The tree `deleteOneChild` leaves when it removes the root of `t` below
the path `p`. -/
def removeZ (p : Path α) (t : Tree α) : Option (Tree α) :=
  match t with
  | .nil => none
  | .node _ c _ _ _ =>
    if c = .BLACK then
      if t.onlyChild.isRed = true then some (plug p (t.onlyChild.paint .BLACK))
      else delFixZ p t.onlyChild
    else some (plug p t.onlyChild)

/-- The tree `deleteFromRBTree` leaves and the value it hands to the
destructor, when the descent finds a node. -/
def deleteZ (cmp : α → α → Int) (d : α) (t : Tree α) : Option (Tree α × α) :=
  match descend cmp d t [] with
  | (_, .nil) => none
  | (p, .node x c l v r) =>
    (removeZ (swapDown p (.node x c l v r)).1 (swapDown p (.node x c l v r)).2).map
      (fun u => (u, v))

/-- The tree `insertToRBTree` leaves when the descent ends at an absent
position and the new node is placed at address `a`. -/
def insertZ (cmp : α → α → Int) (d : α) (a : Nat) (t : Tree α) : Option (Tree α) :=
  match descend cmp d t [] with
  | (p, .nil) => fixInsZ p (.node a .RED .nil d .nil)
  | (_, .node _ _ _ _ _) => none

/-! ### Visiting a sequence; memory images of trees -/

/-- Calling the visitor on the values of a list in turn, stopping at the first
call that returns `0`: the boolean, the final `args` and the values visited. -/
def visitList {σ : Type} (f : α → σ → Int × σ) : List α → σ → List α → Bool × σ × List α
  | [], args, seen => (true, args, seen)
  | x :: xs, args, seen =>
    if (f x args).1 = 0 then (false, (f x args).2, seen ++ [x])
    else visitList f xs (f x args).2 (seen ++ [x])

/-- The `args` after the visitor has been called on each value of a list. -/
def argsAfter {σ : Type} (f : α → σ → Int × σ) : List α → σ → σ
  | [], args => args
  | x :: xs, args => argsAfter f xs (f x args).2

/-- The visitor reports success on every value of the list, called on them in
turn starting from `args`. -/
def Passes {σ : Type} (f : α → σ → Int × σ) : List α → σ → Prop
  | [], _ => True
  | x :: xs, args => (f x args).1 ≠ 0 ∧ Passes f xs (f x args).2

/-- Write the nodes of a tree into a memory, below the parent `par`. -/
def layout : Tree α → Ptr → (Nat → Option (Node α)) → Nat → Option (Node α)
  | .nil, _, mem => mem
  | .node a c l v r, par, mem =>
    layout r (some a) (layout l (some a)
      (Function.update mem a (some ⟨v, par, l.ptr, r.ptr, c⟩)))

/-- The tree object whose memory holds exactly the nodes of `t`. -/
def stateOf (cmp : α → α → Int) (t : Tree α) : RBTree α :=
  { root := t.ptr, compFunc := cmp, size := t.count, mem := layout t none (fun _ => none),
    freed := [] }

/-! ### Black counts along paths; runs of several calls; sample trees -/

/-- For every absent position of the tree, left to right, the number of black
nodes on the path from the root down to it. -/
def Tree.blackPaths : Tree α → List Nat
  | .nil => [0]
  | .node _ c l _ r =>
    (l.blackPaths ++ r.blackPaths).map (fun n => n + (if c = .BLACK then 1 else 0))

/-- Insert the values of a list one after the other; each comes with the
address `malloc` answers with for its node.  The boolean is the conjunction
of the results. -/
def insertAll (fuel : Nat) :
    Option (RBTree α) → List (α × Nat) → Except Fault (Bool × Option (RBTree α))
  | tree, [] => pure (true, tree)
  | tree, (v, a) :: rest => do
    let (b, tree) ← insertToRBTree fuel tree (some v) (some a)
    let (bs, tree) ← insertAll fuel tree rest
    pure (b && bs, tree)

/-- The tree a run of successful insertions leaves, on the abstract view;
`none` when one of the values is met on its descent. -/
def insertAllZ (cmp : α → α → Int) : Tree α → List (α × Nat) → Option (Tree α)
  | t, [] => some t
  | t, (v, a) :: rest =>
    match insertZ cmp v a t with
    | none => none
    | some t' => insertAllZ cmp t' rest

/-- Delete the values of a list one after the other.  The boolean is the
conjunction of the results. -/
def deleteAll (fuel : Nat) :
    Option (RBTree α) → List α → Except Fault (Bool × Option (RBTree α))
  | tree, [] => pure (true, tree)
  | tree, v :: rest => do
    let (b, tree) ← deleteFromRBTree fuel tree (some v)
    let (bs, tree) ← deleteAll fuel tree rest
    pure (b && bs, tree)

/-- The usual three-way comparison of integers. -/
def cmpInt : Int → Int → Int := fun a b => a - b

/-- The tree that inserting 7, 3, 18, 10, 22, 8, 11, 26 into an empty tree
builds, the nodes at the addresses 1 to 8 in the order of insertion. -/
def tree8 : Tree Int :=
  .node 1 .BLACK (.node 2 .BLACK .nil 3 .nil) 7
    (.node 3 .RED
      (.node 4 .BLACK (.node 6 .RED .nil 8 .nil) 10 (.node 7 .RED .nil 11 .nil)) 18
      (.node 5 .BLACK .nil 22 (.node 8 .RED .nil 26 .nil)))

/-- The tree `tree8` turns into when 18 is deleted. -/
def tree7 : Tree Int :=
  .node 1 .BLACK (.node 2 .BLACK .nil 3 .nil) 7
    (.node 3 .RED
      (.node 4 .BLACK (.node 6 .RED .nil 8 .nil) 10 (.node 7 .RED .nil 11 .nil)) 22
      (.node 8 .BLACK .nil 26 .nil))

/-- The tree `tree7` turns into when 11 is deleted. -/
def tree6 : Tree Int :=
  .node 1 .BLACK (.node 2 .BLACK .nil 3 .nil) 7
    (.node 3 .RED (.node 4 .BLACK (.node 6 .RED .nil 8 .nil) 10 .nil) 22
      (.node 8 .BLACK .nil 26 .nil))

/-- A tree object whose only node, holding 5, is red. -/
def redRoot : RBTree Int :=
  { root := some 1, compFunc := cmpInt, size := 1,
    mem := fun a => if a = 1 then some ⟨5, none, none, none, .RED⟩ else none, freed := [] }

/-- The tree of `redRoot`. -/
def redRootTree : Tree Int := .node 1 .RED .nil 5 .nil

/-- A tree object that is not a search tree: the black root holds 5 and its
left child, red, holds 7. -/
def unsorted : RBTree Int :=
  { root := some 1, compFunc := cmpInt, size := 2,
    mem := fun a =>
      if a = 1 then some ⟨5, none, some 2, none, .BLACK⟩
      else if a = 2 then some ⟨7, some 1, none, none, .RED⟩ else none,
    freed := [] }

/-- The tree of `unsorted`. -/
def unsortedTree : Tree Int := .node 1 .BLACK (.node 2 .RED .nil 7 .nil) 5 .nil

/-- A visitor that counts its calls in `args` and reports failure on the
third. -/
def failOnThird : Int → Nat → Int × Nat := fun _ n => (if n = 2 then 0 else 1, n + 1)

/-- A visitor that counts its calls in `args` and never reports failure. -/
def countCalls : Int → Nat → Int × Nat := fun _ n => (1, n + 1)

/-! ## Further notions used by the contracts -/

/-- Two states carry the same colour and the same value at every address. -/
def SameTags (s s' : RBTree α) : Prop :=
  ∀ a, (s'.mem a).map (fun n => (n.color, n.data)) = (s.mem a).map (fun n => (n.color, n.data))

/-- The three colour invariants: black root (or empty tree), no red node with
a red child, equal black-height on every path. -/
structure Tree.Coloured (t : Tree α) : Prop where
  rootBlack : t.isBlack = true
  noRedRed : t.NoRedRed
  balanced : t.Balanced

/-- The states a program can bring a tree object into: it starts from
`newRBTree` and calls `insertToRBTree` and `deleteFromRBTree` any number of
times, with any argument; whenever `malloc` hands out a node, its address
holds no live node.  A call counts once it has returned, whatever it
returned. -/
inductive Reachable (cmp : α → α → Int) : RBTree α → Prop
  | start : Reachable cmp (newRBTree cmp)
  | insert {s s' : RBTree α} {d : Option α} {fresh : Ptr} {b : Bool} {fuel : Nat} :
      Reachable cmp s → (∀ a, fresh = some a → s.mem a = none) →
      insertToRBTree fuel (some s) d fresh = .ok (b, some s') → Reachable cmp s'
  | delete {s s' : RBTree α} {d : Option α} {b : Bool} {fuel : Nat} :
      Reachable cmp s → deleteFromRBTree fuel (some s) d = .ok (b, some s') → Reachable cmp s'

/-- The node addresses one gets to from the root pointer by following `left`
and `right` links. -/
inductive Reaches (s : RBTree α) : Nat → Prop
  | root {a : Nat} : s.root = some a → Reaches s a
  | left {a b : Nat} {n : Node α} :
      Reaches s a → s.mem a = some n → n.left = some b → Reaches s b
  | right {a b : Nat} {n : Node α} :
      Reaches s a → s.mem a = some n → n.right = some b → Reaches s b

/-- Parent links are the exact inverse of the child links: the root node has
no parent, the parent link of every child points to the node that links to
it, and a node with a parent is the left or the right child of that parent. -/
structure ParentLinks (s : RBTree α) : Prop where
  root : ∀ a, s.root = some a → ∃ n, s.mem a = some n ∧ n.parent = none
  left : ∀ a n b, Reaches s a → s.mem a = some n → n.left = some b →
    ∃ m, s.mem b = some m ∧ m.parent = some a
  right : ∀ a n b, Reaches s a → s.mem a = some n → n.right = some b →
    ∃ m, s.mem b = some m ∧ m.parent = some a
  up : ∀ a n p, Reaches s a → s.mem a = some n → n.parent = some p →
    Reaches s p ∧ ∃ m, s.mem p = some m ∧ (m.left = some a ∨ m.right = some a)

/-- The values in the order in which `freeNodes` gets to them: left subtree,
right subtree, then the node. -/
def Tree.postorder : Tree α → List α
  | .nil => []
  | .node _ _ l v r => l.postorder ++ r.postorder ++ [v]

/-! ### Sample runs -/

/-- The state a call leaves behind; the state before it when the call does
not return one. -/
def stateAfter (s : RBTree α) (r : Except Fault (Bool × Option (RBTree α))) : RBTree α :=
  match r with
  | .ok (_, some s') => s'
  | _ => s

/-- A fresh tree after 5 has been inserted, its node at address 1. -/
def grown1 : RBTree Int :=
  stateAfter (newRBTree cmpInt) (insertToRBTree 2 (some (newRBTree cmpInt)) (some 5) (some 1))

/-- The tree `grown1` after 9 has been inserted, its node at address 2. -/
def grown2 : RBTree Int := stateAfter grown1 (insertToRBTree 3 (some grown1) (some 9) (some 2))

/-- The tree `grown2` after 5 has been deleted. -/
def grown3 : RBTree Int := stateAfter grown2 (deleteFromRBTree 7 (some grown2) (some 5))

/-! ## Vectors (`Structs.c`) -/

/-- Modelled from the spec: a numeric vector, its length `len` (an `int`) and
its coordinate array `vector` (`none` for a `NULL` array; the list has as
many entries as the array was allocated with). -/
structure Vector (K : Type) where
  len : Int
  vector : Option (List K)

/-- The value of an `int` expression: the mathematical result reduced to the
32-bit two's complement range. -/
def wrapInt (x : Int) : Int := (x + 2 ^ 31) % 2 ^ 32 - 2 ^ 31

/-- Read `vector[i]`: a `NULL` array and an index outside the array are
faults. -/
def readCoord {K : Type} (v : Option (List K)) (i : Nat) : Except Fault K :=
  match v with
  | none => .error .nullDeref
  | some xs =>
    match xs[i]? with
    | none => .error .wildDeref
    | some x => .ok x

/-- The `for` loop of `vectorCompare1By1`, with `n` rounds left from index
`i` on: `some` of the value returned from inside the loop, `none` when the
loop runs to its end. -/
def compareLoop {K : Type} [LinearOrder K] (first second : Vector K) :
    Nat → Nat → Except Fault (Option Int)
  | 0, _ => pure none
  | n + 1, i => do
    let x ← readCoord first.vector i
    let y ← readCoord second.vector i
    if x < y then pure (some (-1))
    else
      let x ← readCoord first.vector i
      let y ← readCoord second.vector i
      if x > y then pure (some 1)
      else compareLoop first second n (i + 1)

/-- `vectorCompare1By1`. -/
def vectorCompare1By1 {K : Type} [LinearOrder K] (first second : Vector K) :
    Except Fault Int := do
  let range := if first.len < second.len then first.len else second.len
  match ← compareLoop first second range.toNat 0 with
  | some r => pure r
  | none => pure (wrapInt (first.len - second.len))

/-! ### The type `double` -/

/-- The C type `double` as an IEEE 754 binary64 number: a finite value
`(-1)^neg * m * 2^e` (a zero carries its sign), an infinity, or a NaN.  The
numbers of the format are the values that can be written with `m < 2^53`
and `-1074 ≤ e ≤ 971`. -/
inductive Double where
  | finite (neg : Bool) (m : Nat) (e : Int)
  | inf (neg : Bool)
  | nan
deriving DecidableEq

/-- Count the binary digits of `n` by halving, at most `fuel` times. -/
def bitLengthAux : Nat → Nat → Nat
  | 0, _ => 0
  | fuel + 1, n => if n = 0 then 0 else bitLengthAux fuel (n / 2) + 1

/-- The number of binary digits of `n`. -/
def bitLength (n : Nat) : Nat := bitLengthAux n n

/-- The integer `n` with the sign `neg`. -/
def Double.signed (neg : Bool) (n : Nat) : Int := if neg then -(n : Int) else n

/-- The result of an operation whose exact value is `(-1)^neg * n * 2^e`,
rounded to binary64 in the default mode (to nearest, ties to even): 53
significant digits, the smallest unit is `2^-1074`, and a rounded value of
`2^1024` or more becomes an infinity. -/
def Double.round (neg : Bool) (n : Nat) (e : Int) : Double :=
  if n = 0 then .finite neg 0 0
  else
    let q : Int := max (e + (bitLength n : Int) - 53) (-1074)
    if q ≤ e then
      if e + (bitLength n : Int) > 1024 then .inf neg else .finite neg n e
    else
      let shift := (q - e).toNat
      let k := n / 2 ^ shift
      let rest := n % 2 ^ shift
      let half := 2 ^ (shift - 1)
      let up := if rest > half ∨ (rest = half ∧ k % 2 = 1) then k + 1 else k
      if q + (bitLength up : Int) > 1024 then .inf neg else .finite neg up q

/-- The product `x * y` of two `double` values. -/
def Double.mul : Double → Double → Double
  | .nan, _ => .nan
  | _, .nan => .nan
  | .inf s, .inf s' => .inf (s != s')
  | .inf s, .finite s' m _ => if m = 0 then .nan else .inf (s != s')
  | .finite s m _, .inf s' => if m = 0 then .nan else .inf (s != s')
  | .finite s m e, .finite s' m' e' => Double.round (s != s') (m * m') (e + e')

/-- The sum `x + y` of two `double` values; an exact sum of zero is `-0` only
when both operands are negative zeros. -/
def Double.add : Double → Double → Double
  | .nan, _ => .nan
  | _, .nan => .nan
  | .inf s, .inf s' => if s = s' then .inf s else .nan
  | .inf s, .finite _ _ _ => .inf s
  | .finite _ _ _, .inf s' => .inf s'
  | .finite s m e, .finite s' m' e' =>
    let e0 := min e e'
    let c := Double.signed s (m * 2 ^ (e - e0).toNat) + Double.signed s' (m' * 2 ^ (e' - e0).toNat)
    if c = 0 then .finite (s && s') 0 0
    else Double.round (decide (c < 0)) c.natAbs e0

/-- The comparison `x < y` of two `double` values: false when either is a
NaN. -/
def Double.lt : Double → Double → Bool
  | .nan, _ => false
  | _, .nan => false
  | .inf s, .inf s' => s && !s'
  | .inf s, .finite _ _ _ => s
  | .finite _ _ _, .inf s' => !s'
  | .finite s m e, .finite s' m' e' =>
    let e0 := min e e'
    decide (Double.signed s (m * 2 ^ (e - e0).toNat)
      < Double.signed s' (m' * 2 ^ (e' - e0).toNat))

/-- The `double` an integer literal denotes; the integers up to `2^53` are
numbers of the format. -/
def Double.ofNat (n : Nat) : Double := .finite false n 0

/-- The `for` loop of `calculateTheNormSquared`, with `n` rounds left from
index `i` on. -/
def normLoop (pVector : Vector Double) : Nat → Nat → Double → Except Fault Double
  | 0, _, normVec => pure normVec
  | n + 1, i, normVec => do
    let x ← readCoord pVector.vector i
    let y ← readCoord pVector.vector i
    normLoop pVector n (i + 1) (Double.add normVec (Double.mul x y))

/-- `calculateTheNormSquared`. -/
def calculateTheNormSquared (pVector : Vector Double) : Except Fault Double :=
  normLoop pVector pVector.len.toNat 0 (Double.ofNat 0)

/-- `compareNorm`. -/
def compareNorm (first second : Vector Double) : Except Fault Int := do
  let normOfFirst ← calculateTheNormSquared first
  let normOfSecond ← calculateTheNormSquared second
  if Double.lt normOfSecond normOfFirst then pure 1
  else if Double.lt normOfFirst normOfSecond then pure (-1)
  else pure 0

/-- `memcpy(dst, src, len * sizeof(double))` into a block of `len` entries:
the first `len` entries of the source; a `NULL` source, a negative `len` and
a source shorter than `len` are faults. -/
def copyCoords {K : Type} (src : Option (List K)) (len : Int) : Except Fault (List K) :=
  match src with
  | none => .error .nullDeref
  | some xs =>
    if len < 0 ∨ (xs.length : Int) < len then .error .wildDeref
    else pure (xs.take len.toNat)

/-- `copyIfNormIsLarger`: both arguments may be `NULL`; `realloc` succeeds
when `alloc` is true.  The result is the `int` returned and the vector
`pMaxVector` points to afterwards. -/
def copyIfNormIsLarger (alloc : Bool)
    (pVector : Option (Vector Double)) (pMaxVector : Option (Vector Double)) :
    Except Fault (Int × Option (Vector Double)) :=
  match pVector, pMaxVector with
  | none, _ => pure (0, pMaxVector)
  | some _, none => pure (0, none)
  | some curVec, some maxVector =>
    match curVec.vector with
    | none => pure (0, some maxVector)
    | some _ => do
      let larger ← (match maxVector.vector with
        | none => pure true
        | some _ => do
          let r ← compareNorm curVec maxVector
          pure (decide (r = 1)))
      if larger then
        if alloc then
          let coords ← copyCoords curVec.vector curVec.len
          pure (1, some { len := curVec.len, vector := some coords })
        else pure (0, some { maxVector with vector := none })
      else pure (1, some maxVector)

/-- The visitor `copyIfNormIsLarger` as `forEachRBTree` calls it: `args` is
the vector `pMaxVector` points to, or the fault an earlier call ran into,
which also ends the traversal. -/
def maxNormVisitor (alloc : Bool) :
    Vector Double → Except Fault (Option (Vector Double)) →
      Int × Except Fault (Option (Vector Double))
  | _, .error e => (0, .error e)
  | v, .ok m =>
    match copyIfNormIsLarger alloc (some v) m with
    | .ok (r, m') => (r, .ok m')
    | .error e => (0, .error e)

/-- `findMaxNormVectorInTree`: `calloc` succeeds when `fresh` is true and
then hands out a zeroed vector, `realloc` succeeds when `alloc` is true. -/
def findMaxNormVectorInTree (fuel : Nat) (fresh alloc : Bool)
    (tree : Option (RBTree (Vector Double))) : Except Fault (Option (Vector Double)) :=
  match tree with
  | none => pure none
  | some _ =>
    if fresh then do
      let (_, pMaxVector, _) ← forEachRBTree fuel tree (some (maxNormVisitor alloc))
        (.ok (some { len := 0, vector := none }))
      pMaxVector
    else pure none

/-- The coordinates of a vector, none for a `NULL` array. -/
def Vector.coords {K : Type} (v : Vector K) : List K := v.vector.getD []

/-- A finite `double`, neither an infinity nor a NaN. -/
def Double.IsFinite : Double → Prop
  | .finite _ _ _ => True
  | _ => False

/-- The rational number a finite `double` stands for. -/
def Double.val : Double → ℚ
  | .finite neg m e => (Double.signed neg m : ℚ) * 2 ^ e
  | _ => 0

/-- Exact arithmetic along the loop of `calculateTheNormSquared`, from the
partial sum `acc` over the coordinates still to come: each product and each
partial sum is finite and is the exact product or sum, no digit is rounded
away. -/
def ExactSteps : Double → List Double → Prop
  | _, [] => True
  | acc, x :: xs =>
    (Double.mul x x).IsFinite ∧ (Double.mul x x).val = x.val * x.val ∧
      (Double.add acc (Double.mul x x)).IsFinite ∧
      (Double.add acc (Double.mul x x)).val = acc.val + (Double.mul x x).val ∧
      ExactSteps (Double.add acc (Double.mul x x)) xs

/-- The sequence `xs` is lexicographically less than `ys`: at the first
position where they differ `xs` holds the smaller coordinate, or `xs` is a
proper prefix of `ys`. -/
def LexLess {K : Type} [LT K] (xs ys : List K) : Prop :=
  (∃ i x y, xs[i]? = some x ∧ ys[i]? = some y ∧ xs.take i = ys.take i ∧ x < y) ∨
    (xs.length < ys.length ∧ ys.take xs.length = xs)

/-- A vector with a present coordinate array of `len` entries, `len`
positive. -/
def Vector.Sound {K : Type} (v : Vector K) : Prop :=
  ∃ xs, v.vector = some xs ∧ (xs.length : Int) = v.len ∧ 0 < v.len

/-- The vector (1, 2) over the integers. -/
def vecShort : Vector Int := ⟨2, some [1, 2]⟩

/-- The vector (1, 2, 5) over the integers. -/
def vecLong : Vector Int := ⟨3, some [1, 2, 5]⟩

/-- A tree of the two vectors (100000000) and (100000000, 1), in the order of
`vectorCompare1By1`: the squared norm of the second, 10^16 + 1, is not a
number of the format. -/
def roundTree : Tree (Vector Double) :=
  .node 1 .BLACK .nil ⟨1, some [.ofNat 100000000]⟩
    (.node 2 .RED .nil ⟨2, some [.ofNat 100000000, .ofNat 1]⟩ .nil)

/-! ### The deletion fix-up with a log of the stages entered -/

/-- An entry into stage 3 or stage 6 of the deletion fix-up: the number of the
stage, the state at that moment and the arguments `node` and `parent` of the
call. -/
structure StageEntry (α : Type) where
  stage : Nat
  tree : RBTree α
  node : Ptr
  parent : Ptr

/-- `deleteLevel5`, which also reports the entry into `deleteLevel6`. -/
def deleteLevel5Traced (tree : RBTree α) (node parent : Ptr) :
    Except Fault (RBTree α × List (StageEntry α)) := do
  let s ← siblingOf tree node parent
  let tree ← (do
    if (← isBlackOrNull tree s) then
      let pn ← load tree parent
      if (← andAlso (pure (decide (pn.left = node)))
            (do pure (decide ((← theColorOfchildrenAre tree s) = 2)))) then
        let tree ← setColor tree s .RED
        let sn ← load tree s
        let tree ← setColor tree sn.left .BLACK
        rightRotation tree s
      else if (← andAlso (pure (decide (pn.right = node)))
            (do pure (decide ((← theColorOfchildrenAre tree s) = 1)))) then
        let tree ← setColor tree s .RED
        let sn ← load tree s
        let tree ← setColor tree sn.right .BLACK
        leftRotation tree s
      else pure tree
    else pure tree)
  let out ← deleteLevel6 tree node parent
  pure (out, [⟨6, tree, node, parent⟩])

/-- `deleteLevel4`, with the log of the stages entered from it. -/
def deleteLevel4Traced (tree : RBTree α) (node parent : Ptr) :
    Except Fault (RBTree α × List (StageEntry α)) := do
  let s ← siblingOf tree node parent
  let pn ← load tree parent
  if (← andAlso (pure (decide (pn.color = .RED))) (nodeAndthoSunsAreBlack tree s)) then
    let tree ← (match s with
      | some _ => setColor tree s .RED
      | none => pure tree)
    let out ← setColor tree parent .BLACK
    pure (out, [])
  else deleteLevel5Traced tree node parent

mutual

/-- `deleteLevel1`, with the log of the stages entered from it. -/
def deleteLevel1Traced : Nat → RBTree α → Ptr → Ptr →
    Except Fault (RBTree α × List (StageEntry α))
  | 0, _, _, _ => .error .outOfFuel
  | fuel + 1, tree, node, parent =>
    match parent with
    | some _ => deleteLevel2Traced fuel tree node parent
    | none => pure (tree, [])

/-- `deleteLevel2`, with the log of the stages entered from it. -/
def deleteLevel2Traced : Nat → RBTree α → Ptr → Ptr →
    Except Fault (RBTree α × List (StageEntry α))
  | 0, _, _, _ => .error .outOfFuel
  | fuel + 1, tree, node, parent => do
    let s ← siblingOf tree node parent
    if (← isRedNode tree s) then
      let tree ← setColor tree parent .RED
      let tree ← setColor tree s .BLACK
      let pn ← load tree parent
      let tree ← (if pn.left = node then leftRotation tree parent
                  else rightRotation tree parent)
      deleteLevel3Traced fuel tree node parent
    else deleteLevel3Traced fuel tree node parent

/-- `deleteLevel3`, which reports its own entry and then the stages entered
from it. -/
def deleteLevel3Traced : Nat → RBTree α → Ptr → Ptr →
    Except Fault (RBTree α × List (StageEntry α))
  | 0, _, _, _ => .error .outOfFuel
  | fuel + 1, tree, node, parent => do
    let entry : StageEntry α := ⟨3, tree, node, parent⟩
    let s ← siblingOf tree node parent
    let pn ← load tree parent
    if (← andAlso (pure (decide (pn.color = .BLACK))) (nodeAndthoSunsAreBlack tree s)) then
      let tree ← (match s with
        | some _ => setColor tree s .RED
        | none => pure tree)
      let pn ← load tree parent
      let r ← deleteLevel1Traced fuel tree parent pn.parent
      pure (r.1, entry :: r.2)
    else
      let r ← deleteLevel4Traced tree node parent
      pure (r.1, entry :: r.2)

end

/-- `deleteOneChild`, with the log of the fix-up it starts. -/
def deleteOneChildTraced (fuel : Nat) (tree : RBTree α) (n : Ptr) :
    Except Fault (RBTree α × List (StageEntry α)) := do
  let nn ← load tree n
  let child := if nn.right = none then nn.left else nn.right
  let tree ← replaceNode tree n child
  let nn ← load tree n
  let r ← (if nn.color = .BLACK then do
      if (← isRedNode tree child) then
        let tree ← setColor tree child .BLACK
        pure (tree, [])
      else deleteLevel1Traced fuel tree child nn.parent
    else pure (tree, []))
  let tree := r.1
  let nn ← load tree n
  let tree := { tree with freed := tree.freed ++ [nn.data] }
  let tree := freeNode tree n
  let tree := { tree with size := tree.size - 1 }
  let tree := if tree.size = 1 ∧ child ≠ none then { tree with root := child } else tree
  let tree := if tree.size = 0 then { tree with root := none } else tree
  pure (tree, r.2)

/-- `deleteFromRBTree`, with the log of the fix-up it starts. -/
def deleteFromRBTreeTraced (fuel : Nat) (tree : Option (RBTree α)) (data : Option α) :
    Except Fault ((Bool × Option (RBTree α)) × List (StageEntry α)) :=
  match tree with
  | none => pure ((false, none), [])
  | some tree => do
    let initNode ← findXNormalBST fuel tree tree.root data
    match initNode with
    | none => pure ((false, some tree), [])
    | some _ =>
      let (node, tree) ← deleteNormalBST fuel tree initNode
      let r ← deleteOneChildTraced fuel tree node
      pure ((true, some r.1), r.2)

/-- At the entry the sibling of the deficient position, that is the other
child of `parent`, is absent or a black node. -/
def StageEntry.SiblingBlack (e : StageEntry α) : Prop :=
  ∃ sb, siblingOf e.tree e.node e.parent = .ok sb ∧
    (sb = none ∨ ∃ a n, sb = some a ∧ e.tree.mem a = some n ∧ n.color = .BLACK)

/-- At the entry the sibling of the deficient position is a present black
node, and its far child, the right child when the deficient position is the
left child of `parent` and the left child otherwise, is a present red
node. -/
def StageEntry.FarChildRed (e : StageEntry α) : Prop :=
  ∃ p pn sb sn fc fn, e.parent = some p ∧ e.tree.mem p = some pn ∧
    siblingOf e.tree e.node e.parent = .ok (some sb) ∧ e.tree.mem sb = some sn ∧
    sn.color = .BLACK ∧ (if pn.left = e.node then sn.right else sn.left) = some fc ∧
    e.tree.mem fc = some fn ∧ fn.color = .RED

/-- What is claimed of a logged entry: at stage 3 the sibling is black or
absent; at stage 6 the sibling is a black node with a red far child, and
`deleteLevel6` runs from there without a fault. -/
def StageEntry.Holds (e : StageEntry α) : Prop :=
  (e.stage = 3 ∧ e.SiblingBlack) ∨
    (e.stage = 6 ∧ e.FarChildRed ∧ ∃ out, deleteLevel6 e.tree e.node e.parent = .ok out)

/-! ### Values at addresses; further sample trees -/

/-- Both states hold the same value at every address. -/
def SameData (s s' : RBTree α) : Prop :=
  ∀ a, (s'.mem a).map (fun n => n.data) = (s.mem a).map (fun n => n.data)

/-- A tree in which a red node has a red child: the black root holds 5, its
left child, black, holds 3, its right child, red, holds 8 and has the red left
child 7; the nodes are at the addresses 1 to 4. -/
def redRedTree : Tree Int :=
  .node 1 .BLACK (.node 2 .BLACK .nil 3 .nil) 5
    (.node 3 .RED (.node 4 .RED .nil 7 .nil) 8 .nil)

/-- The tree built from 7, 3, 18, 10, 22, 8, 11, 26 after a call that deletes
18. -/
def without18 : RBTree Int :=
  stateAfter (stateOf cmpInt tree8) (deleteFromRBTree 13 (some (stateOf cmpInt tree8)) (some 18))

/-- A tree object whose links spell out `redRedTree`. -/
def redRed : RBTree Int :=
  { root := some 1, compFunc := cmpInt, size := 4,
    mem := fun a =>
      if a = 1 then some ⟨5, none, some 2, some 3, .BLACK⟩
      else if a = 2 then some ⟨3, some 1, none, none, .BLACK⟩
      else if a = 3 then some ⟨8, some 1, some 4, none, .RED⟩
      else if a = 4 then some ⟨7, some 3, none, none, .RED⟩ else none,
    freed := [] }

/-! ## Basic facts about trees, paths and their memory representation -/

@[simp] theorem Tree.ptr_nil : (Tree.nil : Tree α).ptr = none := rfl

@[simp] theorem Tree.ptr_node (a : Nat) (c : Color) (l : Tree α) (v : α) (r : Tree α) :
    (Tree.node a c l v r).ptr = some a := rfl

@[simp] theorem Tree.isBlack_nil : (Tree.nil : Tree α).isBlack = true := rfl

@[simp] theorem Tree.isBlack_node (a : Nat) (c : Color) (l : Tree α) (v : α) (r : Tree α) :
    (Tree.node a c l v r).isBlack = decide (c = .BLACK) := rfl

@[simp] theorem Tree.isRed_nil : (Tree.nil : Tree α).isRed = false := rfl

@[simp] theorem Tree.isRed_node (a : Nat) (c : Color) (l : Tree α) (v : α) (r : Tree α) :
    (Tree.node a c l v r).isRed = decide (c = .RED) := rfl

theorem Tree.isRed_eq_not_isBlack (t : Tree α) (h : t.isRed = true) : t.isBlack = false := by
  cases t with
  | nil => simp at h
  | node a c l v r => cases c <;> simp_all

@[simp] theorem pathPtr_nil : pathPtr ([] : Path α) = none := rfl

@[simp] theorem pathPtr_cons (f : Step α) (p : Path α) : pathPtr (f :: p) = some f.addr := rfl

@[simp] theorem Step.addr_L (a : Nat) (c : Color) (v : α) (r : Tree α) :
    (Step.L a c v r).addr = a := rfl

@[simp] theorem Step.addr_R (a : Nat) (c : Color) (l : Tree α) (v : α) :
    (Step.R a c l v).addr = a := rfl

@[simp] theorem Step.sib_L (a : Nat) (c : Color) (v : α) (r : Tree α) :
    (Step.L a c v r).sib = r := rfl

@[simp] theorem Step.sib_R (a : Nat) (c : Color) (l : Tree α) (v : α) :
    (Step.R a c l v).sib = l := rfl

@[simp] theorem plug_nil (t : Tree α) : plug [] t = t := rfl

@[simp] theorem plug_cons (f : Step α) (p : Path α) (t : Tree α) :
    plug (f :: p) t = plug p (f.fill t) := rfl

@[simp] theorem Step.fill_ptr (f : Step α) (t : Tree α) : (f.fill t).ptr = some f.addr := by
  cases f <;> rfl

theorem Rep.congr_mem {mem mem' : Nat → Option (Node α)} {par : Ptr} {t : Tree α}
    (h : ∀ a ∈ t.addrs, mem' a = mem a) (hr : Rep mem par t) : Rep mem' par t := by
  induction t generalizing par with
  | nil => trivial
  | node a c l v r ihl ihr =>
    obtain ⟨h1, h2, h3⟩ := hr
    refine ⟨?_, ihl ?_ h2, ihr ?_ h3⟩
    · rw [h a (by simp [Tree.addrs])]; exact h1
    · intro b hb; exact h b (by simp [Tree.addrs, hb])
    · intro b hb; exact h b (by simp [Tree.addrs, hb])

theorem RepPath.congr_path {mem mem' : Nat → Option (Node α)} {p : Path α} {h : Ptr}
    (hm : ∀ a ∈ pathAddrs p, mem' a = mem a) (hr : RepPath mem p h) : RepPath mem' p h := by
  induction p generalizing h with
  | nil => trivial
  | cons f p ih =>
    cases f with
    | L a c v r =>
      obtain ⟨h1, h2, h3⟩ := hr
      refine ⟨?_, Rep.congr_mem ?_ h2, ih ?_ h3⟩
      · rw [hm a (by simp [pathAddrs, Step.addr])]; exact h1
      · intro b hb; exact hm b (by simp [pathAddrs, Step.sib, hb])
      · intro b hb; exact hm b (by simp [pathAddrs, hb])
    | R a c l v =>
      obtain ⟨h1, h2, h3⟩ := hr
      refine ⟨?_, Rep.congr_mem ?_ h2, ih ?_ h3⟩
      · rw [hm a (by simp [pathAddrs, Step.addr])]; exact h1
      · intro b hb; exact hm b (by simp [pathAddrs, Step.sib, hb])
      · intro b hb; exact hm b (by simp [pathAddrs, hb])

theorem rep_plug {mem : Nat → Option (Node α)} {p : Path α} {t : Tree α} :
    Rep mem none (plug p t) ↔ RepPath mem p t.ptr ∧ Rep mem (pathPtr p) t := by
  induction p generalizing t with
  | nil => simp [RepPath, pathPtr]
  | cons f p ih =>
    rw [plug_cons, ih]
    cases f <;> simp [RepPath, Rep, Step.fill, Tree.ptr, pathPtr, Step.addr] <;> tauto

theorem mem_addrs_plug {p : Path α} {t : Tree α} {a : Nat} :
    a ∈ (plug p t).addrs ↔ a ∈ pathAddrs p ∨ a ∈ t.addrs := by
  induction p generalizing t with
  | nil => simp [pathAddrs]
  | cons f p ih =>
    rw [plug_cons, ih]
    cases f <;> simp [pathAddrs, Step.fill, Tree.addrs, Step.addr, Step.sib] <;> tauto

theorem addrs_plug_perm (p : Path α) (t : Tree α) :
    List.Perm (plug p t).addrs (pathAddrs p ++ t.addrs) := by
  induction p generalizing t with
  | nil => simp [pathAddrs]
  | cons f p ih =>
    rw [plug_cons]
    refine (ih _).trans ?_
    refine List.perm_iff_count.mpr (fun x => ?_)
    cases f <;> simp [Step.fill, Tree.addrs, pathAddrs, Step.addr, Step.sib, List.count_cons] <;>
      omega

theorem nodup_plug {p : Path α} {t : Tree α} :
    (plug p t).addrs.Nodup ↔ (pathAddrs p ++ t.addrs).Nodup :=
  (addrs_plug_perm p t).nodup_iff

theorem nodup_node {a : Nat} {c : Color} {l r : Tree α} {v : α} :
    (Tree.node a c l v r).addrs.Nodup ↔
      a ∉ l.addrs ∧ a ∉ r.addrs ∧ l.addrs.Nodup ∧ r.addrs.Nodup ∧ ∀ b ∈ l.addrs, b ∉ r.addrs := by
  simp only [Tree.addrs, List.nodup_cons, List.nodup_append, List.mem_append, not_or,
    List.Disjoint]
  constructor
  · rintro ⟨⟨h1, h2⟩, h3, h4, h5⟩; exact ⟨h1, h2, h3, h4, fun b hb hb' => h5 hb hb'⟩
  · rintro ⟨h1, h2, h3, h4, h5⟩; exact ⟨⟨h1, h2⟩, h3, h4, fun b hb hb' => h5 b hb hb'⟩

theorem nodup_pathAddrs_cons {f : Step α} {p : Path α} :
    (pathAddrs (f :: p)).Nodup ↔
      f.addr ∉ f.sib.addrs ∧ f.addr ∉ pathAddrs p ∧ f.sib.addrs.Nodup ∧ (pathAddrs p).Nodup ∧
        ∀ b ∈ f.sib.addrs, b ∉ pathAddrs p := by
  simp only [pathAddrs, List.nodup_cons, List.nodup_append, List.mem_append, not_or,
    List.Disjoint]
  constructor
  · rintro ⟨⟨h1, h2⟩, h3, h4, h5⟩; exact ⟨h1, h2, h3, h4, fun b hb hb' => h5 hb hb'⟩
  · rintro ⟨h1, h2, h3, h4, h5⟩; exact ⟨⟨h1, h2⟩, h3, h4, fun b hb hb' => h5 b hb hb'⟩

theorem nodup_plug_iff {p : Path α} {t : Tree α} :
    (plug p t).addrs.Nodup ↔
      (pathAddrs p).Nodup ∧ t.addrs.Nodup ∧ ∀ b ∈ pathAddrs p, b ∉ t.addrs := by
  rw [nodup_plug, List.nodup_append]
  constructor
  · rintro ⟨h1, h2, h3⟩; exact ⟨h1, h2, fun b hb hb' => h3 hb hb'⟩
  · rintro ⟨h1, h2, h3⟩; exact ⟨h1, h2, fun b hb hb' => h3 b hb hb'⟩

theorem inorder_plug (p : Path α) (t : Tree α) :
    (plug p t).inorder = pathPre p ++ t.inorder ++ pathPost p := by
  induction p generalizing t with
  | nil => simp [pathPre, pathPost]
  | cons f p ih =>
    rw [plug_cons, ih]
    cases f <;> simp [pathPre, pathPost, Step.fill, Tree.inorder]

theorem count_eq_length_addrs (t : Tree α) : t.count = t.addrs.length := by
  induction t with
  | nil => rfl
  | node a c l v r ihl ihr => simp [Tree.count, Tree.addrs, ihl, ihr]

theorem count_plug (p : Path α) (t : Tree α) :
    (plug p t).count = (pathAddrs p).length + t.count := by
  rw [count_eq_length_addrs, (addrs_plug_perm p t).length_eq, count_eq_length_addrs]
  simp

theorem length_inorder (t : Tree α) : t.inorder.length = t.count := by
  induction t with
  | nil => rfl
  | node a c l v r ihl ihr => simp [Tree.count, Tree.inorder, ihl, ihr]; omega

theorem addrs_plug_congr (p : Path α) {t t' : Tree α} (h : t'.addrs.Perm t.addrs) :
    (plug p t').addrs.Perm (plug p t).addrs :=
  ((addrs_plug_perm p t').trans (List.Perm.append_left _ h)).trans (addrs_plug_perm p t).symm

/-! ## Memory-level facts -/

@[simp] theorem store_mem (s : RBTree α) (a : Nat) (n : Node α) :
    (store s a n).mem = Function.update s.mem a (some n) := rfl

@[simp] theorem store_root (s : RBTree α) (a : Nat) (n : Node α) : (store s a n).root = s.root := rfl

@[simp] theorem store_size (s : RBTree α) (a : Nat) (n : Node α) : (store s a n).size = s.size := rfl

@[simp] theorem store_freed (s : RBTree α) (a : Nat) (n : Node α) :
    (store s a n).freed = s.freed := rfl

@[simp] theorem store_compFunc (s : RBTree α) (a : Nat) (n : Node α) :
    (store s a n).compFunc = s.compFunc := rfl

theorem Frame.same (as : List Nat) (s : RBTree α) : Frame as s s :=
  ⟨fun _ _ => rfl, rfl, rfl, rfl⟩

theorem Frame.seq {as : List Nat} {s₁ s₂ s₃ : RBTree α} (h₁ : Frame as s₁ s₂)
    (h₂ : Frame as s₂ s₃) : Frame as s₁ s₃ :=
  ⟨fun a ha => (h₂.mem a ha).trans (h₁.mem a ha), h₂.compFunc.trans h₁.compFunc,
    h₂.size.trans h₁.size, h₂.freed.trans h₁.freed⟩

theorem Frame.mono {as bs : List Nat} {s s' : RBTree α} (h : Frame as s s')
    (hs : ∀ a, a ∈ as → a ∈ bs) : Frame bs s s' :=
  ⟨fun a ha => h.mem a (fun h' => ha (hs a h')), h.compFunc, h.size, h.freed⟩

theorem Frame.perm {as bs : List Nat} {s s' : RBTree α} (h : Frame as s s')
    (hp : bs.Perm as) : Frame bs s s' :=
  h.mono (fun _ ha => hp.mem_iff.2 ha)

theorem Evolves.stay {s : RBTree α} {t : Tree α} (h : Linked s t) : Evolves s s t t :=
  ⟨h, Frame.same _ _, List.Perm.refl _⟩

theorem Evolves.next {s₁ s₂ s₃ : RBTree α} {t₁ t₂ t₃ : Tree α} (h₁ : Evolves s₁ s₂ t₁ t₂)
    (h₂ : Evolves s₂ s₃ t₂ t₃) : Evolves s₁ s₃ t₁ t₃ :=
  ⟨h₂.linked, h₁.frame.seq (h₂.frame.perm h₁.nodes.symm), h₂.nodes.trans h₁.nodes⟩

/-- The record of the node in focus. -/
theorem Linked.node_eq {s : RBTree α} {p : Path α} {a : Nat} {c : Color} {l r : Tree α} {v : α}
    (h : Linked s (plug p (.node a c l v r))) :
    s.mem a = some ⟨v, pathPtr p, l.ptr, r.ptr, c⟩ :=
  (rep_plug.1 h.rep).2.1

theorem Linked.root_eq {s : RBTree α} {p : Path α} {t : Tree α} (h : Linked s (plug p t)) :
    s.root = (plug p t).ptr := h.root

theorem plug_ptr_cons (f : Step α) (p : Path α) (t : Tree α) :
    ∃ a, (plug (f :: p) t).ptr = some a := by
  induction p generalizing f t with
  | nil => exact ⟨f.addr, by simp⟩
  | cons g p ih => exact ih g (f.fill t)

theorem plug_ptr_congr (p : Path α) {t t' : Tree α} (h : p = [] → t.ptr = t'.ptr) :
    (plug p t).ptr = (plug p t').ptr := by
  induction p generalizing t t' with
  | nil => exact h rfl
  | cons f p ih =>
    simp only [plug_cons]
    exact ih (fun _ => by simp)

/-- Rewriting the record of the node in focus, keeping its links. -/
theorem Linked.store_focus {s : RBTree α} {p : Path α} {a : Nat} {c c' : Color} {l r : Tree α}
    {v v' : α} (h : Linked s (plug p (.node a c l v r))) :
    Linked (store s a ⟨v', pathPtr p, l.ptr, r.ptr, c'⟩) (plug p (.node a c' l v' r)) := by
  obtain ⟨hn1, hn2, hn3⟩ := nodup_plug_iff.1 h.nodup
  obtain ⟨ha1, ha2, hn4, hn5, hn6⟩ := nodup_node.1 hn2
  have hrep := rep_plug.1 h.rep
  refine ⟨?_, ?_, ?_⟩
  · rw [store_root, h.root]; exact plug_ptr_congr p (fun _ => rfl)
  · refine rep_plug.2 ⟨?_, ?_, ?_, ?_⟩
    · refine RepPath.congr_path (fun b hb => ?_) hrep.1
      have : b ≠ a := fun e => hn3 b hb (by simp [e, Tree.addrs])
      simp [Function.update_apply, this]
    · simp
    · refine Rep.congr_mem (fun b hb => ?_) hrep.2.2.1
      have : b ≠ a := fun e => ha1 (e ▸ hb)
      simp [Function.update_apply, this]
    · refine Rep.congr_mem (fun b hb => ?_) hrep.2.2.2
      have : b ≠ a := fun e => ha2 (e ▸ hb)
      simp [Function.update_apply, this]
  · refine nodup_plug_iff.2 ⟨hn1, nodup_node.2 ⟨ha1, ha2, hn4, hn5, hn6⟩, ?_⟩
    intro b hb; simpa [Tree.addrs] using hn3 b hb

theorem Rep.rep_update {mem : Nat → Option (Node α)} {par : Ptr} {t : Tree α} {a : Nat}
    {n : Option (Node α)} (h : a ∉ t.addrs) :
    Rep (Function.update mem a n) par t ↔ Rep mem par t := by
  constructor
  · refine Rep.congr_mem (fun b hb => ?_)
    have : b ≠ a := fun e => h (e ▸ hb)
    simp [Function.update_apply, this]
  · refine Rep.congr_mem (fun b hb => ?_)
    have : b ≠ a := fun e => h (e ▸ hb)
    simp [Function.update_apply, this]

theorem RepPath.path_update {mem : Nat → Option (Node α)} {p : Path α} {h : Ptr} {a : Nat}
    {n : Option (Node α)} (ha : a ∉ pathAddrs p) :
    RepPath (Function.update mem a n) p h ↔ RepPath mem p h := by
  constructor
  · refine RepPath.congr_path (fun b hb => ?_)
    have : b ≠ a := fun e => ha (e ▸ hb)
    simp [Function.update_apply, this]
  · refine RepPath.congr_path (fun b hb => ?_)
    have : b ≠ a := fun e => ha (e ▸ hb)
    simp [Function.update_apply, this]

/-- Changing the parent field of the root of a represented tree. -/
theorem Rep.reparent {mem : Nat → Option (Node α)} {par par' : Ptr} {a : Nat} {c : Color}
    {l r : Tree α} {v : α} (h : Rep mem par (.node a c l v r)) (hl : a ∉ l.addrs)
    (hr : a ∉ r.addrs) :
    Rep (Function.update mem a (some ⟨v, par', l.ptr, r.ptr, c⟩)) par' (.node a c l v r) := by
  refine ⟨by simp, (Rep.rep_update hl).2 h.2.1, (Rep.rep_update hr).2 h.2.2⟩

/-- Changing the pointer to the hole in the innermost step of a path. -/
theorem RepPath.relinkL {mem : Nat → Option (Node α)} {p : Path α} {h h' : Ptr} {a : Nat}
    {c : Color} {v : α} {r : Tree α} (hp : RepPath mem (.L a c v r :: p) h)
    (h1 : a ∉ r.addrs) (h2 : a ∉ pathAddrs p) :
    RepPath (Function.update mem a (some ⟨v, pathPtr p, h', r.ptr, c⟩)) (.L a c v r :: p) h' := by
  refine ⟨by simp, (Rep.rep_update h1).2 hp.2.1, (RepPath.path_update h2).2 hp.2.2⟩

theorem RepPath.relinkR {mem : Nat → Option (Node α)} {p : Path α} {h h' : Ptr} {a : Nat}
    {c : Color} {v : α} {l : Tree α} (hp : RepPath mem (.R a c l v :: p) h)
    (h1 : a ∉ l.addrs) (h2 : a ∉ pathAddrs p) :
    RepPath (Function.update mem a (some ⟨v, pathPtr p, l.ptr, h', c⟩)) (.R a c l v :: p) h' := by
  refine ⟨by simp, (Rep.rep_update h1).2 hp.2.1, (RepPath.path_update h2).2 hp.2.2⟩

theorem Tree.ptr_ne_of_not_mem {t : Tree α} {a : Nat} (h : a ∉ t.addrs) : t.ptr ≠ some a := by
  cases t with
  | nil => simp [Tree.ptr]
  | node b c l v r =>
    simp only [Tree.addrs, List.mem_cons, not_or] at h
    simp only [Tree.ptr, ne_eq, Option.some.injEq]
    exact fun e => h.1 e.symm

theorem leftRotation_spec {s : RBTree α} {p : Path α} {x y : Nat} {cx cy : Color}
    {A B C : Tree α} {vx vy : α}
    (h : Linked s (plug p (.node x cx A vx (.node y cy B vy C)))) :
    ∃ s', leftRotation s (some x) = .ok s' ∧
      Evolves s s' (plug p (.node x cx A vx (.node y cy B vy C))) (plug p (.node y cy (.node x cx A vx B) vy C)) := by
  have hx := h.node_eq
  have hy := Linked.node_eq (p := .R x cx A vx :: p) h
  obtain ⟨hn1, hn2, hn3⟩ := nodup_plug_iff.1 h.nodup
  obtain ⟨hxO, hxY, hnO, hnY, hOY⟩ := nodup_node.1 hn2
  obtain ⟨hyB, hyF, hnB, hnF, hBF⟩ := nodup_node.1 hnY
  have hrep := rep_plug.1 h.rep
  have hxy : x ≠ y := fun e => hxY (by simp [e, Tree.addrs])
  have hyx : y ≠ x := fun e => hxy e.symm
  have hxB : x ∉ B.addrs := fun hm => hxY (by simp [Tree.addrs, hm])
  have hxF : x ∉ C.addrs := fun hm => hxY (by simp [Tree.addrs, hm])
  have hyO : y ∉ A.addrs := fun hm => hOY y hm (by simp [Tree.addrs])
  have hxp : x ∉ pathAddrs p := fun hm => hn3 x hm (by simp [Tree.addrs])
  have hyp : y ∉ pathAddrs p := fun hm => hn3 y hm (by simp [Tree.addrs])
  have hperm : (plug p (.node y cy (.node x cx A vx B) vy C)).addrs.Perm (plug p (.node x cx A vx (.node y cy B vy C))).addrs := by
    refine addrs_plug_congr p (List.perm_iff_count.mpr (fun z => ?_))
    simp [Tree.addrs, List.count_cons]
    omega
  have hnd' : (plug p (.node y cy (.node x cx A vx B) vy C)).addrs.Nodup := hperm.nodup_iff.2 h.nodup
  have hframe : ∀ a, a ∉ (plug p (.node x cx A vx (.node y cy B vy C))).addrs →
      (∀ z, z ∈ pathAddrs p ∨ z = x ∨ z = y ∨ z ∈ B.addrs → a ≠ z) := by
    intro a ha z hz e
    subst e
    refine ha (mem_addrs_plug.2 ?_)
    simp only [Tree.addrs, List.mem_cons, List.mem_append]
    tauto
  have hpB : ∀ z ∈ pathAddrs p, z ∉ A.addrs ∧ z ∉ B.addrs ∧ z ∉ C.addrs := by
    intro z hz
    have := hn3 z hz
    simp only [Tree.addrs, List.mem_cons, List.mem_append, not_or] at this
    tauto
  cases B with
  | nil =>
    cases p with
    | nil =>
      simp [leftRotation, load, hx, hy, setParent, setLeft, setRight, bind, Except.bind,
        pure, Except.pure, Function.update_apply, hxy, hyx]
      refine ⟨⟨?_, ?_, ?_⟩, ⟨?_, ?_, ?_, ?_⟩, by simpa using hperm⟩
      rotate_left 2
      · simpa using hnd'
      · intro a ha
        have h1 := hframe a ha
        simp [Function.update_apply, h1 x (by simp), h1 y (by simp)]
      · simp
      · simp
      · simp
      · simp
      · simp only [Rep, RepPath, store_mem, Tree.ptr_nil, Tree.ptr_node, pathPtr_cons, pathPtr_nil,
          plug_nil, Step.addr_L, Step.addr_R] at hrep ⊢
        simp [Function.update_apply, Rep.rep_update, RepPath.path_update, hxy, hyx, hxO, hyO, hxF, hyF,
          hrep]
    | cons f p =>
      cases f with
      | L fa fc fv fr =>
        have hf := Linked.node_eq (p := p) h
        obtain ⟨hf1, hf2, -, -, -⟩ := nodup_pathAddrs_cons.1 hn1
        simp only [pathAddrs, List.mem_cons, List.mem_append, not_or, Step.addr_L, Step.sib_L]
          at hxp hyp hf1 hf2
        have hfx : fa ≠ x := fun e => hxp.1 e.symm
        have hfy : fa ≠ y := fun e => hyp.1 e.symm
        have hfT := hpB fa (by simp [pathAddrs])
        simp [leftRotation, load, hx, hy, hf, setParent, setLeft, setRight, bind, Except.bind,
          pure, Except.pure, Function.update_apply, hxy, hyx, hfx, hfy, hxp.1, hyp.1]
        refine ⟨⟨?_, ?_, ?_⟩, ⟨?_, ?_, ?_, ?_⟩, by simpa using hperm⟩
        rotate_left 2
        · simpa using hnd'
        · intro a ha
          have h1 := hframe a ha
          simp [Function.update_apply, h1 x (by simp), h1 y (by simp), h1 fa (by simp [pathAddrs])]
        · simp
        · simp
        · simp
        · simp only [store_root]; rw [h.root]; exact plug_ptr_congr _ (fun e => by simp at e)
        · refine rep_plug.2 ?_
          simp only [Rep, RepPath, store_mem, Tree.ptr_nil, Tree.ptr_node, pathPtr_cons, pathPtr_nil,
            plug_nil, Step.addr_L, Step.addr_R] at hrep ⊢
          simp [Function.update_apply, Rep.rep_update, RepPath.path_update, hxy, hyx, hxO, hyO, hxF, hyF, hfx, hfy, hxp, hyp, hf1, hf2, hfT,
            hrep]
      | R fa fc fl fv =>
        have hf := Linked.node_eq (p := p) h
        obtain ⟨hf1, hf2, -, -, -⟩ := nodup_pathAddrs_cons.1 hn1
        simp only [pathAddrs, List.mem_cons, List.mem_append, not_or, Step.addr_R, Step.sib_R]
          at hxp hyp hf1 hf2
        have hfx : fa ≠ x := fun e => hxp.1 e.symm
        have hfy : fa ≠ y := fun e => hyp.1 e.symm
        have hfT := hpB fa (by simp [pathAddrs])
        have hfl : fl.ptr ≠ some x := Tree.ptr_ne_of_not_mem hxp.2.1
        simp [leftRotation, load, hx, hy, hf, setParent, setLeft, setRight, bind, Except.bind,
          pure, Except.pure, Function.update_apply, hxy, hyx, hfx, hfy, hxp.1, hyp.1, hfl]
        refine ⟨⟨?_, ?_, ?_⟩, ⟨?_, ?_, ?_, ?_⟩, by simpa using hperm⟩
        rotate_left 2
        · simpa using hnd'
        · intro a ha
          have h1 := hframe a ha
          simp [Function.update_apply, h1 x (by simp), h1 y (by simp), h1 fa (by simp [pathAddrs])]
        · simp
        · simp
        · simp
        · simp only [store_root]; rw [h.root]; exact plug_ptr_congr _ (fun e => by simp at e)
        · refine rep_plug.2 ?_
          simp only [Rep, RepPath, store_mem, Tree.ptr_nil, Tree.ptr_node, pathPtr_cons, pathPtr_nil,
            plug_nil, Step.addr_L, Step.addr_R] at hrep ⊢
          simp [Function.update_apply, Rep.rep_update, RepPath.path_update, hxy, hyx, hxO, hyO, hxF, hyF, hfx, hfy, hxp, hyp, hf1, hf2, hfT,
            hrep]
  | node b cb BL bv BR =>
    have hb := Linked.node_eq (p := .L y cy vy C :: .R x cx A vx :: p) h
    obtain ⟨hbL, hbR, -, -, -⟩ := nodup_node.1 hnB
    simp only [Tree.addrs, List.mem_cons, List.mem_append, not_or] at hxB hyB
    have hbx : b ≠ x := fun e => hxB.1 e.symm
    have hby : b ≠ y := fun e => hyB.1 e.symm
    have hbO : b ∉ A.addrs := fun hm => hOY b hm (by simp [Tree.addrs])
    have hbF : b ∉ C.addrs := fun hm => hBF b (by simp [Tree.addrs]) hm
    have hbp : b ∉ pathAddrs p := fun hm => hn3 b hm (by simp [Tree.addrs])
    cases p with
    | nil =>
      simp [leftRotation, load, hx, hy, hb, setParent, setLeft, setRight, bind, Except.bind,
        pure, Except.pure, Function.update_apply, hxy, hyx, hbx, hby, hxB.1, hyB.1]
      refine ⟨⟨?_, ?_, ?_⟩, ⟨?_, ?_, ?_, ?_⟩, by simpa using hperm⟩
      rotate_left 2
      · simpa using hnd'
      · intro a ha
        have h1 := hframe a ha
        simp [Function.update_apply, h1 x (by simp), h1 y (by simp), h1 b (by simp [Tree.addrs])]
      · simp
      · simp
      · simp
      · simp
      · simp only [Rep, RepPath, store_mem, Tree.ptr_nil, Tree.ptr_node, pathPtr_cons, pathPtr_nil,
          plug_nil, Step.addr_L, Step.addr_R] at hrep ⊢
        simp [Function.update_apply, Rep.rep_update, RepPath.path_update, hxy, hyx, hxO, hyO, hxF, hyF, hbx, hby, hxB, hyB, hbO, hbF, hbL, hbR,
          hrep]
    | cons f p =>
      cases f with
      | L fa fc fv fr =>
        have hf := Linked.node_eq (p := p) h
        obtain ⟨hf1, hf2, -, -, -⟩ := nodup_pathAddrs_cons.1 hn1
        simp only [pathAddrs, List.mem_cons, List.mem_append, not_or, Step.addr_L, Step.sib_L]
          at hxp hyp hf1 hf2
        have hfx : fa ≠ x := fun e => hxp.1 e.symm
        have hfy : fa ≠ y := fun e => hyp.1 e.symm
        have hfT := hpB fa (by simp [pathAddrs])
        simp only [pathAddrs, List.mem_cons, List.mem_append, not_or, Step.addr_L, Step.sib_L] at hbp
        have hfb : fa ≠ b := fun e => hbp.1 e.symm
        simp only [Tree.addrs, List.mem_cons, List.mem_append, not_or] at hfT
        simp [leftRotation, load, hx, hy, hb, hf, setParent, setLeft, setRight, bind, Except.bind,
          pure, Except.pure, Function.update_apply, hxy, hyx, hbx, hby, hxB.1, hyB.1, hfx, hfy, hxp.1, hyp.1, hfb, hbp.1]
        refine ⟨⟨?_, ?_, ?_⟩, ⟨?_, ?_, ?_, ?_⟩, by simpa using hperm⟩
        rotate_left 2
        · simpa using hnd'
        · intro a ha
          have h1 := hframe a ha
          simp [Function.update_apply, h1 x (by simp), h1 y (by simp), h1 b (by simp [Tree.addrs]), h1 fa (by simp [pathAddrs])]
        · simp
        · simp
        · simp
        · simp only [store_root]; rw [h.root]; exact plug_ptr_congr _ (fun e => by simp at e)
        · refine rep_plug.2 ?_
          simp only [Rep, RepPath, store_mem, Tree.ptr_nil, Tree.ptr_node, pathPtr_cons, pathPtr_nil,
            plug_nil, Step.addr_L, Step.addr_R] at hrep ⊢
          simp [Function.update_apply, Rep.rep_update, RepPath.path_update, hxy, hyx, hxO, hyO, hxF, hyF, hbx, hby, hxB, hyB, hbO, hbF, hbL, hbR, hfx, hfy, hxp, hyp, hf1, hf2, hfT, hfb, hbp,
            hrep]
      | R fa fc fl fv =>
        have hf := Linked.node_eq (p := p) h
        obtain ⟨hf1, hf2, -, -, -⟩ := nodup_pathAddrs_cons.1 hn1
        simp only [pathAddrs, List.mem_cons, List.mem_append, not_or, Step.addr_R, Step.sib_R]
          at hxp hyp hf1 hf2
        have hfx : fa ≠ x := fun e => hxp.1 e.symm
        have hfy : fa ≠ y := fun e => hyp.1 e.symm
        have hfT := hpB fa (by simp [pathAddrs])
        have hfl : fl.ptr ≠ some x := Tree.ptr_ne_of_not_mem hxp.2.1
        simp only [pathAddrs, List.mem_cons, List.mem_append, not_or, Step.addr_R, Step.sib_R] at hbp
        have hfb : fa ≠ b := fun e => hbp.1 e.symm
        simp only [Tree.addrs, List.mem_cons, List.mem_append, not_or] at hfT
        simp [leftRotation, load, hx, hy, hb, hf, setParent, setLeft, setRight, bind, Except.bind,
          pure, Except.pure, Function.update_apply, hxy, hyx, hbx, hby, hxB.1, hyB.1, hfx, hfy, hxp.1, hyp.1, hfl, hfb, hbp.1]
        refine ⟨⟨?_, ?_, ?_⟩, ⟨?_, ?_, ?_, ?_⟩, by simpa using hperm⟩
        rotate_left 2
        · simpa using hnd'
        · intro a ha
          have h1 := hframe a ha
          simp [Function.update_apply, h1 x (by simp), h1 y (by simp), h1 b (by simp [Tree.addrs]), h1 fa (by simp [pathAddrs])]
        · simp
        · simp
        · simp
        · simp only [store_root]; rw [h.root]; exact plug_ptr_congr _ (fun e => by simp at e)
        · refine rep_plug.2 ?_
          simp only [Rep, RepPath, store_mem, Tree.ptr_nil, Tree.ptr_node, pathPtr_cons, pathPtr_nil,
            plug_nil, Step.addr_L, Step.addr_R] at hrep ⊢
          simp [Function.update_apply, Rep.rep_update, RepPath.path_update, hxy, hyx, hxO, hyO, hxF, hyF, hbx, hby, hxB, hyB, hbO, hbF, hbL, hbR, hfx, hfy, hxp, hyp, hf1, hf2, hfT, hfb, hbp,
            hrep]

theorem rightRotation_spec {s : RBTree α} {p : Path α} {x y : Nat} {cx cy : Color}
    {A B C : Tree α} {vx vy : α}
    (h : Linked s (plug p (.node x cx (.node y cy C vy B) vx A))) :
    ∃ s', rightRotation s (some x) = .ok s' ∧
      Evolves s s' (plug p (.node x cx (.node y cy C vy B) vx A)) (plug p (.node y cy C vy (.node x cx B vx A))) := by
  have hx := h.node_eq
  have hy := Linked.node_eq (p := .L x cx vx A :: p) h
  obtain ⟨hn1, hn2, hn3⟩ := nodup_plug_iff.1 h.nodup
  obtain ⟨hxY, hxO, hnY, hnO, hYO⟩ := nodup_node.1 hn2
  obtain ⟨hyF, hyB, hnF, hnB, hFB⟩ := nodup_node.1 hnY
  have hrep := rep_plug.1 h.rep
  have hxy : x ≠ y := fun e => hxY (by simp [e, Tree.addrs])
  have hyx : y ≠ x := fun e => hxy e.symm
  have hxB : x ∉ B.addrs := fun hm => hxY (by simp [Tree.addrs, hm])
  have hxF : x ∉ C.addrs := fun hm => hxY (by simp [Tree.addrs, hm])
  have hyO : y ∉ A.addrs := fun hm => hYO y (by simp [Tree.addrs]) hm
  have hxp : x ∉ pathAddrs p := fun hm => hn3 x hm (by simp [Tree.addrs])
  have hyp : y ∉ pathAddrs p := fun hm => hn3 y hm (by simp [Tree.addrs])
  have hperm : (plug p (.node y cy C vy (.node x cx B vx A))).addrs.Perm (plug p (.node x cx (.node y cy C vy B) vx A)).addrs := by
    refine addrs_plug_congr p (List.perm_iff_count.mpr (fun z => ?_))
    simp [Tree.addrs, List.count_cons]
    omega
  have hnd' : (plug p (.node y cy C vy (.node x cx B vx A))).addrs.Nodup := hperm.nodup_iff.2 h.nodup
  have hframe : ∀ a, a ∉ (plug p (.node x cx (.node y cy C vy B) vx A)).addrs →
      (∀ z, z ∈ pathAddrs p ∨ z = x ∨ z = y ∨ z ∈ B.addrs → a ≠ z) := by
    intro a ha z hz e
    subst e
    refine ha (mem_addrs_plug.2 ?_)
    simp only [Tree.addrs, List.mem_cons, List.mem_append]
    tauto
  have hpB : ∀ z ∈ pathAddrs p, z ∉ A.addrs ∧ z ∉ B.addrs ∧ z ∉ C.addrs := by
    intro z hz
    have := hn3 z hz
    simp only [Tree.addrs, List.mem_cons, List.mem_append, not_or] at this
    tauto
  cases B with
  | nil =>
    cases p with
    | nil =>
      simp [rightRotation, load, hx, hy, setParent, setLeft, setRight, bind, Except.bind,
        pure, Except.pure, Function.update_apply, hxy, hyx]
      refine ⟨⟨?_, ?_, ?_⟩, ⟨?_, ?_, ?_, ?_⟩, by simpa using hperm⟩
      rotate_left 2
      · simpa using hnd'
      · intro a ha
        have h1 := hframe a ha
        simp [Function.update_apply, h1 x (by simp), h1 y (by simp)]
      · simp
      · simp
      · simp
      · simp
      · simp only [Rep, RepPath, store_mem, Tree.ptr_nil, Tree.ptr_node, pathPtr_cons, pathPtr_nil,
          plug_nil, Step.addr_L, Step.addr_R] at hrep ⊢
        simp [Function.update_apply, Rep.rep_update, RepPath.path_update, hxy, hyx, hxO, hyO, hxF, hyF,
          hrep]
    | cons f p =>
      cases f with
      | L fa fc fv fr =>
        have hf := Linked.node_eq (p := p) h
        obtain ⟨hf1, hf2, -, -, -⟩ := nodup_pathAddrs_cons.1 hn1
        simp only [pathAddrs, List.mem_cons, List.mem_append, not_or, Step.addr_L, Step.sib_L]
          at hxp hyp hf1 hf2
        have hfx : fa ≠ x := fun e => hxp.1 e.symm
        have hfy : fa ≠ y := fun e => hyp.1 e.symm
        have hfT := hpB fa (by simp [pathAddrs])
        simp [rightRotation, load, hx, hy, hf, setParent, setLeft, setRight, bind, Except.bind,
          pure, Except.pure, Function.update_apply, hxy, hyx, hfx, hfy, hxp.1, hyp.1]
        refine ⟨⟨?_, ?_, ?_⟩, ⟨?_, ?_, ?_, ?_⟩, by simpa using hperm⟩
        rotate_left 2
        · simpa using hnd'
        · intro a ha
          have h1 := hframe a ha
          simp [Function.update_apply, h1 x (by simp), h1 y (by simp), h1 fa (by simp [pathAddrs])]
        · simp
        · simp
        · simp
        · simp only [store_root]; rw [h.root]; exact plug_ptr_congr _ (fun e => by simp at e)
        · refine rep_plug.2 ?_
          simp only [Rep, RepPath, store_mem, Tree.ptr_nil, Tree.ptr_node, pathPtr_cons, pathPtr_nil,
            plug_nil, Step.addr_L, Step.addr_R] at hrep ⊢
          simp [Function.update_apply, Rep.rep_update, RepPath.path_update, hxy, hyx, hxO, hyO, hxF, hyF, hfx, hfy, hxp, hyp, hf1, hf2, hfT,
            hrep]
      | R fa fc fl fv =>
        have hf := Linked.node_eq (p := p) h
        obtain ⟨hf1, hf2, -, -, -⟩ := nodup_pathAddrs_cons.1 hn1
        simp only [pathAddrs, List.mem_cons, List.mem_append, not_or, Step.addr_R, Step.sib_R]
          at hxp hyp hf1 hf2
        have hfx : fa ≠ x := fun e => hxp.1 e.symm
        have hfy : fa ≠ y := fun e => hyp.1 e.symm
        have hfT := hpB fa (by simp [pathAddrs])
        have hfl : fl.ptr ≠ some x := Tree.ptr_ne_of_not_mem hxp.2.1
        simp [rightRotation, load, hx, hy, hf, setParent, setLeft, setRight, bind, Except.bind,
          pure, Except.pure, Function.update_apply, hxy, hyx, hfx, hfy, hxp.1, hyp.1, hfl]
        refine ⟨⟨?_, ?_, ?_⟩, ⟨?_, ?_, ?_, ?_⟩, by simpa using hperm⟩
        rotate_left 2
        · simpa using hnd'
        · intro a ha
          have h1 := hframe a ha
          simp [Function.update_apply, h1 x (by simp), h1 y (by simp), h1 fa (by simp [pathAddrs])]
        · simp
        · simp
        · simp
        · simp only [store_root]; rw [h.root]; exact plug_ptr_congr _ (fun e => by simp at e)
        · refine rep_plug.2 ?_
          simp only [Rep, RepPath, store_mem, Tree.ptr_nil, Tree.ptr_node, pathPtr_cons, pathPtr_nil,
            plug_nil, Step.addr_L, Step.addr_R] at hrep ⊢
          simp [Function.update_apply, Rep.rep_update, RepPath.path_update, hxy, hyx, hxO, hyO, hxF, hyF, hfx, hfy, hxp, hyp, hf1, hf2, hfT,
            hrep]
  | node b cb BL bv BR =>
    have hb := Linked.node_eq (p := .R y cy C vy :: .L x cx vx A :: p) h
    obtain ⟨hbL, hbR, -, -, -⟩ := nodup_node.1 hnB
    simp only [Tree.addrs, List.mem_cons, List.mem_append, not_or] at hxB hyB
    have hbx : b ≠ x := fun e => hxB.1 e.symm
    have hby : b ≠ y := fun e => hyB.1 e.symm
    have hbO : b ∉ A.addrs := fun hm => hYO b (by simp [Tree.addrs]) hm
    have hbF : b ∉ C.addrs := fun hm => hFB b hm (by simp [Tree.addrs])
    have hbp : b ∉ pathAddrs p := fun hm => hn3 b hm (by simp [Tree.addrs])
    cases p with
    | nil =>
      simp [rightRotation, load, hx, hy, hb, setParent, setLeft, setRight, bind, Except.bind,
        pure, Except.pure, Function.update_apply, hxy, hyx, hbx, hby, hxB.1, hyB.1]
      refine ⟨⟨?_, ?_, ?_⟩, ⟨?_, ?_, ?_, ?_⟩, by simpa using hperm⟩
      rotate_left 2
      · simpa using hnd'
      · intro a ha
        have h1 := hframe a ha
        simp [Function.update_apply, h1 x (by simp), h1 y (by simp), h1 b (by simp [Tree.addrs])]
      · simp
      · simp
      · simp
      · simp
      · simp only [Rep, RepPath, store_mem, Tree.ptr_nil, Tree.ptr_node, pathPtr_cons, pathPtr_nil,
          plug_nil, Step.addr_L, Step.addr_R] at hrep ⊢
        simp [Function.update_apply, Rep.rep_update, RepPath.path_update, hxy, hyx, hxO, hyO, hxF, hyF, hbx, hby, hxB, hyB, hbO, hbF, hbL, hbR,
          hrep]
    | cons f p =>
      cases f with
      | L fa fc fv fr =>
        have hf := Linked.node_eq (p := p) h
        obtain ⟨hf1, hf2, -, -, -⟩ := nodup_pathAddrs_cons.1 hn1
        simp only [pathAddrs, List.mem_cons, List.mem_append, not_or, Step.addr_L, Step.sib_L]
          at hxp hyp hf1 hf2
        have hfx : fa ≠ x := fun e => hxp.1 e.symm
        have hfy : fa ≠ y := fun e => hyp.1 e.symm
        have hfT := hpB fa (by simp [pathAddrs])
        simp only [pathAddrs, List.mem_cons, List.mem_append, not_or, Step.addr_L, Step.sib_L] at hbp
        have hfb : fa ≠ b := fun e => hbp.1 e.symm
        simp only [Tree.addrs, List.mem_cons, List.mem_append, not_or] at hfT
        simp [rightRotation, load, hx, hy, hb, hf, setParent, setLeft, setRight, bind, Except.bind,
          pure, Except.pure, Function.update_apply, hxy, hyx, hbx, hby, hxB.1, hyB.1, hfx, hfy, hxp.1, hyp.1, hfb, hbp.1]
        refine ⟨⟨?_, ?_, ?_⟩, ⟨?_, ?_, ?_, ?_⟩, by simpa using hperm⟩
        rotate_left 2
        · simpa using hnd'
        · intro a ha
          have h1 := hframe a ha
          simp [Function.update_apply, h1 x (by simp), h1 y (by simp), h1 b (by simp [Tree.addrs]), h1 fa (by simp [pathAddrs])]
        · simp
        · simp
        · simp
        · simp only [store_root]; rw [h.root]; exact plug_ptr_congr _ (fun e => by simp at e)
        · refine rep_plug.2 ?_
          simp only [Rep, RepPath, store_mem, Tree.ptr_nil, Tree.ptr_node, pathPtr_cons, pathPtr_nil,
            plug_nil, Step.addr_L, Step.addr_R] at hrep ⊢
          simp [Function.update_apply, Rep.rep_update, RepPath.path_update, hxy, hyx, hxO, hyO, hxF, hyF, hbx, hby, hxB, hyB, hbO, hbF, hbL, hbR, hfx, hfy, hxp, hyp, hf1, hf2, hfT, hfb, hbp,
            hrep]
      | R fa fc fl fv =>
        have hf := Linked.node_eq (p := p) h
        obtain ⟨hf1, hf2, -, -, -⟩ := nodup_pathAddrs_cons.1 hn1
        simp only [pathAddrs, List.mem_cons, List.mem_append, not_or, Step.addr_R, Step.sib_R]
          at hxp hyp hf1 hf2
        have hfx : fa ≠ x := fun e => hxp.1 e.symm
        have hfy : fa ≠ y := fun e => hyp.1 e.symm
        have hfT := hpB fa (by simp [pathAddrs])
        have hfl : fl.ptr ≠ some x := Tree.ptr_ne_of_not_mem hxp.2.1
        simp only [pathAddrs, List.mem_cons, List.mem_append, not_or, Step.addr_R, Step.sib_R] at hbp
        have hfb : fa ≠ b := fun e => hbp.1 e.symm
        simp only [Tree.addrs, List.mem_cons, List.mem_append, not_or] at hfT
        simp [rightRotation, load, hx, hy, hb, hf, setParent, setLeft, setRight, bind, Except.bind,
          pure, Except.pure, Function.update_apply, hxy, hyx, hbx, hby, hxB.1, hyB.1, hfx, hfy, hxp.1, hyp.1, hfl, hfb, hbp.1]
        refine ⟨⟨?_, ?_, ?_⟩, ⟨?_, ?_, ?_, ?_⟩, by simpa using hperm⟩
        rotate_left 2
        · simpa using hnd'
        · intro a ha
          have h1 := hframe a ha
          simp [Function.update_apply, h1 x (by simp), h1 y (by simp), h1 b (by simp [Tree.addrs]), h1 fa (by simp [pathAddrs])]
        · simp
        · simp
        · simp
        · simp only [store_root]; rw [h.root]; exact plug_ptr_congr _ (fun e => by simp at e)
        · refine rep_plug.2 ?_
          simp only [Rep, RepPath, store_mem, Tree.ptr_nil, Tree.ptr_node, pathPtr_cons, pathPtr_nil,
            plug_nil, Step.addr_L, Step.addr_R] at hrep ⊢
          simp [Function.update_apply, Rep.rep_update, RepPath.path_update, hxy, hyx, hxO, hyO, hxF, hyF, hbx, hby, hxB, hyB, hbO, hbF, hbL, hbR, hfx, hfy, hxp, hyp, hf1, hf2, hfT, hfb, hbp,
            hrep]

/-! ## The insertion fix-up refines `fixInsZ` -/

theorem mem_addrs_paint {t : Tree α} {c : Color} {a : Nat} :
    a ∈ (t.paint c).addrs ↔ a ∈ t.addrs := by
  cases t <;> simp [Tree.paint, Tree.addrs]

theorem load_eq {s : RBTree α} {a : Nat} {n : Node α} (h : s.mem a = some n) :
    load s (some a) = .ok n := by
  simp [load, h]

theorem setColor_spec {s : RBTree α} {p : Path α} {a : Nat} {c : Color} {l r : Tree α} {v : α}
    (c' : Color) (h : Linked s (plug p (.node a c l v r))) :
    ∃ s', setColor s (some a) c' = .ok s' ∧
      Evolves s s' (plug p (.node a c l v r)) (plug p (.node a c' l v r)) := by
  refine ⟨_, by simp [setColor, h.node_eq], h.store_focus, ⟨?_, rfl, rfl, rfl⟩,
    addrs_plug_congr p (List.Perm.refl _)⟩
  intro b hb
  have : b ≠ a := fun e => hb (mem_addrs_plug.2 (Or.inr (by simp [e, Tree.addrs])))
  simp [Function.update_apply, this]

theorem setData_spec {s : RBTree α} {p : Path α} {a : Nat} {c : Color} {l r : Tree α} {v : α}
    (v' : α) (h : Linked s (plug p (.node a c l v r))) :
    ∃ s', setData s (some a) v' = .ok s' ∧
      Evolves s s' (plug p (.node a c l v r)) (plug p (.node a c l v' r)) := by
  refine ⟨_, by simp [setData, h.node_eq], h.store_focus, ⟨?_, rfl, rfl, rfl⟩,
    addrs_plug_congr p (List.Perm.refl _)⟩
  intro b hb
  have : b ≠ a := fun e => hb (mem_addrs_plug.2 (Or.inr (by simp [e, Tree.addrs])))
  simp [Function.update_apply, this]

theorem Linked.ptr_ne_sib {s : RBTree α} {p : Path α} {f : Step α} {t : Tree α}
    (h : Linked s (plug (f :: p) t)) (ht : t ≠ .nil) : f.sib.ptr ≠ t.ptr := by
  obtain ⟨-, hn2, -⟩ := nodup_plug_iff.1 (show (plug p (f.fill t)).addrs.Nodup from h.nodup)
  cases t with
  | nil => exact absurd rfl ht
  | node a c l v r =>
    refine Tree.ptr_ne_of_not_mem ?_
    cases f with
    | L fa fc fv fr =>
      obtain ⟨-, -, -, -, h5⟩ := nodup_node.1 hn2
      exact fun hm => h5 a (by simp [Tree.addrs]) hm
    | R fa fc fl fv =>
      obtain ⟨-, -, -, -, h5⟩ := nodup_node.1 hn2
      exact fun hm => h5 a hm (by simp [Tree.addrs])

theorem isRedNode_rep {s : RBTree α} {par : Ptr} {t : Tree α} (h : Rep s.mem par t) :
    isRedNode s t.ptr = .ok t.isRed := by
  cases t with
  | nil => rfl
  | node a c l v r => simp [isRedNode, load, h.1, Tree.isRed, bind, Except.bind, pure, Except.pure]

theorem isBlackOrNull_rep {s : RBTree α} {par : Ptr} {t : Tree α} (h : Rep s.mem par t) :
    isBlackOrNull s t.ptr = .ok t.isBlack := by
  cases t with
  | nil => rfl
  | node a c l v r =>
    simp [isBlackOrNull, load, h.1, Tree.isBlack, bind, Except.bind, pure, Except.pure]

/-- The subtree beside the hole of the innermost step is held by the memory. -/
theorem Linked.rep_sib {s : RBTree α} {p : Path α} {f : Step α} {t : Tree α}
    (h : Linked s (plug (f :: p) t)) : Rep s.mem (some f.addr) f.sib := by
  have := (rep_plug.1 h.rep).1
  cases f with
  | L a c v r => exact this.2.1
  | R a c l v => exact this.2.1

theorem Linked.rep_focus {s : RBTree α} {p : Path α} {t : Tree α}
    (h : Linked s (plug p t)) : Rep s.mem (pathPtr p) t :=
  (rep_plug.1 h.rep).2

theorem fixInsert_sim (fuel : Nat) :
    ∀ (p : Path α) (t t' : Tree α) (s : RBTree α), p.length < fuel →
      Linked s (plug p t) → fixInsZ p t = some t' →
      ∃ s', fixInsertToRBTree fuel s t.ptr = .ok s' ∧ Evolves s s' (plug p t) t' := by
  induction fuel with
  | zero => intro p t t' s h; simp at h
  | succ fuel ih =>
    intro p t t' s hlen hl hz
    cases t with
    | nil => simp [fixInsZ] at hz
    | node n c l v r =>
      have hn := hl.node_eq
      cases p with
      | nil =>
        simp only [fixInsZ, Option.some.injEq] at hz
        subst hz
        obtain ⟨s1, e1, v1⟩ := setColor_spec (p := []) .BLACK hl
        refine ⟨s1, ?_, v1⟩
        simp [fixInsertToRBTree, getGrandpa, getUncle, getBrother, load_eq hn, bind, Except.bind,
          pure, Except.pure]
        exact e1
      | cons f p =>
        cases p with
        | nil =>
          cases f with
          | L pa pc pv pr =>
            have hp := Linked.node_eq (p := []) hl
            simp only [fixInsZ, Step.color] at hz
            split at hz
            · rename_i hc
              simp only [Option.some.injEq] at hz
              subst hz
              refine ⟨s, ?_, Evolves.stay hl⟩
              simp [fixInsertToRBTree, getGrandpa, getUncle, getBrother, load_eq hn, load_eq hp,
                bind, Except.bind, pure, Except.pure, hc]
            · simp at hz
          | R pa pc pl pv =>
            have hp := Linked.node_eq (p := []) hl
            simp only [fixInsZ, Step.color] at hz
            split at hz
            · rename_i hc
              simp only [Option.some.injEq] at hz
              subst hz
              refine ⟨s, ?_, Evolves.stay hl⟩
              simp [fixInsertToRBTree, getGrandpa, getUncle, getBrother, load_eq hn, load_eq hp,
                bind, Except.bind, pure, Except.pure, hc]
            · simp at hz
        | cons g rest =>
          cases f with
          | L pa pc pv pr =>
            cases g with
            | L ga gc gv u =>
              have hp := Linked.node_eq (p := .L ga gc gv u :: rest) hl
              have hg := Linked.node_eq (p := rest) hl
              have hu := isRedNode_rep (Linked.rep_sib (p := rest) (f := .L ga gc gv u) hl)
              have hne1 := Linked.ptr_ne_sib (f := .L pa pc pv pr) (p := .L ga gc gv u :: rest) hl (by simp)
              have hne2 := Linked.ptr_ne_sib (f := .L ga gc gv u) (p := rest) hl (by simp [Step.fill])
              simp only [Step.sib_L, Step.sib_R, Step.fill, Tree.ptr_node] at hu hne1 hne2
              simp only [fixInsZ, Step.color] at hz
              by_cases hc : pc = .BLACK
              · subst hc
                simp only [if_true, Option.some.injEq] at hz
                subst hz
                refine ⟨s, ?_, Evolves.stay hl⟩
                simp [fixInsertToRBTree, getGrandpa, getUncle, getBrother, load_eq hn, load_eq hp, load_eq hg, hu,
                  bind, Except.bind, pure, Except.pure, hne1, hne2]
              · simp only [hc, if_false] at hz
                by_cases hr : u.isRed = true
                · obtain ⟨ua, ul, uv, ur, rfl⟩ : ∃ ua ul uv ur, u = .node ua .RED ul uv ur := by
                    cases u with
                    | nil => simp [Tree.isRed] at hr
                    | node ua uc ul uv ur =>
                      simp only [Tree.isRed, decide_eq_true_eq] at hr
                      exact ⟨ua, ul, uv, ur, by rw [hr]⟩
                  simp only [Tree.ptr_node] at hu hne2
                  simp only [hr, Step.sib_L, Step.sib_R, if_true, Step.paint, Step.paintSib, Step.fill, Tree.paint] at hz
                  obtain ⟨s1, e1, v1⟩ := setColor_spec (p := .L ga gc gv (.node ua .RED ul uv ur) :: rest) .BLACK hl
                  obtain ⟨s2, e2, v2⟩ := setColor_spec (p := .R ga gc (.node pa .BLACK (.node n c l v r) pv pr) gv :: rest) .BLACK v1.linked
                  obtain ⟨s3, e3, v3⟩ := setColor_spec (p := rest) .RED v2.linked
                  obtain ⟨s4, e4, v4⟩ := ih rest _ t' s3
                    (by simp only [List.length_cons] at hlen; omega) v3.linked hz
                  refine ⟨s4, ?_, ((v1.next v2).next v3).next v4⟩
                  simp [fixInsertToRBTree, getGrandpa, getUncle, getBrother, load_eq hn, load_eq hp, load_eq hg, hu,
                    bind, Except.bind, pure, Except.pure, hne1, hne2, hc, hr, e1, e2, e3]
                  exact e4
                · simp only [hr, Step.sib_L, Step.sib_R, Option.some.injEq, Bool.false_eq_true, if_false] at hz
                  subst hz
                  obtain ⟨s1, e1, v1⟩ := rightRotation_spec (p := rest) hl
                  obtain ⟨s2, e2, v2⟩ := setColor_spec (p := rest) .BLACK v1.linked
                  obtain ⟨s3, e3, v3⟩ := setColor_spec (p := .R pa .BLACK (.node n c l v r) pv :: rest) .RED v2.linked
                  refine ⟨s3, ?_, ((v1).next v2).next v3⟩
                  simp [fixInsertToRBTree, getGrandpa, getUncle, getBrother, load_eq hn, load_eq hp, load_eq hg, hu,
                    bind, Except.bind, pure, Except.pure, hne1, hne2, hc, hr, e1, e2]
                  exact e3
            | R ga gc u gv =>
              have hp := Linked.node_eq (p := .R ga gc u gv :: rest) hl
              have hg := Linked.node_eq (p := rest) hl
              have hu := isRedNode_rep (Linked.rep_sib (p := rest) (f := .R ga gc u gv) hl)
              have hne1 := Linked.ptr_ne_sib (f := .L pa pc pv pr) (p := .R ga gc u gv :: rest) hl (by simp)
              have hne2 := Linked.ptr_ne_sib (f := .R ga gc u gv) (p := rest) hl (by simp [Step.fill])
              simp only [Step.sib_L, Step.sib_R, Step.fill, Tree.ptr_node] at hu hne1 hne2
              simp only [fixInsZ, Step.color] at hz
              by_cases hc : pc = .BLACK
              · subst hc
                simp only [if_true, Option.some.injEq] at hz
                subst hz
                refine ⟨s, ?_, Evolves.stay hl⟩
                simp [fixInsertToRBTree, getGrandpa, getUncle, getBrother, load_eq hn, load_eq hp, load_eq hg, hu,
                  bind, Except.bind, pure, Except.pure, hne1, hne2]
              · simp only [hc, if_false] at hz
                by_cases hr : u.isRed = true
                · obtain ⟨ua, ul, uv, ur, rfl⟩ : ∃ ua ul uv ur, u = .node ua .RED ul uv ur := by
                    cases u with
                    | nil => simp [Tree.isRed] at hr
                    | node ua uc ul uv ur =>
                      simp only [Tree.isRed, decide_eq_true_eq] at hr
                      exact ⟨ua, ul, uv, ur, by rw [hr]⟩
                  simp only [Tree.ptr_node] at hu hne2
                  simp only [hr, Step.sib_L, Step.sib_R, if_true, Step.paint, Step.paintSib, Step.fill, Tree.paint] at hz
                  obtain ⟨s1, e1, v1⟩ := setColor_spec (p := .R ga gc (.node ua .RED ul uv ur) gv :: rest) .BLACK hl
                  obtain ⟨s2, e2, v2⟩ := setColor_spec (p := .L ga gc gv (.node pa .BLACK (.node n c l v r) pv pr) :: rest) .BLACK v1.linked
                  obtain ⟨s3, e3, v3⟩ := setColor_spec (p := rest) .RED v2.linked
                  obtain ⟨s4, e4, v4⟩ := ih rest _ t' s3
                    (by simp only [List.length_cons] at hlen; omega) v3.linked hz
                  refine ⟨s4, ?_, ((v1.next v2).next v3).next v4⟩
                  simp [fixInsertToRBTree, getGrandpa, getUncle, getBrother, load_eq hn, load_eq hp, load_eq hg, hu,
                    bind, Except.bind, pure, Except.pure, hne1, hne2, hc, hr, e1, e2, e3]
                  exact e4
                · simp only [hr, Step.sib_L, Step.sib_R, Option.some.injEq, Bool.false_eq_true, if_false] at hz
                  subst hz
                  obtain ⟨s1, e1, v1⟩ := rightRotation_spec (p := .R ga gc u gv :: rest) hl
                  obtain ⟨s2, e2, v2⟩ := leftRotation_spec (p := rest) v1.linked
                  obtain ⟨s3, e3, v3⟩ := setColor_spec (p := rest) .BLACK v2.linked
                  obtain ⟨s4, e4, v4⟩ := setColor_spec
                    (p := .L n .BLACK v (.node pa pc r pv pr) :: rest) .RED v3.linked
                  refine ⟨s4, ?_, (((v1).next v2).next v3).next v4⟩
                  simp [fixInsertToRBTree, getGrandpa, getUncle, getBrother, load_eq hn, load_eq hp, load_eq hg, hu,
                    bind, Except.bind, pure, Except.pure, hne1, hne2, hc, hr, e1, e2, e3]
                  exact e4
          | R pa pc pl pv =>
            cases g with
            | L ga gc gv u =>
              have hp := Linked.node_eq (p := .L ga gc gv u :: rest) hl
              have hg := Linked.node_eq (p := rest) hl
              have hu := isRedNode_rep (Linked.rep_sib (p := rest) (f := .L ga gc gv u) hl)
              have hne1 := Linked.ptr_ne_sib (f := .R pa pc pl pv) (p := .L ga gc gv u :: rest) hl (by simp)
              have hne2 := Linked.ptr_ne_sib (f := .L ga gc gv u) (p := rest) hl (by simp [Step.fill])
              simp only [Step.sib_L, Step.sib_R, Step.fill, Tree.ptr_node] at hu hne1 hne2
              simp only [fixInsZ, Step.color] at hz
              by_cases hc : pc = .BLACK
              · subst hc
                simp only [if_true, Option.some.injEq] at hz
                subst hz
                refine ⟨s, ?_, Evolves.stay hl⟩
                simp [fixInsertToRBTree, getGrandpa, getUncle, getBrother, load_eq hn, load_eq hp, load_eq hg, hu,
                  bind, Except.bind, pure, Except.pure, hne1, hne2]
              · simp only [hc, if_false] at hz
                by_cases hr : u.isRed = true
                · obtain ⟨ua, ul, uv, ur, rfl⟩ : ∃ ua ul uv ur, u = .node ua .RED ul uv ur := by
                    cases u with
                    | nil => simp [Tree.isRed] at hr
                    | node ua uc ul uv ur =>
                      simp only [Tree.isRed, decide_eq_true_eq] at hr
                      exact ⟨ua, ul, uv, ur, by rw [hr]⟩
                  simp only [Tree.ptr_node] at hu hne2
                  simp only [hr, Step.sib_L, Step.sib_R, if_true, Step.paint, Step.paintSib, Step.fill, Tree.paint] at hz
                  obtain ⟨s1, e1, v1⟩ := setColor_spec (p := .L ga gc gv (.node ua .RED ul uv ur) :: rest) .BLACK hl
                  obtain ⟨s2, e2, v2⟩ := setColor_spec (p := .R ga gc (.node pa .BLACK pl pv (.node n c l v r)) gv :: rest) .BLACK v1.linked
                  obtain ⟨s3, e3, v3⟩ := setColor_spec (p := rest) .RED v2.linked
                  obtain ⟨s4, e4, v4⟩ := ih rest _ t' s3
                    (by simp only [List.length_cons] at hlen; omega) v3.linked hz
                  refine ⟨s4, ?_, ((v1.next v2).next v3).next v4⟩
                  simp [fixInsertToRBTree, getGrandpa, getUncle, getBrother, load_eq hn, load_eq hp, load_eq hg, hu,
                    bind, Except.bind, pure, Except.pure, hne1, hne2, hc, hr, e1, e2, e3]
                  exact e4
                · simp only [hr, Step.sib_L, Step.sib_R, Option.some.injEq, Bool.false_eq_true, if_false] at hz
                  subst hz
                  obtain ⟨s1, e1, v1⟩ := leftRotation_spec (p := .L ga gc gv u :: rest) hl
                  obtain ⟨s2, e2, v2⟩ := rightRotation_spec (p := rest) v1.linked
                  obtain ⟨s3, e3, v3⟩ := setColor_spec (p := rest) .BLACK v2.linked
                  obtain ⟨s4, e4, v4⟩ := setColor_spec
                    (p := .R n .BLACK (.node pa pc pl pv l) v :: rest) .RED v3.linked
                  refine ⟨s4, ?_, (((v1).next v2).next v3).next v4⟩
                  simp [fixInsertToRBTree, getGrandpa, getUncle, getBrother, load_eq hn, load_eq hp, load_eq hg, hu,
                    bind, Except.bind, pure, Except.pure, hne1, hne2, hc, hr, e1, e2, e3]
                  exact e4
            | R ga gc u gv =>
              have hp := Linked.node_eq (p := .R ga gc u gv :: rest) hl
              have hg := Linked.node_eq (p := rest) hl
              have hu := isRedNode_rep (Linked.rep_sib (p := rest) (f := .R ga gc u gv) hl)
              have hne1 := Linked.ptr_ne_sib (f := .R pa pc pl pv) (p := .R ga gc u gv :: rest) hl (by simp)
              have hne2 := Linked.ptr_ne_sib (f := .R ga gc u gv) (p := rest) hl (by simp [Step.fill])
              simp only [Step.sib_L, Step.sib_R, Step.fill, Tree.ptr_node] at hu hne1 hne2
              simp only [fixInsZ, Step.color] at hz
              by_cases hc : pc = .BLACK
              · subst hc
                simp only [if_true, Option.some.injEq] at hz
                subst hz
                refine ⟨s, ?_, Evolves.stay hl⟩
                simp [fixInsertToRBTree, getGrandpa, getUncle, getBrother, load_eq hn, load_eq hp, load_eq hg, hu,
                  bind, Except.bind, pure, Except.pure, hne1, hne2]
              · simp only [hc, if_false] at hz
                by_cases hr : u.isRed = true
                · obtain ⟨ua, ul, uv, ur, rfl⟩ : ∃ ua ul uv ur, u = .node ua .RED ul uv ur := by
                    cases u with
                    | nil => simp [Tree.isRed] at hr
                    | node ua uc ul uv ur =>
                      simp only [Tree.isRed, decide_eq_true_eq] at hr
                      exact ⟨ua, ul, uv, ur, by rw [hr]⟩
                  simp only [Tree.ptr_node] at hu hne2
                  simp only [hr, Step.sib_L, Step.sib_R, if_true, Step.paint, Step.paintSib, Step.fill, Tree.paint] at hz
                  obtain ⟨s1, e1, v1⟩ := setColor_spec (p := .R ga gc (.node ua .RED ul uv ur) gv :: rest) .BLACK hl
                  obtain ⟨s2, e2, v2⟩ := setColor_spec (p := .L ga gc gv (.node pa .BLACK pl pv (.node n c l v r)) :: rest) .BLACK v1.linked
                  obtain ⟨s3, e3, v3⟩ := setColor_spec (p := rest) .RED v2.linked
                  obtain ⟨s4, e4, v4⟩ := ih rest _ t' s3
                    (by simp only [List.length_cons] at hlen; omega) v3.linked hz
                  refine ⟨s4, ?_, ((v1.next v2).next v3).next v4⟩
                  simp [fixInsertToRBTree, getGrandpa, getUncle, getBrother, load_eq hn, load_eq hp, load_eq hg, hu,
                    bind, Except.bind, pure, Except.pure, hne1, hne2, hc, hr, e1, e2, e3]
                  exact e4
                · simp only [hr, Step.sib_L, Step.sib_R, Option.some.injEq, Bool.false_eq_true, if_false] at hz
                  subst hz
                  obtain ⟨s1, e1, v1⟩ := leftRotation_spec (p := rest) hl
                  obtain ⟨s2, e2, v2⟩ := setColor_spec (p := rest) .BLACK v1.linked
                  obtain ⟨s3, e3, v3⟩ := setColor_spec (p := .L pa .BLACK pv (.node n c l v r) :: rest) .RED v2.linked
                  refine ⟨s3, ?_, ((v1).next v2).next v3⟩
                  simp [fixInsertToRBTree, getGrandpa, getUncle, getBrother, load_eq hn, load_eq hp, load_eq hg, hu,
                    bind, Except.bind, pure, Except.pure, hne1, hne2, hc, hr, e1, e2]
                  exact e3

/-! ## Descent: `insertToNormalBst` and `findXNormalBST` -/

theorem Rep.mem_ne_none {mem : Nat → Option (Node α)} {par : Ptr} {t : Tree α} {a : Nat}
    (h : Rep mem par t) (ha : a ∈ t.addrs) : mem a ≠ none := by
  induction t generalizing par with
  | nil => simp [Tree.addrs] at ha
  | node b c l v r ihl ihr =>
    simp only [Tree.addrs, List.mem_cons, List.mem_append] at ha
    rcases ha with rfl | ha | ha
    · rw [h.1]; simp
    · exact ihl h.2.1 ha
    · exact ihr h.2.2 ha

theorem Linked.not_mem_of_free {s : RBTree α} {t : Tree α} {a : Nat} (h : Linked s t)
    (ha : s.mem a = none) : a ∉ t.addrs :=
  fun hm => h.rep.mem_ne_none hm ha

/-- Hanging a newly created red node into an absent position. -/
theorem linkLeaf_spec {s : RBTree α} {p : Path α} {a : Nat} (fuel : Nat) (d : α)
    (h : Linked s (plug p .nil)) (ha : s.mem a = none) :
    ∃ s', insertToNormalBst (fuel + 1) (some s) (pathPtr p) (pathLink p) d (some a)
        = .ok (some a, some s') ∧
      Linked s' (plug p (.node a .RED .nil d .nil)) ∧
      s'.size = s.size ∧ s'.freed = s.freed ∧ s'.compFunc = s.compFunc ∧
      ∀ b, b ≠ a → s.mem b = none → s'.mem b = none := by
  have hfree := h.not_mem_of_free ha
  have hap : a ∉ pathAddrs p := fun hm => hfree (mem_addrs_plug.2 (Or.inl hm))
  obtain ⟨hn1, -, -⟩ := nodup_plug_iff.1 h.nodup
  have hrep := (rep_plug.1 h.rep).1
  have hnd : (plug p (.node a .RED .nil d .nil)).addrs.Nodup := by
    refine nodup_plug_iff.2 ⟨hn1, by simp [Tree.addrs], ?_⟩
    intro b hb hb'
    simp only [Tree.addrs, List.append_nil, List.mem_singleton] at hb'
    exact hap (hb' ▸ hb)
  cases p with
  | nil =>
    have hroot : s.root = none := h.root
    simp [insertToNormalBst, readLink, writeLink, createNode, setParent, hroot, bind,
      Except.bind, pure, Except.pure, pathLink]
    refine ⟨⟨rfl, ?_, by simpa using hnd⟩, ?_⟩
    · simp [Rep, plug]
    · intro b hb hn
      simp [Function.update_apply, hb, hn]
  | cons f p =>
    cases f with
    | L fa fc fv fr =>
      have hf := Linked.node_eq (p := p) h
      obtain ⟨hf1, hf2, -, -, -⟩ := nodup_pathAddrs_cons.1 hn1
      simp only [pathAddrs, List.mem_cons, List.mem_append, not_or, Step.addr_L, Step.sib_L]
        at hap hf1 hf2
      have hfa : fa ≠ a := fun e => hap.1 e.symm
      simp [insertToNormalBst, readLink, writeLink, createNode, setParent, setLeft, load, hf,
        bind, Except.bind, pure, Except.pure, pathLink, Step.link, Function.update_apply, hfa,
        hap.1]
      refine ⟨⟨?_, ?_, by simpa using hnd⟩, ?_⟩
      · simp only [store_root]; rw [h.root]; exact plug_ptr_congr _ (fun e => by simp at e)
      · refine rep_plug.2 ?_
        simp only [Rep, RepPath, store_mem, Tree.ptr_nil, Tree.ptr_node, pathPtr_cons,
          Step.addr_L] at hrep ⊢
        simp [Function.update_apply, Rep.rep_update, RepPath.path_update, hfa, hap, hf1, hf2, hrep]
      · intro b hb hn
        have hbf : b ≠ fa := fun e => by rw [e, hf] at hn; simp at hn
        simp [Function.update_apply, hb, hbf, hn]
    | R fa fc fl fv =>
      have hf := Linked.node_eq (p := p) h
      obtain ⟨hf1, hf2, -, -, -⟩ := nodup_pathAddrs_cons.1 hn1
      simp only [pathAddrs, List.mem_cons, List.mem_append, not_or, Step.addr_R, Step.sib_R]
        at hap hf1 hf2
      have hfa : fa ≠ a := fun e => hap.1 e.symm
      simp [insertToNormalBst, readLink, writeLink, createNode, setParent, setRight, load, hf,
        bind, Except.bind, pure, Except.pure, pathLink, Step.link, Function.update_apply, hfa,
        hap.1]
      refine ⟨⟨?_, ?_, by simpa using hnd⟩, ?_⟩
      · simp only [store_root]; rw [h.root]; exact plug_ptr_congr _ (fun e => by simp at e)
      · refine rep_plug.2 ?_
        simp only [Rep, RepPath, store_mem, Tree.ptr_nil, Tree.ptr_node, pathPtr_cons,
          Step.addr_R] at hrep ⊢
        simp [Function.update_apply, Rep.rep_update, RepPath.path_update, hfa, hap, hf1, hf2, hrep]
      · intro b hb hn
        have hbf : b ≠ fa := fun e => by rw [e, hf] at hn; simp at hn
        simp [Function.update_apply, hb, hbf, hn]

theorem readLink_eq {s : RBTree α} {p : Path α} {t : Tree α} (h : Linked s (plug p t)) :
    readLink s (pathLink p) = .ok t.ptr := by
  cases p with
  | nil => simp [readLink, pathLink, h.root]
  | cons f p =>
    cases f with
    | L fa fc fv fr =>
      have hf := Linked.node_eq (p := p) h
      simp [readLink, pathLink, Step.link, load, hf, bind, Except.bind, pure, Except.pure]
    | R fa fc fl fv =>
      have hf := Linked.node_eq (p := p) h
      simp [readLink, pathLink, Step.link, load, hf, bind, Except.bind, pure, Except.pure]

theorem insertToNormalBst_sim (d : α) (a : Nat) :
    ∀ (t : Tree α) (fuel : Nat) (p : Path α) (s : RBTree α), t.height < fuel →
      Linked s (plug p t) → s.mem a = none →
      (∀ p', descend s.compFunc d t p = (p', .nil) →
        ∃ s', insertToNormalBst fuel (some s) (pathPtr p) (pathLink p) d (some a)
            = .ok (some a, some s') ∧
          Linked s' (plug p' (.node a .RED .nil d .nil)) ∧
          s'.size = s.size ∧ s'.freed = s.freed ∧ s'.compFunc = s.compFunc ∧
          ∀ b, b ≠ a → s.mem b = none → s'.mem b = none) ∧
      (∀ p' b c l v r, descend s.compFunc d t p = (p', .node b c l v r) →
        insertToNormalBst fuel (some s) (pathPtr p) (pathLink p) d (some a)
          = .ok (none, some s)) := by
  intro t
  induction t with
  | nil =>
    intro fuel p s hf hl ha
    obtain ⟨fuel, rfl⟩ : ∃ k, fuel = k + 1 := ⟨fuel - 1, by simp [Tree.height] at hf; omega⟩
    refine ⟨?_, ?_⟩
    · intro p' hd
      simp only [descend, Prod.mk.injEq, and_true] at hd
      subst hd
      exact linkLeaf_spec fuel d hl ha
    · intro p' b c l v r hd
      simp [descend] at hd
  | node x cx l v r ihl ihr =>
    intro fuel p s hf hl ha
    obtain ⟨fuel, rfl⟩ : ∃ k, fuel = k + 1 := ⟨fuel - 1, by simp [Tree.height] at hf; omega⟩
    simp only [Tree.height] at hf
    have hx := hl.node_eq
    have hrd := readLink_eq hl
    simp only [Tree.ptr_node] at hrd
    by_cases h0 : s.compFunc d v = 0
    · refine ⟨?_, ?_⟩
      · intro p' hd
        simp [descend, h0] at hd
      · intro p' b c l' v' r' _
        simp [insertToNormalBst, hrd, load_eq hx, h0, bind, Except.bind, pure, Except.pure]
    · by_cases h1 : s.compFunc d v > 0
      · have := ihr fuel (.R x cx l v :: p) s (by omega) hl ha
        simp only [descend, h0, h1, if_true, if_false] 
        simp only [insertToNormalBst, hrd, load_eq hx, h0, h1, bind, Except.bind, pure,
          Except.pure, if_true, if_false]
        exact this
      · have := ihl fuel (.L x cx v r :: p) s (by omega) hl ha
        simp only [descend, h0, h1, if_true, if_false] 
        simp only [insertToNormalBst, hrd, load_eq hx, h0, h1, bind, Except.bind, pure,
          Except.pure, if_true, if_false]
        exact this

theorem findXNormalBST_sim (s : RBTree α) (d : α) :
    ∀ (t : Tree α) (fuel : Nat) (par : Ptr) (p : Path α), t.height < fuel → Rep s.mem par t →
      findXNormalBST fuel s t.ptr (some d) = .ok (descend s.compFunc d t p).2.ptr := by
  intro t
  induction t with
  | nil =>
    intro fuel par p hf _
    obtain ⟨fuel, rfl⟩ : ∃ k, fuel = k + 1 := ⟨fuel - 1, by simp [Tree.height] at hf; omega⟩
    simp [findXNormalBST, descend, pure, Except.pure]
  | node x cx l v r ihl ihr =>
    intro fuel par p hf hr
    obtain ⟨fuel, rfl⟩ : ∃ k, fuel = k + 1 := ⟨fuel - 1, by simp [Tree.height] at hf; omega⟩
    simp only [Tree.height] at hf
    have hx := hr.1
    by_cases h0 : s.compFunc d v = 0
    · simp [findXNormalBST, descend, load_eq hx, h0, bind, Except.bind, pure, Except.pure]
    · by_cases h1 : s.compFunc d v > 0
      · simp only [findXNormalBST, Tree.ptr_node, descend, load_eq hx, h0, h1, bind, Except.bind,
          if_true, if_false]
        exact ihr fuel _ _ (by omega) hr.2.2
      · simp only [findXNormalBST, Tree.ptr_node, descend, load_eq hx, h0, h1, bind, Except.bind,
          if_true, if_false]
        exact ihl fuel _ _ (by omega) hr.2.1

/-! ## The deletion fix-up refines `delFixZ` -/

theorem Linked.sib_ptr_ne {s : RBTree α} {p : Path α} {f : Step α} {t : Tree α}
    (h : Linked s (plug (f :: p) t)) (hs : f.sib ≠ .nil) : f.sib.ptr ≠ t.ptr := by
  cases t with
  | nil =>
    cases hf : f.sib with
    | nil => exact absurd hf hs
    | node a c l v r => simp
  | node a c l v r => exact h.ptr_ne_sib (by simp)

theorem nodeAndthoSunsAreBlack_rep {s : RBTree α} {par : Ptr} {a : Nat} {c : Color}
    {l r : Tree α} {v : α} (h : Rep s.mem par (.node a c l v r)) :
    nodeAndthoSunsAreBlack s (some a)
      = .ok (decide (c = .BLACK) && (l.isBlack && r.isBlack)) := by
  have hl := isBlackOrNull_rep h.2.1
  have hr := isBlackOrNull_rep h.2.2
  simp only [nodeAndthoSunsAreBlack, load_eq h.1, andAlso, bind, Except.bind, pure, Except.pure,
    hl, hr]
  cases c <;> cases l.isBlack <;> cases r.isBlack <;> simp

theorem theColorOfchildrenAre_rep {s : RBTree α} {par : Ptr} {a : Nat} {c : Color}
    {l r : Tree α} {v : α} (h : Rep s.mem par (.node a c l v r)) :
    ∃ k, theColorOfchildrenAre s (some a) = .ok k ∧
      (k = 2 ↔ (r.isBlack = true ∧ l.isRed = true)) ∧
      (k = 1 ↔ (l.isBlack = true ∧ r.isRed = true)) := by
  have hl := isBlackOrNull_rep h.2.1
  have hr := isBlackOrNull_rep h.2.2
  have hl' := isRedNode_rep h.2.1
  have hr' := isRedNode_rep h.2.2
  have e1 := Tree.isRed_eq_not_isBlack l
  have e2 := Tree.isRed_eq_not_isBlack r
  simp only [theColorOfchildrenAre, load_eq h.1, andAlso, bind, Except.bind, pure, Except.pure,
    hl, hr, hl', hr']
  cases hlb : l.isBlack <;> cases hrb : r.isBlack <;> cases hlr : l.isRed <;>
    cases hrr : r.isRed <;> simp_all

theorem deleteLevel6_simL {s : RBTree α} {rest : Path α} {pa : Nat} {pc : Color} {pv : α}
    {S t u : Tree α} (h : Linked s (plug (.L pa pc pv S :: rest) t))
    (hz : del6L pa pc pv t S = some u) :
    ∃ s', deleteLevel6 s t.ptr (some pa) = .ok s' ∧
      Evolves s s' (plug (.L pa pc pv S :: rest) t) (plug rest u) := by
  cases S with
  | nil => simp [del6L] at hz
  | node sa sc sl sv sr =>
    cases sr with
    | nil => simp [del6L] at hz
    | node ra rc rl rv rr =>
      simp only [del6L, Option.some.injEq] at hz
      subst hz
      have hp := Linked.node_eq (p := rest) h
      obtain ⟨s1, e1, v1⟩ := setColor_spec (p := .R pa pc t pv :: rest) pc h
      obtain ⟨s2, e2, v2⟩ := setColor_spec (p := rest) .BLACK v1.linked
      have hp2 := Linked.node_eq (p := rest) v2.linked
      have hs2 := Linked.node_eq (p := .R pa .BLACK t pv :: rest) v2.linked
      obtain ⟨s3, e3, v3⟩ := setColor_spec
        (p := .R sa pc sl sv :: .R pa .BLACK t pv :: rest) .BLACK v2.linked
      obtain ⟨s4, e4, v4⟩ := leftRotation_spec (p := rest) v3.linked
      refine ⟨s4, ?_, ((v1.next v2).next v3).next v4⟩
      simp [deleteLevel6, siblingOf, load_eq hp, load_eq hp2, load_eq hs2, bind, Except.bind,
        pure, Except.pure, Step.fill, e1, e2, e3]
      exact e4

theorem deleteLevel6_simR {s : RBTree α} {rest : Path α} {pa : Nat} {pc : Color} {pv : α}
    {S t u : Tree α} (h : Linked s (plug (.R pa pc S pv :: rest) t))
    (hz : del6R pa pc pv t S = some u) :
    ∃ s', deleteLevel6 s t.ptr (some pa) = .ok s' ∧
      Evolves s s' (plug (.R pa pc S pv :: rest) t) (plug rest u) := by
  cases S with
  | nil => simp [del6R] at hz
  | node sa sc sl sv sr =>
    cases sl with
    | nil => simp [del6R] at hz
    | node la lc ll lv lr =>
      simp only [del6R, Option.some.injEq] at hz
      subst hz
      have hne := Linked.sib_ptr_ne h (by simp)
      simp only [Step.sib_R, Tree.ptr_node] at hne
      have hp := Linked.node_eq (p := rest) h
      obtain ⟨s1, e1, v1⟩ := setColor_spec (p := .L pa pc pv t :: rest) pc h
      obtain ⟨s2, e2, v2⟩ := setColor_spec (p := rest) .BLACK v1.linked
      have hp2 := Linked.node_eq (p := rest) v2.linked
      have hs2 := Linked.node_eq (p := .L pa .BLACK pv t :: rest) v2.linked
      obtain ⟨s3, e3, v3⟩ := setColor_spec
        (p := .L sa pc sv sr :: .L pa .BLACK pv t :: rest) .BLACK v2.linked
      obtain ⟨s4, e4, v4⟩ := rightRotation_spec (p := rest) v3.linked
      refine ⟨s4, ?_, ((v1.next v2).next v3).next v4⟩
      simp [deleteLevel6, siblingOf, load_eq hp, load_eq hp2, load_eq hs2, bind, Except.bind,
        pure, Except.pure, Step.fill, e1, e2, e3, hne]
      exact e4

theorem Tree.isRed_iff {t : Tree α} :
    t.isRed = true ↔ ∃ a l v r, t = .node a .RED l v r := by
  cases t with
  | nil => simp
  | node a c l v r =>
    cases c <;> simp

theorem del5L_of_not {sa : Nat} {sc : Color} {sl sr : Tree α} {sv : α}
    (h : ¬ (sc = .BLACK ∧ sr.isBlack = true ∧ sl.isRed = true)) :
    del5L (.node sa sc sl sv sr) = .node sa sc sl sv sr := by
  cases sl with
  | nil => simp [del5L]
  | node la lc ll lv lr =>
    cases lc with
    | BLACK => simp [del5L]
    | RED =>
      simp only [del5L, ite_eq_right_iff]
      intro hc
      exact absurd ⟨hc.1, hc.2, by simp⟩ h

theorem del5R_of_not {sa : Nat} {sc : Color} {sl sr : Tree α} {sv : α}
    (h : ¬ (sc = .BLACK ∧ sl.isBlack = true ∧ sr.isRed = true)) :
    del5R (.node sa sc sl sv sr) = .node sa sc sl sv sr := by
  cases sr with
  | nil => simp [del5R]
  | node ra rc rl rv rr =>
    cases rc with
    | BLACK => simp [del5R]
    | RED =>
      simp only [del5R, ite_eq_right_iff]
      intro hc
      exact absurd ⟨hc.1, hc.2, by simp⟩ h

theorem deleteLevel5_simL {s : RBTree α} {rest : Path α} {pa : Nat} {pc : Color} {pv : α}
    {S t u : Tree α} (h : Linked s (plug (.L pa pc pv S :: rest) t))
    (hz : del6L pa pc pv t (del5L S) = some u) :
    ∃ s', deleteLevel5 s t.ptr (some pa) = .ok s' ∧
      Evolves s s' (plug (.L pa pc pv S :: rest) t) (plug rest u) := by
  cases S with
  | nil => simp [del5L, del6L] at hz
  | node sa sc sl sv sr =>
    have hp := Linked.node_eq (p := rest) h
    have hS := Linked.rep_sib h
    simp only [Step.sib_L, Step.addr_L] at hS
    have hb := isBlackOrNull_rep hS
    obtain ⟨k, hk, hk2, hk1⟩ := theColorOfchildrenAre_rep hS
    have hne := Linked.sib_ptr_ne h (by simp)
    simp only [Step.sib_L, Tree.ptr_node, Tree.isBlack_node] at hne hb
    by_cases hcond : sc = .BLACK ∧ sr.isBlack = true ∧ sl.isRed = true
    · obtain ⟨hsc, hsr, hsl⟩ := hcond
      have hk2' : k = 2 := hk2.2 ⟨hsr, hsl⟩
      obtain ⟨la, ll, lv, lr, rfl⟩ := Tree.isRed_iff.1 hsl
      subst hsc
      simp only [del5L, hsr, and_self, if_true] at hz
      obtain ⟨s1, e1, v1⟩ := setColor_spec (p := .R pa pc t pv :: rest) .RED h
      have hs1 := Linked.node_eq (p := .R pa pc t pv :: rest) v1.linked
      obtain ⟨s2, e2, v2⟩ := setColor_spec
        (p := .L sa .RED sv sr :: .R pa pc t pv :: rest) .BLACK v1.linked
      obtain ⟨s3, e3, v3⟩ := rightRotation_spec (p := .R pa pc t pv :: rest) v2.linked
      obtain ⟨s4, e4, v4⟩ := @deleteLevel6_simL _ _ rest _ _ _ _ _ _ v3.linked hz
      refine ⟨s4, ?_, ((v1.next v2).next v3).next v4⟩
      simp [deleteLevel5, siblingOf, load_eq hp, load_eq hs1, hb, hk, hk2', andAlso, bind,
        Except.bind, pure, Except.pure, Step.fill, e1, e2, e3]
      exact e4
    · rw [del5L_of_not hcond] at hz
      obtain ⟨s4, e4, v4⟩ := @deleteLevel6_simL _ _ rest _ _ _ _ _ _ h hz
      refine ⟨s4, ?_, v4⟩
      by_cases hsc : sc = .BLACK
      · have h2 : ¬ (k = 2) := fun h2 => hcond ⟨hsc, hk2.1 h2⟩
        simp [deleteLevel5, siblingOf, load_eq hp, hb, hk, andAlso, bind, Except.bind, pure,
          Except.pure, Step.fill, hsc, h2, hne]
        exact e4
      · simp [deleteLevel5, siblingOf, load_eq hp, hb, andAlso, bind, Except.bind, pure,
          Except.pure, Step.fill, hsc]
        exact e4

theorem deleteLevel5_simR {s : RBTree α} {rest : Path α} {pa : Nat} {pc : Color} {pv : α}
    {S t u : Tree α} (h : Linked s (plug (.R pa pc S pv :: rest) t))
    (hz : del6R pa pc pv t (del5R S) = some u) :
    ∃ s', deleteLevel5 s t.ptr (some pa) = .ok s' ∧
      Evolves s s' (plug (.R pa pc S pv :: rest) t) (plug rest u) := by
  cases S with
  | nil => simp [del5R, del6R] at hz
  | node sa sc sl sv sr =>
    have hp := Linked.node_eq (p := rest) h
    have hS := Linked.rep_sib h
    simp only [Step.sib_R, Step.addr_R] at hS
    have hb := isBlackOrNull_rep hS
    obtain ⟨k, hk, hk2, hk1⟩ := theColorOfchildrenAre_rep hS
    have hne := Linked.sib_ptr_ne h (by simp)
    simp only [Step.sib_R, Tree.ptr_node, Tree.isBlack_node] at hne hb
    by_cases hcond : sc = .BLACK ∧ sl.isBlack = true ∧ sr.isRed = true
    · obtain ⟨hsc, hsl, hsr⟩ := hcond
      have hk1' : k = 1 := hk1.2 ⟨hsl, hsr⟩
      obtain ⟨ra, rl, rv, rr, rfl⟩ := Tree.isRed_iff.1 hsr
      subst hsc
      simp only [del5R, hsl, and_self, if_true] at hz
      obtain ⟨s1, e1, v1⟩ := setColor_spec (p := .L pa pc pv t :: rest) .RED h
      have hs1 := Linked.node_eq (p := .L pa pc pv t :: rest) v1.linked
      obtain ⟨s2, e2, v2⟩ := setColor_spec
        (p := .R sa .RED sl sv :: .L pa pc pv t :: rest) .BLACK v1.linked
      obtain ⟨s3, e3, v3⟩ := leftRotation_spec (p := .L pa pc pv t :: rest) v2.linked
      obtain ⟨s4, e4, v4⟩ := @deleteLevel6_simR _ _ rest _ _ _ _ _ _ v3.linked hz
      refine ⟨s4, ?_, ((v1.next v2).next v3).next v4⟩
      simp [deleteLevel5, siblingOf, load_eq hp, load_eq hs1, hb, hk, hk1', andAlso, bind,
        Except.bind, pure, Except.pure, Step.fill, hne, e1, e2, e3]
      exact e4
    · rw [del5R_of_not hcond] at hz
      obtain ⟨s4, e4, v4⟩ := @deleteLevel6_simR _ _ rest _ _ _ _ _ _ h hz
      refine ⟨s4, ?_, v4⟩
      by_cases hsc : sc = .BLACK
      · have h1 : ¬ (k = 1) := fun h1 => hcond ⟨hsc, hk1.1 h1⟩
        simp [deleteLevel5, siblingOf, load_eq hp, hb, hk, andAlso, bind, Except.bind, pure,
          Except.pure, Step.fill, hsc, h1, hne]
        exact e4
      · simp [deleteLevel5, siblingOf, load_eq hp, hb, andAlso, bind, Except.bind, pure,
          Except.pure, Step.fill, hsc, hne]
        exact e4

theorem deleteLevel4_sim {s : RBTree α} {rest : Path α} {f : Step α} {t u : Tree α}
    (h : Linked s (plug (f :: rest) t)) (hz : delLate f t = some u) :
    ∃ s', deleteLevel4 s t.ptr (some f.addr) = .ok s' ∧
      Evolves s s' (plug (f :: rest) t) (plug rest u) := by
  cases f with
  | L pa pc pv S =>
    cases S with
    | nil => simp [delLate] at hz
    | node sa sc sl sv sr =>
      have hp := Linked.node_eq (p := rest) h
      have hS := Linked.rep_sib h
      simp only [Step.sib_L, Step.addr_L] at hS
      have hb := nodeAndthoSunsAreBlack_rep hS
      simp only [delLate] at hz
      by_cases hcond : pc = .RED ∧ sc = .BLACK ∧ sl.isBlack = true ∧ sr.isBlack = true
      · simp only [hcond, and_self, if_true, Option.some.injEq] at hz
        subst hz
        obtain ⟨hpc, hsc, hsl, hsr⟩ := hcond
        obtain ⟨s1, e1, v1⟩ := setColor_spec (p := .R pa pc t pv :: rest) .RED h
        obtain ⟨s2, e2, v2⟩ := setColor_spec (p := rest) .BLACK v1.linked
        refine ⟨s2, ?_, v1.next v2⟩
        simp [deleteLevel4, siblingOf, load_eq hp, hb, andAlso, bind, Except.bind, pure,
          Except.pure, Step.fill, hpc, hsc, hsl, hsr, e1]
        exact e2
      · simp only [hcond, if_false] at hz
        obtain ⟨s1, e1, v1⟩ := deleteLevel5_simL h hz
        refine ⟨s1, ?_, v1⟩
        have : (decide (pc = .RED) && (decide (sc = .BLACK) && (sl.isBlack && sr.isBlack)))
            = false := by
          rw [Bool.eq_false_iff]
          intro hh
          simp only [Bool.and_eq_true, decide_eq_true_eq] at hh
          exact hcond ⟨hh.1, hh.2.1, hh.2.2.1, hh.2.2.2⟩
        simp only [deleteLevel4, siblingOf, load_eq hp, hb, andAlso, bind, Except.bind, pure,
          Except.pure, Step.fill, Tree.ptr_node, if_true, Step.addr_L]
        cases hpc : decide (pc = .RED)
        · simp; exact e1
        · simp only [hpc, Bool.true_and] at this
          simp [this]; exact e1
  | R pa pc S pv =>
    cases S with
    | nil => simp [delLate] at hz
    | node sa sc sl sv sr =>
      have hp := Linked.node_eq (p := rest) h
      have hS := Linked.rep_sib h
      simp only [Step.sib_R, Step.addr_R] at hS
      have hb := nodeAndthoSunsAreBlack_rep hS
      have hne := Linked.sib_ptr_ne h (by simp)
      simp only [Step.sib_R, Tree.ptr_node] at hne
      simp only [delLate] at hz
      by_cases hcond : pc = .RED ∧ sc = .BLACK ∧ sl.isBlack = true ∧ sr.isBlack = true
      · simp only [hcond, and_self, if_true, Option.some.injEq] at hz
        subst hz
        obtain ⟨hpc, hsc, hsl, hsr⟩ := hcond
        obtain ⟨s1, e1, v1⟩ := setColor_spec (p := .L pa pc pv t :: rest) .RED h
        obtain ⟨s2, e2, v2⟩ := setColor_spec (p := rest) .BLACK v1.linked
        refine ⟨s2, ?_, v1.next v2⟩
        simp [deleteLevel4, siblingOf, load_eq hp, hb, andAlso, bind, Except.bind, pure,
          Except.pure, Step.fill, hpc, hsc, hsl, hsr, hne, e1]
        exact e2
      · simp only [hcond, if_false] at hz
        obtain ⟨s1, e1, v1⟩ := deleteLevel5_simR h hz
        refine ⟨s1, ?_, v1⟩
        have : (decide (pc = .RED) && (decide (sc = .BLACK) && (sl.isBlack && sr.isBlack)))
            = false := by
          rw [Bool.eq_false_iff]
          intro hh
          simp only [Bool.and_eq_true, decide_eq_true_eq] at hh
          exact hcond ⟨hh.1, hh.2.1, hh.2.2.1, hh.2.2.2⟩
        simp only [deleteLevel4, siblingOf, load_eq hp, hb, andAlso, bind, Except.bind, pure,
          Except.pure, Step.fill, Tree.ptr_node, hne, if_false, Step.addr_R]
        cases hpc : decide (pc = .RED)
        · simp; exact e1
        · simp only [hpc, Bool.true_and] at this
          simp [this]; exact e1

theorem deleteLevel1_sim :
    ∀ (p : Path α) (fuel : Nat) (t t' : Tree α) (s : RBTree α), 3 * p.length + 1 ≤ fuel →
      Linked s (plug p t) → delFixZ p t = some t' →
      ∃ s', deleteLevel1 fuel s t.ptr (pathPtr p) = .ok s' ∧ Evolves s s' (plug p t) t' := by
  intro p
  induction p with
  | nil =>
    intro fuel t t' s hf hl hz
    obtain ⟨fuel, rfl⟩ : ∃ k, fuel = k + 1 := ⟨fuel - 1, by omega⟩
    simp only [delFixZ, Option.some.injEq] at hz
    subst hz
    exact ⟨s, by simp [deleteLevel1, pure, Except.pure], Evolves.stay hl⟩
  | cons f rest ih =>
    intro fuel t t' s hf hl hz
    obtain ⟨fuel, rfl⟩ : ∃ k, fuel = k + 3 := ⟨fuel - 3, by simp at hf; omega⟩
    have hfuel : 3 * rest.length + 1 ≤ fuel := by simp at hf; omega
    cases f with
    | L pa pc pv S =>
      cases S with
      | nil => simp [delFixZ] at hz
      | node sa sc sl sv sr =>
        have hp := Linked.node_eq (p := rest) hl
        have hS := Linked.rep_sib hl
        simp only [Step.sib_L, Step.addr_L] at hS
        have hred := isRedNode_rep hS
        have hb := nodeAndthoSunsAreBlack_rep hS
        simp only [Tree.ptr_node, Tree.isRed_node] at hred
        simp only [delFixZ] at hz
        by_cases hsc : sc = .RED
        · subst hsc
          simp only [if_true, Option.map_eq_some'] at hz
          obtain ⟨u, hu, rfl⟩ := hz
          obtain ⟨s1, e1, v1⟩ := setColor_spec (p := rest) .RED hl
          obtain ⟨s2, e2, v2⟩ := setColor_spec (p := .R pa .RED t pv :: rest) .BLACK v1.linked
          have hp2 := Linked.node_eq (p := rest) v2.linked
          obtain ⟨s3, e3, v3⟩ := leftRotation_spec (p := rest) v2.linked
          have hp3 := Linked.node_eq (p := .L sa .BLACK sv sr :: rest) v3.linked
          obtain ⟨s4, e4, v4⟩ := @deleteLevel4_sim _ _
            (.L sa .BLACK sv sr :: rest) (.L pa .RED pv sl) _ _ v3.linked hu
          refine ⟨s4, ?_, ((v1.next v2).next v3).next v4⟩
          simp [deleteLevel1, deleteLevel2, deleteLevel3, siblingOf, load_eq hp, load_eq hp2,
            load_eq hp3, hred, andAlso, bind, Except.bind, pure, Except.pure, Step.fill, e1, e2,
            e3]
          exact e4
        · have hscb : sc = .BLACK := by cases sc <;> simp_all
          subst hscb
          simp only [if_false, reduceCtorEq] at hz
          by_cases hcond : pc = .BLACK ∧ sl.isBlack = true ∧ sr.isBlack = true
          · obtain ⟨hpc, hsl, hsr⟩ := hcond
            subst hpc
            simp only [hsl, hsr, and_self, if_true] at hz
            obtain ⟨s1, e1, v1⟩ := setColor_spec (p := .R pa .BLACK t pv :: rest) .RED hl
            have hp1 := Linked.node_eq (p := rest) v1.linked
            obtain ⟨s2, e2, v2⟩ := ih fuel _ t' s1 hfuel v1.linked hz
            refine ⟨s2, ?_, v1.next v2⟩
            simp [deleteLevel1, deleteLevel2, deleteLevel3, siblingOf, load_eq hp, load_eq hp1,
              hred, hb, andAlso, bind, Except.bind, pure, Except.pure, Step.fill, hsl, hsr,
              e1]
            exact e2
          · simp only [hcond, if_false, Option.map_eq_some'] at hz
            obtain ⟨u, hu, rfl⟩ := hz
            obtain ⟨s1, e1, v1⟩ := deleteLevel4_sim hl hu
            refine ⟨s1, ?_, v1⟩
            have : (decide (pc = .BLACK) && (sl.isBlack && sr.isBlack)) = false := by
              rw [Bool.eq_false_iff]
              intro hh
              simp only [Bool.and_eq_true, decide_eq_true_eq] at hh
              exact hcond ⟨hh.1, hh.2.1, hh.2.2⟩
            simp only [deleteLevel1, deleteLevel2, deleteLevel3, siblingOf, load_eq hp, hred, hb,
              andAlso, bind, Except.bind, pure, Except.pure, Step.fill, Tree.ptr_node, if_true,
              pathPtr_cons, Step.addr_L, decide_True, decide_False, Bool.true_and,
              reduceCtorEq, Bool.false_eq_true, if_false]
            cases hpc : decide (pc = .BLACK)
            · simp; exact e1
            · simp only [hpc, Bool.true_and] at this
              simp [this]; exact e1
    | R pa pc S pv =>
      cases S with
      | nil => simp [delFixZ] at hz
      | node sa sc sl sv sr =>
        have hp := Linked.node_eq (p := rest) hl
        have hS := Linked.rep_sib hl
        simp only [Step.sib_R, Step.addr_R] at hS
        have hred := isRedNode_rep hS
        have hb := nodeAndthoSunsAreBlack_rep hS
        have hne := Linked.sib_ptr_ne hl (by simp)
        simp only [Step.sib_R, Tree.ptr_node] at hne
        simp only [Tree.ptr_node, Tree.isRed_node] at hred
        simp only [delFixZ] at hz
        by_cases hsc : sc = .RED
        · subst hsc
          simp only [if_true, Option.map_eq_some'] at hz
          obtain ⟨u, hu, rfl⟩ := hz
          obtain ⟨s1, e1, v1⟩ := setColor_spec (p := rest) .RED hl
          obtain ⟨s2, e2, v2⟩ := setColor_spec (p := .L pa .RED pv t :: rest) .BLACK v1.linked
          have hp2 := Linked.node_eq (p := rest) v2.linked
          obtain ⟨s3, e3, v3⟩ := rightRotation_spec (p := rest) v2.linked
          have hp3 := Linked.node_eq (p := .R sa .BLACK sl sv :: rest) v3.linked
          have hne3 : sr.ptr ≠ t.ptr := by
            by_cases hsr : sr = .nil
            · subst hsr
              simp [delLate] at hu
            · exact Linked.sib_ptr_ne (f := .R pa .RED sr pv) (p := .R sa .BLACK sl sv :: rest)
                v3.linked hsr
          obtain ⟨s4, e4, v4⟩ := @deleteLevel4_sim _ _
            (.R sa .BLACK sl sv :: rest) (.R pa .RED sr pv) _ _ v3.linked hu
          refine ⟨s4, ?_, ((v1.next v2).next v3).next v4⟩
          simp [deleteLevel1, deleteLevel2, deleteLevel3, siblingOf, load_eq hp, load_eq hp2,
            load_eq hp3, hred, andAlso, bind, Except.bind, pure, Except.pure, Step.fill, hne,
            hne3, e1, e2, e3]
          exact e4
        · have hscb : sc = .BLACK := by cases sc <;> simp_all
          subst hscb
          simp only [if_false, reduceCtorEq] at hz
          by_cases hcond : pc = .BLACK ∧ sl.isBlack = true ∧ sr.isBlack = true
          · obtain ⟨hpc, hsl, hsr⟩ := hcond
            subst hpc
            simp only [hsl, hsr, and_self, if_true] at hz
            obtain ⟨s1, e1, v1⟩ := setColor_spec (p := .L pa .BLACK pv t :: rest) .RED hl
            have hp1 := Linked.node_eq (p := rest) v1.linked
            obtain ⟨s2, e2, v2⟩ := ih fuel _ t' s1 hfuel v1.linked hz
            refine ⟨s2, ?_, v1.next v2⟩
            simp [deleteLevel1, deleteLevel2, deleteLevel3, siblingOf, load_eq hp, load_eq hp1,
              hred, hb, andAlso, bind, Except.bind, pure, Except.pure, Step.fill, hsl, hsr,
              hne, e1]
            exact e2
          · simp only [hcond, if_false, Option.map_eq_some'] at hz
            obtain ⟨u, hu, rfl⟩ := hz
            obtain ⟨s1, e1, v1⟩ := deleteLevel4_sim hl hu
            refine ⟨s1, ?_, v1⟩
            have : (decide (pc = .BLACK) && (sl.isBlack && sr.isBlack)) = false := by
              rw [Bool.eq_false_iff]
              intro hh
              simp only [Bool.and_eq_true, decide_eq_true_eq] at hh
              exact hcond ⟨hh.1, hh.2.1, hh.2.2⟩
            simp only [deleteLevel1, deleteLevel2, deleteLevel3, siblingOf, load_eq hp, hred, hb,
              andAlso, bind, Except.bind, pure, Except.pure, Step.fill, Tree.ptr_node, hne,
              pathPtr_cons, Step.addr_R, decide_True, decide_False, Bool.true_and,
              reduceCtorEq, Bool.false_eq_true, if_false]
            cases hpc : decide (pc = .BLACK)
            · simp; exact e1
            · simp only [hpc, Bool.true_and] at this
              simp [this]; exact e1

/-! ## Minimum, successor and the structural part of deletion -/

theorem plug_append (q p : Path α) (t : Tree α) : plug (q ++ p) t = plug p (plug q t) := by
  induction q generalizing t with
  | nil => rfl
  | cons f q ih => simp only [List.cons_append, plug_cons]; exact ih _

theorem descendMin_append (t : Tree α) (p : Path α) :
    descendMin t p = ((descendMin t []).1 ++ p, (descendMin t []).2) := by
  induction t generalizing p with
  | nil => simp [descendMin]
  | node a c l v r ihl _ =>
    cases l with
    | nil => simp [descendMin]
    | node la lc ll lv lr =>
      simp only [descendMin]
      rw [ihl (.L a c v r :: p), ihl [.L a c v r]]
      simp

theorem descendMin_plug (t : Tree α) (p : Path α) :
    plug (descendMin t p).1 (descendMin t p).2 = plug p t := by
  induction t generalizing p with
  | nil => simp [descendMin]
  | node a c l v r ihl _ =>
    cases l with
    | nil => simp [descendMin]
    | node la lc ll lv lr =>
      simp only [descendMin]
      rw [ihl]
      rfl

theorem descendMin_shape (t : Tree α) (p : Path α) (h : t ≠ .nil) :
    ∃ m cm mv mr, (descendMin t p).2 = .node m cm .nil mv mr := by
  induction t generalizing p with
  | nil => exact absurd rfl h
  | node a c l v r ihl _ =>
    cases l with
    | nil => exact ⟨a, c, v, r, by simp [descendMin]⟩
    | node la lc ll lv lr =>
      simp only [descendMin]
      exact ihl _ (by simp)

theorem descendMin_length (t : Tree α) (p : Path α) :
    (descendMin t p).1.length + 1 ≤ p.length + max t.height 1 := by
  induction t generalizing p with
  | nil => simp [descendMin]
  | node a c l v r ihl _ =>
    cases l with
    | nil => simp [descendMin]
    | node la lc ll lv lr =>
      simp only [descendMin]
      have := ihl (.L a c v r :: p)
      simp only [List.length_cons, Tree.height] at this ⊢
      omega

theorem findMin_sim (s : RBTree α) :
    ∀ (t : Tree α) (fuel : Nat) (par : Ptr) (p : Path α), t ≠ .nil → t.height ≤ fuel →
      Rep s.mem par t → findMin fuel s t.ptr = .ok (descendMin t p).2.ptr := by
  intro t
  induction t with
  | nil => intro fuel par p h; exact absurd rfl h
  | node a c l v r ihl _ =>
    intro fuel par p _ hf hr
    obtain ⟨fuel, rfl⟩ : ∃ k, fuel = k + 1 := ⟨fuel - 1, by simp [Tree.height] at hf; omega⟩
    simp only [Tree.height] at hf
    cases l with
    | nil =>
      simp [findMin, descendMin, load_eq hr.1, bind, Except.bind, pure, Except.pure]
    | node la lc ll lv lr =>
      simp only [findMin, descendMin, load_eq hr.1, bind, Except.bind, Tree.ptr_node]
      exact ihl fuel _ _ (by simp) (by omega) hr.2.1

theorem getSuccessor_right {s : RBTree α} {par : Ptr} {x : Nat} {c : Color} {l r : Tree α}
    {v : α} (fuel : Nat) (p : Path α) (h : Rep s.mem par (.node x c l v r)) (hr : r ≠ .nil)
    (hf : r.height ≤ fuel) :
    getSuccessor fuel s (some x) = .ok (descendMin r p).2.ptr := by
  have hm := findMin_sim s r fuel (some x) p hr hf h.2.2
  cases r with
  | nil => exact absurd rfl hr
  | node ra rc rl rv rr =>
    simp only [getSuccessor, load_eq h.1, bind, Except.bind, Tree.ptr_node] at hm ⊢
    exact hm

theorem deleteNormalBST_sim {s : RBTree α} {p : Path α} {t : Tree α} (fuel : Nat)
    (h : Linked s (plug p t)) (ht : t ≠ .nil) (hf : t.height ≤ fuel + 1) :
    ∃ s', deleteNormalBST fuel s t.ptr = .ok ((swapDown p t).2.ptr, s') ∧
      Evolves s s' (plug p t) (plug (swapDown p t).1 (swapDown p t).2) := by
  cases t with
  | nil => exact absurd rfl ht
  | node x c l v r =>
    have hx := h.node_eq
    cases l with
    | nil =>
      refine ⟨s, ?_, by simpa [swapDown] using Evolves.stay h⟩
      simp [deleteNormalBST, load_eq hx, swapDown, bind, Except.bind, pure, Except.pure]
    | node la lc ll lv lr =>
      cases r with
      | nil =>
        refine ⟨s, ?_, by simpa [swapDown] using Evolves.stay h⟩
        simp [deleteNormalBST, load_eq hx, swapDown, bind, Except.bind, pure, Except.pure]
      | node ra rc rl rv rr =>
        obtain ⟨m, mc, mv, mr, hm⟩ := descendMin_shape (.node ra rc rl rv rr) [] (by simp)
        have hq := descendMin_plug (.node ra rc rl rv rr) ([] : Path α)
        generalize hqd : (descendMin (.node ra rc rl rv rr) ([] : Path α)).1 = q at hq
        rw [hm] at hq
        simp only [plug_nil] at hq
        have hsucc := getSuccessor_right fuel ([] : Path α) (rep_plug.1 h.rep).2 (by simp)
          (by simp only [Tree.height] at hf ⊢; omega)
        rw [hm] at hsucc
        have hsw : swapDown p (.node x c (.node la lc ll lv lr) v (.node ra rc rl rv rr))
            = (q ++ .R x c (.node la lc ll lv lr) mv :: p, .node m mc .nil v mr) := by
          simp only [swapDown]
          have : descendMin (.node ra rc rl rv rr) ([] : Path α) = (q, .node m mc .nil mv mr) := by
            rw [← hqd, ← hm]
          rw [this]
        rw [hsw]
        have h' : Linked s (plug (q ++ .R x c (.node la lc ll lv lr) v :: p)
            (.node m mc .nil mv mr)) := by
          rw [plug_append, hq]; exact h
        have hmrec := h'.node_eq
        obtain ⟨s1, e1, v1⟩ := setData_spec (p := p) mv h
        have h1' : Linked s1 (plug (q ++ .R x c (.node la lc ll lv lr) mv :: p)
            (.node m mc .nil mv mr)) := by
          rw [plug_append, hq]; exact v1.linked
        obtain ⟨s2, e2, v2⟩ := setData_spec v h1'
        have v1' : Evolves s s1 (plug p (.node x c (.node la lc ll lv lr) v (.node ra rc rl rv rr)))
            (plug (q ++ .R x c (.node la lc ll lv lr) mv :: p) (.node m mc .nil mv mr)) := by
          rw [plug_append, hq]; exact v1
        refine ⟨s2, ?_, v1'.next v2⟩
        simp [deleteNormalBST, load_eq hx, hsucc, load_eq hmrec, bind, Except.bind, pure,
          Except.pure, e1, e2]

theorem onlyChild_ptr (n : Nat) (c : Color) (l r : Tree α) (v : α) :
    (Tree.node n c l v r).onlyChild.ptr = if r.ptr = none then l.ptr else r.ptr := by
  cases r <;> simp [Tree.onlyChild]

theorem onlyChild_mem {n : Nat} {c : Color} {l r : Tree α} {v : α} {a : Nat}
    (h : a ∈ (Tree.node n c l v r).onlyChild.addrs) : a ∈ l.addrs ∨ a ∈ r.addrs := by
  cases r with
  | nil => exact Or.inl (by simpa [Tree.onlyChild] using h)
  | node ra rc rl rv rr => exact Or.inr (by simpa [Tree.onlyChild] using h)

theorem onlyChild_rep {mem : Nat → Option (Node α)} {par : Ptr} {n : Nat} {c : Color}
    {l r : Tree α} {v : α} (h : Rep mem par (.node n c l v r)) :
    Rep mem (some n) (Tree.node n c l v r).onlyChild := by
  cases r with
  | nil => exact h.2.1
  | node ra rc rl rv rr => exact h.2.2

theorem onlyChild_nodup {n : Nat} {c : Color} {l r : Tree α} {v : α}
    (h : (Tree.node n c l v r).addrs.Nodup) : (Tree.node n c l v r).onlyChild.addrs.Nodup := by
  obtain ⟨-, -, h3, h4, -⟩ := nodup_node.1 h
  cases r with
  | nil => exact h3
  | node ra rc rl rv rr => exact h4

/-- `replaceNode` below a parent: the child takes the place of the node,
whose own record stays as it was. -/
theorem replaceNode_spec {s : RBTree α} {f : Step α} {rest : Path α} {n : Nat} {c : Color}
    {l r : Tree α} {v : α} (h : Linked s (plug (f :: rest) (.node n c l v r))) :
    ∃ s', replaceNode s (some n) (Tree.node n c l v r).onlyChild.ptr = .ok s' ∧
      Linked s' (plug (f :: rest) (Tree.node n c l v r).onlyChild) ∧
      Frame (plug (f :: rest) (.node n c l v r)).addrs s s' ∧
      s'.mem n = s.mem n := by
  have hn := h.node_eq
  obtain ⟨hn1, hn2, hn3⟩ := nodup_plug_iff.1 h.nodup
  obtain ⟨hnl, hnr, -, -, -⟩ := nodup_node.1 hn2
  have hrep := rep_plug.1 h.rep
  have hne := h.ptr_ne_sib (by simp)
  have hchrep := onlyChild_rep hrep.2
  have hchnd := onlyChild_nodup hn2
  have hnch : n ∉ (Tree.node n c l v r).onlyChild.addrs := fun hm =>
    (onlyChild_mem hm).elim hnl hnr
  have hpch : ∀ b ∈ pathAddrs (f :: rest), b ∉ (Tree.node n c l v r).onlyChild.addrs := by
    intro b hb hm
    refine hn3 b hb ?_
    simp only [Tree.addrs, List.mem_cons, List.mem_append]
    exact Or.inr (onlyChild_mem hm)
  have hnp : n ∉ pathAddrs (f :: rest) := fun hm => hn3 n hm (by simp [Tree.addrs])
  have hnd' : (plug (f :: rest) (Tree.node n c l v r).onlyChild).addrs.Nodup :=
    nodup_plug_iff.2 ⟨hn1, hchnd, hpch⟩
  have hframe : ∀ a, a ∉ (plug (f :: rest) (.node n c l v r)).addrs →
      (∀ z, z ∈ pathAddrs (f :: rest) ∨ z ∈ (Tree.node n c l v r).onlyChild.addrs → a ≠ z) := by
    intro a ha z hz e
    subst e
    refine ha (mem_addrs_plug.2 ?_)
    rcases hz with hz | hz
    · exact Or.inl hz
    · refine Or.inr ?_
      simp only [Tree.addrs, List.mem_cons, List.mem_append]
      exact Or.inr (onlyChild_mem hz)
  generalize (Tree.node n c l v r).onlyChild = ch at *
  obtain ⟨hf1, hf2, -, -, -⟩ := nodup_pathAddrs_cons.1 hn1
  cases f with
  | L fa fc fv fr =>
    have hf := Linked.node_eq (p := rest) h
    simp only [pathAddrs, List.mem_cons, List.mem_append, not_or, Step.addr_L, Step.sib_L]
      at hnp hf1 hf2
    have hfn : fa ≠ n := fun e => hnp.1 e.symm
    have hfch := hpch fa (by simp [pathAddrs])
    cases ch with
    | nil =>
      simp [replaceNode, load, hn, hf, setLeft, bind, Except.bind, pure, Except.pure, Step.fill,
        Function.update_apply, hfn, hnp.1]
      refine ⟨⟨?_, ?_, by simpa using hnd'⟩, ⟨?_, ?_, ?_, ?_⟩⟩
      · simp only [store_root]; rw [h.root]; exact plug_ptr_congr _ (fun e => by simp at e)
      · refine rep_plug.2 ?_
        simp only [Rep, RepPath, store_mem, Tree.ptr_nil, Tree.ptr_node, pathPtr_cons,
          Step.addr_L] at hrep ⊢
        simp [Function.update_apply, Rep.rep_update, RepPath.path_update, hf1, hf2, hrep]
      · intro a ha
        have h1 := hframe a ha
        simp [Function.update_apply, h1 fa (by simp [pathAddrs])]
      · simp
      · simp
      · simp
    | node ca cc cl cv cr =>
      obtain ⟨hcl, hcr, -, -, -⟩ := nodup_node.1 hchnd
      simp only [Tree.addrs, List.mem_cons, List.mem_append, not_or] at hnch hfch
      have hcn : ca ≠ n := fun e => hnch.1 e.symm
      have hcf : ca ≠ fa := fun e => hfch.1 e.symm
      have hcp : ca ∉ pathAddrs (Step.L fa fc fv fr :: rest) :=
        fun hm => hpch ca hm (by simp [Tree.addrs])
      simp only [pathAddrs, List.mem_cons, List.mem_append, not_or, Step.addr_L, Step.sib_L]
        at hcp
      simp [replaceNode, load, hn, hf, hchrep.1, setLeft, setParent, bind, Except.bind, pure,
        Except.pure, Step.fill, Function.update_apply, hfn, hnp.1, hcn, hcf, hnch.1, hfch.1]
      refine ⟨⟨?_, ?_, by simpa using hnd'⟩, ⟨?_, ?_, ?_, ?_⟩⟩
      · simp only [store_root]; rw [h.root]; exact plug_ptr_congr _ (fun e => by simp at e)
      · refine rep_plug.2 ?_
        simp only [Rep, RepPath, store_mem, Tree.ptr_nil, Tree.ptr_node, pathPtr_cons,
          Step.addr_L] at hrep hchrep ⊢
        simp [Function.update_apply, Rep.rep_update, RepPath.path_update, hf1, hf2, hrep, hcf,
          hcp, hcl, hcr, hfch, hchrep]
      · intro a ha
        have h1 := hframe a ha
        simp [Function.update_apply, h1 fa (by simp [pathAddrs]), h1 ca (by simp [Tree.addrs])]
      · simp
      · simp
      · simp
  | R fa fc fl fv =>
    have hf := Linked.node_eq (p := rest) h
    simp only [pathAddrs, List.mem_cons, List.mem_append, not_or, Step.addr_R, Step.sib_R]
      at hnp hf1 hf2
    simp only [Step.sib_R, Tree.ptr_node] at hne
    have hfn : fa ≠ n := fun e => hnp.1 e.symm
    have hfch := hpch fa (by simp [pathAddrs])
    cases ch with
    | nil =>
      simp [replaceNode, load, hn, hf, setRight, bind, Except.bind, pure, Except.pure, Step.fill,
        Function.update_apply, hfn, hnp.1, hne]
      refine ⟨⟨?_, ?_, by simpa using hnd'⟩, ⟨?_, ?_, ?_, ?_⟩⟩
      · simp only [store_root]; rw [h.root]; exact plug_ptr_congr _ (fun e => by simp at e)
      · refine rep_plug.2 ?_
        simp only [Rep, RepPath, store_mem, Tree.ptr_nil, Tree.ptr_node, pathPtr_cons,
          Step.addr_R] at hrep ⊢
        simp [Function.update_apply, Rep.rep_update, RepPath.path_update, hf1, hf2, hrep]
      · intro a ha
        have h1 := hframe a ha
        simp [Function.update_apply, h1 fa (by simp [pathAddrs])]
      · simp
      · simp
      · simp
    | node ca cc cl cv cr =>
      obtain ⟨hcl, hcr, -, -, -⟩ := nodup_node.1 hchnd
      simp only [Tree.addrs, List.mem_cons, List.mem_append, not_or] at hnch hfch
      have hcn : ca ≠ n := fun e => hnch.1 e.symm
      have hcf : ca ≠ fa := fun e => hfch.1 e.symm
      have hcp : ca ∉ pathAddrs (Step.R fa fc fl fv :: rest) :=
        fun hm => hpch ca hm (by simp [Tree.addrs])
      simp only [pathAddrs, List.mem_cons, List.mem_append, not_or, Step.addr_R, Step.sib_R]
        at hcp
      simp [replaceNode, load, hn, hf, hchrep.1, setRight, setParent, bind, Except.bind, pure,
        Except.pure, Step.fill, Function.update_apply, hfn, hnp.1, hcn, hcf, hnch.1, hfch.1, hne]
      refine ⟨⟨?_, ?_, by simpa using hnd'⟩, ⟨?_, ?_, ?_, ?_⟩⟩
      · simp only [store_root]; rw [h.root]; exact plug_ptr_congr _ (fun e => by simp at e)
      · refine rep_plug.2 ?_
        simp only [Rep, RepPath, store_mem, Tree.ptr_nil, Tree.ptr_node, pathPtr_cons,
          Step.addr_R] at hrep hchrep ⊢
        simp [Function.update_apply, Rep.rep_update, RepPath.path_update, hf1, hf2, hrep, hcf,
          hcp, hcl, hcr, hfch, hchrep]
      · intro a ha
        have h1 := hframe a ha
        simp [Function.update_apply, h1 fa (by simp [pathAddrs]), h1 ca (by simp [Tree.addrs])]
      · simp
      · simp
      · simp

theorem onlyChild_count {n : Nat} {c : Color} {l r : Tree α} {v : α}
    (h : l = .nil ∨ r = .nil) :
    (Tree.node n c l v r).onlyChild.count + 1 = (Tree.node n c l v r).count := by
  cases r with
  | nil => simp [Tree.onlyChild, Tree.count]
  | node ra rc rl rv rr =>
    rcases h with rfl | h
    · simp [Tree.onlyChild, Tree.count]
    · simp at h

theorem Linked.free {s : RBTree α} {t : Tree α} {n : Nat} (h : Linked s t) (hn : n ∉ t.addrs)
    (sz : Int) (fr : List α) :
    Linked { freeNode s (some n) with size := sz, freed := fr } t :=
  ⟨h.root, (Rep.rep_update hn).2 h.rep, h.nodup⟩

/-- `deleteOneChild` on a node below a parent. -/
theorem deleteOneChild_sim_inner {s : RBTree α} {f : Step α} {rest : Path α} {n : Nat}
    {c : Color} {l r : Tree α} {v : α} {t' : Tree α} (fuel : Nat)
    (h : Linked s (plug (f :: rest) (.node n c l v r)))
    (hsz : s.size = (plug (f :: rest) (.node n c l v r)).count)
    (hl : l = .nil ∨ r = .nil)
    (hz : removeZ (f :: rest) (.node n c l v r) = some t')
    (hfuel : 3 * (f :: rest).length + 1 ≤ fuel) :
    ∃ s', deleteOneChild fuel s (some n) = .ok s' ∧ Linked s' t' ∧
      s'.size = s.size - 1 ∧ s'.freed = s.freed ++ [v] ∧ s'.compFunc = s.compFunc ∧
      t'.addrs.Perm (plug (f :: rest) (Tree.node n c l v r).onlyChild).addrs := by
  have hn := h.node_eq
  obtain ⟨s1, e1, l1, f1, m1⟩ := replaceNode_spec h
  have hn1 : s1.mem n = some ⟨v, pathPtr (f :: rest), l.ptr, r.ptr, c⟩ := m1.trans hn
  obtain ⟨hq1, hq2, hq3⟩ := nodup_plug_iff.1 h.nodup
  obtain ⟨hnl, hnr, -, -, -⟩ := nodup_node.1 hq2
  have hnch : n ∉ (plug (f :: rest) (Tree.node n c l v r).onlyChild).addrs := by
    intro hm
    rcases mem_addrs_plug.1 hm with hm | hm
    · exact hq3 n hm (by simp [Tree.addrs])
    · exact (onlyChild_mem hm).elim hnl hnr
  have hred := isRedNode_rep l1.rep_focus
  have hchild := onlyChild_ptr n c l r v
  have hpos : 2 ≤ (plug (f :: rest) (.node n c l v r)).count := by
    rw [count_plug]; simp [pathAddrs, Tree.count]; omega
  have hge : ((Tree.node n c l v r).onlyChild.ptr ≠ none) →
      3 ≤ (plug (f :: rest) (.node n c l v r)).count := by
    intro hne
    rw [count_plug, ← onlyChild_count hl]
    have : 1 ≤ (Tree.node n c l v r).onlyChild.count := by
      generalize (Tree.node n c l v r).onlyChild = ch at hne ⊢
      cases ch with
      | nil => simp at hne
      | node => simp [Tree.count]
    simp [pathAddrs]; omega
  simp only [removeZ] at hz
  cases c with
  | BLACK =>
    simp only [if_true] at hz
    by_cases hr : (Tree.node n .BLACK l v r).onlyChild.isRed = true
    · simp only [hr, if_true, Option.some.injEq] at hz
      obtain ⟨ca, cl, cv, cr, hch⟩ := Tree.isRed_iff.1 hr
      have l1' := l1
      rw [hch] at l1' hz
      obtain ⟨s2, e2', v2'⟩ := setColor_spec .BLACK l1'
      have e2 : setColor s1 (Tree.node n .BLACK l v r).onlyChild.ptr .BLACK = .ok s2 := by
        rw [hch]; exact e2'
      have v2 : Evolves s1 s2 (plug (f :: rest) (Tree.node n .BLACK l v r).onlyChild) t' := by
        rw [hch, ← hz]; exact v2'
      have hn2 : s2.mem n = some ⟨v, pathPtr (f :: rest), l.ptr, r.ptr, .BLACK⟩ :=
        (v2.frame.mem n hnch).trans hn1
      have hnt' : n ∉ t'.addrs := fun hm => hnch (v2.nodes.mem_iff.1 hm)
      have hsz2 : s2.size = s.size := v2.frame.size.trans f1.size
      have h1 : ¬ (s.size - 1 = 1 ∧ (Tree.node n .BLACK l v r).onlyChild.ptr ≠ none) := by
        rintro ⟨ha, hb⟩
        have := hge hb
        rw [hsz] at ha
        omega
      have h0 : ¬ (s.size - 1 = 0) := by
        rw [hsz]; omega
      refine ⟨{ freeNode s2 (some n) with size := s.size - 1, freed := s.freed ++ [v] }, ?_,
        v2.linked.free hnt' _ _, rfl, rfl, ?_, v2.nodes⟩
      · simp only [deleteOneChild, load_eq hn, load_eq hn1, bind, Except.bind, e1,
          ← hchild, pure, Except.pure, hred, hr, if_true]
        simp only [e2, freeNode, load_eq hn2, hsz2, h1, h0, if_false, v2.frame.freed, f1.freed]
      · simp [freeNode, v2.frame.compFunc, f1.compFunc]
    · simp only [hr, if_false, Bool.false_eq_true] at hz
      obtain ⟨s2, e2, v2⟩ := deleteLevel1_sim _ fuel _ t' s1 hfuel l1 hz
      simp only [Bool.not_eq_true] at hr
      simp only [pathPtr_cons] at e2
      have hn2 : s2.mem n = some ⟨v, pathPtr (f :: rest), l.ptr, r.ptr, .BLACK⟩ :=
        (v2.frame.mem n hnch).trans hn1
      have hnt' : n ∉ t'.addrs := fun hm => hnch (v2.nodes.mem_iff.1 hm)
      have hsz2 : s2.size = s.size := v2.frame.size.trans f1.size
      have h1 : ¬ (s.size - 1 = 1 ∧ (Tree.node n .BLACK l v r).onlyChild.ptr ≠ none) := by
        rintro ⟨ha, hb⟩
        have := hge hb
        rw [hsz] at ha
        omega
      have h0 : ¬ (s.size - 1 = 0) := by
        rw [hsz]; omega
      refine ⟨{ freeNode s2 (some n) with size := s.size - 1, freed := s.freed ++ [v] }, ?_,
        v2.linked.free hnt' _ _, rfl, rfl, ?_, v2.nodes⟩
      · simp only [deleteOneChild, load_eq hn, load_eq hn1, bind, Except.bind, e1,
          ← hchild, pure, Except.pure, hred, hr, if_true, Bool.false_eq_true, if_false, pathPtr_cons]
        simp only [e2, freeNode, load_eq hn2, hsz2, h1, h0, if_false, v2.frame.freed, f1.freed]
      · simp [freeNode, v2.frame.compFunc, f1.compFunc]
  | RED =>
    simp only [if_false, Option.some.injEq, reduceCtorEq] at hz
    obtain ⟨s2, e2, v2⟩ : ∃ s2, s1 = s2 ∧
        Evolves s1 s2 (plug (f :: rest) (Tree.node n .RED l v r).onlyChild) t' :=
      ⟨s1, rfl, by rw [← hz]; exact Evolves.stay l1⟩
    have hn2 : s2.mem n = some ⟨v, pathPtr (f :: rest), l.ptr, r.ptr, .RED⟩ :=
      (v2.frame.mem n hnch).trans hn1
    have hnt' : n ∉ t'.addrs := fun hm => hnch (v2.nodes.mem_iff.1 hm)
    have hsz2 : s2.size = s.size := v2.frame.size.trans f1.size
    have h1 : ¬ (s.size - 1 = 1 ∧ (Tree.node n .RED l v r).onlyChild.ptr ≠ none) := by
      rintro ⟨ha, hb⟩
      have := hge hb
      rw [hsz] at ha
      omega
    have h0 : ¬ (s.size - 1 = 0) := by
      rw [hsz]; omega
    refine ⟨{ freeNode s2 (some n) with size := s.size - 1, freed := s.freed ++ [v] }, ?_,
      v2.linked.free hnt' _ _, rfl, rfl, ?_, v2.nodes⟩
    · subst e2
      simp only [deleteOneChild, load_eq hn, load_eq hn1, bind, Except.bind, e1,
        ← hchild, pure, Except.pure, hred, reduceCtorEq, if_false]
      simp only [freeNode, hsz2, h1, h0, if_false, f1.freed]
    · simp [freeNode, v2.frame.compFunc, f1.compFunc]

theorem count_le_one_iff {t : Tree α} (h : t.count ≤ 1) :
    t = .nil ∨ ∃ a c v, t = .node a c .nil v .nil := by
  cases t with
  | nil => exact Or.inl rfl
  | node a c l v r =>
    refine Or.inr ⟨a, c, v, ?_⟩
    cases l <;> cases r <;> simp [Tree.count] at h ⊢

/-- `deleteOneChild` on the root node. -/
theorem deleteOneChild_sim_root {s : RBTree α} {n : Nat} {c : Color} {l r : Tree α} {v : α}
    {t' : Tree α} (fuel : Nat) (h : Linked s (.node n c l v r))
    (hsz : s.size = (Tree.node n c l v r).count) (hl : l = .nil ∨ r = .nil)
    (hcnt : (Tree.node n c l v r).onlyChild.count ≤ 1)
    (hz : removeZ [] (.node n c l v r) = some t') :
    ∃ s', deleteOneChild (fuel + 1) s (some n) = .ok s' ∧ Linked s' t' ∧
      s'.size = s.size - 1 ∧ s'.freed = s.freed ++ [v] ∧ s'.compFunc = s.compFunc ∧
      t'.addrs.Perm (Tree.node n c l v r).onlyChild.addrs := by
  have hn := Linked.node_eq (p := []) h
  have hchild := onlyChild_ptr n c l r v
  have hcount := onlyChild_count (n := n) (c := c) (v := v) hl
  have hrep := onlyChild_rep h.rep
  obtain ⟨hnl, hnr, -, -, -⟩ := nodup_node.1 h.nodup
  have hnch : n ∉ (Tree.node n c l v r).onlyChild.addrs := fun hm =>
    (onlyChild_mem hm).elim hnl hnr
  simp only [removeZ] at hz
  simp only [pathPtr_nil] at hn
  rcases count_le_one_iff hcnt with hch | ⟨ca, cc, cv, hch⟩
  · rw [hch] at hchild hcount hz
    have hs1 : s.size = 1 := by rw [hsz, ← hcount]; simp [Tree.count]
    have ht' : t' = .nil := by
      cases c <;> simp [delFixZ] at hz <;> exact hz.symm
    subst ht'
    refine ⟨{ freeNode s (some n) with root := none, size := s.size - 1, freed := s.freed ++ [v] },
      ?_, ⟨rfl, trivial, by simp [Tree.addrs]⟩, rfl, rfl, rfl, by rw [hch]⟩
    cases c <;>
      simp [deleteOneChild, load_eq hn, ← hchild, replaceNode, isRedNode, deleteLevel1, bind,
        Except.bind, pure, Except.pure, freeNode, hs1]
  · rw [hch] at hchild hcount hz hrep hnch
    have hs1 : s.size = 2 := by rw [hsz, ← hcount]; simp [Tree.count]
    have hca := hrep.1
    simp only [Tree.addrs, List.mem_cons, List.append_nil, List.not_mem_nil, or_false] at hnch
    have hcn : ca ≠ n := fun e => hnch e.symm
    simp only [Tree.ptr_nil, Tree.ptr_node] at hca hchild
    have hperm : ∀ k, (Tree.node ca k .nil cv .nil).addrs.Perm
        (Tree.node n c l v r).onlyChild.addrs := by
      intro k; rw [hch]; simp [Tree.addrs]
    cases c with
    | RED =>
      simp only [reduceCtorEq, if_false, plug_nil, Option.some.injEq] at hz
      subst hz
      simp [deleteOneChild, hn, ← hchild, replaceNode, setParent, hca, load, bind,
        Except.bind, pure, Except.pure, freeNode, hs1, Function.update_apply, hcn, hnch]
      refine ⟨⟨rfl, ?_, by simp [Tree.addrs]⟩, hperm _⟩
      simp [Rep, Function.update_apply, hcn]
    | BLACK =>
      cases cc with
      | RED =>
        simp only [Tree.isRed_node, decide_True, if_true, Tree.paint, plug_nil,
          Option.some.injEq] at hz
        subst hz
        simp [deleteOneChild, hn, ← hchild, replaceNode, setParent, setColor, hca, load,
          isRedNode, bind, Except.bind, pure, Except.pure, freeNode, hs1, Function.update_apply,
          hcn, hnch]
        refine ⟨⟨rfl, ?_, by simp [Tree.addrs]⟩, hperm _⟩
        simp [Rep, Function.update_apply, hcn]
      | BLACK =>
        simp only [Tree.isRed_node, reduceCtorEq, decide_False, Bool.false_eq_true, if_false,
          if_true, delFixZ, Option.some.injEq] at hz
        subst hz
        simp [deleteOneChild, hn, ← hchild, replaceNode, setParent, hca, deleteLevel1, load,
          isRedNode, bind, Except.bind, pure, Except.pure, freeNode, hs1, Function.update_apply,
          hcn, hnch]
        refine ⟨⟨rfl, ?_, by simp [Tree.addrs]⟩, hperm _⟩
        simp [Rep, Function.update_apply, hcn]

/-! ## Red-black invariants of trees with a hole -/

theorem Tree.bh_paint_black_of_red {t : Tree α} (h : t.isRed = true) :
    (t.paint .BLACK).bh = t.bh + 1 := by
  obtain ⟨a, l, v, r, rfl⟩ := Tree.isRed_iff.1 h
  simp [Tree.paint, Tree.bh]

theorem Tree.balanced_paint {t : Tree α} (c : Color) (h : t.Balanced) : (t.paint c).Balanced := by
  cases t with
  | nil => trivial
  | node a k l v r => exact h

theorem Tree.noRedRed_paint_black {t : Tree α} (h : t.NoRedRed) :
    (t.paint .BLACK).NoRedRed := by
  cases t with
  | nil => trivial
  | node a k l v r => exact ⟨fun e => by simp at e, h.2.1, h.2.2⟩

theorem Tree.isBlack_paint_black (t : Tree α) : (t.paint .BLACK).isBlack = true := by
  cases t <;> simp [Tree.paint]

theorem Tree.inorder_paint (t : Tree α) (c : Color) : (t.paint c).inorder = t.inorder := by
  cases t <;> simp [Tree.paint, Tree.inorder]

theorem balanced_of_plug {p : Path α} {t : Tree α} (h : (plug p t).Balanced) : t.Balanced := by
  induction p generalizing t with
  | nil => exact h
  | cons f p ih =>
    have := ih (t := f.fill t) h
    cases f with
    | L a c v r => exact this.2.1
    | R a c l v => exact this.2.2

theorem noRedRed_of_plug {p : Path α} {t : Tree α} (h : (plug p t).NoRedRed) : t.NoRedRed := by
  induction p generalizing t with
  | nil => exact h
  | cons f p ih =>
    have := ih (t := f.fill t) h
    cases f with
    | L a c v r => exact this.2.1
    | R a c l v => exact this.2.2

/-- Replacing the subtree in the hole by one of the same black-height keeps
the balance and the black-height of the whole tree. -/
theorem balanced_plug {p : Path α} {t t' : Tree α} (h : (plug p t).Balanced)
    (h' : t'.Balanced) (hb : t'.bh = t.bh) :
    (plug p t').Balanced ∧ (plug p t').bh = (plug p t).bh := by
  induction p generalizing t t' with
  | nil => exact ⟨h', hb⟩
  | cons f p ih =>
    have hsub := balanced_of_plug (p := p) (t := f.fill t) h
    cases f with
    | L a c v r =>
      refine @ih (.node a c t v r) (.node a c t' v r) h ?_ ?_
      · exact ⟨hb.trans hsub.1, h', hsub.2.2⟩
      · simp [Tree.bh, hb]
    | R a c l v =>
      refine @ih (.node a c l v t) (.node a c l v t') h ?_ ?_
      · exact ⟨hsub.1.trans hb.symm, hsub.2.1, h'⟩
      · simp [Tree.bh]

/-- Replacing the subtree in the hole keeps "no red node has a red child" when
the new subtree has no such node and its root is black whenever the old root
was. -/
theorem noRedRed_plug {p : Path α} {t t' : Tree α} (h : (plug p t).NoRedRed)
    (h' : t'.NoRedRed) (hc : t.isBlack = true → t'.isBlack = true) :
    (plug p t').NoRedRed := by
  induction p generalizing t t' with
  | nil => exact h'
  | cons f p ih =>
    have hsub := noRedRed_of_plug (p := p) (t := f.fill t) h
    cases f with
    | L a c v r =>
      refine @ih (.node a c t v r) (.node a c t' v r) h ?_ (fun e => e)
      exact ⟨fun e => ⟨hc (hsub.1 e).1, (hsub.1 e).2⟩, h', hsub.2.2⟩
    | R a c l v =>
      refine @ih (.node a c l v t) (.node a c l v t') h ?_ (fun e => e)
      exact ⟨fun e => ⟨(hsub.1 e).1, hc (hsub.1 e).2⟩, hsub.2.1, h'⟩

theorem isBlack_plug_cons (f : Step α) (p : Path α) (t t' : Tree α) :
    (plug (f :: p) t').isBlack = (plug (f :: p) t).isBlack := by
  induction p generalizing f t t' with
  | nil => cases f <;> rfl
  | cons g p ih =>
    simp only [plug_cons] at ih ⊢
    exact ih g _ _

theorem isBlack_plug {p : Path α} {t t' : Tree α} (h : (plug p t).isBlack = true)
    (hc : p = [] → t'.isBlack = true) : (plug p t').isBlack = true := by
  cases p with
  | nil => exact hc rfl
  | cons f p => rw [isBlack_plug_cons f p t t']; exact h

theorem Tree.bh_pos_of_black {a : Nat} {l r : Tree α} {v : α} :
    0 < (Tree.node a .BLACK l v r).bh := by
  simp [Tree.bh]

theorem Tree.eq_nil_of_bh_zero_of_black {t : Tree α} (hb : t.isBlack = true) (h0 : t.bh = 0) :
    t = .nil := by
  cases t with
  | nil => rfl
  | node a c l v r =>
    simp only [Tree.isBlack_node, decide_eq_true_eq] at hb
    subst hb
    simp [Tree.bh] at h0

/-! ## The insertion fix-up restores the red-black invariants -/

theorem Color.eq_black_of_ne_red {c : Color} (h : c ≠ .RED) : c = .BLACK := by
  cases c <;> simp_all

theorem Color.eq_red_of_ne_black {c : Color} (h : c ≠ .BLACK) : c = .RED := by
  cases c <;> simp_all

theorem Tree.isBlack_of_not_isRed {t : Tree α} (h : ¬ t.isRed = true) : t.isBlack = true := by
  cases t with
  | nil => rfl
  | node a c l v r => cases c <;> simp_all

theorem fixInsZ_spec (k : Nat) :
    ∀ (p : Path α) (t0 : Tree α) (n : Nat) (l r : Tree α) (v : α), p.length ≤ k →
      (plug p t0).isBlack = true → (plug p t0).NoRedRed → (plug p t0).Balanced →
      (Tree.node n .RED l v r).NoRedRed → (Tree.node n .RED l v r).Balanced →
      (Tree.node n .RED l v r).bh = t0.bh →
      ∃ t', fixInsZ p (.node n .RED l v r) = some t' ∧ t'.isBlack = true ∧ t'.NoRedRed ∧
        t'.Balanced ∧ t'.inorder = (plug p (.node n .RED l v r)).inorder := by
  induction k using Nat.strong_induction_on with
  | _ k ih =>
    intro p t0 n l r v hk hB hR hBal hr hbal hbh
    cases p with
    | nil =>
      refine ⟨_, rfl, rfl, ⟨fun e => by simp at e, hr.2.1, hr.2.2⟩, hbal, rfl⟩
    | cons f p =>
      have hsubR := noRedRed_of_plug (p := p) (t := f.fill t0) hR
      have hsubB := balanced_of_plug (p := p) (t := f.fill t0) hBal
      by_cases hfc : f.color = .BLACK
      · -- black parent: nothing to repair
        have hnew : (f.fill (.node n .RED l v r)).NoRedRed ∧
            (f.fill (.node n .RED l v r)).Balanced ∧
            (f.fill (.node n .RED l v r)).bh = (f.fill t0).bh ∧
            (f.fill (.node n .RED l v r)).isBlack = true := by
          cases f with
          | L a c x s =>
            simp only [Step.color] at hfc; subst hfc
            exact ⟨⟨fun e => by simp at e, hr, hsubR.2.2⟩, ⟨hbh.trans hsubB.1, hbal, hsubB.2.2⟩,
              by simp [Step.fill, Tree.bh] at hbh ⊢; exact hbh, rfl⟩
          | R a c s x =>
            simp only [Step.color] at hfc; subst hfc
            exact ⟨⟨fun e => by simp at e, hsubR.2.1, hr⟩, ⟨hsubB.1.trans hbh.symm, hsubB.2.1, hbal⟩,
              by simp [Step.fill, Tree.bh], rfl⟩
        have hres : fixInsZ (f :: p) (.node n .RED l v r)
            = some (plug p (f.fill (.node n .RED l v r))) := by
          cases p with
          | nil => simp [fixInsZ, hfc]
          | cons g rest => simp [fixInsZ, hfc]
        refine ⟨_, hres, ?_, ?_, ?_, rfl⟩
        · exact isBlack_plug (p := p) (t := f.fill t0) hB (fun _ => hnew.2.2.2)
        · exact noRedRed_plug (p := p) (t := f.fill t0) hR hnew.1 (fun _ => hnew.2.2.2)
        · exact (balanced_plug (p := p) (t := f.fill t0) hBal hnew.2.1 hnew.2.2.1).1
      · -- red parent
        have hfr := Color.eq_red_of_ne_black hfc
        cases p with
        | nil =>
          exfalso
          cases f <;> simp_all [Step.fill, Step.color]
        | cons g rest =>
          cases f with
          | L pa pc pv ps =>
            cases g with
            | L ga gc gv u =>
              simp only [Step.color] at hfr
              subst hfr
              have hgR := noRedRed_of_plug (p := rest) hR
              have hgB := balanced_of_plug (p := rest) hBal
              simp only [Step.fill, Tree.NoRedRed, Tree.Balanced, Tree.bh, Tree.isBlack_node,
                reduceCtorEq, decide_False, Bool.false_eq_true, false_and, and_false,
                imp_false, if_false, if_true, add_zero, forall_const, true_and, and_true,
                decide_True] at hgR hgB hr hbal hbh
              obtain ⟨hgne, ⟨⟨⟨ht0b, hpsb⟩, ht0R, hpsR⟩, huR⟩⟩ := hgR
              obtain ⟨hb1, ⟨hb2, ht0B, hpsB⟩, huB⟩ := hgB
              obtain ⟨⟨hlb, hrb⟩, hlR, hrR⟩ := hr
              obtain ⟨hlr, hlB, hrB⟩ := hbal
              have hgc : gc = .BLACK := Color.eq_black_of_ne_red hgne
              subst hgc
              by_cases hu : u.isRed = true
              · obtain ⟨ua, ul, uv, ur, rfl⟩ := Tree.isRed_iff.1 hu
                simp only [Tree.NoRedRed, Tree.Balanced, Tree.bh, reduceCtorEq, if_false,
                  add_zero, forall_const, Tree.isBlack_node, decide_False, decide_True] at huR huB hb1
                obtain ⟨-, hulR, hurR⟩ := huR
                obtain ⟨hulr, hulB, hurB⟩ := huB
                have := ih rest.length (by simp only [List.length_cons] at hk; omega) rest
                  ((Step.L ga .BLACK gv (.node ua .RED ul uv ur)).fill ((Step.L pa .RED pv ps).fill t0)) ga
                  (.node pa .BLACK (.node n .RED l v r) pv ps) (.node ua .BLACK ul uv ur) gv (Nat.le_refl _) hB hR hBal
                  (by simp [Tree.NoRedRed]; tauto)
                  (by simp only [Tree.Balanced, Tree.bh, reduceCtorEq, if_false, if_true, add_zero]
                      repeat' apply And.intro
                      all_goals first | assumption | omega)
                  (by simp [Tree.bh, Step.fill] <;> omega)
                obtain ⟨t', h1, h2, h3, h4, h5⟩ := this
                refine ⟨t', ?_, h2, h3, h4, ?_⟩
                · simp [fixInsZ, Step.color, Step.paint, Step.paintSib, Step.fill, Tree.paint,
                    h1]
                · rw [h5]
                  simp [inorder_plug, Tree.inorder, Step.fill]
              · have hub := Tree.isBlack_of_not_isRed hu
                refine ⟨plug rest (.node pa .BLACK (.node n .RED l v r) pv (.node ga .RED ps gv u)), by simp [fixInsZ, Step.color, hu], ?_, ?_, ?_, ?_⟩
                · exact isBlack_plug (p := rest) hB (fun _ => rfl)
                · refine noRedRed_plug (p := rest) hR ?_ (fun _ => rfl)
                  simp [Tree.NoRedRed]; tauto
                · refine (balanced_plug (p := rest) hBal ?_ ?_).1
                  · simp only [Tree.Balanced, Tree.bh, reduceCtorEq, if_false, if_true, add_zero]
                    repeat' apply And.intro
                    all_goals first | assumption | omega
                  · simp [Tree.bh, Step.fill] <;> omega
                · simp [inorder_plug, Tree.inorder, Step.fill]
            | R ga gc u gv =>
              simp only [Step.color] at hfr
              subst hfr
              have hgR := noRedRed_of_plug (p := rest) hR
              have hgB := balanced_of_plug (p := rest) hBal
              simp only [Step.fill, Tree.NoRedRed, Tree.Balanced, Tree.bh, Tree.isBlack_node,
                reduceCtorEq, decide_False, Bool.false_eq_true, false_and, and_false,
                imp_false, if_false, if_true, add_zero, forall_const, true_and, and_true,
                decide_True] at hgR hgB hr hbal hbh
              obtain ⟨hgne, ⟨huR, ⟨⟨ht0b, hpsb⟩, ht0R, hpsR⟩⟩⟩ := hgR
              obtain ⟨hb1, huB, ⟨hb2, ht0B, hpsB⟩⟩ := hgB
              obtain ⟨⟨hlb, hrb⟩, hlR, hrR⟩ := hr
              obtain ⟨hlr, hlB, hrB⟩ := hbal
              have hgc : gc = .BLACK := Color.eq_black_of_ne_red hgne
              subst hgc
              by_cases hu : u.isRed = true
              · obtain ⟨ua, ul, uv, ur, rfl⟩ := Tree.isRed_iff.1 hu
                simp only [Tree.NoRedRed, Tree.Balanced, Tree.bh, reduceCtorEq, if_false,
                  add_zero, forall_const, Tree.isBlack_node, decide_False, decide_True] at huR huB hb1
                obtain ⟨-, hulR, hurR⟩ := huR
                obtain ⟨hulr, hulB, hurB⟩ := huB
                have := ih rest.length (by simp only [List.length_cons] at hk; omega) rest
                  ((Step.R ga .BLACK (.node ua .RED ul uv ur) gv).fill ((Step.L pa .RED pv ps).fill t0)) ga
                  (.node ua .BLACK ul uv ur) (.node pa .BLACK (.node n .RED l v r) pv ps) gv (Nat.le_refl _) hB hR hBal
                  (by simp [Tree.NoRedRed]; tauto)
                  (by simp only [Tree.Balanced, Tree.bh, reduceCtorEq, if_false, if_true, add_zero]
                      repeat' apply And.intro
                      all_goals first | assumption | omega)
                  (by simp [Tree.bh, Step.fill] <;> omega)
                obtain ⟨t', h1, h2, h3, h4, h5⟩ := this
                refine ⟨t', ?_, h2, h3, h4, ?_⟩
                · simp [fixInsZ, Step.color, Step.paint, Step.paintSib, Step.fill, Tree.paint,
                    h1]
                · rw [h5]
                  simp [inorder_plug, Tree.inorder, Step.fill]
              · have hub := Tree.isBlack_of_not_isRed hu
                refine ⟨plug rest (.node n .BLACK (.node ga .RED u gv l) v (.node pa .RED r pv ps)), by simp [fixInsZ, Step.color, hu], ?_, ?_, ?_, ?_⟩
                · exact isBlack_plug (p := rest) hB (fun _ => rfl)
                · refine noRedRed_plug (p := rest) hR ?_ (fun _ => rfl)
                  simp [Tree.NoRedRed]; tauto
                · refine (balanced_plug (p := rest) hBal ?_ ?_).1
                  · simp only [Tree.Balanced, Tree.bh, reduceCtorEq, if_false, if_true, add_zero]
                    repeat' apply And.intro
                    all_goals first | assumption | omega
                  · simp [Tree.bh, Step.fill] <;> omega
                · simp [inorder_plug, Tree.inorder, Step.fill]
          | R pa pc ps pv =>
            cases g with
            | L ga gc gv u =>
              simp only [Step.color] at hfr
              subst hfr
              have hgR := noRedRed_of_plug (p := rest) hR
              have hgB := balanced_of_plug (p := rest) hBal
              simp only [Step.fill, Tree.NoRedRed, Tree.Balanced, Tree.bh, Tree.isBlack_node,
                reduceCtorEq, decide_False, Bool.false_eq_true, false_and, and_false,
                imp_false, if_false, if_true, add_zero, forall_const, true_and, and_true,
                decide_True] at hgR hgB hr hbal hbh
              obtain ⟨hgne, ⟨⟨⟨hpsb, ht0b⟩, hpsR, ht0R⟩, huR⟩⟩ := hgR
              obtain ⟨hb1, ⟨hb2, hpsB, ht0B⟩, huB⟩ := hgB
              obtain ⟨⟨hlb, hrb⟩, hlR, hrR⟩ := hr
              obtain ⟨hlr, hlB, hrB⟩ := hbal
              have hgc : gc = .BLACK := Color.eq_black_of_ne_red hgne
              subst hgc
              by_cases hu : u.isRed = true
              · obtain ⟨ua, ul, uv, ur, rfl⟩ := Tree.isRed_iff.1 hu
                simp only [Tree.NoRedRed, Tree.Balanced, Tree.bh, reduceCtorEq, if_false,
                  add_zero, forall_const, Tree.isBlack_node, decide_False, decide_True] at huR huB hb1
                obtain ⟨-, hulR, hurR⟩ := huR
                obtain ⟨hulr, hulB, hurB⟩ := huB
                have := ih rest.length (by simp only [List.length_cons] at hk; omega) rest
                  ((Step.L ga .BLACK gv (.node ua .RED ul uv ur)).fill ((Step.R pa .RED ps pv).fill t0)) ga
                  (.node pa .BLACK ps pv (.node n .RED l v r)) (.node ua .BLACK ul uv ur) gv (Nat.le_refl _) hB hR hBal
                  (by simp [Tree.NoRedRed]; tauto)
                  (by simp only [Tree.Balanced, Tree.bh, reduceCtorEq, if_false, if_true, add_zero]
                      repeat' apply And.intro
                      all_goals first | assumption | omega)
                  (by simp [Tree.bh, Step.fill] <;> omega)
                obtain ⟨t', h1, h2, h3, h4, h5⟩ := this
                refine ⟨t', ?_, h2, h3, h4, ?_⟩
                · simp [fixInsZ, Step.color, Step.paint, Step.paintSib, Step.fill, Tree.paint,
                    h1]
                · rw [h5]
                  simp [inorder_plug, Tree.inorder, Step.fill]
              · have hub := Tree.isBlack_of_not_isRed hu
                refine ⟨plug rest (.node n .BLACK (.node pa .RED ps pv l) v (.node ga .RED r gv u)), by simp [fixInsZ, Step.color, hu], ?_, ?_, ?_, ?_⟩
                · exact isBlack_plug (p := rest) hB (fun _ => rfl)
                · refine noRedRed_plug (p := rest) hR ?_ (fun _ => rfl)
                  simp [Tree.NoRedRed]; tauto
                · refine (balanced_plug (p := rest) hBal ?_ ?_).1
                  · simp only [Tree.Balanced, Tree.bh, reduceCtorEq, if_false, if_true, add_zero]
                    repeat' apply And.intro
                    all_goals first | assumption | omega
                  · simp [Tree.bh, Step.fill] <;> omega
                · simp [inorder_plug, Tree.inorder, Step.fill]
            | R ga gc u gv =>
              simp only [Step.color] at hfr
              subst hfr
              have hgR := noRedRed_of_plug (p := rest) hR
              have hgB := balanced_of_plug (p := rest) hBal
              simp only [Step.fill, Tree.NoRedRed, Tree.Balanced, Tree.bh, Tree.isBlack_node,
                reduceCtorEq, decide_False, Bool.false_eq_true, false_and, and_false,
                imp_false, if_false, if_true, add_zero, forall_const, true_and, and_true,
                decide_True] at hgR hgB hr hbal hbh
              obtain ⟨hgne, ⟨huR, ⟨⟨hpsb, ht0b⟩, hpsR, ht0R⟩⟩⟩ := hgR
              obtain ⟨hb1, huB, ⟨hb2, hpsB, ht0B⟩⟩ := hgB
              obtain ⟨⟨hlb, hrb⟩, hlR, hrR⟩ := hr
              obtain ⟨hlr, hlB, hrB⟩ := hbal
              have hgc : gc = .BLACK := Color.eq_black_of_ne_red hgne
              subst hgc
              by_cases hu : u.isRed = true
              · obtain ⟨ua, ul, uv, ur, rfl⟩ := Tree.isRed_iff.1 hu
                simp only [Tree.NoRedRed, Tree.Balanced, Tree.bh, reduceCtorEq, if_false,
                  add_zero, forall_const, Tree.isBlack_node, decide_False, decide_True] at huR huB hb1
                obtain ⟨-, hulR, hurR⟩ := huR
                obtain ⟨hulr, hulB, hurB⟩ := huB
                have := ih rest.length (by simp only [List.length_cons] at hk; omega) rest
                  ((Step.R ga .BLACK (.node ua .RED ul uv ur) gv).fill ((Step.R pa .RED ps pv).fill t0)) ga
                  (.node ua .BLACK ul uv ur) (.node pa .BLACK ps pv (.node n .RED l v r)) gv (Nat.le_refl _) hB hR hBal
                  (by simp [Tree.NoRedRed]; tauto)
                  (by simp only [Tree.Balanced, Tree.bh, reduceCtorEq, if_false, if_true, add_zero]
                      repeat' apply And.intro
                      all_goals first | assumption | omega)
                  (by simp [Tree.bh, Step.fill] <;> omega)
                obtain ⟨t', h1, h2, h3, h4, h5⟩ := this
                refine ⟨t', ?_, h2, h3, h4, ?_⟩
                · simp [fixInsZ, Step.color, Step.paint, Step.paintSib, Step.fill, Tree.paint,
                    h1]
                · rw [h5]
                  simp [inorder_plug, Tree.inorder, Step.fill]
              · have hub := Tree.isBlack_of_not_isRed hu
                refine ⟨plug rest (.node pa .BLACK (.node ga .RED u gv ps) pv (.node n .RED l v r)), by simp [fixInsZ, Step.color, hu], ?_, ?_, ?_, ?_⟩
                · exact isBlack_plug (p := rest) hB (fun _ => rfl)
                · refine noRedRed_plug (p := rest) hR ?_ (fun _ => rfl)
                  simp [Tree.NoRedRed]; tauto
                · refine (balanced_plug (p := rest) hBal ?_ ?_).1
                  · simp only [Tree.Balanced, Tree.bh, reduceCtorEq, if_false, if_true, add_zero]
                    repeat' apply And.intro
                    all_goals first | assumption | omega
                  · simp [Tree.bh, Step.fill] <;> omega
                · simp [inorder_plug, Tree.inorder, Step.fill]

/-! ## The comparator-directed descent on ordered trees -/

theorem TotalCmp.self_eq {cmp : α → α → Int} (h : TotalCmp cmp) (a : α) : cmp a a = 0 := by
  have h1 := h.swap a a
  omega

theorem TotalCmp.eq_swap {cmp : α → α → Int} (h : TotalCmp cmp) {a b : α}
    (e : cmp a b = 0) : cmp b a = 0 := by
  have h1 := h.swap a b
  have h2 := h.swap b a
  omega

theorem TotalCmp.le_lt {cmp : α → α → Int} (h : TotalCmp cmp) {a b c : α}
    (h1 : cmp a b ≤ 0) (h2 : cmp b c < 0) : cmp a c < 0 := by
  have hac := h.trans a b c h1 (by omega)
  by_contra hn
  have e : cmp a c = 0 := by omega
  have hca := h.eq_swap e
  have hcb := h.trans c a b (by omega) h1
  have := (h.swap b c).1 h2
  omega

theorem TotalCmp.lt_le {cmp : α → α → Int} (h : TotalCmp cmp) {a b c : α}
    (h1 : cmp a b < 0) (h2 : cmp b c ≤ 0) : cmp a c < 0 := by
  have hac := h.trans a b c (by omega) h2
  by_contra hn
  have e : cmp a c = 0 := by omega
  have hca := h.eq_swap e
  have hbc := h.trans b c a h2 (by omega)
  have := (h.swap a b).1 h1
  omega

theorem TotalCmp.lt_trans {cmp : α → α → Int} (h : TotalCmp cmp) {a b c : α}
    (h1 : cmp a b < 0) (h2 : cmp b c < 0) : cmp a c < 0 :=
  h.le_lt (by omega) h2

theorem ordered_node {cmp : α → α → Int} {a : Nat} {c : Color} {l r : Tree α} {v : α} :
    (Tree.node a c l v r).Ordered cmp ↔
      l.Ordered cmp ∧ r.Ordered cmp ∧ (∀ x ∈ l.inorder, cmp x v < 0) ∧
        (∀ y ∈ r.inorder, cmp v y < 0) ∧ ∀ x ∈ l.inorder, ∀ y ∈ r.inorder, cmp x y < 0 := by
  simp only [Tree.Ordered, Tree.inorder, List.pairwise_append, List.pairwise_cons,
    List.mem_cons, forall_eq_or_imp]
  constructor
  · rintro ⟨h1, ⟨h2, h3⟩, h4⟩
    exact ⟨h1, h3, fun x hx => (h4 x hx).1, h2, fun x hx y hy => (h4 x hx).2 y hy⟩
  · rintro ⟨h1, h2, h3, h4, h5⟩
    exact ⟨h1, ⟨h4, h2⟩, fun x hx => ⟨h3 x hx, fun y hy => h5 x hx y hy⟩⟩

theorem descend_plug (cmp : α → α → Int) (d : α) (t : Tree α) (p : Path α) :
    plug (descend cmp d t p).1 (descend cmp d t p).2 = plug p t := by
  induction t generalizing p with
  | nil => rfl
  | node a c l v r ihl ihr =>
    simp only [descend]
    split
    · rfl
    · split
      · rw [ihr]; rfl
      · rw [ihl]; rfl

theorem descend_length (cmp : α → α → Int) (d : α) (t : Tree α) (p : Path α) :
    (descend cmp d t p).1.length + (descend cmp d t p).2.height ≤ p.length + t.height := by
  induction t generalizing p with
  | nil => simp [descend]
  | node a c l v r ihl ihr =>
    simp only [descend]
    split
    · exact Nat.le_refl _
    · split
      · have := ihr (.R a c l v :: p)
        simp only [List.length_cons, Tree.height] at this ⊢
        omega
      · have := ihl (.L a c v r :: p)
        simp only [List.length_cons, Tree.height] at this ⊢
        omega

theorem descend_found {cmp : α → α → Int} {d : α} {t : Tree α} {p p' : Path α} {x : Nat}
    {c : Color} {l r : Tree α} {v : α} (h : descend cmp d t p = (p', .node x c l v r)) :
    cmp d v = 0 := by
  induction t generalizing p with
  | nil => simp [descend] at h
  | node a k tl w tr ihl ihr =>
    simp only [descend] at h
    split at h
    · rename_i h0
      simp only [Prod.mk.injEq, Tree.node.injEq] at h
      obtain ⟨-, -, -, -, rfl, -⟩ := h
      exact h0
    · split at h
      · exact ihr h
      · exact ihl h

theorem descend_absent {cmp : α → α → Int} {d : α} {t : Tree α} (p : Path α)
    (h : ∀ x ∈ t.inorder, cmp d x ≠ 0) : (descend cmp d t p).2 = .nil := by
  induction t generalizing p with
  | nil => rfl
  | node a k tl w tr ihl ihr =>
    simp only [Tree.inorder, List.mem_append, List.mem_cons] at h
    simp only [descend, h w (Or.inr (Or.inl rfl)), if_false]
    split
    · exact ihr _ (fun x hx => h x (Or.inr (Or.inr hx)))
    · exact ihl _ (fun x hx => h x (Or.inl hx))

theorem descend_present {cmp : α → α → Int} (hc : TotalCmp cmp) {d : α} {t : Tree α}
    (p : Path α) (ho : t.Ordered cmp) (h : ∃ x ∈ t.inorder, cmp d x = 0) :
    (descend cmp d t p).2 ≠ .nil := by
  induction t generalizing p with
  | nil => simp [Tree.inorder] at h
  | node a k tl w tr ihl ihr =>
    obtain ⟨hol, hor, hlw, hwr, -⟩ := ordered_node.1 ho
    obtain ⟨x, hx, hdx⟩ := h
    simp only [Tree.inorder, List.mem_append, List.mem_cons] at hx
    simp only [descend]
    split
    · simp
    · rename_i h0
      split
      · rename_i h1
        refine ihr _ hor ⟨x, ?_, hdx⟩
        rcases hx with hx | rfl | hx
        · exfalso
          have h2 : cmp w d < 0 := (hc.swap w d).2 h1
          have h3 := hc.lt_trans (hlw x hx) h2
          have := (hc.swap x d).1 h3
          omega
        · exact absurd hdx h0
        · exact hx
      · rename_i h1
        refine ihl _ hol ⟨x, ?_, hdx⟩
        rcases hx with hx | rfl | hx
        · exact hx
        · exact absurd hdx h0
        · exfalso
          have h2 : cmp d w < 0 := by omega
          have h3 := hc.lt_trans h2 (hwr x hx)
          omega

/-- Along the descent every value left behind on the left is smaller and
every value left behind on the right is greater than the value sought. -/
theorem descend_bounds {cmp : α → α → Int} (hc : TotalCmp cmp) {d : α} {t : Tree α}
    (p : Path α) (ho : t.Ordered cmp)
    (hpre : ∀ x ∈ pathPre p, cmp x d < 0) (hpost : ∀ x ∈ pathPost p, cmp d x < 0) :
    (∀ x ∈ pathPre (descend cmp d t p).1, cmp x d < 0) ∧
      (∀ x ∈ pathPost (descend cmp d t p).1, cmp d x < 0) := by
  induction t generalizing p with
  | nil => exact ⟨hpre, hpost⟩
  | node a k tl w tr ihl ihr =>
    obtain ⟨hol, hor, hlw, hwr, -⟩ := ordered_node.1 ho
    simp only [descend]
    split
    · exact ⟨hpre, hpost⟩
    · split
      · rename_i h1
        have hwd : cmp w d < 0 := (hc.swap w d).2 h1
        refine ihr _ hor ?_ ?_
        · intro x hx
          simp only [pathPre, List.mem_append, List.mem_singleton] at hx
          rcases hx with hx | hx | rfl
          · exact hpre x hx
          · exact hc.lt_trans (hlw x hx) hwd
          · exact hwd
        · intro x hx
          exact hpost x (by simpa [pathPost] using hx)
      · rename_i h0 h1
        have hdw : cmp d w < 0 := by omega
        refine ihl _ hol ?_ ?_
        · intro x hx
          exact hpre x (by simpa [pathPre] using hx)
        · intro x hx
          simp only [pathPost, List.mem_append, List.mem_cons] at hx
          rcases hx with (rfl | hx) | hx
          · exact hdw
          · exact hc.lt_trans hdw (hwr x hx)
          · exact hpost x hx

/-! ## The deletion fix-up restores the red-black invariants -/

theorem Tree.isBlack_or_isRed (t : Tree α) : t.isBlack = true ∨ t.isRed = true := by
  cases t with
  | nil => exact Or.inl rfl
  | node a c l v r => cases c <;> simp

theorem delLate_specL {pa : Nat} {pc : Color} {pv : α} {s : Nat} {sl sr t : Tree α} {sv : α}
    (htB : t.Balanced) (htR : t.NoRedRed)
    (hSB : (Tree.node s .BLACK sl sv sr).Balanced) (hSR : (Tree.node s .BLACK sl sv sr).NoRedRed)
    (hbh : (Tree.node s .BLACK sl sv sr).bh = t.bh + 1)
    (hn3 : ¬ (pc = .BLACK ∧ sl.isBlack = true ∧ sr.isBlack = true)) :
    ∃ u, delLate (.L pa pc pv (.node s .BLACK sl sv sr)) t = some u ∧ u.NoRedRed ∧ u.Balanced ∧
      u.bh = t.bh + 1 + (if pc = .BLACK then 1 else 0) ∧ (pc = .BLACK → u.isBlack = true) ∧
      u.inorder = t.inorder ++ pv :: (Tree.node s .BLACK sl sv sr).inorder := by
  obtain ⟨hb1, hslB, hsrB⟩ := hSB
  obtain ⟨-, hslR, hsrR⟩ := hSR
  simp only [Tree.bh, if_true] at hbh
  by_cases h4 : pc = .RED ∧ sl.isBlack = true ∧ sr.isBlack = true
  · obtain ⟨rfl, h41, h42⟩ := h4
    refine ⟨.node pa .BLACK t pv (.node s .RED sl sv sr), by simp [delLate, h41, h42], ?_, ?_,
      ?_, ?_, ?_⟩
    · exact ⟨fun e => by simp at e, htR, ⟨fun _ => ⟨h41, h42⟩, hslR, hsrR⟩⟩
    · refine ⟨?_, htB, hb1, hslB, hsrB⟩
      simp [Tree.bh]; omega
    · simp [Tree.bh]
    · simp
    · simp [Tree.inorder]
  · have hnot : ¬ (sl.isBlack = true ∧ sr.isBlack = true) := by
      intro h
      cases pc with
      | RED => exact h4 ⟨rfl, h⟩
      | BLACK => exact hn3 ⟨rfl, h⟩
    have hd : delLate (.L pa pc pv (.node s .BLACK sl sv sr)) t
        = del6L pa pc pv t (del5L (.node s .BLACK sl sv sr)) := by
      simp only [delLate, true_and]
      rw [if_neg]
      intro h
      exact h4 ⟨h.1, h.2.1, h.2.2⟩
    rw [hd]
    rcases sr.isBlack_or_isRed with hsrb | hsrr
    · -- far child black: the near child is red and stage 5 rotates
      have hslr : sl.isRed = true := by
        rcases sl.isBlack_or_isRed with h | h
        · exact absurd ⟨h, hsrb⟩ hnot
        · exact h
      obtain ⟨la, ll, lv, lr, rfl⟩ := Tree.isRed_iff.1 hslr
      simp only [Tree.Balanced, Tree.NoRedRed, Tree.bh, reduceCtorEq, if_false, add_zero,
        forall_const] at hslB hslR hb1 hbh
      obtain ⟨hl1, hllB, hlrB⟩ := hslB
      obtain ⟨⟨hllb, hlrb⟩, hllR, hlrR⟩ := hslR
      refine ⟨.node la pc (.node pa .BLACK t pv ll) lv (.node s .BLACK lr sv sr),
        by simp [del5L, del6L, hsrb], ?_, ?_, ?_, ?_, ?_⟩
      · exact ⟨fun _ => ⟨rfl, rfl⟩, ⟨fun e => by simp at e, htR, hllR⟩,
          ⟨fun e => by simp at e, hlrR, hsrR⟩⟩
      · refine ⟨?_, ⟨?_, htB, hllB⟩, ⟨?_, hlrB, hsrB⟩⟩
        · simp [Tree.bh]; omega
        · omega
        · omega
      · simp [Tree.bh]
      · intro h; simp [h]
      · simp [Tree.inorder]
    · -- far child red: stage 6 alone
      obtain ⟨ra, rl, rv, rr, rfl⟩ := Tree.isRed_iff.1 hsrr
      have h5 : del5L (.node s .BLACK sl sv (.node ra .RED rl rv rr))
          = .node s .BLACK sl sv (.node ra .RED rl rv rr) :=
        del5L_of_not (by simp)
      rw [h5]
      simp only [Tree.Balanced, Tree.NoRedRed, Tree.bh, reduceCtorEq, if_false, add_zero,
        forall_const] at hsrB hsrR hb1 hbh
      obtain ⟨hr1, hrlB, hrrB⟩ := hsrB
      obtain ⟨-, hrlR, hrrR⟩ := hsrR
      refine ⟨.node s pc (.node pa .BLACK t pv sl) sv (.node ra .BLACK rl rv rr),
        by simp [del6L], ?_, ?_, ?_, ?_, ?_⟩
      · exact ⟨fun _ => ⟨rfl, rfl⟩, ⟨fun e => by simp at e, htR, hslR⟩,
          ⟨fun e => by simp at e, hrlR, hrrR⟩⟩
      · refine ⟨?_, ⟨?_, htB, hslB⟩, ⟨hr1, hrlB, hrrB⟩⟩
        · simp [Tree.bh]; omega
        · omega
      · simp [Tree.bh]
      · intro h; simp [h]
      · simp [Tree.inorder]

theorem delLate_specR {pa : Nat} {pc : Color} {pv : α} {s : Nat} {sl sr t : Tree α} {sv : α}
    (htB : t.Balanced) (htR : t.NoRedRed)
    (hSB : (Tree.node s .BLACK sl sv sr).Balanced) (hSR : (Tree.node s .BLACK sl sv sr).NoRedRed)
    (hbh : (Tree.node s .BLACK sl sv sr).bh = t.bh + 1)
    (hn3 : ¬ (pc = .BLACK ∧ sl.isBlack = true ∧ sr.isBlack = true)) :
    ∃ u, delLate (.R pa pc (.node s .BLACK sl sv sr) pv) t = some u ∧ u.NoRedRed ∧ u.Balanced ∧
      u.bh = t.bh + 1 + (if pc = .BLACK then 1 else 0) ∧ (pc = .BLACK → u.isBlack = true) ∧
      u.inorder = (Tree.node s .BLACK sl sv sr).inorder ++ pv :: t.inorder := by
  obtain ⟨hb1, hslB, hsrB⟩ := hSB
  obtain ⟨-, hslR, hsrR⟩ := hSR
  simp only [Tree.bh, if_true] at hbh
  by_cases h4 : pc = .RED ∧ sl.isBlack = true ∧ sr.isBlack = true
  · obtain ⟨rfl, h41, h42⟩ := h4
    refine ⟨.node pa .BLACK (.node s .RED sl sv sr) pv t, by simp [delLate, h41, h42], ?_, ?_,
      ?_, ?_, ?_⟩
    · exact ⟨fun e => by simp at e, ⟨fun _ => ⟨h41, h42⟩, hslR, hsrR⟩, htR⟩
    · refine ⟨?_, ⟨hb1, hslB, hsrB⟩, htB⟩
      simp [Tree.bh]; omega
    · simp [Tree.bh]; omega
    · simp
    · simp [Tree.inorder]
  · have hnot : ¬ (sl.isBlack = true ∧ sr.isBlack = true) := by
      intro h
      cases pc with
      | RED => exact h4 ⟨rfl, h⟩
      | BLACK => exact hn3 ⟨rfl, h⟩
    have hd : delLate (.R pa pc (.node s .BLACK sl sv sr) pv) t
        = del6R pa pc pv t (del5R (.node s .BLACK sl sv sr)) := by
      simp only [delLate, true_and]
      rw [if_neg]
      intro h
      exact h4 ⟨h.1, h.2.1, h.2.2⟩
    rw [hd]
    rcases sl.isBlack_or_isRed with hslb | hslr
    · -- far child black: the near child is red and stage 5 rotates
      have hsrr : sr.isRed = true := by
        rcases sr.isBlack_or_isRed with h | h
        · exact absurd ⟨hslb, h⟩ hnot
        · exact h
      obtain ⟨ra, rl, rv, rr, rfl⟩ := Tree.isRed_iff.1 hsrr
      simp only [Tree.Balanced, Tree.NoRedRed, Tree.bh, reduceCtorEq, if_false, add_zero,
        forall_const] at hsrB hsrR hb1 hbh
      obtain ⟨hr1, hrlB, hrrB⟩ := hsrB
      obtain ⟨⟨hrlb, hrrb⟩, hrlR, hrrR⟩ := hsrR
      refine ⟨.node ra pc (.node s .BLACK sl sv rl) rv (.node pa .BLACK rr pv t),
        by simp [del5R, del6R, hslb], ?_, ?_, ?_, ?_, ?_⟩
      · exact ⟨fun _ => ⟨rfl, rfl⟩, ⟨fun e => by simp at e, hslR, hrlR⟩,
          ⟨fun e => by simp at e, hrrR, htR⟩⟩
      · refine ⟨?_, ⟨?_, hslB, hrlB⟩, ⟨?_, hrrB, htB⟩⟩
        · simp [Tree.bh]; omega
        · omega
        · omega
      · simp [Tree.bh]; omega
      · intro h; simp [h]
      · simp [Tree.inorder]
    · -- far child red: stage 6 alone
      obtain ⟨la, ll, lv, lr, rfl⟩ := Tree.isRed_iff.1 hslr
      have h5 : del5R (.node s .BLACK (.node la .RED ll lv lr) sv sr)
          = .node s .BLACK (.node la .RED ll lv lr) sv sr :=
        del5R_of_not (by simp)
      rw [h5]
      simp only [Tree.Balanced, Tree.NoRedRed, Tree.bh, reduceCtorEq, if_false, add_zero,
        forall_const] at hslB hslR hb1 hbh
      obtain ⟨hl1, hllB, hlrB⟩ := hslB
      obtain ⟨-, hllR, hlrR⟩ := hslR
      refine ⟨.node s pc (.node la .BLACK ll lv lr) sv (.node pa .BLACK sr pv t),
        by simp [del6R], ?_, ?_, ?_, ?_, ?_⟩
      · exact ⟨fun _ => ⟨rfl, rfl⟩, ⟨fun e => by simp at e, hllR, hlrR⟩,
          ⟨fun e => by simp at e, hsrR, htR⟩⟩
      · refine ⟨?_, ⟨hl1, hllB, hlrB⟩, ⟨?_, hsrB, htB⟩⟩
        · simp [Tree.bh]; omega
        · omega
      · simp [Tree.bh]; omega
      · intro h; simp [h]
      · simp [Tree.inorder]
theorem Tree.exists_node_of_bh_pos {t : Tree α} (h : 0 < t.bh) :
    ∃ a c l v r, t = .node a c l v r := by
  cases t with
  | nil => simp [Tree.bh] at h
  | node a c l v r => exact ⟨a, c, l, v, r, rfl⟩

theorem delFixZ_spec :
    ∀ (p : Path α) (t0 t : Tree α), (plug p t0).isBlack = true → (plug p t0).NoRedRed →
      (plug p t0).Balanced → t.isBlack = true → t.NoRedRed → t.Balanced → t.bh + 1 = t0.bh →
      ∃ t', delFixZ p t = some t' ∧ t'.isBlack = true ∧ t'.NoRedRed ∧ t'.Balanced ∧
        t'.inorder = (plug p t).inorder := by
  intro p
  induction p with
  | nil =>
    intro t0 t _ _ _ htb htR htBal _
    exact ⟨t, rfl, htb, htR, htBal, rfl⟩
  | cons f rest ih =>
    intro t0 t hB hR hBal htb htR htBal hbh
    have hsubR := noRedRed_of_plug (p := rest) (t := f.fill t0) hR
    have hsubB := balanced_of_plug (p := rest) (t := f.fill t0) hBal
    cases f with
    | L pa pc pv S =>
      obtain ⟨hb0, ht0B, hSB⟩ := hsubB
      obtain ⟨hpcS, ht0R, hSR⟩ := hsubR
      obtain ⟨s, sc, sl, sv, sr, rfl⟩ := Tree.exists_node_of_bh_pos (t := S) (by omega)
      cases sc with
      | RED =>
        have hpc : pc = .BLACK := Color.eq_black_of_ne_red (fun e => by simpa using (hpcS e).2)
        subst hpc
        obtain ⟨hSbh, hslB, hsrB⟩ := hSB
        obtain ⟨hSc, hslR, hsrR⟩ := hSR
        obtain ⟨hslb, hsrb⟩ := hSc rfl
        simp only [Tree.bh, reduceCtorEq, if_false, add_zero] at hb0 hSbh
        obtain ⟨x, xc, xl, xv, xr, rfl⟩ := Tree.exists_node_of_bh_pos (t := sl) (by omega)
        have hxc : xc = .BLACK := by simpa using hslb
        subst hxc
        obtain ⟨u, hu1, hu2, hu3, hu4, -, hu6⟩ := @delLate_specL _ pa (.RED) pv _ _ _ _ _
          htBal htR hslB hslR (by omega) (by simp)
        refine ⟨plug rest (.node s .BLACK u sv sr), by simp [delFixZ, hu1, Step.fill], ?_, ?_, ?_, ?_⟩
        · exact isBlack_plug (p := rest) hB (fun _ => rfl)
        · refine noRedRed_plug (p := rest) hR ?_ (fun _ => rfl)
          exact ⟨fun e => by simp at e, hu2, hsrR⟩
        · refine (balanced_plug (p := rest) hBal ?_ ?_).1
          · refine ⟨?_, hu3, hsrB⟩
            simp only [hu4, Tree.bh, reduceCtorEq, if_false, if_true, add_zero] <;> omega
          · simp only [hu4, Tree.bh, Step.fill, reduceCtorEq, if_false, if_true, add_zero] <;> omega
        · simp [inorder_plug, hu6, Tree.inorder, Step.fill]
      | BLACK =>
        simp only [Tree.bh, if_true] at hb0
        by_cases h3 : pc = .BLACK ∧ sl.isBlack = true ∧ sr.isBlack = true
        · obtain ⟨rfl, h31, h32⟩ := h3
          obtain ⟨hSbh, hslB, hsrB⟩ := hSB
          obtain ⟨-, hslR, hsrR⟩ := hSR
          have := ih ((Step.L pa .BLACK pv (.node s .BLACK sl sv sr)).fill t0) (.node pa .BLACK t pv (.node s .RED sl sv sr)) hB hR hBal rfl
            ⟨fun e => by simp at e, htR, ⟨fun _ => ⟨h31, h32⟩, hslR, hsrR⟩⟩
            ⟨by simp only [Tree.bh, reduceCtorEq, if_false, if_true, add_zero] <;> omega, htBal, hSbh, hslB, hsrB⟩
            (by simp only [Tree.bh, Step.fill, reduceCtorEq, if_false, if_true, add_zero] <;> omega)
          obtain ⟨t', h1, h2, h3', h4, h5⟩ := this
          refine ⟨t', by simp [delFixZ, h31, h32, h1], h2, h3', h4, ?_⟩
          rw [h5]; simp [inorder_plug, Tree.inorder, Step.fill]
        · obtain ⟨u, hu1, hu2, hu3, hu4, hu5, hu6⟩ := @delLate_specL _ pa (pc) pv _ _ _ _ _
            htBal htR hSB hSR (by simp only [Tree.bh, if_true]; omega) h3
          refine ⟨plug rest u, by simp [delFixZ, h3, hu1], ?_, ?_, ?_, ?_⟩
          · refine isBlack_plug (p := rest) hB (fun e => hu5 ?_)
            subst e
            simpa [Step.fill] using hB
          · refine noRedRed_plug (p := rest) hR hu2 (fun e => hu5 ?_)
            simpa [Step.fill] using e
          · refine (balanced_plug (p := rest) hBal hu3 ?_).1
            simp only [hu4, Tree.bh, Step.fill, reduceCtorEq, if_false, if_true, add_zero] <;> omega
          · simp [inorder_plug, hu6, Tree.inorder, Step.fill]
    | R pa pc S pv =>
      obtain ⟨hb0, hSB, ht0B⟩ := hsubB
      obtain ⟨hpcS, hSR, ht0R⟩ := hsubR
      obtain ⟨s, sc, sl, sv, sr, rfl⟩ := Tree.exists_node_of_bh_pos (t := S) (by omega)
      cases sc with
      | RED =>
        have hpc : pc = .BLACK := Color.eq_black_of_ne_red (fun e => by simpa using (hpcS e).1)
        subst hpc
        obtain ⟨hSbh, hslB, hsrB⟩ := hSB
        obtain ⟨hSc, hslR, hsrR⟩ := hSR
        obtain ⟨hslb, hsrb⟩ := hSc rfl
        simp only [Tree.bh, reduceCtorEq, if_false, add_zero] at hb0 hSbh
        obtain ⟨x, xc, xl, xv, xr, rfl⟩ := Tree.exists_node_of_bh_pos (t := sr) (by omega)
        have hxc : xc = .BLACK := by simpa using hsrb
        subst hxc
        obtain ⟨u, hu1, hu2, hu3, hu4, -, hu6⟩ := @delLate_specR _ pa (.RED) pv _ _ _ _ _
          htBal htR hsrB hsrR (by omega) (by simp)
        refine ⟨plug rest (.node s .BLACK sl sv u), by simp [delFixZ, hu1, Step.fill], ?_, ?_, ?_, ?_⟩
        · exact isBlack_plug (p := rest) hB (fun _ => rfl)
        · refine noRedRed_plug (p := rest) hR ?_ (fun _ => rfl)
          exact ⟨fun e => by simp at e, hslR, hu2⟩
        · refine (balanced_plug (p := rest) hBal ?_ ?_).1
          · refine ⟨?_, hslB, hu3⟩
            simp only [hu4, Tree.bh, reduceCtorEq, if_false, if_true, add_zero] <;> omega
          · simp only [hu4, Tree.bh, Step.fill, reduceCtorEq, if_false, if_true, add_zero] <;> omega
        · simp [inorder_plug, hu6, Tree.inorder, Step.fill]
      | BLACK =>
        simp only [Tree.bh, if_true] at hb0
        by_cases h3 : pc = .BLACK ∧ sl.isBlack = true ∧ sr.isBlack = true
        · obtain ⟨rfl, h31, h32⟩ := h3
          obtain ⟨hSbh, hslB, hsrB⟩ := hSB
          obtain ⟨-, hslR, hsrR⟩ := hSR
          have := ih ((Step.R pa .BLACK (.node s .BLACK sl sv sr) pv).fill t0) (.node pa .BLACK (.node s .RED sl sv sr) pv t) hB hR hBal rfl
            ⟨fun e => by simp at e, ⟨fun _ => ⟨h31, h32⟩, hslR, hsrR⟩, htR⟩
            ⟨by simp only [Tree.bh, reduceCtorEq, if_false, if_true, add_zero] <;> omega, ⟨hSbh, hslB, hsrB⟩, htBal⟩
            (by simp only [Tree.bh, Step.fill, reduceCtorEq, if_false, if_true, add_zero] <;> omega)
          obtain ⟨t', h1, h2, h3', h4, h5⟩ := this
          refine ⟨t', by simp [delFixZ, h31, h32, h1], h2, h3', h4, ?_⟩
          rw [h5]; simp [inorder_plug, Tree.inorder, Step.fill]
        · obtain ⟨u, hu1, hu2, hu3, hu4, hu5, hu6⟩ := @delLate_specR _ pa (pc) pv _ _ _ _ _
            htBal htR hSB hSR (by simp only [Tree.bh, if_true]; omega) h3
          refine ⟨plug rest u, by simp [delFixZ, h3, hu1], ?_, ?_, ?_, ?_⟩
          · refine isBlack_plug (p := rest) hB (fun e => hu5 ?_)
            subst e
            simpa [Step.fill] using hB
          · refine noRedRed_plug (p := rest) hR hu2 (fun e => hu5 ?_)
            simpa [Step.fill] using e
          · refine (balanced_plug (p := rest) hBal hu3 ?_).1
            simp only [hu4, Tree.bh, Step.fill, reduceCtorEq, if_false, if_true, add_zero] <;> omega
          · simp [inorder_plug, hu6, Tree.inorder, Step.fill]

/-! ## Removing a node with at most one child; the value swap -/

theorem onlyChild_bh {n : Nat} {c : Color} {l r : Tree α} {v : α}
    (hB : (Tree.node n c l v r).Balanced) (hl : l = .nil ∨ r = .nil) :
    (Tree.node n c l v r).onlyChild.bh = 0 ∧ l.bh = 0 := by
  obtain ⟨h1, -, -⟩ := hB
  cases r with
  | nil =>
    simp only [Tree.bh] at h1
    exact ⟨by simpa [Tree.onlyChild] using h1, h1⟩
  | node ra rc rl rv rr =>
    rcases hl with rfl | h
    · exact ⟨h1.symm, rfl⟩
    · simp at h

theorem onlyChild_props {n : Nat} {c : Color} {l r : Tree α} {v : α}
    (hB : (Tree.node n c l v r).Balanced) (hR : (Tree.node n c l v r).NoRedRed) :
    (Tree.node n c l v r).onlyChild.Balanced ∧ (Tree.node n c l v r).onlyChild.NoRedRed ∧
      (c = .RED → (Tree.node n c l v r).onlyChild.isBlack = true) := by
  cases r with
  | nil => exact ⟨hB.2.1, hR.2.1, fun e => (hR.1 e).1⟩
  | node ra rc rl rv rr => exact ⟨hB.2.2, hR.2.2, fun e => (hR.1 e).2⟩

theorem onlyChild_inorder {n : Nat} {c : Color} {l r : Tree α} {v : α}
    (hl : l = .nil ∨ r = .nil) :
    (Tree.node n c l v r).onlyChild.inorder = l.inorder ++ r.inorder := by
  cases r with
  | nil => simp [Tree.onlyChild, Tree.inorder]
  | node ra rc rl rv rr =>
    rcases hl with rfl | h
    · simp [Tree.onlyChild, Tree.inorder]
    · simp at h

theorem red_leaf_of_bh_zero {t : Tree α} (hr : t.isRed = true) (hB : t.Balanced)
    (hR : t.NoRedRed) (h0 : t.bh = 0) : t.count = 1 := by
  obtain ⟨a, l, v, r, rfl⟩ := Tree.isRed_iff.1 hr
  obtain ⟨hlb, hrb⟩ := hR.1 rfl
  simp only [Tree.bh, reduceCtorEq, if_false, add_zero] at h0
  have hl := Tree.eq_nil_of_bh_zero_of_black hlb h0
  have hr' := Tree.eq_nil_of_bh_zero_of_black hrb (hB.1 ▸ h0)
  subst hl hr'
  rfl

theorem removeZ_spec {q : Path α} {n : Nat} {c : Color} {l r : Tree α} {v : α}
    (hB : (plug q (.node n c l v r)).isBlack = true) (hR : (plug q (.node n c l v r)).NoRedRed)
    (hBal : (plug q (.node n c l v r)).Balanced) (hl : l = .nil ∨ r = .nil) :
    ∃ t', removeZ q (.node n c l v r) = some t' ∧ t'.isBlack = true ∧ t'.NoRedRed ∧
      t'.Balanced ∧ t'.inorder = pathPre q ++ (l.inorder ++ r.inorder) ++ pathPost q ∧
      (Tree.node n c l v r).onlyChild.count ≤ 1 := by
  have hsubB := balanced_of_plug hBal
  have hsubR := noRedRed_of_plug hR
  obtain ⟨hcb, hlb⟩ := onlyChild_bh hsubB hl
  obtain ⟨hcB, hcR, hcc⟩ := onlyChild_props hsubB hsubR
  have hio := onlyChild_inorder (n := n) (c := c) (v := v) hl
  generalize hch : (Tree.node n c l v r).onlyChild = ch at hcb hcB hcR hcc hio
  have hNbh : (Tree.node n c l v r).bh = if c = .BLACK then 1 else 0 := by
    simp [Tree.bh, hlb]
  cases c with
  | RED =>
    have hnil := Tree.eq_nil_of_bh_zero_of_black (hcc rfl) hcb
    subst hnil
    refine ⟨plug q .nil, by simp [removeZ, hch], ?_, ?_, ?_, ?_, by simp [Tree.count]⟩
    · refine isBlack_plug hB (fun _ => rfl)
    · exact @noRedRed_plug _ _ _ .nil hR trivial (fun _ => rfl)
    · exact (@balanced_plug _ _ _ .nil hBal trivial (by rw [hNbh]; simp [Tree.bh])).1
    · rw [inorder_plug, ← hio]
  | BLACK =>
    rcases ch.isBlack_or_isRed with hb | hr
    · have hnil := Tree.eq_nil_of_bh_zero_of_black hb hcb
      subst hnil
      obtain ⟨t', h1, h2, h3, h4, h5⟩ := delFixZ_spec q _ .nil hB hR hBal rfl trivial trivial
        (by rw [hNbh]; simp [Tree.bh])
      refine ⟨t', by simp [removeZ, hch, h1], h2, h3, h4, ?_, by simp [Tree.count]⟩
      rw [h5, inorder_plug, ← hio]
    · refine ⟨plug q (ch.paint .BLACK), by simp [removeZ, hch, hr], ?_, ?_, ?_, ?_, ?_⟩
      · exact isBlack_plug hB (fun _ => Tree.isBlack_paint_black _)
      · exact noRedRed_plug hR (Tree.noRedRed_paint_black hcR)
          (fun _ => Tree.isBlack_paint_black _)
      · refine (balanced_plug hBal (Tree.balanced_paint _ hcB) ?_).1
        rw [hNbh, Tree.bh_paint_black_of_red hr, hcb]; simp
      · rw [inorder_plug, Tree.inorder_paint, hio]
      · exact (red_leaf_of_bh_zero hr hcB hcR hcb).le

theorem descendMin_pathPre (t : Tree α) (p : Path α) :
    pathPre (descendMin t p).1 = pathPre p := by
  induction t generalizing p with
  | nil => rfl
  | node a c l v r ihl _ =>
    cases l with
    | nil => rfl
    | node la lc ll lv lr =>
      simp only [descendMin]
      rw [ihl]
      rfl

/-- The value swap of `deleteNormalBST` keeps shape and colours: the node
handed on has no left child, and the tree around it satisfies the colour
invariants as before. -/
theorem swapDown_spec {p : Path α} {x : Nat} {c : Color} {l r : Tree α} {v : α}
    (hB : (plug p (.node x c l v r)).isBlack = true) (hR : (plug p (.node x c l v r)).NoRedRed)
    (hBal : (plug p (.node x c l v r)).Balanced) :
    ∃ q m mc ml mr, swapDown p (.node x c l v r) = (q, .node m mc ml v mr) ∧
      (ml = .nil ∨ mr = .nil) ∧
      (plug q (.node m mc ml v mr)).isBlack = true ∧ (plug q (.node m mc ml v mr)).NoRedRed ∧
      (plug q (.node m mc ml v mr)).Balanced ∧
      pathPre q ++ (ml.inorder ++ mr.inorder) ++ pathPost q
        = pathPre p ++ (l.inorder ++ r.inorder) ++ pathPost p ∧
      q.length + 1 ≤ p.length + (Tree.node x c l v r).height := by
  cases l with
  | nil =>
    exact ⟨p, x, c, .nil, r, rfl, Or.inl rfl, hB, hR, hBal, rfl, by simp [Tree.height]⟩
  | node la lc ll lv lr =>
    cases r with
    | nil =>
      exact ⟨p, x, c, _, .nil, rfl, Or.inr rfl, hB, hR, hBal, rfl, by simp [Tree.height]⟩
    | node ra rc rl rv rr =>
      obtain ⟨m, mc, mv, mr, hm⟩ := descendMin_shape (.node ra rc rl rv rr) [] (by simp)
      have hq := descendMin_plug (.node ra rc rl rv rr) ([] : Path α)
      have hpre := descendMin_pathPre (.node ra rc rl rv rr) ([] : Path α)
      have hlen := descendMin_length (.node ra rc rl rv rr) ([] : Path α)
      generalize hqd : (descendMin (.node ra rc rl rv rr) ([] : Path α)).1 = q at hq hpre hlen
      rw [hm] at hq
      simp only [plug_nil] at hq
      have hsw : swapDown p (.node x c (.node la lc ll lv lr) v (.node ra rc rl rv rr))
          = (q ++ .R x c (.node la lc ll lv lr) mv :: p, .node m mc .nil v mr) := by
        simp only [swapDown]
        have : descendMin (.node ra rc rl rv rr) ([] : Path α) = (q, .node m mc .nil mv mr) := by
          rw [← hqd, ← hm]
        rw [this]
      have hsubB := balanced_of_plug hBal
      have hsubR := noRedRed_of_plug hR
      -- the right subtree with the value of its minimum replaced
      have hM0B : (Tree.node m mc .nil mv mr).Balanced :=
        balanced_of_plug (p := q) (by rw [hq]; exact hsubB.2.2)
      have hM0R : (Tree.node m mc .nil mv mr).NoRedRed :=
        noRedRed_of_plug (p := q) (by rw [hq]; exact hsubR.2.2)
      have hr'B := @balanced_plug _ q (.node m mc .nil mv mr)
        (.node m mc .nil v mr) (by rw [hq]; exact hsubB.2.2) hM0B rfl
      have hr'R := @noRedRed_plug _ q (.node m mc .nil mv mr)
        (.node m mc .nil v mr) (by rw [hq]; exact hsubR.2.2) hM0R (fun e => e)
      have hr'c : (plug q (.node m mc .nil v mr)).isBlack
          = (Tree.node ra rc rl rv rr).isBlack := by
        rw [← hq]
        cases q with
        | nil => rfl
        | cons f q => exact isBlack_plug_cons f q _ _
      rw [hq] at hr'B
      refine ⟨_, m, mc, .nil, mr, hsw, Or.inl rfl, ?_, ?_, ?_, ?_, ?_⟩
      · rw [plug_append]
        refine isBlack_plug (p := p) hB (fun _ => ?_)
        subst p
        exact hB
      · rw [plug_append]
        refine noRedRed_plug (p := p) hR ?_ (fun e => e)
        exact ⟨fun e => ⟨(hsubR.1 e).1, by rw [hr'c]; exact (hsubR.1 e).2⟩, hsubR.2.1, hr'R⟩
      · rw [plug_append]
        refine (balanced_plug (p := p) hBal ?_ ?_).1
        · exact ⟨hsubB.1.trans hr'B.2.symm, hsubB.2.1, hr'B.1⟩
        · simp [Tree.bh]
      · have hio : (Tree.node ra rc rl rv rr).inorder
            = pathPre q ++ (mv :: mr.inorder) ++ pathPost q := by
          rw [← hq, inorder_plug]; simp [Tree.inorder]
        have hpq : ∀ (q : Path α) (s : Step α) (p : Path α),
            pathPre (q ++ s :: p) = pathPre (s :: p) ++ pathPre q ∧
              pathPost (q ++ s :: p) = pathPost q ++ pathPost (s :: p) := by
          intro q s p
          induction q with
          | nil => simp [pathPre, pathPost]
          | cons f q ih =>
            cases f <;> simp [pathPre, pathPost, ih.1, ih.2]
        rw [(hpq _ _ _).1, (hpq _ _ _).2, hio]
        simp only [pathPre, pathPost, hpre, Tree.inorder]
        simp
      · simp only [List.length_append, List.length_cons, Tree.height, List.length_nil,
          Nat.zero_add] at hlen ⊢
        omega

/-! ## Insertion, end to end -/

theorem Linked.with_size {s : RBTree α} {t : Tree α} (h : Linked s t) (sz : Int) :
    Linked { s with size := sz } t :=
  ⟨h.root, h.rep, h.nodup⟩

theorem pairwise_insert_mid {cmp : α → α → Int} {A B : List α} {d : α}
    (h : (A ++ B).Pairwise (fun a b => cmp a b < 0)) (hA : ∀ x ∈ A, cmp x d < 0)
    (hB : ∀ x ∈ B, cmp d x < 0) : (A ++ d :: B).Pairwise (fun a b => cmp a b < 0) := by
  rw [List.pairwise_append] at h ⊢
  refine ⟨h.1, List.pairwise_cons.2 ⟨hB, h.2.1⟩, ?_⟩
  intro x hx y hy
  rcases List.mem_cons.1 hy with rfl | hy
  · exact hA x hx
  · exact h.2.2 x hx y hy

/-- The fix-up after an insertion returns whenever the root of the tree is
black, and keeps the in-order sequence. -/
theorem fixInsZ_total (k : Nat) : ∀ (p : Path α) (n : Nat) (c : Color) (l r : Tree α) (v : α),
    p.length ≤ k → (p ≠ [] → (plug p .nil).isBlack = true) →
    ∃ t', fixInsZ p (.node n c l v r) = some t' ∧
      t'.inorder = (plug p (.node n c l v r)).inorder := by
  induction k using Nat.strong_induction_on with
  | _ k ih =>
    intro p n c l r v hk hB
    cases p with
    | nil => exact ⟨_, rfl, rfl⟩
    | cons f p =>
      cases p with
      | nil =>
        have hf : f.color = .BLACK := by
          have := hB (by simp)
          cases f <;> simpa [Step.fill, Step.color] using this
        exact ⟨_, by simp [fixInsZ, hf], rfl⟩
      | cons g rest =>
        by_cases hfc : f.color = .BLACK
        · exact ⟨_, by simp [fixInsZ, hfc], rfl⟩
        by_cases hu : g.sib.isRed = true
        · obtain ⟨ga, gc, gl, gv, gr, hg⟩ :
              ∃ ga gc gl gv gr, ((g.paint .RED).paintSib .BLACK).fill
                ((f.paint .BLACK).fill (.node n c l v r)) = .node ga gc gl gv gr := by
            cases g <;> exact ⟨_, _, _, _, _, rfl⟩
          have hrest : rest ≠ [] → (plug rest .nil).isBlack = true := by
            intro hne
            have := hB (by simp)
            cases rest with
            | nil => exact absurd rfl hne
            | cons h rest' =>
              simp only [plug_cons] at this ⊢
              rw [← this]
              exact isBlack_plug_cons h rest' _ _
          obtain ⟨t', h1, h2⟩ := ih rest.length (by simp only [List.length_cons] at hk; omega)
            rest ga gc gl gr gv (Nat.le_refl _) hrest
          refine ⟨t', by simp only [fixInsZ, hfc, hu, if_true, if_false, hg]; exact h1, ?_⟩
          rw [h2, ← hg, inorder_plug, inorder_plug]
          cases g <;> cases f <;>
            simp [Step.fill, Step.paint, Step.paintSib, Tree.inorder, Tree.inorder_paint, pathPre,
              pathPost]
        · cases g <;> cases f <;> simp only [Step.color, Step.sib] at hfc hu <;>
            simp [fixInsZ, Step.color, Step.sib, hfc, hu, inorder_plug, pathPre, pathPost,
              Tree.inorder, Step.fill]

/-- The run of `insertToRBTree` when the descent ends at an absent position
and the fix-up, on the abstract view, yields `t'`. -/
theorem insert_sim {s : RBTree α} {t t' : Tree α} {d : α} {a fuel : Nat} {p : Path α}
    (hm : Models s t) (hd : descend s.compFunc d t [] = (p, .nil))
    (hz : fixInsZ p (.node a .RED .nil d .nil) = some t') (hfresh : s.mem a = none)
    (hfuel : t.height < fuel) :
    ∃ s', insertToRBTree fuel (some s) (some d) (some a) = .ok (true, some s') ∧
      Models s' t' ∧ s'.size = s.size + 1 ∧ s'.freed = s.freed ∧ s'.compFunc = s.compFunc ∧
      insertZ s.compFunc d a t = some t' ∧
      (∀ b, b ≠ a → s.mem b = none → s'.mem b = none) ∧ t'.addrs.Perm (a :: t.addrs) := by
  have hplug := descend_plug s.compFunc d t []
  have hlen := descend_length s.compFunc d t []
  rw [hd] at hplug hlen
  simp only [plug_nil, List.length_nil, Tree.height, Nat.add_zero, Nat.zero_add] at hplug hlen
  obtain ⟨s1, e1, l1, hsz1, hfr1, hcf1, hmem1⟩ :=
    (insertToNormalBst_sim d a t fuel [] s hfuel hm.linked hfresh).1 p hd
  obtain ⟨s2, e2, v2⟩ := fixInsert_sim fuel p _ t' { s1 with size := s1.size + 1 }
    (by omega) (l1.with_size _) hz
  refine ⟨s2, ?_, ⟨v2.linked, ?_⟩, ?_, ?_, ?_, ?_, ?_, ?_⟩
  · simp only [insertToRBTree, pathPtr_nil, pathLink] at e1 ⊢
    simp only [e1, bind, Except.bind, pure, Except.pure]
    simp only [Tree.ptr_node] at e2
    rw [e2]
  · rw [v2.frame.size, count_eq_length_addrs t', v2.nodes.length_eq, ← count_eq_length_addrs,
      count_plug]
    simp only [hsz1, hm.size, ← hplug, count_plug, Tree.count]
    push_cast
    omega
  · rw [v2.frame.size]; simp [hsz1]
  · rw [v2.frame.freed]; exact hfr1
  · rw [v2.frame.compFunc]; exact hcf1
  · simp only [insertZ, hd]; exact hz
  · intro b hb hn
    have hbt : b ∉ t.addrs := hm.linked.not_mem_of_free hn
    rw [v2.frame.mem b, hmem1 b hb hn]
    rw [← hplug] at hbt
    intro hmem
    rcases mem_addrs_plug.1 hmem with h' | h'
    · exact hbt (mem_addrs_plug.2 (Or.inl h'))
    · simp [Tree.addrs] at h'
      exact hb h'
  · refine v2.nodes.trans ?_
    rw [← hplug]
    refine (addrs_plug_perm p _).trans ?_
    refine List.Perm.trans ?_ (List.Perm.cons a (addrs_plug_perm p .nil).symm)
    simp [Tree.addrs]

/-- What an insertion does when the descent ends at an absent position, on
the abstract view. -/
theorem insert_core {s : RBTree α} {t : Tree α} {d : α} {a fuel : Nat} (hm : Models s t)
    (hB : t.isBlack = true) (hR : t.NoRedRed) (hBal : t.Balanced)
    (hnil : (descend s.compFunc d t []).2 = .nil) (hfresh : s.mem a = none)
    (hfuel : t.height < fuel) :
    ∃ s' t', insertToRBTree fuel (some s) (some d) (some a) = .ok (true, some s') ∧
      Models s' t' ∧ t'.isBlack = true ∧ t'.NoRedRed ∧ t'.Balanced ∧
      s'.size = s.size + 1 ∧ s'.freed = s.freed ∧ s'.compFunc = s.compFunc ∧
      insertZ s.compFunc d a t = some t' ∧
      (∀ b, b ≠ a → s.mem b = none → s'.mem b = none) ∧ t'.addrs.Perm (a :: t.addrs) ∧
      ∃ p, (descend s.compFunc d t []).1 = p ∧ t.inorder = pathPre p ++ pathPost p ∧
        t'.inorder = pathPre p ++ d :: pathPost p := by
  have hplug := descend_plug s.compFunc d t []
  generalize hp : (descend s.compFunc d t []).1 = p at hplug
  rw [hnil] at hplug
  simp only [plug_nil] at hplug
  have hdesc : descend s.compFunc d t [] = (p, .nil) := by
    rw [← hp, ← hnil]
  obtain ⟨t', hz, h1, h2, h3, h4⟩ := fixInsZ_spec p.length p .nil a .nil .nil d (Nat.le_refl _)
    (by rw [hplug]; exact hB) (by rw [hplug]; exact hR) (by rw [hplug]; exact hBal)
    (by simp [Tree.NoRedRed]) (by simp [Tree.Balanced]) (by simp [Tree.bh])
  obtain ⟨s', e1, e2, e3, e4, e5, e6, e7, e8⟩ := insert_sim hm hdesc hz hfresh hfuel
  refine ⟨s', t', e1, e2, h1, h2, h3, e3, e4, e5, e6, e7, e8, p, rfl, ?_, ?_⟩
  · rw [← hplug, inorder_plug]; simp [Tree.inorder]
  · rw [h4, inorder_plug]; simp [Tree.inorder]

/-- Insertion into a tree with a black root whose in-order sequence is
strictly increasing, of a value that compares equal to no contained value. -/
theorem insert_ordered {s : RBTree α} {t : Tree α} {d : α} {a fuel : Nat} (hm : Models s t)
    (hB : t.isBlack = true) (ho : t.Ordered s.compFunc) (hc : TotalCmp s.compFunc)
    (habs : ∀ x ∈ t.inorder, s.compFunc d x ≠ 0) (hfresh : s.mem a = none)
    (hfuel : t.height < fuel) :
    ∃ s' t' A B, insertToRBTree fuel (some s) (some d) (some a) = .ok (true, some s') ∧
      Models s' t' ∧ s'.size = s.size + 1 ∧ s'.compFunc = s.compFunc ∧
      t.inorder = A ++ B ∧ t'.inorder = A ++ d :: B ∧
      (∀ x ∈ A, s.compFunc x d < 0) ∧ (∀ x ∈ B, s.compFunc d x < 0) ∧
      t'.Ordered s.compFunc := by
  have hnil := @descend_absent _ s.compFunc _ _ ([] : Path α) habs
  have hplug := descend_plug s.compFunc d t []
  have hb := descend_bounds hc (d := d) ([] : Path α) ho (by simp [pathPre]) (by simp [pathPost])
  generalize hp : (descend s.compFunc d t []).1 = p at hplug hb
  rw [hnil] at hplug
  simp only [plug_nil] at hplug
  have hdesc : descend s.compFunc d t [] = (p, .nil) := by
    rw [← hp, ← hnil]
  obtain ⟨t', hz, h4⟩ := fixInsZ_total p.length p a .RED .nil .nil d (Nat.le_refl _)
    (fun _ => by rw [hplug]; exact hB)
  obtain ⟨s', e1, e2, e3, -, e5, -⟩ := insert_sim hm hdesc hz hfresh hfuel
  have hA : t.inorder = pathPre p ++ pathPost p := by
    rw [← hplug, inorder_plug]; simp [Tree.inorder]
  have hB' : t'.inorder = pathPre p ++ d :: pathPost p := by
    rw [h4, inorder_plug]; simp [Tree.inorder]
  refine ⟨s', t', pathPre p, pathPost p, e1, e2, e3, e5, hA, hB', hb.1, hb.2, ?_⟩
  unfold Tree.Ordered
  rw [hB']
  refine pairwise_insert_mid ?_ hb.1 hb.2
  rw [← hA]
  exact ho

/-! ## Deletion, end to end -/

theorem delete_core {s : RBTree α} {t : Tree α} {d : α} {fuel : Nat} {p : Path α} {x : Nat}
    {c : Color} {l r : Tree α} {v : α}
    (hm : Models s t) (hB : t.isBlack = true) (hR : t.NoRedRed) (hBal : t.Balanced)
    (hd : descend s.compFunc d t [] = (p, .node x c l v r)) (hfuel : 3 * t.height < fuel) :
    ∃ s' t', deleteFromRBTree fuel (some s) (some d) = .ok (true, some s') ∧ Models s' t' ∧
      t'.isBlack = true ∧ t'.NoRedRed ∧ t'.Balanced ∧ s'.size = s.size - 1 ∧
      s'.freed = s.freed ++ [v] ∧ s'.compFunc = s.compFunc ∧
      t.inorder = pathPre p ++ (l.inorder ++ v :: r.inorder) ++ pathPost p ∧
      t'.inorder = pathPre p ++ (l.inorder ++ r.inorder) ++ pathPost p ∧
      deleteZ s.compFunc d t = some (t', v) := by
  have hplug : plug p (.node x c l v r) = t := by
    have := descend_plug s.compFunc d t []
    rw [hd] at this
    simpa using this
  have hlen := descend_length s.compFunc d t []
  rw [hd] at hlen
  simp only [List.length_nil, Nat.zero_add] at hlen
  have hfind := findXNormalBST_sim s d t fuel none [] (by omega) hm.linked.rep
  rw [hd, ← hm.linked.root] at hfind
  simp only [Tree.ptr_node] at hfind
  subst hplug
  obtain ⟨q, m, mc, ml, mr, hsw, hml, hqB, hqR, hqBal, hqio, hqlen⟩ := swapDown_spec hB hR hBal
  obtain ⟨s1, e1, v1⟩ := deleteNormalBST_sim fuel hm.linked (by simp) (by omega)
  rw [hsw] at v1 e1
  simp only [Tree.ptr_node] at e1
  obtain ⟨t', hz, hB', hR', hBal', hio', hcnt⟩ := removeZ_spec hqB hqR hqBal hml
  have hsz1 : s1.size = (plug q (.node m mc ml v mr)).count := by
    rw [v1.frame.size, hm.size, count_eq_length_addrs, count_eq_length_addrs, v1.nodes.length_eq]
  have hoc := onlyChild_count (n := m) (c := mc) (v := v) hml
  have hfin : ∀ s', Linked s' t' → s'.size = s1.size - 1 →
      t'.addrs.Perm (plug q (Tree.node m mc ml v mr).onlyChild).addrs → Models s' t' := by
    intro s' hl' hs' hp'
    refine ⟨hl', ?_⟩
    rw [hs', hsz1, count_eq_length_addrs t', hp'.length_eq, ← count_eq_length_addrs, count_plug,
      count_plug, ← hoc]
    push_cast
    omega
  have hdz : deleteZ s.compFunc d (plug p (.node x c l v r)) = some (t', v) := by
    simp only [deleteZ, hd, hsw, hz, Option.map_some']
  have hdel : ∀ s', deleteOneChild fuel s1 (some m) = .ok s' →
      deleteFromRBTree fuel (some s) (some d) = .ok (true, some s') := by
    intro s' h'
    simp only [deleteFromRBTree, hfind, bind, Except.bind, pure, Except.pure, e1, h']
  have hio0 := inorder_plug p (.node x c l v r)
  simp only [Tree.inorder] at hio0
  have hres : ∀ s', deleteOneChild fuel s1 (some m) = .ok s' → Linked s' t' →
      s'.size = s1.size - 1 → s'.freed = s1.freed ++ [v] → s'.compFunc = s1.compFunc →
      t'.addrs.Perm (plug q (Tree.node m mc ml v mr).onlyChild).addrs →
      ∃ s' t', deleteFromRBTree fuel (some s) (some d) = .ok (true, some s') ∧ Models s' t' ∧
        t'.isBlack = true ∧ t'.NoRedRed ∧ t'.Balanced ∧ s'.size = s.size - 1 ∧
        s'.freed = s.freed ++ [v] ∧ s'.compFunc = s.compFunc ∧
        (plug p (.node x c l v r)).inorder
          = pathPre p ++ (l.inorder ++ v :: r.inorder) ++ pathPost p ∧
        t'.inorder = pathPre p ++ (l.inorder ++ r.inorder) ++ pathPost p ∧
        deleteZ s.compFunc d (plug p (.node x c l v r)) = some (t', v) := by
    intro s' h1 h2 h3 h4 h5 h6
    exact ⟨s', t', hdel s' h1, hfin s' h2 h3 h6, hB', hR', hBal', by rw [h3, v1.frame.size],
      by rw [h4, v1.frame.freed], by rw [h5, v1.frame.compFunc], hio0, by rw [hio', hqio], hdz⟩
  cases q with
  | nil =>
    obtain ⟨k, rfl⟩ : ∃ k, fuel = k + 1 := ⟨fuel - 1, by omega⟩
    obtain ⟨s', h1, h2, h3, h4, h5, h6⟩ := deleteOneChild_sim_root k v1.linked hsz1 hml hcnt hz
    exact hres s' h1 h2 h3 h4 h5 h6
  | cons f rest =>
    obtain ⟨s', h1, h2, h3, h4, h5, h6⟩ := deleteOneChild_sim_inner fuel v1.linked hsz1 hml hz
      (by simp only [List.length_cons] at hqlen ⊢; omega)
    exact hres s' h1 h2 h3 h4 h5 h6

/-! ## Traversal -/

theorem height_plug (p : Path α) (t : Tree α) : p.length + t.height ≤ (plug p t).height := by
  induction p generalizing t with
  | nil => simp
  | cons f p ih =>
    have := ih (f.fill t)
    rw [plug_cons]
    cases f <;> simp only [Step.fill, Tree.height, List.length_cons] at this ⊢ <;> omega

theorem descendMin_post (t : Tree α) (p : Path α) :
    (descendMin t p).2.inorder ++ pathPost (descendMin t p).1 = t.inorder ++ pathPost p := by
  induction t generalizing p with
  | nil => rfl
  | node a c l v r ihl _ =>
    cases l with
    | nil => rfl
    | node la lc ll lv lr =>
      simp only [descendMin]
      rw [ihl]
      simp [pathPost, Tree.inorder]

theorem climb_sim {s : RBTree α} : ∀ (p : Path α) (t : Tree α) (k : Nat),
    Linked s (plug p t) → t ≠ .nil → p.length < k →
    (pathPost p = [] ∧ climb k s t.ptr (pathPtr p) = .ok none) ∨
      ∃ q b bc bl bv br, plug q (.node b bc bl bv br) = plug p t ∧
        climb k s t.ptr (pathPtr p) = .ok (some b) ∧
        pathPost p = bv :: (br.inorder ++ pathPost q) := by
  intro p
  induction p with
  | nil =>
    intro t k _ _ hk
    obtain ⟨k, rfl⟩ : ∃ j, k = j + 1 := ⟨k - 1, by omega⟩
    exact Or.inl ⟨rfl, rfl⟩
  | cons f p ih =>
    intro t k h ht hk
    obtain ⟨k, rfl⟩ : ∃ j, k = j + 1 := ⟨k - 1, by omega⟩
    simp only [List.length_cons] at hk
    have hne := h.ptr_ne_sib ht
    cases f with
    | L b bc bv br =>
      have hb := Linked.node_eq (p := p) h
      refine Or.inr ⟨p, b, bc, t, bv, br, rfl, ?_, by simp [pathPost]⟩
      simp only [Step.sib_L] at hne
      simp [climb, pathPtr_cons, Step.addr_L, load_eq hb, bind, Except.bind, pure, Except.pure,
        Ne.symm hne]
    | R b bc bl bv =>
      have hb := Linked.node_eq (p := p) h
      have hstep : climb (k + 1) s t.ptr (pathPtr (.R b bc bl bv :: p))
          = climb k s (Tree.node b bc bl bv t).ptr (pathPtr p) := by
        simp [climb, pathPtr_cons, Step.addr_L, load_eq hb, bind, Except.bind]
      rw [hstep]
      rcases ih (.node b bc bl bv t) k h (by simp) (by omega) with ⟨h1, h2⟩ | ⟨q, b', bc', bl', bv', br', h1, h2, h3⟩
      · exact Or.inl ⟨by simpa [pathPost] using h1, h2⟩
      · exact Or.inr ⟨q, b', bc', bl', bv', br', h1, h2, by simpa [pathPost] using h3⟩

theorem getSuccessor_sim {s : RBTree α} {p : Path α} {a : Nat} {c : Color} {l r : Tree α}
    {v : α} {k : Nat} (h : Linked s (plug p (.node a c l v r)))
    (hk : (plug p (.node a c l v r)).height ≤ k) :
    (r.inorder ++ pathPost p = [] ∧ getSuccessor k s (some a) = .ok none) ∨
      ∃ q b bc bl bv br, plug q (.node b bc bl bv br) = plug p (.node a c l v r) ∧
        getSuccessor k s (some a) = .ok (some b) ∧
        r.inorder ++ pathPost p = bv :: (br.inorder ++ pathPost q) := by
  have hh := height_plug p (.node a c l v r)
  simp only [Tree.height] at hh
  cases r with
  | nil =>
    have hs : getSuccessor k s (some a) = climb k s (Tree.node a c l v .nil).ptr (pathPtr p) := by
      simp [getSuccessor, load_eq h.node_eq, bind, Except.bind]
    rw [hs]
    simpa [Tree.inorder] using climb_sim p (.node a c l v .nil) k h (by simp) (by omega)
  | node ra rc rl rv rr =>
    have hs := getSuccessor_right k (.R a c l v :: p) h.rep_focus (by simp)
      (by simp only [Tree.height] at hh ⊢; omega)
    obtain ⟨m, mc, mv, mr, hm⟩ := descendMin_shape (.node ra rc rl rv rr) (.R a c l v :: p)
      (by simp)
    have hp := descendMin_plug (.node ra rc rl rv rr) (.R a c l v :: p)
    have hpost := descendMin_post (.node ra rc rl rv rr) (.R a c l v :: p)
    rw [hm] at hs hp hpost
    exact Or.inr ⟨_, m, mc, .nil, mv, mr, hp, hs,
      by simpa [pathPost, Tree.inorder] using hpost.symm⟩

theorem forEachLoop_sim {σ : Type} (f : α → σ → Int × σ) {s : RBTree α} {T : Tree α}
    (hT : Linked s T) : ∀ (n : Nat) (p : Path α) (a : Nat) (c : Color) (l : Tree α) (v : α)
      (r : Tree α) (fuel : Nat) (args : σ) (seen : List α),
      plug p (.node a c l v r) = T → (r.inorder ++ pathPost p).length ≤ n →
      n + T.height + 1 ≤ fuel →
      forEachLoop (some f) fuel s (some a) args seen
        = .ok (visitList f (v :: (r.inorder ++ pathPost p)) args seen) := by
  intro n
  induction n with
  | zero =>
    intro p a c l v r fuel args seen hp hn hf
    subst hp
    obtain ⟨k, rfl⟩ : ∃ j, fuel = j + 1 := ⟨fuel - 1, by omega⟩
    have hnil : r.inorder ++ pathPost p = [] := List.length_eq_zero.1 (by omega)
    have hh := height_plug p (.node a c l v r)
    simp only [Tree.height] at hh
    obtain ⟨k, rfl⟩ : ∃ j, k = j + 1 := ⟨k - 1, by omega⟩
    rcases getSuccessor_sim (k := k + 1) hT (by omega) with ⟨-, h2⟩ | ⟨q, b, bc, bl, bv, br, -, -, h3⟩
    · rw [hnil]
      by_cases h0 : (f v args).1 = 0
      · simp [forEachLoop, load_eq hT.node_eq, bind, Except.bind, pure, Except.pure, visitList, h0]
      · simp [forEachLoop, load_eq hT.node_eq, bind, Except.bind, pure, Except.pure, visitList, h0,
          h2]
    · rw [hnil] at h3
      simp at h3
  | succ n ih =>
    intro p a c l v r fuel args seen hp hn hf
    subst hp
    obtain ⟨k, rfl⟩ : ∃ j, fuel = j + 1 := ⟨fuel - 1, by omega⟩
    have hh := height_plug p (.node a c l v r)
    simp only [Tree.height] at hh
    obtain ⟨k, rfl⟩ : ∃ j, k = j + 1 := ⟨k - 1, by omega⟩
    by_cases h0 : (f v args).1 = 0
    · simp [forEachLoop, load_eq hT.node_eq, bind, Except.bind, pure, Except.pure, visitList, h0]
    rcases getSuccessor_sim (k := k + 1) hT (by omega) with ⟨h1, h2⟩ | ⟨q, b, bc, bl, bv, br, h1, h2, h3⟩
    · rw [h1]
      simp [forEachLoop, load_eq hT.node_eq, bind, Except.bind, pure, Except.pure, visitList, h0,
        h2]
    · have := ih q b bc bl bv br (k + 1) (f v args).2 (seen ++ [v]) h1
        (by rw [h3] at hn; simp only [List.length_cons] at hn; omega) (by omega)
      rw [h3, forEachLoop]
      simp only [load_eq hT.node_eq, bind, Except.bind, h2, this]
      simp [visitList, h0]

theorem forEachRBTree_sim {σ : Type} (f : α → σ → Int × σ) {s : RBTree α} {t : Tree α}
    (h : Linked s t) {fuel : Nat} (hf : t.count + t.height < fuel) (args : σ) :
    forEachRBTree fuel (some s) (some f) args = .ok (visitList f t.inorder args []) := by
  cases t with
  | nil => simp [forEachRBTree, h.root, pure, Except.pure, visitList, Tree.inorder]
  | node a c l v r =>
    obtain ⟨m, mc, mv, mr, hm⟩ := descendMin_shape (.node a c l v r) [] (by simp)
    have hp := descendMin_plug (.node a c l v r) ([] : Path α)
    have hpost := descendMin_post (.node a c l v r) ([] : Path α)
    have hmin := findMin_sim s (.node a c l v r) fuel none [] (by simp) (by omega) h.rep
    rw [hm] at hmin hp hpost
    simp only [plug_nil] at hp
    have hio : (Tree.node a c l v r).inorder
        = mv :: (mr.inorder ++ pathPost (descendMin (.node a c l v r) ([] : Path α)).1) := by
      simpa [pathPost, Tree.inorder] using hpost.symm
    have hlen : (mr.inorder ++ pathPost (descendMin (.node a c l v r) ([] : Path α)).1).length
        ≤ (Tree.node a c l v r).count := by
      have := congrArg List.length hio
      rw [length_inorder] at this
      simp only [List.length_cons] at this
      omega
    have := forEachLoop_sim f h _ _ m mc .nil mv mr fuel args [] hp hlen (by omega)
    rw [hio]
    simp only [forEachRBTree, h.root, Tree.ptr_node, bind, Except.bind] at hmin ⊢
    rw [hmin]
    exact this

theorem visitList_all {σ : Type} {f : α → σ → Int × σ} (hf : ∀ x a, (f x a).1 ≠ 0) :
    ∀ (xs : List α) (args : σ) (seen : List α),
      visitList f xs args seen = (true, argsAfter f xs args, seen ++ xs) := by
  intro xs
  induction xs with
  | nil => intro args seen; simp [visitList, argsAfter]
  | cons x xs ih => intro args seen; simp [visitList, argsAfter, hf x args, ih]

theorem visitList_stop {σ : Type} {f : α → σ → Int × σ} :
    ∀ (pre : List α) (x : α) (post : List α) (args : σ) (seen : List α),
      Passes f pre args → (f x (argsAfter f pre args)).1 = 0 →
      visitList f (pre ++ x :: post) args seen
        = (false, (f x (argsAfter f pre args)).2, seen ++ (pre ++ [x])) := by
  intro pre
  induction pre with
  | nil =>
    intro x post args seen _ h0
    simp only [argsAfter] at h0
    simp [visitList, argsAfter, h0]
  | cons y pre ih =>
    intro x post args seen hp h0
    have h1 : (f y args).1 ≠ 0 := hp.1
    have := ih x post (f y args).2 (seen ++ [y]) hp.2 h0
    show visitList f (y :: (pre ++ x :: post)) args seen = _
    simp only [visitList, h1, if_false, argsAfter]
    rw [this]
    simp

/-! ## Supporting facts for the contracts -/

theorem bh_mem_blackPaths (t : Tree α) : t.bh ∈ t.blackPaths := by
  induction t with
  | nil => simp [Tree.bh, Tree.blackPaths]
  | node a c l v r ihl _ =>
    simp only [Tree.bh, Tree.blackPaths, List.mem_map, List.mem_append]
    exact ⟨l.bh, Or.inl ihl, rfl⟩

/-- The recursive formulation of the black-height invariant says the same as
counting black nodes along every path from the root to an absent position. -/
theorem balanced_iff_blackPaths (t : Tree α) : t.Balanced ↔ ∀ n ∈ t.blackPaths, n = t.bh := by
  induction t with
  | nil => simp [Tree.Balanced, Tree.bh, Tree.blackPaths]
  | node a c l v r ihl ihr =>
    simp only [Tree.Balanced, Tree.bh, Tree.blackPaths, List.mem_map, List.mem_append]
    constructor
    · rintro ⟨h1, h2, h3⟩ n ⟨m, hm | hm, rfl⟩
      · rw [(ihl.1 h2) m hm]
      · rw [(ihr.1 h3) m hm, h1]
    · intro h
      have hl : ∀ m ∈ l.blackPaths, m = l.bh := fun m hm => by
        have := h _ ⟨m, Or.inl hm, rfl⟩
        omega
      have hr : ∀ m ∈ r.blackPaths, m = l.bh := fun m hm => by
        have := h _ ⟨m, Or.inr hm, rfl⟩
        omega
      have hlr : l.bh = r.bh := (hr _ (bh_mem_blackPaths r)).symm
      exact ⟨hlr, ihl.2 hl, ihr.2 (fun m hm => by rw [hr m hm, hlr])⟩

theorem balanced_paths_eq {t : Tree α} (h : t.Balanced) :
    ∀ m ∈ t.blackPaths, ∀ n ∈ t.blackPaths, m = n := fun m hm n hn => by
  rw [(balanced_iff_blackPaths t).1 h m hm, (balanced_iff_blackPaths t).1 h n hn]

theorem height_le_count (t : Tree α) : t.height ≤ t.count := by
  induction t with
  | nil => simp [Tree.height, Tree.count]
  | node a c l v r ihl ihr => simp only [Tree.height, Tree.count]; omega

theorem layout_outside (t : Tree α) : ∀ (par : Ptr) (mem : Nat → Option (Node α)) (b : Nat),
    b ∉ t.addrs → layout t par mem b = mem b := by
  induction t with
  | nil => intro par mem b _; rfl
  | node a c l v r ihl ihr =>
    intro par mem b hb
    simp only [Tree.addrs, List.mem_cons, List.mem_append, not_or] at hb
    simp only [layout]
    rw [ihr _ _ _ hb.2.2, ihl _ _ _ hb.2.1, Function.update_noteq hb.1]

theorem rep_layout (t : Tree α) : ∀ (par : Ptr) (mem : Nat → Option (Node α)),
    t.addrs.Nodup → Rep (layout t par mem) par t := by
  induction t with
  | nil => intro par mem _; trivial
  | node a c l v r ihl ihr =>
    intro par mem hnd
    obtain ⟨hal, har, hl, hr, hlr⟩ := nodup_node.1 hnd
    simp only [layout]
    refine ⟨?_, ?_, ihr _ _ hr⟩
    · rw [layout_outside r _ _ _ har, layout_outside l _ _ _ hal, Function.update_same]
    · exact Rep.congr_mem (fun b hb => layout_outside r _ _ _ (hlr b hb))
        (ihl (some a) (Function.update mem a (some ⟨v, par, l.ptr, r.ptr, c⟩)) hl)

/-- The memory image of a tree without repeated addresses is a well-formed
tree object. -/
theorem models_stateOf (cmp : α → α → Int) {t : Tree α} (h : t.addrs.Nodup) :
    Models (stateOf cmp t) t :=
  ⟨⟨rfl, rep_layout t none _ h, h⟩, rfl⟩

theorem stateOf_free (cmp : α → α → Int) {t : Tree α} {b : Nat} (h : b ∉ t.addrs) :
    (stateOf cmp t).mem b = none :=
  layout_outside t none _ b h

theorem totalCmp_cmpInt : TotalCmp cmpInt :=
  ⟨fun a b => by simp only [cmpInt]; omega, fun a b c => by simp only [cmpInt]; omega⟩

theorem tree8_redBlack : tree8.RedBlack cmpInt :=
  ⟨rfl, by simp [tree8, Tree.NoRedRed], by simp [tree8, Tree.Balanced, Tree.bh],
    by simp [tree8, Tree.Ordered, Tree.inorder, cmpInt]⟩

theorem tree7_redBlack : tree7.RedBlack cmpInt :=
  ⟨rfl, by simp [tree7, Tree.NoRedRed], by simp [tree7, Tree.Balanced, Tree.bh],
    by simp [tree7, Tree.Ordered, Tree.inorder, cmpInt]⟩

theorem tree6_redBlack : tree6.RedBlack cmpInt :=
  ⟨rfl, by simp [tree6, Tree.NoRedRed], by simp [tree6, Tree.Balanced, Tree.bh],
    by simp [tree6, Tree.Ordered, Tree.inorder, cmpInt]⟩

theorem models_redRoot : Models redRoot redRootTree :=
  ⟨⟨rfl, by simp [Rep, redRootTree, redRoot], by simp [redRootTree, Tree.addrs]⟩, rfl⟩

theorem models_unsorted : Models unsorted unsortedTree :=
  ⟨⟨rfl, by simp [Rep, unsortedTree, unsorted], by simp [unsortedTree, Tree.addrs]⟩, rfl⟩

/-- A descent that ends at an absent position makes the search report
"not found", and deletion then returns false and leaves the state as it is. -/
theorem delete_absent {s : RBTree α} {t : Tree α} {d : α} {fuel : Nat} (h : Linked s t)
    (hd : (descend s.compFunc d t []).2 = .nil) (hfuel : t.height < fuel) :
    deleteFromRBTree fuel (some s) (some d) = .ok (false, some s) := by
  have hfind := findXNormalBST_sim s d t fuel none [] hfuel h.rep
  rw [hd, ← h.root] at hfind
  simp only [deleteFromRBTree, hfind, bind, Except.bind, pure, Except.pure, Tree.ptr_nil]

theorem contains_sim {s : RBTree α} {t : Tree α} {d : α} {fuel : Nat} (h : Linked s t)
    (hfuel : t.height < fuel) :
    RBTreeContains fuel (some s) (some d)
      = .ok (descend s.compFunc d t []).2.ptr.isSome := by
  have hfind := findXNormalBST_sim s d t fuel none [] hfuel h.rep
  rw [← h.root] at hfind
  simp only [RBTreeContains, hfind, bind, Except.bind]
  cases (descend s.compFunc d t []).2 <;> simp [pure, Except.pure]

theorem descend_mem {cmp : α → α → Int} {d : α} {t : Tree α} {p p' : Path α} {x : Nat}
    {c : Color} {l r : Tree α} {v : α} (h : descend cmp d t p = (p', .node x c l v r)) :
    v ∈ (plug p t).inorder := by
  have := descend_plug cmp d t p
  rw [h] at this
  rw [← this, inorder_plug]
  simp [Tree.inorder]

/-- A descent that finds a node makes `insertToNormalBst` return `NULL`
without calling `malloc`. -/
theorem insertToNormalBst_found (d : α) (fresh : Ptr) :
    ∀ (t : Tree α) (fuel : Nat) (p : Path α) (s : RBTree α), t.height < fuel →
      Linked s (plug p t) → (descend s.compFunc d t p).2 ≠ .nil →
      insertToNormalBst fuel (some s) (pathPtr p) (pathLink p) d fresh = .ok (none, some s) := by
  intro t
  induction t with
  | nil => intro fuel p s _ _ hd; simp [descend] at hd
  | node x cx l v r ihl ihr =>
    intro fuel p s hf hl hd
    obtain ⟨fuel, rfl⟩ : ∃ k, fuel = k + 1 := ⟨fuel - 1, by simp [Tree.height] at hf; omega⟩
    simp only [Tree.height] at hf
    have hx := hl.node_eq
    have hrd := readLink_eq hl
    simp only [Tree.ptr_node] at hrd
    by_cases h0 : s.compFunc d v = 0
    · simp [insertToNormalBst, hrd, load_eq hx, h0, bind, Except.bind, pure, Except.pure]
    · by_cases h1 : s.compFunc d v > 0
      · have := ihr fuel (.R x cx l v :: p) s (by omega) hl
          (by simpa only [descend, h0, h1, if_true, if_false] using hd)
        simp only [insertToNormalBst, hrd, load_eq hx, h0, h1, bind, Except.bind, pure,
          Except.pure, if_true, if_false]
        exact this
      · have := ihl fuel (.L x cx v r :: p) s (by omega) hl
          (by simpa only [descend, h0, h1, if_true, if_false] using hd)
        simp only [insertToNormalBst, hrd, load_eq hx, h0, h1, bind, Except.bind, pure,
          Except.pure, if_true, if_false]
        exact this

/-! ## Insertion and deletion on red-black trees -/

theorem ordered_of_append {cmp : α → α → Int} {A B : List α} {x : α}
    (h : (A ++ x :: B).Pairwise (fun a b => cmp a b < 0)) :
    (A ++ B).Pairwise (fun a b => cmp a b < 0) :=
  h.sublist (List.Sublist.append_left (List.sublist_cons_self x B) A)

/-- Insertion of a value that compares equal to no contained value into a
red-black tree: the run succeeds and the value lands between the values below
and above it. -/
theorem insert_full {s : RBTree α} {t : Tree α} {d : α} {a fuel : Nat} (hm : Models s t)
    (hrb : t.RedBlack s.compFunc) (hc : TotalCmp s.compFunc)
    (habs : ∀ x ∈ t.inorder, s.compFunc d x ≠ 0) (hfresh : s.mem a = none)
    (hfuel : t.height < fuel) :
    ∃ s' t' A B, insertToRBTree fuel (some s) (some d) (some a) = .ok (true, some s') ∧
      Models s' t' ∧ t'.RedBlack s'.compFunc ∧ s'.size = s.size + 1 ∧ s'.freed = s.freed ∧
      s'.compFunc = s.compFunc ∧ t.inorder = A ++ B ∧ t'.inorder = A ++ d :: B ∧
      (∀ x ∈ A, s.compFunc x d < 0) ∧ (∀ x ∈ B, s.compFunc d x < 0) ∧
      (∀ b, b ≠ a → s.mem b = none → s'.mem b = none) ∧ t'.addrs.Perm (a :: t.addrs) := by
  obtain ⟨s', t', h1, h2, h3, h4, h5, h6, h7, h8, -, h10, h11, p, hp, hA, hB⟩ :=
    insert_core hm hrb.rootBlack hrb.noRedRed hrb.balanced (descend_absent [] habs) hfresh hfuel
  have hb := descend_bounds hc (d := d) ([] : Path α) hrb.ordered
    (by simp [pathPre]) (by simp [pathPost])
  rw [hp] at hb
  have ho : t'.Ordered s'.compFunc := by
    rw [h8]
    unfold Tree.Ordered
    rw [hB]
    refine pairwise_insert_mid ?_ hb.1 hb.2
    rw [← hA]
    exact hrb.ordered
  exact ⟨s', t', pathPre p, pathPost p, h1, h2, ⟨h3, h4, h5, ho⟩, h6, h7, h8, hA, hB, hb.1,
    hb.2, h10, h11⟩

/-- Deletion from a tree that satisfies the three colour invariants, for a
value the descent finds. -/
theorem delete_found {s : RBTree α} {t : Tree α} {d : α} {fuel : Nat} {p : Path α} {x : Nat}
    {c : Color} {l r : Tree α} {v : α} (hm : Models s t) (hrb : t.RedBlack s.compFunc)
    (hd : descend s.compFunc d t [] = (p, .node x c l v r)) (hfuel : 3 * t.height < fuel) :
    ∃ s' t' A B, deleteFromRBTree fuel (some s) (some d) = .ok (true, some s') ∧
      Models s' t' ∧ t'.RedBlack s'.compFunc ∧ s'.size = s.size - 1 ∧
      s'.freed = s.freed ++ [v] ∧ s'.compFunc = s.compFunc ∧ s.compFunc d v = 0 ∧
      t.inorder = A ++ v :: B ∧ t'.inorder = A ++ B := by
  obtain ⟨s', t', h1, h2, h3, h4, h5, h6, h7, h8, h9, h10, -⟩ :=
    delete_core hm hrb.rootBlack hrb.noRedRed hrb.balanced hd hfuel
  have hA : t.inorder = (pathPre p ++ l.inorder) ++ v :: (r.inorder ++ pathPost p) := by
    rw [h9]; simp
  have hB : t'.inorder = (pathPre p ++ l.inorder) ++ (r.inorder ++ pathPost p) := by
    rw [h10]; simp
  have ho : t'.Ordered s'.compFunc := by
    rw [h8]
    unfold Tree.Ordered
    rw [hB]
    refine ordered_of_append (x := v) ?_
    rw [← hA]
    exact hrb.ordered
  exact ⟨s', t', _, _, h1, h2, ⟨h3, h4, h5, ho⟩, h6, h7, h8, descend_found hd, hA, hB⟩

/-- Deletion from a red-black tree under a total-order comparator, for a value
that some contained value compares equal to. -/
theorem delete_full {s : RBTree α} {t : Tree α} {d : α} {fuel : Nat} (hm : Models s t)
    (hrb : t.RedBlack s.compFunc) (hc : TotalCmp s.compFunc)
    (hx : ∃ x ∈ t.inorder, s.compFunc d x = 0) (hfuel : 3 * t.height < fuel) :
    ∃ s' t' A x B, deleteFromRBTree fuel (some s) (some d) = .ok (true, some s') ∧
      Models s' t' ∧ t'.RedBlack s'.compFunc ∧ s'.size = s.size - 1 ∧
      s'.freed = s.freed ++ [x] ∧ s'.compFunc = s.compFunc ∧ s.compFunc d x = 0 ∧
      t.inorder = A ++ x :: B ∧ t'.inorder = A ++ B := by
  have hne := descend_present hc (d := d) ([] : Path α) hrb.ordered hx
  cases hd : descend s.compFunc d t [] with
  | mk p X =>
    cases X with
    | nil => rw [hd] at hne; exact absurd rfl hne
    | node x c l v r =>
      obtain ⟨s', t', A, B, h⟩ := delete_found hm hrb hd hfuel
      exact ⟨s', t', A, v, B, h⟩

/-! ## Runs of insertions and deletions -/

theorem Tree.eq_nil_of_inorder {t : Tree α} (h : t.inorder = []) : t = .nil := by
  cases t with
  | nil => rfl
  | node a c l v r => simp [Tree.inorder] at h

theorem models_newRBTree (cmp : α → α → Int) : Models (newRBTree cmp) .nil :=
  ⟨⟨rfl, trivial, List.nodup_nil⟩, rfl⟩

theorem redBlack_nil (cmp : α → α → Int) : (Tree.nil : Tree α).RedBlack cmp :=
  ⟨rfl, trivial, trivial, List.Pairwise.nil⟩

/-- In a strictly increasing sequence, values that compare equal are the same
entry. -/
theorem ordered_eq_of_cmp_zero {cmp : α → α → Int} (hc : TotalCmp cmp) :
    ∀ {L : List α}, L.Pairwise (fun a b => cmp a b < 0) → ∀ {x d : α}, x ∈ L → d ∈ L →
      cmp d x = 0 → x = d := by
  intro L
  induction L with
  | nil => intro _ x d hx; simp at hx
  | cons h L ih =>
    intro hp x d hx hd h0
    obtain ⟨h1, h2⟩ := List.pairwise_cons.1 hp
    rcases List.mem_cons.1 hx with hx' | hx'
    · rcases List.mem_cons.1 hd with hd' | hd'
      · rw [hx', hd']
      · have := (hc.swap _ _).1 (h1 d hd')
        rw [← hx'] at this
        omega
    · rcases List.mem_cons.1 hd with hd' | hd'
      · have := h1 x hx'
        rw [← hd'] at this
        omega
      · exact ih h2 hx' hd' h0

theorem insertAll_spec (fuel : Nat) : ∀ (vas : List (α × Nat)) (s : RBTree α) (t : Tree α),
    Models s t → t.RedBlack s.compFunc → TotalCmp s.compFunc →
    (∀ va ∈ vas, ∀ x ∈ t.inorder, s.compFunc va.1 x ≠ 0) →
    (vas.map Prod.fst).Pairwise (fun a b => s.compFunc a b ≠ 0) →
    (vas.map Prod.snd).Nodup → (∀ va ∈ vas, s.mem va.2 = none) →
    t.count + vas.length < fuel →
    ∃ s' t', insertAll fuel (some s) vas = .ok (true, some s') ∧ Models s' t' ∧
      t'.RedBlack s'.compFunc ∧ s'.compFunc = s.compFunc ∧ s'.freed = s.freed ∧
      t'.inorder.Perm (vas.map Prod.fst ++ t.inorder) := by
  intro vas
  induction vas with
  | nil =>
    intro s t hm hrb _ _ _ _ _ _
    exact ⟨s, t, rfl, hm, hrb, rfl, rfl, by simp⟩
  | cons va rest ih =>
    intro s t hm hrb hc habs hpw hnd hfree hfuel
    obtain ⟨v, a⟩ := va
    simp only [List.map_cons, List.pairwise_cons, List.nodup_cons, List.length_cons] at hpw hnd hfuel
    have hh := height_le_count t
    obtain ⟨s1, t1, A, B, h1, h2, h3, h4, h5, h6, h7, h8, -, -, h11, -⟩ :=
      @insert_full _ _ _ v a fuel hm hrb hc
        (habs (v, a) (List.mem_cons_self _ _)) (hfree (v, a) (List.mem_cons_self _ _)) (by omega)
    have hcount : t1.count = t.count + 1 := by
      rw [← length_inorder, ← length_inorder, h7, h8]; simp; omega
    obtain ⟨s', t', e1, e2, e3, e4, e5, e6⟩ := ih s1 t1 h2 h3 (h6 ▸ hc)
      (by
        intro va hva x hx
        rw [h6]
        rw [h8] at hx
        rcases List.mem_append.1 hx with hx | hx
        · exact habs va (List.mem_cons_of_mem _ hva) x (by rw [h7]; simp [hx])
        · rcases List.mem_cons.1 hx with rfl | hx
          · intro h0
            exact hpw.1 va.1 (List.mem_map_of_mem _ hva) (hc.eq_swap h0)
          · exact habs va (List.mem_cons_of_mem _ hva) x (by rw [h7]; simp [hx]))
      (by rw [h6]; exact hpw.2) hnd.2
      (by
        intro va hva
        refine h11 va.2 ?_ (hfree va (List.mem_cons_of_mem _ hva))
        intro e
        exact hnd.1 (e ▸ List.mem_map_of_mem _ hva))
      (by omega)
    refine ⟨s', t', ?_, e2, e3, e4.trans h6, e5.trans h5, ?_⟩
    · simp only [insertAll, h1, e1, bind, Except.bind, pure, Except.pure, Bool.and_self]
    · refine e6.trans ?_
      rw [h8, h7]
      simp only [List.map_cons, List.cons_append]
      rw [← List.append_assoc, ← List.append_assoc]
      exact List.perm_middle

theorem deleteAll_spec (fuel : Nat) : ∀ (ds : List α) (s : RBTree α) (t : Tree α),
    Models s t → t.RedBlack s.compFunc → TotalCmp s.compFunc → ds.Perm t.inorder →
    3 * ds.length < fuel →
    ∃ s', deleteAll fuel (some s) ds = .ok (true, some s') ∧ s'.root = none ∧ s'.size = 0 ∧
      s'.freed = s.freed ++ ds := by
  intro ds
  induction ds with
  | nil =>
    intro s t hm _ _ hp _
    have ht : t = .nil := Tree.eq_nil_of_inorder (List.nil_perm.1 hp)
    subst ht
    exact ⟨s, rfl, hm.linked.root, hm.size, by simp⟩
  | cons d rest ih =>
    intro s t hm hrb hc hp hfuel
    have hdm : d ∈ t.inorder := hp.subset (List.mem_cons_self _ _)
    have hcnt : t.count = rest.length + 1 := by
      rw [← length_inorder, ← hp.length_eq]; simp
    have hh := height_le_count t
    simp only [List.length_cons] at hfuel
    obtain ⟨s1, t1, A, x, B, h1, h2, h3, -, h5, h6, h7, h8, h9⟩ :=
      @delete_full _ _ _ d fuel hm hrb hc ⟨d, hdm, hc.self_eq d⟩ (by omega)
    have hxd : x = d :=
      ordered_eq_of_cmp_zero hc hrb.ordered (by rw [h8]; simp) hdm h7
    subst hxd
    have hp1 : rest.Perm t1.inorder := by
      rw [h9]
      rw [h8] at hp
      exact (List.perm_cons x).1 (hp.trans List.perm_middle)
    obtain ⟨s', e1, e2, e3, e4⟩ := ih s1 t1 h2 h3 (h6 ▸ hc) hp1 (by omega)
    refine ⟨s', ?_, e2, e3, ?_⟩
    · simp only [deleteAll, h1, e1, bind, Except.bind, pure, Except.pure, Bool.and_self]
    · rw [e4, h5]; simp

/-- A run of insertions whose descents all end at absent positions succeeds
and builds the tree the abstract run computes. -/
theorem insertAll_run (fuel : Nat) : ∀ (vas : List (α × Nat)) (s : RBTree α) (t t' : Tree α),
    Models s t → t.isBlack = true → t.NoRedRed → t.Balanced →
    insertAllZ s.compFunc t vas = some t' → (vas.map Prod.snd).Nodup →
    (∀ va ∈ vas, s.mem va.2 = none) → t.count + vas.length < fuel →
    ∃ s', insertAll fuel (some s) vas = .ok (true, some s') ∧ Models s' t' ∧
      s'.compFunc = s.compFunc ∧ s'.freed = s.freed := by
  intro vas
  induction vas with
  | nil =>
    intro s t t' hm _ _ _ hz _ _ _
    simp only [insertAllZ, Option.some.injEq] at hz
    subst hz
    exact ⟨s, rfl, hm, rfl, rfl⟩
  | cons va rest ih =>
    intro s t t' hm hB hR hBal hz hnd hfree hfuel
    obtain ⟨v, a⟩ := va
    simp only [List.map_cons, List.nodup_cons, List.length_cons] at hnd hfuel
    have hh := height_le_count t
    have hnil : (descend s.compFunc v t []).2 = .nil := by
      cases hd : descend s.compFunc v t [] with
      | mk p X =>
        cases X with
        | nil => rfl
        | node x c l w r => simp [insertAllZ, insertZ, hd] at hz
    obtain ⟨s1, t1, h1, h2, h3, h4, h5, h6, h7, h8, h9, h10, h11, -⟩ :=
      @insert_core _ s t v a fuel hm hB hR hBal hnil (hfree (v, a) (List.mem_cons_self _ _))
        (by omega)
    simp only [insertAllZ, h9] at hz
    have hcount : t1.count = t.count + 1 := by
      rw [count_eq_length_addrs, h11.length_eq, count_eq_length_addrs]; simp
    obtain ⟨s', e1, e2, e3, e4⟩ := ih s1 t1 t' h2 h3 h4 h5 (by rw [h8]; exact hz) hnd.2
      (by
        intro va hva
        refine h10 va.2 ?_ (hfree va (List.mem_cons_of_mem _ hva))
        intro e
        exact hnd.1 (e ▸ List.mem_map_of_mem _ hva))
      (by omega)
    refine ⟨s', ?_, e2, e3.trans h8, e4.trans h7⟩
    simp only [insertAll, h1, e1, bind, Except.bind, pure, Except.pure, Bool.and_self]

/-- The run of the specification's example: inserting 7, 3, 18, 10, 22, 8, 11,
26 into a new tree builds `tree8`, whose in-order sequence is 3, 7, 8, 10, 11,
18, 22, 26 and whose root is black; deleting 18 and then 11 leaves `tree6`,
which satisfies the four invariants and holds the six remaining values in
ascending order; the destructor has been called on 18 and on 11. -/
theorem example_run :
    ∃ s8 s7 s6,
      insertAll 9 (some (newRBTree cmpInt))
          [(7, 1), (3, 2), (18, 3), (10, 4), (22, 5), (8, 6), (11, 7), (26, 8)]
        = .ok (true, some s8) ∧
      Models s8 tree8 ∧ tree8.inorder = [3, 7, 8, 10, 11, 18, 22, 26] ∧
      tree8.isBlack = true ∧
      deleteFromRBTree 13 (some s8) (some 18) = .ok (true, some s7) ∧ Models s7 tree7 ∧
      deleteFromRBTree 13 (some s7) (some 11) = .ok (true, some s6) ∧ Models s6 tree6 ∧
      tree6.RedBlack cmpInt ∧ tree6.inorder = [3, 7, 8, 10, 22, 26] ∧ s6.freed = [18, 11] := by
  obtain ⟨s8, h1, h2, h3, h4⟩ := insertAll_run 9
    [(7, 1), (3, 2), (18, 3), (10, 4), (22, 5), (8, 6), (11, 7), (26, 8)] (newRBTree cmpInt)
    .nil tree8 (models_newRBTree cmpInt) rfl trivial trivial (by rfl) (by decide)
    (fun _ _ => rfl) (by decide)
  have hd8 : descend s8.compFunc 18 tree8 [] = (descend cmpInt 18 tree8 []) := by rw [h3]; rfl
  obtain ⟨s7, t7, e1, e2, -, -, -, -, e7, e8, -, -, e11⟩ :=
    @delete_core _ s8 tree8 18 13 _ _ _ _ _ _ h2 tree8_redBlack.rootBlack
      tree8_redBlack.noRedRed tree8_redBlack.balanced (hd8.trans rfl) (by decide)
  rw [h3] at e11
  have ht7 : t7 = tree7 := by
    have h := e11.symm.trans
      (show deleteZ (newRBTree cmpInt).compFunc 18 tree8 = some (tree7, 18) from by rfl)
    simp only [Option.some.injEq, Prod.mk.injEq, and_true] at h
    exact h
  subst ht7
  have hd7 : descend s7.compFunc 11 tree7 [] = (descend cmpInt 11 tree7 []) := by
    rw [e8, h3]; rfl
  obtain ⟨s6, t6, g1, g2, -, -, -, -, g7, g8, -, -, g11⟩ :=
    @delete_core _ s7 tree7 11 13 _ _ _ _ _ _ e2 tree7_redBlack.rootBlack
      tree7_redBlack.noRedRed tree7_redBlack.balanced (hd7.trans rfl) (by decide)
  rw [e8, h3] at g11
  have ht6 : t6 = tree6 := by
    have h := g11.symm.trans
      (show deleteZ (newRBTree cmpInt).compFunc 11 tree7 = some (tree6, 11) from by rfl)
    simp only [Option.some.injEq, Prod.mk.injEq, and_true] at h
    exact h
  subst ht6
  refine ⟨s8, s7, s6, h1, h2, rfl, rfl, e1, e2, g1, g2, tree6_redBlack, rfl, ?_⟩
  rw [g7, e7, h4]
  rfl

/-! ## The contracts

Throughout, a *tree* is a well-formed tree object: `Models s t` says that the
links of the state `s` spell out the tree `t` without sharing, that the parent
links are the inverse of the child links, and that `size` counts the nodes.
The comparator is the one stored in the tree object; where a statement needs
it to be a total order, `TotalCmp` says so.  Each run is given an amount of
fuel, and each statement names an amount that suffices. -/

/-- C1: from a tree that satisfies the four red-black invariants (black root,
no red node with a red child, equal black-height on every path, strictly
increasing in-order sequence), `deleteFromRBTree` returns and leaves a tree
that satisfies all four again.  This holds for every value; for a value that
some contained value compares equal to, under a total-order comparator, the
call returns true, so that a node has been removed. -/
theorem deleteFromRBTree_keeps_redBlack {s : RBTree α} {t : Tree α} {fuel : Nat} (d : α)
    (hm : Models s t) (hrb : t.RedBlack s.compFunc) (hfuel : 3 * t.height < fuel) :
    ∃ b s' t', deleteFromRBTree fuel (some s) (some d) = .ok (b, some s') ∧
      Models s' t' ∧ t'.RedBlack s'.compFunc ∧
      (TotalCmp s.compFunc → (∃ x ∈ t.inorder, s.compFunc d x = 0) → b = true) := by
  cases hd : descend s.compFunc d t [] with
  | mk p X =>
    cases X with
    | nil =>
      refine ⟨false, s, t, delete_absent hm.linked (by rw [hd]) (by omega), hm, hrb, ?_⟩
      intro hc hx
      have := descend_present hc (d := d) ([] : Path α) hrb.ordered hx
      rw [hd] at this
      exact absurd rfl this
    | node x c l v r =>
      obtain ⟨s', t', A, B, h1, h2, h3, -⟩ := delete_found hm hrb hd hfuel
      exact ⟨true, s', t', h1, h2, h3, fun _ _ => rfl⟩

/-- C1, at the tree built from 7, 3, 18, 10, 22, 8, 11, 26, deleting 18, and at
the tree this leaves, deleting 11. -/
theorem deleteFromRBTree_keeps_redBlack_witness :
    (Models (stateOf cmpInt tree8) tree8 ∧ tree8.RedBlack cmpInt ∧
      ∃ b s' t', deleteFromRBTree 13 (some (stateOf cmpInt tree8)) (some 18) = .ok (b, some s') ∧
        Models s' t' ∧ t'.RedBlack s'.compFunc ∧
        (TotalCmp cmpInt → (∃ x ∈ tree8.inorder, cmpInt 18 x = 0) → b = true)) ∧
      (Models (stateOf cmpInt tree7) tree7 ∧ tree7.RedBlack cmpInt ∧
        ∃ b s' t', deleteFromRBTree 13 (some (stateOf cmpInt tree7)) (some 11)
            = .ok (b, some s') ∧
          Models s' t' ∧ t'.RedBlack s'.compFunc ∧
          (TotalCmp cmpInt → (∃ x ∈ tree7.inorder, cmpInt 11 x = 0) → b = true)) :=
  ⟨⟨models_stateOf cmpInt (by decide), tree8_redBlack,
      deleteFromRBTree_keeps_redBlack 18 (models_stateOf cmpInt (by decide)) tree8_redBlack
        (by decide)⟩,
    ⟨models_stateOf cmpInt (by decide), tree7_redBlack,
      deleteFromRBTree_keeps_redBlack 11 (models_stateOf cmpInt (by decide)) tree7_redBlack
        (by decide)⟩⟩

/-- C2: inserting, with allocation succeeding, a value that compares equal to
no contained value into a tree that satisfies the red-black invariants returns
and leaves a tree whose root is black, in which no red node has a red child,
and in which every path from the root to an absent position passes through
the same number of black nodes. -/
theorem insertToRBTree_keeps_colours {s : RBTree α} {t : Tree α} {d : α} {a fuel : Nat}
    (hm : Models s t) (hrb : t.RedBlack s.compFunc)
    (habs : ∀ x ∈ t.inorder, s.compFunc d x ≠ 0) (hfresh : s.mem a = none)
    (hfuel : t.height < fuel) :
    ∃ s' t', insertToRBTree fuel (some s) (some d) (some a) = .ok (true, some s') ∧
      Models s' t' ∧ t'.isBlack = true ∧ t'.NoRedRed ∧
      ∀ m ∈ t'.blackPaths, ∀ n ∈ t'.blackPaths, m = n := by
  obtain ⟨s', t', h1, h2, h3, h4, h5, -⟩ :=
    insert_core hm hrb.rootBlack hrb.noRedRed hrb.balanced (descend_absent [] habs) hfresh
      hfuel
  exact ⟨s', t', h1, h2, h3, h4, balanced_paths_eq h5⟩

/-- C2, at the tree built from 7, 3, 18, 10, 22, 8, 11, 26, inserting 5. -/
theorem insertToRBTree_keeps_colours_witness :
    ∃ s' t', insertToRBTree 5 (some (stateOf cmpInt tree8)) (some 5) (some 9)
        = .ok (true, some s') ∧
      Models s' t' ∧ t'.isBlack = true ∧ t'.NoRedRed ∧
      ∀ m ∈ t'.blackPaths, ∀ n ∈ t'.blackPaths, m = n :=
  insertToRBTree_keeps_colours (models_stateOf cmpInt (by decide)) tree8_redBlack
    (by simp [tree8, Tree.inorder, stateOf, cmpInt]) (stateOf_free cmpInt (by decide))
    (by decide)

/-- C3 fails as stated: the one-node tree whose node, holding 5, is red has a
strictly increasing in-order sequence, and 7 compares equal to no contained
value, yet `insertToRBTree` does not return: the fix-up finds the parent red,
no uncle, and reads `grandpa->right` through the null grandparent. -/
theorem insertToRBTree_red_root_faults :
    Models redRoot redRootTree ∧ redRootTree.Ordered redRoot.compFunc ∧
      TotalCmp redRoot.compFunc ∧ (∀ x ∈ redRootTree.inorder, redRoot.compFunc 7 x ≠ 0) ∧
      redRoot.mem 2 = none ∧
      (∀ fuel, insertToRBTree (fuel + 2) (some redRoot) (some 7) (some 2)
        = .error .nullDeref) ∧
      ∀ fuel r, insertToRBTree fuel (some redRoot) (some 7) (some 2) ≠ .ok r := by
  have key : ∀ fuel, insertToRBTree (fuel + 2) (some redRoot) (some 7) (some 2)
      = .error .nullDeref := by
    intro fuel
    simp [insertToRBTree, insertToNormalBst, fixInsertToRBTree, readLink, writeLink, createNode,
      setParent, setRight, getGrandpa, getUncle, getBrother, isRedNode, load, store, redRoot,
      cmpInt, bind, Except.bind, pure, Except.pure, Function.update_apply]
  refine ⟨models_redRoot, by simp [redRootTree, Tree.Ordered, Tree.inorder], totalCmp_cmpInt,
    by simp [redRootTree, Tree.inorder, redRoot, cmpInt], rfl, key, ?_⟩
  intro fuel r
  match fuel with
  | 0 => simp [insertToRBTree, insertToNormalBst, bind, Except.bind]
  | 1 =>
    simp [insertToRBTree, insertToNormalBst, readLink, load, redRoot, cmpInt, bind, Except.bind,
      pure, Except.pure]
  | fuel + 2 => rw [key fuel]; simp

/-- C3, amended: inserting, with allocation succeeding, a value that compares
equal to no contained value into a tree whose root is black (or which is
empty) and whose in-order sequence is strictly increasing under a total-order
comparator returns true, increases the size by exactly one, and the new
in-order sequence is the old one with the value inserted between the values
below it and the values above it, so that it is strictly increasing again. -/
theorem insertToRBTree_inserts_sorted {s : RBTree α} {t : Tree α} {d : α} {a fuel : Nat}
    (hm : Models s t) (hB : t.isBlack = true) (ho : t.Ordered s.compFunc)
    (hc : TotalCmp s.compFunc) (habs : ∀ x ∈ t.inorder, s.compFunc d x ≠ 0)
    (hfresh : s.mem a = none) (hfuel : t.height < fuel) :
    ∃ s' t' A B, insertToRBTree fuel (some s) (some d) (some a) = .ok (true, some s') ∧
      Models s' t' ∧ s'.size = s.size + 1 ∧ s'.compFunc = s.compFunc ∧
      t.inorder = A ++ B ∧ t'.inorder = A ++ d :: B ∧
      (∀ x ∈ A, s.compFunc x d < 0) ∧ (∀ x ∈ B, s.compFunc d x < 0) ∧
      t'.Ordered s.compFunc :=
  insert_ordered hm hB ho hc habs hfresh hfuel

/-- C3 amended, at the tree built from 7, 3, 18, 10, 22, 8, 11, 26, inserting
9. -/
theorem insertToRBTree_inserts_sorted_witness :
    ∃ s' t' A B, insertToRBTree 5 (some (stateOf cmpInt tree8)) (some 9) (some 9)
        = .ok (true, some s') ∧
      Models s' t' ∧ s'.size = (stateOf cmpInt tree8).size + 1 ∧ s'.compFunc = cmpInt ∧
      tree8.inorder = A ++ B ∧ t'.inorder = A ++ 9 :: B ∧
      (∀ x ∈ A, cmpInt x 9 < 0) ∧ (∀ x ∈ B, cmpInt 9 x < 0) ∧ t'.Ordered cmpInt :=
  insertToRBTree_inserts_sorted (models_stateOf cmpInt (by decide)) tree8_redBlack.rootBlack
    tree8_redBlack.ordered totalCmp_cmpInt (by simp [tree8, Tree.inorder, stateOf, cmpInt])
    (stateOf_free cmpInt (by decide)) (by decide)

/-- C4: deleting, from a tree that satisfies the red-black invariants under a
total-order comparator, a value that some contained value compares equal to
returns true, decreases the size by exactly one, and the new in-order
sequence is the old one with that one matching value removed, every other
value kept in place. -/
theorem deleteFromRBTree_removes_one {s : RBTree α} {t : Tree α} {d : α} {fuel : Nat}
    (hm : Models s t) (hrb : t.RedBlack s.compFunc) (hc : TotalCmp s.compFunc)
    (hx : ∃ x ∈ t.inorder, s.compFunc d x = 0) (hfuel : 3 * t.height < fuel) :
    ∃ s' t' A x B, deleteFromRBTree fuel (some s) (some d) = .ok (true, some s') ∧
      Models s' t' ∧ s'.size = s.size - 1 ∧ s.compFunc d x = 0 ∧
      t.inorder = A ++ x :: B ∧ t'.inorder = A ++ B := by
  obtain ⟨s', t', A, x, B, h1, h2, -, h4, -, -, h7, h8, h9⟩ := delete_full hm hrb hc hx hfuel
  exact ⟨s', t', A, x, B, h1, h2, h4, h7, h8, h9⟩

/-- C4, at the tree built from 7, 3, 18, 10, 22, 8, 11, 26, deleting 18. -/
theorem deleteFromRBTree_removes_one_witness :
    ∃ s' t' A x B, deleteFromRBTree 13 (some (stateOf cmpInt tree8)) (some 18)
        = .ok (true, some s') ∧
      Models s' t' ∧ s'.size = (stateOf cmpInt tree8).size - 1 ∧ cmpInt 18 x = 0 ∧
      tree8.inorder = A ++ x :: B ∧ t'.inorder = A ++ B :=
  deleteFromRBTree_removes_one (models_stateOf cmpInt (by decide)) tree8_redBlack
    totalCmp_cmpInt ⟨18, by simp [tree8, Tree.inorder], by simp [stateOf, cmpInt]⟩ (by decide)

/-- C5 fails as stated: in the two-node tree whose root holds 5 and whose left
child holds 7, the value 7 compares equal to a contained value, yet the
descent goes right at the root, finds an absent position, and the insertion
returns true, with a third node linked in and the size raised to 3. -/
theorem insertToRBTree_duplicate_unsorted :
    Models unsorted unsortedTree ∧ TotalCmp unsorted.compFunc ∧
      (∃ x ∈ unsortedTree.inorder, unsorted.compFunc 7 x = 0) ∧ unsorted.mem 3 = none ∧
      ∃ s', insertToRBTree 2 (some unsorted) (some 7) (some 3) = .ok (true, some s') ∧
        s'.size = 3 ∧ s'.mem 3 = some ⟨7, some 1, none, none, .RED⟩ ∧
        s'.mem 1 = some ⟨5, none, some 2, some 3, .BLACK⟩ := by
  refine ⟨models_unsorted, totalCmp_cmpInt,
    ⟨7, by simp [unsortedTree, Tree.inorder], by simp [unsorted, cmpInt]⟩, rfl, ?_⟩
  simp [insertToRBTree, insertToNormalBst, fixInsertToRBTree, readLink, writeLink, createNode,
    setParent, setRight, getGrandpa, getUncle, getBrother, isRedNode, load, store, unsorted,
    cmpInt, bind, Except.bind, pure, Except.pure, Function.update_apply]

/-- C5, amended: in a tree whose in-order sequence is strictly increasing
under a total-order comparator, inserting a value that compares equal to a
contained value returns false, whatever the allocator would answer, and
leaves the tree object exactly as it was: same root, links, colours, values
and size. -/
theorem insertToRBTree_duplicate_rejected {s : RBTree α} {t : Tree α} {d : α} {fuel : Nat}
    (fresh : Ptr) (hm : Models s t) (ho : t.Ordered s.compFunc) (hc : TotalCmp s.compFunc)
    (hx : ∃ x ∈ t.inorder, s.compFunc d x = 0) (hfuel : t.height < fuel) :
    insertToRBTree fuel (some s) (some d) fresh = .ok (false, some s) := by
  have hne := descend_present hc (d := d) ([] : Path α) ho hx
  have := insertToNormalBst_found d fresh t fuel [] s hfuel hm.linked hne
  simp only [pathPtr_nil, pathLink] at this
  simp only [insertToRBTree, this, bind, Except.bind, pure, Except.pure]

/-- C5 amended, at the tree built from 7, 3, 18, 10, 22, 8, 11, 26, inserting
10 again. -/
theorem insertToRBTree_duplicate_rejected_witness :
    insertToRBTree 5 (some (stateOf cmpInt tree8)) (some 10) (some 9)
      = .ok (false, some (stateOf cmpInt tree8)) :=
  insertToRBTree_duplicate_rejected (some 9) (models_stateOf cmpInt (by decide))
    tree8_redBlack.ordered totalCmp_cmpInt
    ⟨10, by simp [tree8, Tree.inorder], by simp [stateOf, cmpInt]⟩ (by decide)

/-- C6: deleting a value that compares equal to no contained value returns
false and leaves the tree object exactly as it was: same root, links,
colours, values and size, and no further destructor call in `freed`.  The
ordering of the tree plays no part. -/
theorem deleteFromRBTree_absent_unchanged {s : RBTree α} {t : Tree α} {d : α} {fuel : Nat}
    (hm : Models s t) (habs : ∀ x ∈ t.inorder, s.compFunc d x ≠ 0) (hfuel : t.height < fuel) :
    deleteFromRBTree fuel (some s) (some d) = .ok (false, some s) :=
  delete_absent hm.linked (descend_absent [] habs) hfuel

/-- C6, at the tree built from 7, 3, 18, 10, 22, 8, 11, 26, deleting 5. -/
theorem deleteFromRBTree_absent_unchanged_witness :
    deleteFromRBTree 5 (some (stateOf cmpInt tree8)) (some 5)
      = .ok (false, some (stateOf cmpInt tree8)) :=
  deleteFromRBTree_absent_unchanged (models_stateOf cmpInt (by decide))
    (by simp [tree8, Tree.inorder, stateOf, cmpInt]) (by decide)

/-- C7: in a tree whose in-order sequence is strictly increasing under a
total-order comparator, `RBTreeContains` returns true for a non-null value if
and only if some contained value compares equal to it; it returns false on an
empty tree, for a null value and for a null tree. -/
theorem RBTreeContains_iff {s : RBTree α} {t : Tree α} {fuel : Nat} (d : α)
    (hm : Models s t) (ho : t.Ordered s.compFunc) (hc : TotalCmp s.compFunc)
    (hfuel : t.height < fuel) :
    (∃ b, RBTreeContains fuel (some s) (some d) = .ok b ∧
        (b = true ↔ ∃ x ∈ t.inorder, s.compFunc d x = 0)) ∧
      (t = .nil → RBTreeContains fuel (some s) (some d) = .ok false) ∧
      RBTreeContains fuel (some s) (none : Option α) = .ok false ∧
      RBTreeContains fuel (none : Option (RBTree α)) (some d) = .ok false := by
  have hsim := contains_sim (d := d) hm.linked hfuel
  refine ⟨⟨_, hsim, ?_⟩, ?_, rfl, rfl⟩
  · constructor
    · intro hb
      cases hd : descend s.compFunc d t [] with
      | mk p X =>
        cases X with
        | nil => rw [hd] at hb; simp at hb
        | node x c l v r => exact ⟨v, by simpa using descend_mem hd, descend_found hd⟩
    · intro hx
      have hne := descend_present hc (d := d) ([] : Path α) ho hx
      cases hX : (descend s.compFunc d t []).2 with
      | nil => exact absurd hX hne
      | node x c l v r => rfl
  · intro ht
    subst ht
    rw [hsim]
    rfl

/-- C7, at the tree built from 7, 3, 18, 10, 22, 8, 11, 26, looking for 10. -/
theorem RBTreeContains_iff_witness :
    (∃ b, RBTreeContains 5 (some (stateOf cmpInt tree8)) (some 10) = .ok b ∧
        (b = true ↔ ∃ x ∈ tree8.inorder, cmpInt 10 x = 0)) ∧
      (tree8 = .nil → RBTreeContains 5 (some (stateOf cmpInt tree8)) (some 10) = .ok false) ∧
      RBTreeContains 5 (some (stateOf cmpInt tree8)) (none : Option Int) = .ok false ∧
      RBTreeContains 5 (none : Option (RBTree Int)) (some 10) = .ok false :=
  RBTreeContains_iff 10 (models_stateOf cmpInt (by decide)) tree8_redBlack.ordered
    totalCmp_cmpInt (by decide)

/-- C8: on a tree with consistent parent links, with a visitor that never
reports failure, `forEachRBTree` calls the visitor once on each contained
value, in the order of the in-order sequence, and returns true; on an empty
tree it does not call the visitor and returns true.  The ordering of the
values plays no part. -/
theorem forEachRBTree_visits_all {σ : Type} {s : RBTree α} {t : Tree α} {fuel : Nat}
    (f : α → σ → Int × σ) (args : σ) (hm : Models s t) (hf : ∀ x a, (f x a).1 ≠ 0)
    (hfuel : t.count + t.height < fuel) :
    forEachRBTree fuel (some s) (some f) args
        = .ok (true, argsAfter f t.inorder args, t.inorder) ∧
      (t = .nil → forEachRBTree fuel (some s) (some f) args = .ok (true, args, [])) := by
  have h := forEachRBTree_sim f hm.linked hfuel args
  rw [visitList_all hf] at h
  simp only [List.nil_append] at h
  refine ⟨h, ?_⟩
  intro ht
  subst ht
  simpa [Tree.inorder, argsAfter] using h

/-- C8, at the tree built from 7, 3, 18, 10, 22, 8, 11, 26, with a visitor
that counts its calls. -/
theorem forEachRBTree_visits_all_witness :
    forEachRBTree 13 (some (stateOf cmpInt tree8)) (some countCalls) 0
        = .ok (true, argsAfter countCalls tree8.inorder 0, tree8.inorder) ∧
      (tree8 = .nil →
        forEachRBTree 13 (some (stateOf cmpInt tree8)) (some countCalls) 0 = .ok (true, 0, [])) :=
  forEachRBTree_visits_all countCalls 0 (models_stateOf cmpInt (by decide))
    (by simp [countCalls]) (by decide)

/-- C9: when the visitor reports success on the values of `pre`, the first
`k - 1` values of the in-order sequence, and failure on the next value `x`,
the `k`-th, `forEachRBTree` calls the visitor exactly on `pre` and then on
`x`, `k` calls and no later value, and returns false. -/
theorem forEachRBTree_stops_at_failure {σ : Type} {s : RBTree α} {t : Tree α} {fuel : Nat}
    (f : α → σ → Int × σ) (args : σ) (pre : List α) (x : α) (post : List α)
    (hm : Models s t) (hio : t.inorder = pre ++ x :: post) (hpre : Passes f pre args)
    (hx : (f x (argsAfter f pre args)).1 = 0) (hfuel : t.count + t.height < fuel) :
    forEachRBTree fuel (some s) (some f) args
        = .ok (false, (f x (argsAfter f pre args)).2, pre ++ [x]) ∧
      (pre ++ [x]).length = pre.length + 1 ∧ pre ++ [x] = t.inorder.take (pre.length + 1) := by
  have h := forEachRBTree_sim f hm.linked hfuel args
  rw [hio, visitList_stop pre x post args [] hpre hx] at h
  simp only [List.nil_append] at h
  refine ⟨h, by simp, ?_⟩
  rw [hio]
  simp [List.take_append_eq_append_take]

/-- C9, at the tree built from 7, 3, 18, 10, 22, 8, 11, 26: a visitor that
fails on the third value it sees is called exactly 3 times, on 3, 7 and 8. -/
theorem forEachRBTree_stops_at_failure_witness :
    forEachRBTree 13 (some (stateOf cmpInt tree8)) (some failOnThird) 0
        = .ok (false, (failOnThird 8 (argsAfter failOnThird [3, 7] 0)).2, [3, 7] ++ [8]) ∧
      ([3, 7] ++ [(8 : Int)]).length = [3, (7 : Int)].length + 1 ∧
      [3, 7] ++ [8] = tree8.inorder.take ([3, (7 : Int)].length + 1) :=
  forEachRBTree_stops_at_failure failOnThird 0 [3, 7] 8 [10, 11, 18, 22, 26]
    (models_stateOf cmpInt (by decide)) rfl
    ⟨by simp [failOnThird], by simp [failOnThird], trivial⟩
    (by simp [failOnThird, argsAfter]) (by decide)

/-- C10: insert `n` values, pairwise distinct under a total-order comparator,
into an empty tree, each allocation answering with an address not handed out
before, and then delete them all, in the order of any permutation `ds` of the
values: every call returns true, the tree ends up empty (root absent, size 0),
and the destructor has been called exactly once on each value, `n` calls in
all, in the order of deletion. -/
theorem insert_delete_roundtrip {cmp : α → α → Int} {fuel : Nat} (vas : List (α × Nat))
    (ds : List α) (hc : TotalCmp cmp)
    (hvs : (vas.map Prod.fst).Pairwise (fun a b => cmp a b ≠ 0))
    (has : (vas.map Prod.snd).Nodup) (hds : ds.Perm (vas.map Prod.fst))
    (hfuel : 3 * vas.length < fuel) :
    ∃ s1 s2, insertAll fuel (some (newRBTree cmp)) vas = .ok (true, some s1) ∧
      deleteAll fuel (some s1) ds = .ok (true, some s2) ∧
      s2.root = none ∧ s2.size = 0 ∧ s2.freed = ds ∧ s2.freed.length = vas.length ∧
      s2.freed.Perm (vas.map Prod.fst) := by
  obtain ⟨s1, t1, h1, h2, h3, h4, h5, h6⟩ := insertAll_spec fuel vas (newRBTree cmp) .nil
    (models_newRBTree cmp) (redBlack_nil cmp) hc (by simp [Tree.inorder]) hvs has
    (fun _ _ => rfl) (by simp only [Tree.count]; omega)
  simp only [Tree.inorder, List.append_nil] at h6
  have hlen : ds.length = vas.length := by rw [hds.length_eq]; simp
  obtain ⟨s2, e1, e2, e3, e4⟩ := deleteAll_spec fuel ds s1 t1 h2 h3
    (by rw [h4]; exact hc) (hds.trans h6.symm) (by omega)
  have hfreed : s2.freed = ds := by rw [e4, h5]; rfl
  exact ⟨s1, s2, h1, e1, e2, e3, hfreed, by rw [hfreed, hlen], by rw [hfreed]; exact hds⟩

/-- C10 for `n = 1`: the tree holding only 5 becomes empty when 5 is deleted,
and the destructor is called once. -/
theorem insert_delete_roundtrip_witness :
    ∃ s1 s2, insertAll 4 (some (newRBTree cmpInt)) [(5, 1)] = .ok (true, some s1) ∧
      deleteAll 4 (some s1) [5] = .ok (true, some s2) ∧
      s2.root = none ∧ s2.size = 0 ∧ s2.freed = [5] ∧
      s2.freed.length = [((5 : Int), 1)].length ∧
      s2.freed.Perm ([((5 : Int), 1)].map Prod.fst) :=
  insert_delete_roundtrip [(5, 1)] [5] totalCmp_cmpInt (by simp) (by simp) (by simp)
    (by decide)

/-! ## Nodes of a tree; the successor of a node -/

theorem exists_plug_of_mem {t : Tree α} {a : Nat} (h : a ∈ t.addrs) :
    ∃ p c l v r, t = plug p (.node a c l v r) := by
  induction t with
  | nil => simp [Tree.addrs] at h
  | node b k tl w tr ihl ihr =>
    simp only [Tree.addrs, List.mem_cons, List.mem_append] at h
    rcases h with rfl | h | h
    · exact ⟨[], k, tl, w, tr, rfl⟩
    · obtain ⟨p, c, l, v, r, e⟩ := ihl h
      exact ⟨p ++ [.L b k w tr], c, l, v, r, by rw [plug_append, ← e]; rfl⟩
    · obtain ⟨p, c, l, v, r, e⟩ := ihr h
      exact ⟨p ++ [.R b k tl w], c, l, v, r, by rw [plug_append, ← e]; rfl⟩

theorem nodup_of_ordered {cmp : α → α → Int} (hc : TotalCmp cmp) {L : List α}
    (h : L.Pairwise (fun a b => cmp a b < 0)) : L.Nodup :=
  h.imp (fun {a b} hab e => by
    rw [e, hc.self_eq b] at hab
    exact absurd hab (by decide))

theorem append_cons_unique {v : α} : ∀ {A A' B B' : List α}, (A ++ v :: B).Nodup →
    A ++ v :: B = A' ++ v :: B' → A = A' ∧ B = B' := by
  intro A
  induction A with
  | nil =>
    intro A' B B' hn e
    cases A' with
    | nil => simpa using e
    | cons x A' =>
      simp only [List.nil_append, List.cons_append, List.cons.injEq] at e
      obtain ⟨rfl, rfl⟩ := e
      simp at hn
  | cons y A ih =>
    intro A' B B' hn e
    cases A' with
    | nil =>
      simp only [List.nil_append, List.cons_append, List.cons.injEq] at e
      obtain ⟨rfl, rfl⟩ := e
      simp at hn
    | cons x A' =>
      simp only [List.cons_append, List.cons.injEq] at e
      obtain ⟨rfl, e⟩ := e
      obtain ⟨h1, h2⟩ := ih (List.nodup_cons.1 hn).2 e
      exact ⟨by rw [h1], h2⟩

/-- The successor walk from a node of a tree: the node's value splits the
in-order sequence, and the walk ends at the node holding the first value
after it, or at `NULL` when no value comes after it. -/
theorem getSuccessor_spec {s : RBTree α} {t : Tree α} {a fuel : Nat} (h : Linked s t)
    (ha : a ∈ t.addrs) (hfuel : t.height ≤ fuel) :
    ∃ n A B, s.mem a = some n ∧ t.inorder = A ++ n.data :: B ∧
      (B = [] → getSuccessor fuel s (some a) = .ok none) ∧
      ∀ w B', B = w :: B' → ∃ b m, getSuccessor fuel s (some a) = .ok (some b) ∧
        b ∈ t.addrs ∧ s.mem b = some m ∧ m.data = w := by
  obtain ⟨p, c, l, v, r, rfl⟩ := exists_plug_of_mem ha
  refine ⟨_, pathPre p ++ l.inorder, r.inorder ++ pathPost p, h.node_eq,
    by simp [inorder_plug, Tree.inorder], ?_, ?_⟩
  · intro hB
    rcases getSuccessor_sim h hfuel with ⟨-, h2⟩ | ⟨q, b, bc, bl, bv, br, -, -, h3⟩
    · exact h2
    · rw [hB] at h3; simp at h3
  · intro w B' hB
    rcases getSuccessor_sim h hfuel with ⟨h1, -⟩ | ⟨q, b, bc, bl, bv, br, h1, h2, h3⟩
    · rw [hB] at h1; simp at h1
    · rw [hB] at h3
      simp only [List.cons.injEq] at h3
      have hq : Linked s (plug q (.node b bc bl bv br)) := by rw [h1]; exact h
      refine ⟨b, _, h2, ?_, hq.node_eq, h3.1.symm⟩
      rw [← h1]
      exact mem_addrs_plug.2 (Or.inr (by simp [Tree.addrs]))

/-! ## Rotations -/

theorem bind_ok {ε β γ : Type} {x : Except ε β} {f : β → Except ε γ} {c : γ} :
    (x >>= f) = .ok c ↔ ∃ b, x = .ok b ∧ f b = .ok c := by
  cases x <;> simp [bind, Except.bind]

theorem SameTags.tags_refl (s : RBTree α) : SameTags s s := fun _ => rfl

theorem SameTags.tags_comp {s₁ s₂ s₃ : RBTree α} (h₁ : SameTags s₁ s₂) (h₂ : SameTags s₂ s₃) :
    SameTags s₁ s₃ := fun a => (h₂ a).trans (h₁ a)

theorem setParent_tags {s s' : RBTree α} {p q : Ptr} (h : setParent s p q = .ok s') :
    SameTags s s' := by
  intro a
  cases p with
  | none => simp [setParent] at h
  | some b =>
    simp only [setParent] at h
    cases hb : s.mem b with
    | none => simp [hb] at h
    | some n =>
      simp only [hb, Except.ok.injEq] at h
      subst h
      by_cases e : a = b
      · subst e; simp [store, hb]
      · simp [store, Function.update_noteq e]

theorem setLeft_tags {s s' : RBTree α} {p q : Ptr} (h : setLeft s p q = .ok s') :
    SameTags s s' := by
  intro a
  cases p with
  | none => simp [setLeft] at h
  | some b =>
    simp only [setLeft] at h
    cases hb : s.mem b with
    | none => simp [hb] at h
    | some n =>
      simp only [hb, Except.ok.injEq] at h
      subst h
      by_cases e : a = b
      · subst e; simp [store, hb]
      · simp [store, Function.update_noteq e]

theorem setRight_tags {s s' : RBTree α} {p q : Ptr} (h : setRight s p q = .ok s') :
    SameTags s s' := by
  intro a
  cases p with
  | none => simp [setRight] at h
  | some b =>
    simp only [setRight] at h
    cases hb : s.mem b with
    | none => simp [hb] at h
    | some n =>
      simp only [hb, Except.ok.injEq] at h
      subst h
      by_cases e : a = b
      · subst e; simp [store, hb]
      · simp [store, Function.update_noteq e]

theorem leftRotation_tags {s s' : RBTree α} {x : Ptr} (h : leftRotation s x = .ok s') :
    SameTags s s' := by
  unfold leftRotation at h
  split at h
  · simp only [pure, Except.pure, Except.ok.injEq] at h; subst h; exact SameTags.tags_refl _
  · simp only [bind_ok] at h
    obtain ⟨xn, -, h⟩ := h
    split at h
    · simp only [pure, Except.pure, Except.ok.injEq] at h; subst h; exact SameTags.tags_refl _
    · simp only [bind_ok] at h
      obtain ⟨yn, -, s1, h1, yn', -, s2, h2, s3, h3, s4, h4, s5, h5, h6⟩ := h
      have t2 : SameTags s1 s2 := by
        split at h2
        · simp only [bind_ok] at h2
          obtain ⟨pn, -, h2⟩ := h2
          split at h2
          · exact setLeft_tags h2
          · exact setRight_tags h2
        · simp only [pure, Except.pure, Except.ok.injEq] at h2; subst h2; exact fun _ => rfl
      have t6 : SameTags s5 s' := by
        split at h6
        · exact setParent_tags h6
        · simp only [pure, Except.pure, Except.ok.injEq] at h6; subst h6; exact SameTags.tags_refl _
      exact ((((setParent_tags h1).tags_comp t2).tags_comp (setLeft_tags h3)).tags_comp
        (setParent_tags h4)).tags_comp ((setRight_tags h5).tags_comp t6)

theorem rightRotation_tags {s s' : RBTree α} {y : Ptr} (h : rightRotation s y = .ok s') :
    SameTags s s' := by
  unfold rightRotation at h
  split at h
  · simp only [pure, Except.pure, Except.ok.injEq] at h; subst h; exact SameTags.tags_refl _
  · simp only [bind_ok] at h
    obtain ⟨yn, -, h⟩ := h
    split at h
    · simp only [pure, Except.pure, Except.ok.injEq] at h; subst h; exact SameTags.tags_refl _
    · simp only [bind_ok] at h
      obtain ⟨xn, -, s1, h1, xn', -, s2, h2, s3, h3, s4, h4, s5, h5, h6⟩ := h
      have t2 : SameTags s1 s2 := by
        split at h2
        · simp only [bind_ok] at h2
          obtain ⟨pn, -, h2⟩ := h2
          split at h2
          · exact setLeft_tags h2
          · exact setRight_tags h2
        · simp only [pure, Except.pure, Except.ok.injEq] at h2; subst h2; exact fun _ => rfl
      have t6 : SameTags s5 s' := by
        split at h6
        · exact setParent_tags h6
        · simp only [pure, Except.pure, Except.ok.injEq] at h6; subst h6
          exact SameTags.tags_refl _
      exact ((((setParent_tags h1).tags_comp t2).tags_comp (setRight_tags h3)).tags_comp
        (setParent_tags h4)).tags_comp ((setLeft_tags h5).tags_comp t6)

theorem leftRotation_noop {s : RBTree α} {p : Path α} {x : Nat} {cx : Color} {A : Tree α}
    {vx : α} (h : Linked s (plug p (.node x cx A vx .nil))) :
    leftRotation s (some x) = .ok s := by
  simp [leftRotation, load_eq h.node_eq, bind, Except.bind, pure, Except.pure]

theorem rightRotation_noop {s : RBTree α} {p : Path α} {x : Nat} {cx : Color} {A : Tree α}
    {vx : α} (h : Linked s (plug p (.node x cx .nil vx A))) :
    rightRotation s (some x) = .ok s := by
  simp [rightRotation, load_eq h.node_eq, bind, Except.bind, pure, Except.pure]

/-! ## Calls that change nothing; states reachable through the interface -/

theorem store_same {s : RBTree α} {a : Nat} {n : Node α} (h : s.mem a = some n) :
    store s a n = s := by
  cases s with
  | mk root cf size mem freed =>
    simp only [store, RBTree.mk.injEq, true_and, and_true]
    simp only at h
    rw [← h]
    exact Function.update_eq_self a mem

/-- When `malloc` fails, the write of `NULL` into the link that already holds
`NULL` leaves the state as it is. -/
theorem linkLeaf_noalloc {s : RBTree α} {p : Path α} (fuel : Nat) (d : α)
    (h : Linked s (plug p .nil)) :
    insertToNormalBst (fuel + 1) (some s) (pathPtr p) (pathLink p) d none
      = .ok (none, some s) := by
  cases p with
  | nil =>
    have hroot : s.root = none := h.root
    have : ({ s with root := none } : RBTree α) = s := by
      cases s; simp only at hroot; simp [hroot]
    simp [insertToNormalBst, readLink, writeLink, createNode, hroot, bind, Except.bind, pure,
      Except.pure, pathLink, this]
  | cons f p =>
    cases f with
    | L fa fc fv fr =>
      have hf := Linked.node_eq (p := p) h
      simp only [Tree.ptr_nil] at hf
      simp [insertToNormalBst, readLink, writeLink, createNode, setLeft, load, hf, bind,
        Except.bind, pure, Except.pure, pathLink, Step.link, store_same hf]
    | R fa fc fl fv =>
      have hf := Linked.node_eq (p := p) h
      simp only [Tree.ptr_nil] at hf
      simp [insertToNormalBst, readLink, writeLink, createNode, setRight, load, hf, bind,
        Except.bind, pure, Except.pure, pathLink, Step.link, store_same hf]

theorem insertToNormalBst_noalloc (d : α) :
    ∀ (t : Tree α) (fuel : Nat) (p : Path α) (s : RBTree α), t.height < fuel →
      Linked s (plug p t) → (descend s.compFunc d t p).2 = .nil →
      insertToNormalBst fuel (some s) (pathPtr p) (pathLink p) d none = .ok (none, some s) := by
  intro t
  induction t with
  | nil =>
    intro fuel p s hf hl _
    obtain ⟨fuel, rfl⟩ : ∃ k, fuel = k + 1 := ⟨fuel - 1, by omega⟩
    exact linkLeaf_noalloc fuel d hl
  | node x cx l v r ihl ihr =>
    intro fuel p s hf hl hd
    obtain ⟨fuel, rfl⟩ : ∃ k, fuel = k + 1 := ⟨fuel - 1, by simp [Tree.height] at hf; omega⟩
    simp only [Tree.height] at hf
    have hx := hl.node_eq
    have hrd := readLink_eq hl
    simp only [Tree.ptr_node] at hrd
    by_cases h0 : s.compFunc d v = 0
    · simp [descend, h0] at hd
    · by_cases h1 : s.compFunc d v > 0
      · have := ihr fuel (.R x cx l v :: p) s (by omega) hl
          (by simpa only [descend, h0, h1, if_true, if_false] using hd)
        simp only [insertToNormalBst, hrd, load_eq hx, h0, h1, bind, Except.bind, pure,
          Except.pure, if_true, if_false]
        exact this
      · have := ihl fuel (.L x cx v r :: p) s (by omega) hl
          (by simpa only [descend, h0, h1, if_true, if_false] using hd)
        simp only [insertToNormalBst, hrd, load_eq hx, h0, h1, bind, Except.bind, pure,
          Except.pure, if_true, if_false]
        exact this

/-! ## More fuel never changes a result -/

theorem mono_of_step {β : Type} {run : Nat → Except Fault β}
    (h : ∀ n r, run n = .ok r → run (n + 1) = .ok r) :
    ∀ {n m : Nat} {r : β}, n ≤ m → run n = .ok r → run m = .ok r := by
  intro n m r hnm hr
  induction hnm with
  | refl => exact hr
  | step _ ih => exact h _ _ ih

theorem findXNormalBST_step : ∀ (fuel : Nat) (s : RBTree α) (p : Ptr) (d : Option α) (r : Ptr),
    findXNormalBST fuel s p d = .ok r → findXNormalBST (fuel + 1) s p d = .ok r := by
  intro fuel
  induction fuel with
  | zero => intro s p d r h; simp [findXNormalBST] at h
  | succ n ih =>
    intro s p d r h
    cases p with
    | none => simpa [findXNormalBST] using h
    | some a =>
      cases d with
      | none => simpa [findXNormalBST] using h
      | some d =>
        simp only [findXNormalBST, bind_ok] at h ⊢
        obtain ⟨nd, h1, h⟩ := h
        refine ⟨nd, h1, ?_⟩
        split_ifs at h ⊢
        · exact h
        · exact ih _ _ _ _ h
        · exact ih _ _ _ _ h

theorem findMin_step : ∀ (fuel : Nat) (s : RBTree α) (p r : Ptr),
    findMin fuel s p = .ok r → findMin (fuel + 1) s p = .ok r := by
  intro fuel
  induction fuel with
  | zero => intro s p r h; simp [findMin] at h
  | succ n ih =>
    intro s p r h
    simp only [findMin, bind_ok] at h ⊢
    obtain ⟨nd, h1, h⟩ := h
    refine ⟨nd, h1, ?_⟩
    cases hl : nd.left with
    | none => simpa [hl] using h
    | some b =>
      simp only [hl] at h ⊢
      exact ih _ _ _ h

theorem climb_step : ∀ (fuel : Nat) (s : RBTree α) (n p r : Ptr),
    climb fuel s n p = .ok r → climb (fuel + 1) s n p = .ok r := by
  intro fuel
  induction fuel with
  | zero => intro s n p r h; simp [climb] at h
  | succ k ih =>
    intro s n p r h
    cases p with
    | none => simpa [climb] using h
    | some a =>
      simp only [climb, bind_ok] at h ⊢
      obtain ⟨nd, h1, h⟩ := h
      refine ⟨nd, h1, ?_⟩
      split_ifs at h ⊢
      · exact ih _ _ _ _ h
      · exact h

theorem getSuccessor_step (fuel : Nat) (s : RBTree α) (n r : Ptr)
    (h : getSuccessor fuel s n = .ok r) : getSuccessor (fuel + 1) s n = .ok r := by
  simp only [getSuccessor, bind_ok] at h ⊢
  obtain ⟨nd, h1, h⟩ := h
  refine ⟨nd, h1, ?_⟩
  cases hr : nd.right with
  | none => simp only [hr] at h ⊢; exact climb_step _ _ _ _ _ h
  | some b => simp only [hr] at h ⊢; exact findMin_step _ _ _ _ h

theorem deleteNormalBST_step (fuel : Nat) (s : RBTree α) (n : Ptr) (r : Ptr × RBTree α)
    (h : deleteNormalBST fuel s n = .ok r) : deleteNormalBST (fuel + 1) s n = .ok r := by
  simp only [deleteNormalBST, bind_ok] at h ⊢
  obtain ⟨nd, h1, h⟩ := h
  refine ⟨nd, h1, ?_⟩
  split_ifs at h ⊢
  · simp only [bind_ok] at h ⊢
    obtain ⟨sc, h2, h⟩ := h
    exact ⟨sc, getSuccessor_step _ _ _ _ h2, h⟩
  · exact h

theorem insertToNormalBst_step : ∀ (fuel : Nat) (tree : Option (RBTree α)) (parent : Ptr)
    (node : Link) (d : α) (fresh : Ptr) (r : Ptr × Option (RBTree α)),
    insertToNormalBst fuel tree parent node d fresh = .ok r →
    insertToNormalBst (fuel + 1) tree parent node d fresh = .ok r := by
  intro fuel
  induction fuel with
  | zero => intro tree parent node d fresh r h; simp [insertToNormalBst] at h
  | succ n ih =>
    intro tree parent node d fresh r h
    cases tree with
    | none => simpa [insertToNormalBst] using h
    | some s =>
      simp only [insertToNormalBst, bind_ok] at h ⊢
      obtain ⟨cur, h1, h⟩ := h
      refine ⟨cur, h1, ?_⟩
      cases cur with
      | none => simpa using h
      | some c =>
        simp only [bind_ok] at h ⊢
        obtain ⟨nd, h2, h⟩ := h
        refine ⟨nd, h2, ?_⟩
        split_ifs at h ⊢
        · exact h
        · exact ih _ _ _ _ _ _ h
        · exact ih _ _ _ _ _ _ h

theorem fixInsertToRBTree_step : ∀ (fuel : Nat) (s : RBTree α) (n : Ptr) (r : RBTree α),
    fixInsertToRBTree fuel s n = .ok r → fixInsertToRBTree (fuel + 1) s n = .ok r := by
  intro fuel
  induction fuel with
  | zero => intro s n r h; simp [fixInsertToRBTree] at h
  | succ k ih =>
    intro s n r h
    rw [fixInsertToRBTree] at h ⊢
    simp only [bind_ok] at h ⊢
    obtain ⟨nn, h1, g, h2, u, h3, h⟩ := h
    refine ⟨nn, h1, g, h2, u, h3, ?_⟩
    cases hp : nn.parent with
    | none => simp only [hp] at h ⊢; exact h
    | some pa =>
      simp only [hp, bind_ok] at h ⊢
      obtain ⟨pn, h4, h⟩ := h
      refine ⟨pn, h4, ?_⟩
      by_cases hb : pn.color = .BLACK
      · simp only [hb, if_true] at h ⊢; exact h
      · simp only [hb, if_false, bind_ok] at h ⊢
        obtain ⟨b, h5, h⟩ := h
        refine ⟨b, h5, ?_⟩
        cases b with
        | false => simpa using h
        | true =>
          simp only [if_true, bind_ok] at h ⊢
          obtain ⟨s1, e1, s2, e2, s3, e3, h⟩ := h
          exact ⟨s1, e1, s2, e2, s3, e3, ih _ _ _ h⟩

theorem insertToRBTree_step (fuel : Nat) (tree : Option (RBTree α)) (d : Option α) (fresh : Ptr)
    (r : Bool × Option (RBTree α)) (h : insertToRBTree fuel tree d fresh = .ok r) :
    insertToRBTree (fuel + 1) tree d fresh = .ok r := by
  cases d with
  | none => simpa [insertToRBTree] using h
  | some d =>
    simp only [insertToRBTree, bind_ok] at h ⊢
    obtain ⟨⟨n, t⟩, h1, h⟩ := h
    refine ⟨(n, t), insertToNormalBst_step _ _ _ _ _ _ _ h1, ?_⟩
    cases n with
    | none => simpa using h
    | some a =>
      cases t with
      | none => simp at h
      | some t =>
        simp only [bind_ok] at h ⊢
        obtain ⟨s1, e1, h⟩ := h
        exact ⟨s1, fixInsertToRBTree_step _ _ _ _ e1, h⟩

theorem deleteLevel_step : ∀ (fuel : Nat),
    (∀ (s : RBTree α) (n p : Ptr) (r : RBTree α),
      deleteLevel1 fuel s n p = .ok r → deleteLevel1 (fuel + 1) s n p = .ok r) ∧
    (∀ (s : RBTree α) (n p : Ptr) (r : RBTree α),
      deleteLevel2 fuel s n p = .ok r → deleteLevel2 (fuel + 1) s n p = .ok r) ∧
    (∀ (s : RBTree α) (n p : Ptr) (r : RBTree α),
      deleteLevel3 fuel s n p = .ok r → deleteLevel3 (fuel + 1) s n p = .ok r) := by
  intro fuel
  induction fuel with
  | zero =>
    refine ⟨?_, ?_, ?_⟩ <;> intro s n p r h
    · simp [deleteLevel1] at h
    · simp [deleteLevel2] at h
    · simp [deleteLevel3] at h
  | succ k ih =>
    obtain ⟨ih1, ih2, ih3⟩ := ih
    refine ⟨?_, ?_, ?_⟩ <;> intro s n p r h
    · cases p with
      | none => simpa [deleteLevel1] using h
      | some a =>
        simp only [deleteLevel1] at h ⊢
        exact ih2 _ _ _ _ h
    · simp only [deleteLevel2, bind_ok] at h ⊢
      obtain ⟨sb, h1, b, h2, h⟩ := h
      refine ⟨sb, h1, b, h2, ?_⟩
      cases b with
      | false =>
        simp only [Bool.false_eq_true, if_false] at h ⊢
        exact ih3 _ _ _ _ h
      | true =>
        simp only [if_true, bind_ok] at h ⊢
        obtain ⟨s1, e1, s2, e2, pn, e3, s3, e4, h⟩ := h
        exact ⟨s1, e1, s2, e2, pn, e3, s3, e4, ih3 _ _ _ _ h⟩
    · simp only [deleteLevel3, bind_ok] at h ⊢
      obtain ⟨sb, h1, pn, h2, b, h3, h⟩ := h
      refine ⟨sb, h1, pn, h2, b, h3, ?_⟩
      cases b with
      | false => simpa using h
      | true =>
        simp only [if_true, bind_ok] at h ⊢
        obtain ⟨s1, e1, pn2, e2, h⟩ := h
        exact ⟨s1, e1, pn2, e2, ih1 _ _ _ _ h⟩

theorem deleteOneChild_step (fuel : Nat) (s : RBTree α) (n : Ptr) (r : RBTree α)
    (h : deleteOneChild fuel s n = .ok r) : deleteOneChild (fuel + 1) s n = .ok r := by
  simp only [deleteOneChild, bind_ok] at h ⊢
  obtain ⟨nn, h1, s1, h2, nn2, h3, s2, h4, h⟩ := h
  refine ⟨nn, h1, s1, h2, nn2, h3, s2, ?_, h⟩
  by_cases hb : nn2.color = .BLACK
  · simp only [hb, if_true, bind_ok] at h4 ⊢
    obtain ⟨b, e1, h4⟩ := h4
    refine ⟨b, e1, ?_⟩
    cases b with
    | true => simpa using h4
    | false =>
      simp only [Bool.false_eq_true, if_false] at h4 ⊢
      exact (deleteLevel_step fuel).1 _ _ _ _ h4
  · simp only [hb, if_false] at h4 ⊢; exact h4

theorem deleteFromRBTree_step (fuel : Nat) (tree : Option (RBTree α)) (d : Option α)
    (r : Bool × Option (RBTree α)) (h : deleteFromRBTree fuel tree d = .ok r) :
    deleteFromRBTree (fuel + 1) tree d = .ok r := by
  cases tree with
  | none => simpa [deleteFromRBTree] using h
  | some s =>
    simp only [deleteFromRBTree, bind_ok] at h ⊢
    obtain ⟨i, h1, h⟩ := h
    refine ⟨i, findXNormalBST_step _ _ _ _ _ h1, ?_⟩
    cases i with
    | none => simpa using h
    | some a =>
      simp only [bind_ok] at h ⊢
      obtain ⟨⟨nd, s1⟩, e1, s2, e2, h⟩ := h
      exact ⟨(nd, s1), deleteNormalBST_step _ _ _ _ e1, s2, deleteOneChild_step _ _ _ _ e2, h⟩

theorem insertToRBTree_mono {tree : Option (RBTree α)} {d : Option α} {fresh : Ptr}
    {r : Bool × Option (RBTree α)} {n m : Nat} (hnm : n ≤ m)
    (h : insertToRBTree n tree d fresh = .ok r) : insertToRBTree m tree d fresh = .ok r :=
  @mono_of_step _ (fun fuel => insertToRBTree fuel tree d fresh)
    (fun k r h => insertToRBTree_step k tree d fresh r h) n m r hnm h

theorem deleteFromRBTree_mono {tree : Option (RBTree α)} {d : Option α}
    {r : Bool × Option (RBTree α)} {n m : Nat} (hnm : n ≤ m)
    (h : deleteFromRBTree n tree d = .ok r) : deleteFromRBTree m tree d = .ok r :=
  @mono_of_step _ (fun fuel => deleteFromRBTree fuel tree d)
    (fun k r h => deleteFromRBTree_step k tree d r h) n m r hnm h

/-! ## Every call on a well-coloured tree returns a well-coloured tree -/

theorem insert_at {s : RBTree α} {t : Tree α} (d : Option α) (fresh : Ptr) (hm : Models s t)
    (hc : t.Coloured) (hfresh : ∀ a, fresh = some a → s.mem a = none) :
    ∃ b s' t', insertToRBTree (t.height + 1) (some s) d fresh = .ok (b, some s') ∧
      Models s' t' ∧ t'.Coloured ∧ s'.compFunc = s.compFunc := by
  cases d with
  | none => exact ⟨false, s, t, rfl, hm, hc, rfl⟩
  | some d =>
    cases hX : (descend s.compFunc d t []).2 with
    | node x c l v r =>
      have := insertToNormalBst_found d fresh t (t.height + 1) [] s (by omega) hm.linked
        (by rw [hX]; simp)
      simp only [pathPtr, pathLink] at this
      refine ⟨false, s, t, ?_, hm, hc, rfl⟩
      simp [insertToRBTree, this, bind, Except.bind, pure, Except.pure]
    | nil =>
      cases fresh with
      | none =>
        have := insertToNormalBst_noalloc d t (t.height + 1) [] s (by omega) hm.linked hX
        simp only [pathPtr, pathLink] at this
        refine ⟨false, s, t, ?_, hm, hc, rfl⟩
        simp [insertToRBTree, this, bind, Except.bind, pure, Except.pure]
      | some a =>
        obtain ⟨s', t', e1, e2, e3, e4, e5, -, -, e8, -⟩ :=
          @insert_core _ s t d a (t.height + 1) hm hc.rootBlack hc.noRedRed hc.balanced hX
            (hfresh a rfl) (by omega)
        exact ⟨true, s', t', e1, e2, ⟨e3, e4, e5⟩, e8⟩

theorem insert_result {s : RBTree α} {t : Tree α} {d : Option α} {fresh : Ptr} (hm : Models s t)
    (hc : t.Coloured) (hfresh : ∀ a, fresh = some a → s.mem a = none) {fuel : Nat}
    {r : Bool × Option (RBTree α)} (h : insertToRBTree fuel (some s) d fresh = .ok r) :
    ∃ s' t', r.2 = some s' ∧ Models s' t' ∧ t'.Coloured ∧ s'.compFunc = s.compFunc := by
  obtain ⟨b, s', t', e, h1, h2, h3⟩ := insert_at d fresh hm hc hfresh
  have e1 := insertToRBTree_mono (le_max_left fuel (t.height + 1)) h
  have e2 := insertToRBTree_mono (le_max_right fuel (t.height + 1)) e
  rw [e1] at e2
  cases e2
  exact ⟨s', t', rfl, h1, h2, h3⟩

theorem delete_at {s : RBTree α} {t : Tree α} (d : Option α) (hm : Models s t)
    (hc : t.Coloured) :
    ∃ b s' t', deleteFromRBTree (3 * t.height + 1) (some s) d = .ok (b, some s') ∧
      Models s' t' ∧ t'.Coloured ∧ s'.compFunc = s.compFunc := by
  cases d with
  | none =>
    refine ⟨false, s, t, ?_, hm, hc, rfl⟩
    cases hr : s.root <;>
      simp [deleteFromRBTree, findXNormalBST, hr, bind, Except.bind, pure, Except.pure]
  | some d =>
    cases hX : (descend s.compFunc d t []) with
    | mk p u =>
      cases u with
      | nil =>
        exact ⟨false, s, t, delete_absent hm.linked (by rw [hX]) (by omega), hm, hc, rfl⟩
      | node x c l v r =>
        obtain ⟨s', t', e1, e2, e3, e4, e5, -, -, e8, -⟩ :=
          delete_core hm hc.rootBlack hc.noRedRed hc.balanced hX
            (show 3 * t.height < 3 * t.height + 1 by omega)
        exact ⟨true, s', t', e1, e2, ⟨e3, e4, e5⟩, e8⟩

theorem delete_result {s : RBTree α} {t : Tree α} {d : Option α} (hm : Models s t)
    (hc : t.Coloured) {fuel : Nat} {r : Bool × Option (RBTree α)}
    (h : deleteFromRBTree fuel (some s) d = .ok r) :
    ∃ s' t', r.2 = some s' ∧ Models s' t' ∧ t'.Coloured ∧ s'.compFunc = s.compFunc := by
  obtain ⟨b, s', t', e, h1, h2, h3⟩ := delete_at d hm hc
  have e1 := deleteFromRBTree_mono (le_max_left fuel (3 * t.height + 1)) h
  have e2 := deleteFromRBTree_mono (le_max_right fuel (3 * t.height + 1)) e
  rw [e1] at e2
  cases e2
  exact ⟨s', t', rfl, h1, h2, h3⟩

theorem coloured_nil : (Tree.nil : Tree α).Coloured :=
  ⟨rfl, trivial, trivial⟩

/-- Every reachable state is a well-formed tree object with the three colour
invariants. -/
theorem reachable_inv {cmp : α → α → Int} {s : RBTree α} (h : Reachable cmp s) :
    ∃ t, Models s t ∧ t.Coloured ∧ s.compFunc = cmp := by
  induction h with
  | start => exact ⟨.nil, models_newRBTree cmp, coloured_nil, rfl⟩
  | insert _ hfresh hcall ih =>
    obtain ⟨t, hm, hc, hcmp⟩ := ih
    obtain ⟨s2, t2, e, h1, h2, h3⟩ := insert_result hm hc hfresh hcall
    cases e
    exact ⟨t2, h1, h2, h3.trans hcmp⟩
  | delete _ hcall ih =>
    obtain ⟨t, hm, hc, hcmp⟩ := ih
    obtain ⟨s2, t2, e, h1, h2, h3⟩ := delete_result hm hc hcall
    cases e
    exact ⟨t2, h1, h2, h3.trans hcmp⟩

/-! ## Height, reachable nodes and parent links of a linked memory -/

theorem height_le_bh : ∀ (t : Tree α), t.NoRedRed → t.Balanced →
    t.height ≤ 2 * t.bh + (if t.isBlack = true then 0 else 1) := by
  intro t
  induction t with
  | nil => intro _ _; simp [Tree.height]
  | node a c l v r ihl ihr =>
    intro hR hB
    obtain ⟨hc, hRl, hRr⟩ := hR
    obtain ⟨hbh, hBl, hBr⟩ := hB
    have h1 := ihl hRl hBl
    have h2 := ihr hRr hBr
    cases c with
    | BLACK =>
      simp only [Tree.height, Tree.bh, Tree.isBlack, if_true, decide_True]
      split_ifs at h1 h2 <;> omega
    | RED =>
      obtain ⟨hl, hr⟩ := hc rfl
      simp only [hl, hr, if_true] at h1 h2
      simp [Tree.height, Tree.bh, Tree.isBlack]
      omega

theorem pow_bh_le_count : ∀ (t : Tree α), t.Balanced → 2 ^ t.bh ≤ t.count + 1 := by
  intro t
  induction t with
  | nil => intro _; simp [Tree.bh, Tree.count]
  | node a c l v r ihl ihr =>
    intro hB
    obtain ⟨hbh, hBl, hBr⟩ := hB
    have h1 := ihl hBl
    have h2 := ihr hBr
    rw [← hbh] at h2
    have h3 : 2 ^ (Tree.node a c l v r).bh ≤ 2 ^ (l.bh + 1) :=
      Nat.pow_le_pow_right (by decide) (by simp only [Tree.bh]; split_ifs <;> omega)
    rw [pow_succ] at h3
    simp only [Tree.count]
    omega

theorem height_le_log {t : Tree α} (h : t.Coloured) :
    t.height ≤ 2 * Nat.log 2 (t.count + 1) := by
  have h1 := height_le_bh t h.noRedRed h.balanced
  simp only [h.rootBlack, if_true] at h1
  have h2 := Nat.le_log_of_pow_le (by decide) (pow_bh_le_count t h.balanced)
  omega

theorem pow_height_le {t : Tree α} (h : t.Coloured) : 2 ^ t.height ≤ (t.count + 1) ^ 2 := by
  have h1 := height_le_bh t h.noRedRed h.balanced
  simp only [h.rootBlack, if_true] at h1
  calc 2 ^ t.height ≤ 2 ^ (t.bh * 2) := Nat.pow_le_pow_right (by decide) (by omega)
    _ = (2 ^ t.bh) ^ 2 := by rw [pow_mul]
    _ ≤ (t.count + 1) ^ 2 := Nat.pow_le_pow_left (pow_bh_le_count t h.balanced) 2

theorem rep_unique {mem : Nat → Option (Node α)} : ∀ (t t' : Tree α) (par par' : Ptr),
    Rep mem par t → Rep mem par' t' → t.ptr = t'.ptr → t = t' := by
  intro t
  induction t with
  | nil =>
    intro t' par par' _ _ hp
    cases t' with
    | nil => rfl
    | node a c l v r => simp [Tree.ptr] at hp
  | node a c l v r ihl ihr =>
    intro t' par par' h h' hp
    cases t' with
    | nil => simp [Tree.ptr] at hp
    | node a' c' l' v' r' =>
      simp only [Tree.ptr, Option.some.injEq] at hp
      subst hp
      obtain ⟨e, hl, hr⟩ := h
      obtain ⟨e', hl', hr'⟩ := h'
      rw [e] at e'
      simp only [Option.some.injEq, Node.mk.injEq] at e'
      obtain ⟨rfl, -, el, er, rfl⟩ := e'
      rw [ihl l' _ _ hl hl' el, ihr r' _ _ hr hr' er]

/-- The links of a state spell out at most one tree. -/
theorem Linked.unique {s : RBTree α} {t t' : Tree α} (h : Linked s t) (h' : Linked s t') :
    t' = t :=
  (rep_unique t t' none none h.rep h'.rep (by rw [← h.root, ← h'.root])).symm

theorem ptr_eq_some {t : Tree α} {b : Nat} (h : t.ptr = some b) :
    ∃ c l v r, t = .node b c l v r := by
  cases t with
  | nil => simp [Tree.ptr] at h
  | node a c l v r =>
    simp only [Tree.ptr, Option.some.injEq] at h
    exact ⟨c, l, v, r, by rw [h]⟩

theorem reaches_of_plug {s : RBTree α} : ∀ (p : Path α) (a : Nat) (c : Color) (l : Tree α) (v : α)
    (r : Tree α), Linked s (plug p (.node a c l v r)) → Reaches s a := by
  intro p
  induction p with
  | nil =>
    intro a c l v r h
    exact .root (by rw [h.root]; rfl)
  | cons f p ih =>
    intro a c l v r h
    cases f with
    | L b k w tr =>
      have hb := ih b k (.node a c l v r) w tr h
      exact .left hb (@Linked.node_eq _ s p b k (.node a c l v r) tr w h) rfl
    | R b k tl w =>
      have hb := ih b k tl w (.node a c l v r) h
      exact .right hb (@Linked.node_eq _ s p b k tl (.node a c l v r) w h) rfl

/-- In a linked state the nodes reachable from the root are exactly the nodes
of the tree. -/
theorem reaches_iff {s : RBTree α} {t : Tree α} (h : Linked s t) (a : Nat) :
    Reaches s a ↔ a ∈ t.addrs := by
  constructor
  · intro hr
    induction hr with
    | root e =>
      rw [h.root] at e
      obtain ⟨c, l, v, r, rfl⟩ := ptr_eq_some e
      simp [Tree.addrs]
    | left _ hn hl ih =>
      obtain ⟨p, c, l, v, r, rfl⟩ := exists_plug_of_mem ih
      rw [h.node_eq] at hn
      cases hn
      obtain ⟨c', l', v', r', rfl⟩ := ptr_eq_some hl
      rw [mem_addrs_plug]
      right
      simp [Tree.addrs]
    | right _ hn hl ih =>
      obtain ⟨p, c, l, v, r, rfl⟩ := exists_plug_of_mem ih
      rw [h.node_eq] at hn
      cases hn
      obtain ⟨c', l', v', r', rfl⟩ := ptr_eq_some hl
      rw [mem_addrs_plug]
      right
      simp [Tree.addrs]
  · intro ha
    obtain ⟨p, c, l, v, r, rfl⟩ := exists_plug_of_mem ha
    exact reaches_of_plug p a c l v r h

/-- In a linked state the parent links are inverse to the child links. -/
theorem Linked.parentLinks {s : RBTree α} {t : Tree α} (h : Linked s t) : ParentLinks s := by
  refine ⟨?_, ?_, ?_, ?_⟩
  · intro a e
    rw [h.root] at e
    obtain ⟨c, l, v, r, rfl⟩ := ptr_eq_some e
    exact ⟨_, @Linked.node_eq _ s [] a c l r v h, rfl⟩
  · intro a n b hr hn hl
    obtain ⟨p, c, l, v, r, rfl⟩ := exists_plug_of_mem ((reaches_iff h a).1 hr)
    rw [h.node_eq] at hn
    cases hn
    obtain ⟨c', l', v', r', rfl⟩ := ptr_eq_some hl
    exact ⟨_, @Linked.node_eq _ s (.L a c v r :: p) b c' l' r' v' h, rfl⟩
  · intro a n b hr hn hl
    obtain ⟨p, c, l, v, r, rfl⟩ := exists_plug_of_mem ((reaches_iff h a).1 hr)
    rw [h.node_eq] at hn
    cases hn
    obtain ⟨c', l', v', r', rfl⟩ := ptr_eq_some hl
    exact ⟨_, @Linked.node_eq _ s (.R a c l v :: p) b c' l' r' v' h, rfl⟩
  · intro a n q hr hn hq
    obtain ⟨p, c, l, v, r, rfl⟩ := exists_plug_of_mem ((reaches_iff h a).1 hr)
    rw [h.node_eq] at hn
    cases hn
    cases p with
    | nil => simp [pathPtr] at hq
    | cons f p =>
      simp only [pathPtr, Option.some.injEq] at hq
      subst hq
      cases f with
      | L b k w tr =>
        exact ⟨reaches_of_plug p b k _ w tr h,
          _, @Linked.node_eq _ s p b k (.node a c l v r) tr w h, Or.inl rfl⟩
      | R b k tl w =>
        exact ⟨reaches_of_plug p b k tl w _ h,
          _, @Linked.node_eq _ s p b k tl (.node a c l v r) w h, Or.inr rfl⟩

/-! ## Release -/

/-- Releasing a node without children and clearing the link that held it. -/
theorem unlinkLeaf_spec {s : RBTree α} {p : Path α} {a : Nat} {c : Color} {v : α}
    (h : Linked s (plug p (.node a c .nil v .nil))) :
    ∃ s', writeLink (freeNode { s with freed := s.freed ++ [v] } (some a)) (pathLink p) none
        = .ok s' ∧
      Linked s' (plug p .nil) ∧ s'.freed = s.freed ++ [v] ∧ s'.size = s.size ∧
      s'.compFunc = s.compFunc ∧ s'.mem a = none ∧ ∀ b, s.mem b = none → s'.mem b = none := by
  obtain ⟨hn1, -, hn3⟩ := nodup_plug_iff.1 h.nodup
  have hap : a ∉ pathAddrs p := fun hm => hn3 a hm (by simp [Tree.addrs])
  have hrep := (rep_plug.1 h.rep).1
  have hnd : (plug p (.nil : Tree α)).addrs.Nodup :=
    nodup_plug_iff.2 ⟨hn1, by simp [Tree.addrs], fun b _ hb => by simp [Tree.addrs] at hb⟩
  cases p with
  | nil =>
    refine ⟨_, rfl, ⟨rfl, trivial, hnd⟩, rfl, rfl, rfl, ?_, ?_⟩
    · simp [freeNode]
    · intro b hb
      by_cases e : b = a <;> simp [freeNode, Function.update_apply, e, hb]
  | cons f p =>
    cases f with
    | L fa fc fv fr =>
      have hf := Linked.node_eq (p := p) h
      obtain ⟨hf1, hf2, -, -, -⟩ := nodup_pathAddrs_cons.1 hn1
      simp only [pathAddrs, List.mem_cons, List.mem_append, not_or, Step.addr_L, Step.sib_L]
        at hap hf1 hf2
      have hfa : fa ≠ a := fun e => hap.1 e.symm
      simp only [writeLink, pathLink, Step.link, setLeft, freeNode, Function.update_apply, hfa,
        if_false, hf]
      refine ⟨_, rfl, ⟨?_, ?_, hnd⟩, rfl, rfl, rfl, ?_, ?_⟩
      · simp only [store_root]; rw [h.root]; exact plug_ptr_congr _ (fun e => by simp at e)
      · refine rep_plug.2 ?_
        simp only [Rep, RepPath, store_mem, Tree.ptr_nil, Tree.ptr_node, pathPtr_cons,
          Step.addr_L] at hrep ⊢
        simp [Function.update_apply, Rep.rep_update, RepPath.path_update, hfa, hap, hf1, hf2, hrep]
      · simp [store, Function.update_apply, hfa.symm]
      · intro b hb
        have hbf : b ≠ fa := fun e => by rw [e, hf] at hb; simp at hb
        by_cases e : b = a <;> simp [store, Function.update_apply, e, hb, hbf, hfa.symm]
    | R fa fc fl fv =>
      have hf := Linked.node_eq (p := p) h
      obtain ⟨hf1, hf2, -, -, -⟩ := nodup_pathAddrs_cons.1 hn1
      simp only [pathAddrs, List.mem_cons, List.mem_append, not_or, Step.addr_R, Step.sib_R]
        at hap hf1 hf2
      have hfa : fa ≠ a := fun e => hap.1 e.symm
      simp only [writeLink, pathLink, Step.link, setRight, freeNode, Function.update_apply, hfa,
        if_false, hf]
      refine ⟨_, rfl, ⟨?_, ?_, hnd⟩, rfl, rfl, rfl, ?_, ?_⟩
      · simp only [store_root]; rw [h.root]; exact plug_ptr_congr _ (fun e => by simp at e)
      · refine rep_plug.2 ?_
        simp only [Rep, RepPath, store_mem, Tree.ptr_nil, Tree.ptr_node, pathPtr_cons,
          Step.addr_R] at hrep ⊢
        simp [Function.update_apply, Rep.rep_update, RepPath.path_update, hfa, hap, hf1, hf2, hrep]
      · simp [store, Function.update_apply, hfa.symm]
      · intro b hb
        have hbf : b ≠ fa := fun e => by rw [e, hf] at hb; simp at hb
        by_cases e : b = a <;> simp [store, Function.update_apply, e, hb, hbf, hfa.symm]

theorem postorder_perm (t : Tree α) : t.postorder.Perm t.inorder := by
  induction t with
  | nil => exact List.Perm.refl _
  | node a c l v r ihl ihr =>
    simp only [Tree.postorder, Tree.inorder, List.append_assoc]
    exact (ihl.append (ihr.append_right [v])).trans
      (List.Perm.append_left _ (List.perm_append_singleton v _))

theorem length_postorder (t : Tree α) : t.postorder.length = t.count := by
  rw [(postorder_perm t).length_eq, length_inorder]

/-- `freeNodes` on the link that holds a subtree hands every value of the
subtree to the destructor, left subtree first, then the right one, then the
node, releases every node and clears the link. -/
theorem freeNodes_spec : ∀ (t : Tree α) (p : Path α) (s : RBTree α) (fuel : Nat),
    Linked s (plug p t) → t.height < fuel →
    ∃ s', freeNodes fuel s (pathLink p) = .ok s' ∧ Linked s' (plug p .nil) ∧
      s'.freed = s.freed ++ t.postorder ∧ s'.size = s.size ∧ s'.compFunc = s.compFunc ∧
      (∀ b ∈ t.addrs, s'.mem b = none) ∧ ∀ b, s.mem b = none → s'.mem b = none := by
  intro t
  induction t with
  | nil =>
    intro p s fuel h hf
    obtain ⟨fuel, rfl⟩ : ∃ k, fuel = k + 1 := ⟨fuel - 1, by omega⟩
    have hrd := readLink_eq h
    refine ⟨s, ?_, h, by simp [Tree.postorder], rfl, rfl, fun b hb => ?_, fun _ hb => hb⟩
    · simp [freeNodes, hrd, bind, Except.bind, pure, Except.pure]
    · simp [Tree.addrs] at hb
  | node a c l v r ihl ihr =>
    intro p s fuel h hf
    obtain ⟨fuel, rfl⟩ : ∃ k, fuel = k + 1 := ⟨fuel - 1, by omega⟩
    simp only [Tree.height] at hf
    have hrd := readLink_eq h
    obtain ⟨s1, e1, h1, f1, z1, c1, m1, k1⟩ := ihl (.L a c v r :: p) s fuel h (by omega)
    simp only [plug_cons, Step.fill] at h1
    have hrd1 := readLink_eq h1
    obtain ⟨s2, e2, h2, f2, z2, c2, m2, k2⟩ := ihr (.R a c .nil v :: p) s1 fuel h1 (by omega)
    simp only [plug_cons, Step.fill] at h2
    have hrd2 := readLink_eq h2
    have hx := h2.node_eq
    obtain ⟨s3, e3, h3, f3, z3, c3, m3, k3⟩ := unlinkLeaf_spec h2
    refine ⟨s3, ?_, h3, ?_, by rw [z3, z2, z1], by rw [c3, c2, c1], ?_, ?_⟩
    · simp only [pathLink, Step.link] at e1 e2
      simp only [Tree.ptr_node] at hrd hrd1 hrd2
      simp only [freeNodes, hrd, hrd1, hrd2, e1, e2, load_eq hx, bind, Except.bind]
      exact e3
    · rw [f3, f2, f1]; simp [Tree.postorder]
    · intro b hb
      simp only [Tree.addrs, List.mem_cons, List.mem_append] at hb
      rcases hb with rfl | hb | hb
      · exact m3
      · exact k3 b (k2 b (m1 b hb))
      · exact k3 b (m2 b hb)
    · intro b hb
      exact k3 b (k2 b (k1 b hb))

/-- `freeRBTree` on a tree object. -/
theorem freeRBTree_spec {s : RBTree α} {t : Tree α} (h : Linked s t) {fuel : Nat}
    (hf : t.height < fuel) :
    ∃ s', freeRBTree fuel (some s) = .ok (none, some s') ∧
      s'.freed = s.freed ++ t.postorder ∧ (∀ b ∈ t.addrs, s'.mem b = none) ∧
      (∀ b, s.mem b = none → s'.mem b = none) := by
  cases t with
  | nil =>
    refine ⟨s, ?_, by simp [Tree.postorder], fun b hb => by simp [Tree.addrs] at hb,
      fun _ hb => hb⟩
    have := h.root
    simp only [Tree.ptr_nil] at this
    simp [freeRBTree, this, pure, Except.pure]
  | node a c l v r =>
    obtain ⟨s', e, -, f, -, -, m, k⟩ := freeNodes_spec (.node a c l v r) [] s fuel h hf
    refine ⟨s', ?_, f, m, k⟩
    have := h.root
    simp only [Tree.ptr_node] at this
    simp only [pathLink] at e
    simp [freeRBTree, this, e, bind, Except.bind, pure, Except.pure]

/-! ## Vectors: comparison and the maximum-norm query -/

theorem wrapInt_eq {x : Int} (h1 : -(2 ^ 31) ≤ x) (h2 : x < 2 ^ 31) : wrapInt x = x := by
  unfold wrapInt
  have : (x + 2 ^ 31) % 2 ^ 32 = x + 2 ^ 31 := Int.emod_eq_of_lt (by omega) (by omega)
  omega

theorem readCoord_coords {K : Type} {v : Vector K} {i : Nat} {x : K}
    (h : v.coords[i]? = some x) : readCoord v.vector i = .ok x := by
  unfold Vector.coords at h
  cases hv : v.vector with
  | none => simp [hv] at h
  | some xs =>
    simp only [hv, Option.getD_some] at h
    simp [readCoord, h]

theorem take_getElem? {K : Type} {xs ys : List K} {k j : Nat} (h : xs.take k = ys.take k)
    (hj : j < k) : xs[j]? = ys[j]? := by
  rw [← List.getElem?_take_of_lt hj, h, List.getElem?_take_of_lt hj]

theorem compareLoop_spec {K : Type} [LinearOrder K] (a b : Vector K) :
    ∀ (n i : Nat), i + n ≤ a.coords.length → i + n ≤ b.coords.length →
      a.coords.take i = b.coords.take i →
      (compareLoop a b n i = .ok none ∧ a.coords.take (i + n) = b.coords.take (i + n)) ∨
      ∃ j x y, a.coords[j]? = some x ∧ b.coords[j]? = some y ∧
        a.coords.take j = b.coords.take j ∧
        ((x < y ∧ compareLoop a b n i = .ok (some (-1))) ∨
          (y < x ∧ compareLoop a b n i = .ok (some 1))) := by
  intro n
  induction n with
  | zero => intro i _ _ h; exact Or.inl ⟨rfl, h⟩
  | succ n ih =>
    intro i h1 h2 h
    have hx : a.coords[i]? = some (a.coords[i]) := List.getElem?_eq_getElem (by omega)
    have hy : b.coords[i]? = some (b.coords[i]) := List.getElem?_eq_getElem (by omega)
    have rx := readCoord_coords hx
    have ry := readCoord_coords hy
    rcases lt_trichotomy (a.coords[i]) (b.coords[i]) with hlt | heq | hgt
    · refine Or.inr ⟨i, _, _, hx, hy, h, Or.inl ⟨hlt, ?_⟩⟩
      simp [compareLoop, rx, ry, hlt, bind, Except.bind, pure, Except.pure]
    · have h' : a.coords.take (i + 1) = b.coords.take (i + 1) := by
        rw [List.take_succ, List.take_succ, h, hx, hy, heq]
      have e : compareLoop a b (n + 1) i = compareLoop a b n (i + 1) := by
        simp [compareLoop, rx, ry, heq, bind, Except.bind, pure, Except.pure]
      rw [e]
      have := ih (i + 1) (by omega) (by omega) h'
      rwa [show i + 1 + n = i + (n + 1) by omega] at this
    · refine Or.inr ⟨i, _, _, hx, hy, h, Or.inr ⟨hgt, ?_⟩⟩
      simp [compareLoop, rx, ry, hgt, not_lt_of_gt hgt, bind, Except.bind, pure, Except.pure]

theorem vectorCompare1By1_core {K : Type} [LinearOrder K] (a b : Vector K)
    (ha : (a.coords.length : Int) = a.len) (hb : (b.coords.length : Int) = b.len)
    (h1 : a.len - b.len < 2 ^ 31) (h2 : b.len - a.len < 2 ^ 31) :
    ∃ r, vectorCompare1By1 a b = .ok r ∧
      ((r < 0 ∧ LexLess a.coords b.coords) ∨ (r = 0 ∧ a.coords = b.coords) ∨
        (0 < r ∧ LexLess b.coords a.coords)) := by
  have hw : wrapInt (a.len - b.len) = a.len - b.len := wrapInt_eq (by omega) h1
  have hr : (if a.len < b.len then a.len else b.len).toNat
      = min a.coords.length b.coords.length := by
    split_ifs <;> omega
  have hl := compareLoop_spec a b (min a.coords.length b.coords.length) 0 (by omega) (by omega)
    (by simp)
  rcases hl with ⟨e, ht⟩ | ⟨j, x, y, hx, hy, ht, ⟨hlt, e⟩ | ⟨hgt, e⟩⟩
  · refine ⟨a.len - b.len, ?_, ?_⟩
    · simp [vectorCompare1By1, hr, e, hw, bind, Except.bind, pure, Except.pure]
    · simp only [Nat.zero_add] at ht
      rcases lt_trichotomy a.coords.length b.coords.length with hlt | heq | hgt
      · refine Or.inl ⟨by omega, Or.inr ⟨hlt, ?_⟩⟩
        rw [min_eq_left hlt.le, List.take_length] at ht
        exact ht.symm
      · refine Or.inr (Or.inl ⟨by omega, ?_⟩)
        rw [heq, min_self] at ht
        rw [← heq, List.take_length] at ht
        rw [ht, heq, List.take_length]
      · refine Or.inr (Or.inr ⟨by omega, Or.inr ⟨hgt, ?_⟩⟩)
        rw [min_eq_right hgt.le, List.take_length] at ht
        exact ht
  · refine ⟨-1, ?_, Or.inl ⟨by decide, Or.inl ⟨j, x, y, hx, hy, ht, hlt⟩⟩⟩
    simp [vectorCompare1By1, hr, e, bind, Except.bind, pure, Except.pure]
  · refine ⟨1, ?_, Or.inr (Or.inr ⟨by decide, Or.inl ⟨j, y, x, hy, hx, ht.symm, hgt⟩⟩)⟩
    simp [vectorCompare1By1, hr, e, bind, Except.bind, pure, Except.pure]

theorem LexLess.exclusive {K : Type} [Preorder K] {xs ys : List K} (h : LexLess xs ys) :
    ¬ LexLess ys xs ∧ xs ≠ ys := by
  have key : ∀ {us vs : List K} {i : Nat} {x y : K}, us[i]? = some x → vs[i]? = some y →
      x < y → ∀ k, i < k → us.take k = vs.take k → False := by
    intro us vs i x y hx hy hlt k hk ht
    have := take_getElem? ht hk
    rw [hx, hy] at this
    cases this
    exact lt_irrefl _ hlt
  constructor
  · intro h'
    rcases h with ⟨i, x, y, hx, hy, ht, hlt⟩ | ⟨hlen, ht⟩ <;>
      rcases h' with ⟨i', y', x', hy', hx', ht', hlt'⟩ | ⟨hlen', ht'⟩
    · rcases lt_trichotomy i i' with hi | hi | hi
      · exact key hx hy hlt i' hi ht'.symm
      · subst hi
        rw [hx] at hx'; rw [hy] at hy'
        cases hx'; cases hy'
        exact lt_asymm hlt hlt'
      · exact key hy' hx' hlt' i hi ht.symm
    · have hi : i < ys.length := (List.getElem?_eq_some.1 hy).1
      have := List.getElem?_take_of_lt (l := xs) hi
      rw [ht', hy, hx] at this
      cases this
      exact lt_irrefl _ hlt
    · have hi : i' < xs.length := (List.getElem?_eq_some.1 hx').1
      have := List.getElem?_take_of_lt (l := ys) hi
      rw [ht, hx', hy'] at this
      cases this
      exact lt_irrefl _ hlt'
    · omega
  · rintro rfl
    rcases h with ⟨i, x, y, hx, hy, -, hlt⟩ | ⟨hlen, -⟩
    · rw [hx] at hy; cases hy; exact lt_irrefl _ hlt
    · omega

/-- The result of `vectorCompare1By1` and of the call with the arguments
swapped: the sign says which vector is lexicographically less. -/
theorem vectorCompare1By1_signs {K : Type} [LinearOrder K] (a b : Vector K)
    (ha : (a.coords.length : Int) = a.len) (hb : (b.coords.length : Int) = b.len)
    (h1 : a.len - b.len < 2 ^ 31) (h2 : b.len - a.len < 2 ^ 31) :
    ∃ r r', vectorCompare1By1 a b = .ok r ∧ vectorCompare1By1 b a = .ok r' ∧
      (r < 0 ↔ LexLess a.coords b.coords) ∧ (r = 0 ↔ a.coords = b.coords) ∧
      (0 < r ↔ LexLess b.coords a.coords) ∧ r.sign = -r'.sign := by
  obtain ⟨r, e, hr⟩ := vectorCompare1By1_core a b ha hb h1 h2
  obtain ⟨r', e', hr'⟩ := vectorCompare1By1_core b a hb ha h2 h1
  refine ⟨r, r', e, e', ?_⟩
  rcases hr with ⟨h, hl⟩ | ⟨h, hl⟩ | ⟨h, hl⟩
  · have hx := hl.exclusive
    refine ⟨⟨fun _ => hl, fun _ => h⟩, ⟨fun h0 => by omega, fun he => absurd he hx.2⟩,
      ⟨fun h0 => by omega, fun hl' => absurd hl' hx.1⟩, ?_⟩
    rcases hr' with ⟨h', hl'⟩ | ⟨h', hl'⟩ | ⟨h', hl'⟩
    · exact absurd hl' hx.1
    · exact absurd hl'.symm hx.2
    · rw [Int.sign_eq_neg_one_of_neg h, Int.sign_eq_one_of_pos h']
  · refine ⟨⟨fun h0 => by omega, fun hl' => absurd hl hl'.exclusive.2⟩, ⟨fun _ => hl, fun _ => h⟩,
      ⟨fun h0 => by omega, fun hl' => absurd hl.symm hl'.exclusive.2⟩, ?_⟩
    rcases hr' with ⟨h', hl'⟩ | ⟨h', hl'⟩ | ⟨h', hl'⟩
    · exact absurd hl.symm hl'.exclusive.2
    · rw [h, h']; rfl
    · exact absurd hl hl'.exclusive.2
  · have hx := hl.exclusive
    refine ⟨⟨fun h0 => by omega, fun hl' => absurd hl' hx.1⟩,
      ⟨fun h0 => by omega, fun he => absurd he.symm hx.2⟩, ⟨fun _ => hl, fun _ => h⟩, ?_⟩
    rcases hr' with ⟨h', hl'⟩ | ⟨h', hl'⟩ | ⟨h', hl'⟩
    · rw [Int.sign_eq_one_of_pos h, Int.sign_eq_neg_one_of_neg h']; rfl
    · exact absurd hl' hx.2
    · exact absurd hl' hx.1

/-! ### The maximum-norm query -/

theorem Vector.Sound.length {K : Type} {v : Vector K} (h : v.Sound) :
    (v.coords.length : Int) = v.len := by
  obtain ⟨xs, e, hl, -⟩ := h
  simp [Vector.coords, e, hl]

theorem bitLengthAux_le : ∀ (fuel n k : Nat), n < 2 ^ k → bitLengthAux fuel n ≤ k := by
  intro fuel
  induction fuel with
  | zero => intro n k _; simp [bitLengthAux]
  | succ f ih =>
    intro n k h
    simp only [bitLengthAux]
    split_ifs with h0
    · exact Nat.zero_le _
    · obtain ⟨j, rfl⟩ : ∃ j, k = j + 1 := by
        cases k with
        | zero => simp at h; exact absurd h h0
        | succ j => exact ⟨j, rfl⟩
      have := ih (n / 2) j (by rw [Nat.pow_succ] at h; omega)
      omega

/-- An integer below `2^53` is a number of the format: rounding returns it. -/
theorem Double.round_small (neg : Bool) {n : Nat} (h : n < 2 ^ 53) :
    Double.round neg n 0 = .finite neg n 0 := by
  have hb : bitLength n ≤ 53 := bitLengthAux_le n n 53 h
  by_cases h0 : n = 0
  · simp [Double.round, h0]
  · have hq : max ((0 : Int) + (bitLength n : Int) - 53) (-1074) ≤ 0 :=
      max_le (by omega) (by norm_num)
    simp only [Double.round, if_neg h0, if_pos hq]
    rw [if_neg (by omega)]

/-- The squared norm of a vector of integers is computed in exact arithmetic
as long as it stays below `2^53`. -/
theorem exactSteps_of_integers : ∀ (ms : List (Bool × Nat)) (a : Nat),
    a + (ms.map (fun p => p.2 * p.2)).sum < 2 ^ 53 →
    ExactSteps (.finite false a 0) (ms.map (fun p => Double.finite p.1 p.2 0)) := by
  intro ms
  induction ms with
  | nil => intro a _; trivial
  | cons p ms ih =>
    intro a h
    obtain ⟨s, m⟩ := p
    simp only [List.map_cons, List.sum_cons] at h ⊢
    have hmul : Double.mul (.finite s m 0) (.finite s m 0) = .finite false (m * m) 0 := by
      have : (s != s) = false := by cases s <;> rfl
      simp only [Double.mul, this, add_zero]
      exact Double.round_small false (by omega)
    have hadd : Double.add (.finite false a 0) (.finite false (m * m) 0)
        = .finite false (a + m * m) 0 := by
      simp only [Double.add, min_self, sub_self, Int.toNat_zero, pow_zero, mul_one,
        Double.signed, Bool.false_eq_true, if_false, Bool.and_self]
      split_ifs with hc
      · have : a + m * m = 0 := by omega
        rw [this]
      · have h1 : decide ((a : Int) + ((m * m : Nat) : Int) < 0) = false := by
          simp only [decide_eq_false_iff_not]; omega
        have h2 : ((a : Int) + ((m * m : Nat) : Int)).natAbs = a + m * m := by omega
        rw [h1, h2]
        exact Double.round_small false (by omega)
    simp only [ExactSteps, hmul, hadd]
    refine ⟨trivial, ?_, trivial, ?_, ih (a + m * m) (by omega)⟩
    · cases s <;> simp [Double.val, Double.signed]
    · simp [Double.val, Double.signed]

/-! ## The deletion fix-up with a log: same results, and what the log holds -/

theorem pure_ok {β : Type} (a b : β) : (pure a : Except Fault β) = .ok b ↔ a = b := by
  simp [pure, Except.pure]

theorem deleteLevel5Traced_erase (s : RBTree α) (n p : Ptr) (r : RBTree α) :
    deleteLevel5 s n p = .ok r ↔ ∃ log, deleteLevel5Traced s n p = .ok (r, log) := by
  simp only [deleteLevel5, deleteLevel5Traced, bind_ok, pure_ok, Prod.mk.injEq]
  constructor
  · rintro ⟨sb, h1, t, h2, h3⟩
    exact ⟨_, sb, h1, t, h2, r, h3, rfl, rfl⟩
  · rintro ⟨log, sb, h1, t, h2, out, h3, rfl, -⟩
    exact ⟨sb, h1, t, h2, h3⟩

theorem deleteLevel4Traced_erase (s : RBTree α) (n p : Ptr) (r : RBTree α) :
    deleteLevel4 s n p = .ok r ↔ ∃ log, deleteLevel4Traced s n p = .ok (r, log) := by
  simp only [deleteLevel4, deleteLevel4Traced, bind_ok]
  constructor
  · rintro ⟨sb, h1, pn, h2, b, h3, h⟩
    cases b with
    | true =>
      simp only [if_true, bind_ok, pure_ok, Prod.mk.injEq] at h ⊢
      obtain ⟨t, h4, h5⟩ := h
      exact ⟨[], sb, h1, pn, h2, true, h3, by
        simp only [if_true, bind_ok, pure_ok, Prod.mk.injEq]
        exact ⟨t, h4, r, h5, rfl, trivial⟩⟩
    | false =>
      simp only [Bool.false_eq_true, if_false] at h
      obtain ⟨log, hl⟩ := (deleteLevel5Traced_erase s n p r).1 h
      exact ⟨log, sb, h1, pn, h2, false, h3, by simpa using hl⟩
  · rintro ⟨log, sb, h1, pn, h2, b, h3, h⟩
    refine ⟨sb, h1, pn, h2, b, h3, ?_⟩
    cases b with
    | true =>
      simp only [if_true, bind_ok, pure_ok, Prod.mk.injEq] at h ⊢
      obtain ⟨t, h4, out, h5, rfl, -⟩ := h
      exact ⟨t, h4, h5⟩
    | false =>
      simp only [Bool.false_eq_true, if_false] at h ⊢
      exact (deleteLevel5Traced_erase s n p r).2 ⟨log, h⟩

theorem deleteLevelTraced_erase : ∀ (fuel : Nat),
    (∀ (s : RBTree α) (n p : Ptr) (r : RBTree α),
      deleteLevel1 fuel s n p = .ok r ↔ ∃ log, deleteLevel1Traced fuel s n p = .ok (r, log)) ∧
    (∀ (s : RBTree α) (n p : Ptr) (r : RBTree α),
      deleteLevel2 fuel s n p = .ok r ↔ ∃ log, deleteLevel2Traced fuel s n p = .ok (r, log)) ∧
    (∀ (s : RBTree α) (n p : Ptr) (r : RBTree α),
      deleteLevel3 fuel s n p = .ok r ↔ ∃ log, deleteLevel3Traced fuel s n p = .ok (r, log)) := by
  intro fuel
  induction fuel with
  | zero =>
    refine ⟨?_, ?_, ?_⟩ <;> intro s n p r
    · simp [deleteLevel1, deleteLevel1Traced]
    · simp [deleteLevel2, deleteLevel2Traced]
    · simp [deleteLevel3, deleteLevel3Traced]
  | succ k ih =>
    obtain ⟨ih1, ih2, ih3⟩ := ih
    refine ⟨?_, ?_, ?_⟩ <;> intro s n p r
    · cases p with
      | none => simp [deleteLevel1, deleteLevel1Traced, pure_ok]
      | some a =>
        simp only [deleteLevel1, deleteLevel1Traced]
        exact ih2 _ _ _ _
    · simp only [deleteLevel2, deleteLevel2Traced, bind_ok]
      constructor
      · rintro ⟨sb, h1, b, h2, h⟩
        cases b with
        | false =>
          simp only [Bool.false_eq_true, if_false] at h
          obtain ⟨log, hl⟩ := (ih3 _ _ _ _).1 h
          exact ⟨log, sb, h1, false, h2, by simpa using hl⟩
        | true =>
          simp only [if_true, bind_ok] at h
          obtain ⟨s1, e1, s2, e2, pn, e3, s3, e4, h⟩ := h
          obtain ⟨log, hl⟩ := (ih3 _ _ _ _).1 h
          exact ⟨log, sb, h1, true, h2, by
            simp only [if_true, bind_ok]
            exact ⟨s1, e1, s2, e2, pn, e3, s3, e4, hl⟩⟩
      · rintro ⟨log, sb, h1, b, h2, h⟩
        refine ⟨sb, h1, b, h2, ?_⟩
        cases b with
        | false =>
          simp only [Bool.false_eq_true, if_false] at h ⊢
          exact (ih3 _ _ _ _).2 ⟨log, h⟩
        | true =>
          simp only [if_true, bind_ok] at h ⊢
          obtain ⟨s1, e1, s2, e2, pn, e3, s3, e4, h⟩ := h
          exact ⟨s1, e1, s2, e2, pn, e3, s3, e4, (ih3 _ _ _ _).2 ⟨log, h⟩⟩
    · simp only [deleteLevel3, deleteLevel3Traced, bind_ok]
      constructor
      · rintro ⟨sb, h1, pn, h2, b, h3, h⟩
        cases b with
        | false =>
          simp only [Bool.false_eq_true, if_false] at h
          obtain ⟨log, hl⟩ := (deleteLevel4Traced_erase _ _ _ _).1 h
          exact ⟨_, sb, h1, pn, h2, false, h3, by
            simp only [Bool.false_eq_true, if_false, bind_ok, pure_ok]
            exact ⟨_, hl, rfl⟩⟩
        | true =>
          simp only [if_true, bind_ok] at h
          obtain ⟨s1, e1, pn2, e2, h⟩ := h
          obtain ⟨log, hl⟩ := (ih1 _ _ _ _).1 h
          exact ⟨_, sb, h1, pn, h2, true, h3, by
            simp only [if_true, bind_ok, pure_ok]
            exact ⟨s1, e1, pn2, e2, _, hl, rfl⟩⟩
      · rintro ⟨log, sb, h1, pn, h2, b, h3, h⟩
        refine ⟨sb, h1, pn, h2, b, h3, ?_⟩
        cases b with
        | false =>
          simp only [Bool.false_eq_true, if_false, bind_ok, pure_ok, Prod.mk.injEq] at h ⊢
          obtain ⟨⟨out, l⟩, hl, rfl, -⟩ := h
          exact (deleteLevel4Traced_erase _ _ _ _).2 ⟨l, hl⟩
        | true =>
          simp only [if_true, bind_ok, pure_ok, Prod.mk.injEq] at h ⊢
          obtain ⟨s1, e1, pn2, e2, ⟨out, l⟩, hl, rfl, -⟩ := h
          exact ⟨s1, e1, pn2, e2, (ih1 _ _ _ _).2 ⟨l, hl⟩⟩

theorem deleteOneChildTraced_erase (fuel : Nat) (s : RBTree α) (n : Ptr) (r : RBTree α) :
    deleteOneChild fuel s n = .ok r ↔ ∃ log, deleteOneChildTraced fuel s n = .ok (r, log) := by
  simp only [deleteOneChild, deleteOneChildTraced, bind_ok]
  constructor
  · rintro ⟨nn, h1, s1, h2, nn2, h3, s2, h4, h⟩
    by_cases hb : nn2.color = .BLACK
    · simp only [hb, if_true, bind_ok] at h4
      obtain ⟨b, e1, h4⟩ := h4
      cases b with
      | true =>
        simp only [if_true] at h4
        refine ⟨[], nn, h1, s1, h2, nn2, h3, (s2, []), ?_, ?_⟩
        · simp only [hb, if_true, bind_ok]
          exact ⟨true, e1, by simp only [if_true, bind_ok, pure_ok]; exact ⟨s2, h4, rfl⟩⟩
        · obtain ⟨nn3, h5, h6⟩ := h
          refine ⟨nn3, h5, ?_⟩
          simp only [pure_ok, Prod.mk.injEq] at h6 ⊢
          exact ⟨h6, trivial⟩
      | false =>
        simp only [Bool.false_eq_true, if_false] at h4
        obtain ⟨log, hl⟩ := ((deleteLevelTraced_erase fuel).1 _ _ _ _).1 h4
        refine ⟨log, nn, h1, s1, h2, nn2, h3, (s2, log), ?_, ?_⟩
        · simp only [hb, if_true, bind_ok]
          exact ⟨false, e1, by simpa using hl⟩
        · obtain ⟨nn3, h5, h6⟩ := h
          refine ⟨nn3, h5, ?_⟩
          simp only [pure_ok, Prod.mk.injEq] at h6 ⊢
          exact ⟨h6, trivial⟩
    · simp only [hb, if_false, pure_ok] at h4
      refine ⟨[], nn, h1, s1, h2, nn2, h3, (s2, []), ?_, ?_⟩
      · simp only [hb, if_false, pure_ok]
        rw [h4]
      · obtain ⟨nn3, h5, h6⟩ := h
        refine ⟨nn3, h5, ?_⟩
        simp only [pure_ok, Prod.mk.injEq] at h6 ⊢
        exact ⟨h6, trivial⟩
  · rintro ⟨log, nn, h1, s1, h2, nn2, h3, ⟨s2, l⟩, h4, h⟩
    refine ⟨nn, h1, s1, h2, nn2, h3, s2, ?_, ?_⟩
    · by_cases hb : nn2.color = .BLACK
      · simp only [hb, if_true, bind_ok] at h4 ⊢
        obtain ⟨b, e1, h4⟩ := h4
        refine ⟨b, e1, ?_⟩
        cases b with
        | true =>
          simp only [if_true, bind_ok, pure_ok, Prod.mk.injEq] at h4 ⊢
          obtain ⟨t, h5, rfl, -⟩ := h4
          exact h5
        | false =>
          simp only [Bool.false_eq_true, if_false] at h4 ⊢
          exact ((deleteLevelTraced_erase fuel).1 _ _ _ _).2 ⟨l, h4⟩
      · simp only [hb, if_false, pure_ok, Prod.mk.injEq] at h4 ⊢
        exact h4.1
    · simp only [bind_ok, pure_ok, Prod.mk.injEq] at h ⊢
      obtain ⟨nn3, h5, h6, -⟩ := h
      exact ⟨nn3, h5, h6⟩

theorem deleteFromRBTreeTraced_erase (fuel : Nat) (tree : Option (RBTree α)) (d : Option α)
    (r : Bool × Option (RBTree α)) :
    deleteFromRBTree fuel tree d = .ok r ↔
      ∃ log, deleteFromRBTreeTraced fuel tree d = .ok (r, log) := by
  cases tree with
  | none => simp [deleteFromRBTree, deleteFromRBTreeTraced, pure_ok]
  | some s =>
    simp only [deleteFromRBTree, deleteFromRBTreeTraced, bind_ok]
    constructor
    · rintro ⟨i, h1, h⟩
      cases i with
      | none =>
        simp only [pure_ok] at h
        exact ⟨[], none, h1, by simp [pure_ok, h]⟩
      | some a =>
        simp only [bind_ok, pure_ok] at h
        obtain ⟨⟨nd, s1⟩, e1, s2, e2, rfl⟩ := h
        obtain ⟨log, hl⟩ := (deleteOneChildTraced_erase _ _ _ _).1 e2
        exact ⟨log, some a, h1, by
          simp only [bind_ok, pure_ok]
          exact ⟨(nd, s1), e1, (s2, log), hl, rfl⟩⟩
    · rintro ⟨log, i, h1, h⟩
      refine ⟨i, h1, ?_⟩
      cases i with
      | none =>
        simp only [pure_ok, Prod.mk.injEq] at h ⊢
        exact h.1
      | some a =>
        simp only [bind_ok, pure_ok, Prod.mk.injEq] at h ⊢
        obtain ⟨⟨nd, s1⟩, e1, ⟨s2, l⟩, e2, rfl, -⟩ := h
        exact ⟨(nd, s1), e1, s2, (deleteOneChildTraced_erase _ _ _ _).2 ⟨l, e2⟩, rfl⟩

/-! ### What holds at the logged entries -/

theorem siblingBlack_of_linked {s : RBTree α} {rest : Path α} {f : Step α} {t : Tree α}
    (h : Linked s (plug (f :: rest) t)) (hb : f.sib.isBlack = true) :
    StageEntry.SiblingBlack ⟨3, s, t.ptr, some f.addr⟩ := by
  have hS := Linked.rep_sib h
  have hcol : ∀ a c l v r, f.sib = .node a c l v r →
      ∃ n, s.mem a = some n ∧ n.color = .BLACK := by
    intro a c l v r e
    rw [e] at hS hb
    refine ⟨_, hS.1, ?_⟩
    simpa [Tree.isBlack] using hb
  cases f with
  | L pa pc pv S =>
    have hp := Linked.node_eq (p := rest) h
    refine ⟨S.ptr, by simp [siblingOf, load_eq hp, bind, Except.bind, pure, Except.pure], ?_⟩
    cases S with
    | nil => exact Or.inl rfl
    | node a c l v r =>
      obtain ⟨n, hn, hc⟩ := hcol a c l v r rfl
      exact Or.inr ⟨a, n, rfl, hn, hc⟩
  | R pa pc S pv =>
    have hp := Linked.node_eq (p := rest) h
    by_cases hS0 : S = .nil
    · subst hS0
      refine ⟨none, ?_, Or.inl rfl⟩
      cases t with
      | nil => simp [siblingOf, load_eq hp, bind, Except.bind, pure, Except.pure]
      | node a c l v r => simp [siblingOf, load_eq hp, bind, Except.bind, pure, Except.pure]
    · have hne := Linked.sib_ptr_ne h hS0
      simp only [Step.sib_R] at hne
      refine ⟨S.ptr, by simp [siblingOf, load_eq hp, hne, bind, Except.bind, pure, Except.pure],
        ?_⟩
      cases S with
      | nil => exact Or.inl rfl
      | node a c l v r =>
        obtain ⟨n, hn, hc⟩ := hcol a c l v r rfl
        exact Or.inr ⟨a, n, rfl, hn, hc⟩

theorem farChildRed_L {s : RBTree α} {rest : Path α} {pa sa ra : Nat} {pc : Color} {pv sv rv : α}
    {sl rl rr t : Tree α}
    (h : Linked s (plug (.L pa pc pv (.node sa .BLACK sl sv (.node ra .RED rl rv rr)) :: rest) t)) :
    StageEntry.FarChildRed ⟨6, s, t.ptr, some pa⟩ := by
  have hp := Linked.node_eq (p := rest) h
  have hS := Linked.rep_sib h
  simp only [Step.sib_L, Step.addr_L] at hS
  refine ⟨pa, _, sa, _, ra, _, rfl, hp, ?_, hS.1, rfl, ?_, hS.2.2.1, rfl⟩
  · simp [siblingOf, load_eq hp, bind, Except.bind, pure, Except.pure]
  · simp

theorem farChildRed_R {s : RBTree α} {rest : Path α} {pa sa la : Nat} {pc : Color} {pv sv lv : α}
    {sr ll lr t : Tree α}
    (h : Linked s (plug (.R pa pc (.node sa .BLACK (.node la .RED ll lv lr) sv sr) pv :: rest) t)) :
    StageEntry.FarChildRed ⟨6, s, t.ptr, some pa⟩ := by
  have hp := Linked.node_eq (p := rest) h
  have hS := Linked.rep_sib h
  simp only [Step.sib_R, Step.addr_R] at hS
  have hne := Linked.sib_ptr_ne h (by simp)
  simp only [Step.sib_R, Tree.ptr_node] at hne
  refine ⟨pa, _, sa, _, la, _, rfl, hp, ?_, hS.1, rfl, ?_, hS.2.1.1, rfl⟩
  · simp [siblingOf, load_eq hp, hne, bind, Except.bind, pure, Except.pure]
  · simp [hne]

theorem red_of_not_black {t : Tree α} (h : ¬ t.isBlack = true) :
    ∃ a l v r, t = .node a .RED l v r := by
  cases t with
  | nil => simp [Tree.isBlack] at h
  | node a c l v r =>
    cases c with
    | RED => exact ⟨a, l, v, r, rfl⟩
    | BLACK => simp [Tree.isBlack] at h

theorem holds_stage6 {n p : Ptr} {s' : RBTree α} {log : List (StageEntry α)} {s6 : RBTree α}
    (hEq : (deleteLevel6 s6 n p >>= fun out => pure (out, [(⟨6, s6, n, p⟩ : StageEntry α)]))
      = .ok (s', log))
    (hfar : StageEntry.FarChildRed ⟨6, s6, n, p⟩) : ∀ e ∈ log, e.Holds := by
  simp only [bind_ok, pure_ok, Prod.mk.injEq] at hEq
  obtain ⟨out, h6, -, rfl⟩ := hEq
  intro e he
  simp only [List.mem_singleton] at he
  subst he
  exact Or.inr ⟨rfl, hfar, out, h6⟩

theorem deleteLevel5Traced_holdsL {s : RBTree α} {rest : Path α} {pa sa : Nat} {pc : Color}
    {pv sv : α} {sl sr t : Tree α}
    (h : Linked s (plug (.L pa pc pv (.node sa .BLACK sl sv sr) :: rest) t))
    (hnb : ¬ (sl.isBlack = true ∧ sr.isBlack = true)) {s' : RBTree α}
    {log : List (StageEntry α)}
    (hrun : deleteLevel5Traced s t.ptr (some pa) = .ok (s', log)) : ∀ e ∈ log, e.Holds := by
  have hp := Linked.node_eq (p := rest) h
  have hS := Linked.rep_sib h
  simp only [Step.sib_L, Step.addr_L] at hS
  have hb := isBlackOrNull_rep hS
  obtain ⟨k, hk, hk2, hk1⟩ := theColorOfchildrenAre_rep hS
  have hne := Linked.sib_ptr_ne h (by simp)
  simp only [Step.sib_L, Tree.ptr_node, Tree.isBlack_node] at hne hb
  by_cases hcond : sr.isBlack = true ∧ sl.isRed = true
  · obtain ⟨hsr, hsl⟩ := hcond
    have hk2' : k = 2 := hk2.2 ⟨hsr, hsl⟩
    obtain ⟨la, ll, lv, lr, rfl⟩ := Tree.isRed_iff.1 hsl
    obtain ⟨s1, e1, v1⟩ := setColor_spec (p := .R pa pc t pv :: rest) .RED h
    have hs1 := Linked.node_eq (p := .R pa pc t pv :: rest) v1.linked
    obtain ⟨s2, e2, v2⟩ := setColor_spec
      (p := .L sa .RED sv sr :: .R pa pc t pv :: rest) .BLACK v1.linked
    obtain ⟨s3, e3, v3⟩ := rightRotation_spec (p := .R pa pc t pv :: rest) v2.linked
    have hEq : deleteLevel5Traced s t.ptr (some pa)
        = (deleteLevel6 s3 t.ptr (some pa) >>= fun out =>
            pure (out, [(⟨6, s3, t.ptr, some pa⟩ : StageEntry α)])) := by
      simp [deleteLevel5Traced, siblingOf, load_eq hp, load_eq hs1, hb, hk, hk2', andAlso, bind,
        Except.bind, pure, Except.pure, Step.fill, e1, e2, e3]
    rw [hEq] at hrun
    refine holds_stage6 hrun ?_
    exact @farChildRed_L _ s3 rest pa la sa pc pv lv sv ll lr sr t v3.linked
  · have h2 : ¬ (k = 2) := fun h2 => hcond (hk2.1 h2)
    have hEq : deleteLevel5Traced s t.ptr (some pa)
        = (deleteLevel6 s t.ptr (some pa) >>= fun out =>
            pure (out, [(⟨6, s, t.ptr, some pa⟩ : StageEntry α)])) := by
      simp [deleteLevel5Traced, siblingOf, load_eq hp, hb, hk, andAlso, bind, Except.bind, pure,
        Except.pure, Step.fill, h2, hne]
    rw [hEq] at hrun
    refine holds_stage6 hrun ?_
    have hsr : ¬ sr.isBlack = true := by
      intro hsr
      have hsl : ¬ sl.isBlack = true := fun hsl => hnb ⟨hsl, hsr⟩
      obtain ⟨a, l, v, r, rfl⟩ := red_of_not_black hsl
      exact hcond ⟨hsr, by simp⟩
    obtain ⟨ra, rl, rv, rr, rfl⟩ := red_of_not_black hsr
    exact farChildRed_L h

theorem deleteLevel5Traced_holdsR {s : RBTree α} {rest : Path α} {pa sa : Nat} {pc : Color}
    {pv sv : α} {sl sr t : Tree α}
    (h : Linked s (plug (.R pa pc (.node sa .BLACK sl sv sr) pv :: rest) t))
    (hnb : ¬ (sl.isBlack = true ∧ sr.isBlack = true)) {s' : RBTree α}
    {log : List (StageEntry α)}
    (hrun : deleteLevel5Traced s t.ptr (some pa) = .ok (s', log)) : ∀ e ∈ log, e.Holds := by
  have hp := Linked.node_eq (p := rest) h
  have hS := Linked.rep_sib h
  simp only [Step.sib_R, Step.addr_R] at hS
  have hb := isBlackOrNull_rep hS
  obtain ⟨k, hk, hk2, hk1⟩ := theColorOfchildrenAre_rep hS
  have hne := Linked.sib_ptr_ne h (by simp)
  simp only [Step.sib_R, Tree.ptr_node, Tree.isBlack_node] at hne hb
  by_cases hcond : sl.isBlack = true ∧ sr.isRed = true
  · obtain ⟨hsl, hsr⟩ := hcond
    have hk1' : k = 1 := hk1.2 ⟨hsl, hsr⟩
    obtain ⟨ra, rl, rv, rr, rfl⟩ := Tree.isRed_iff.1 hsr
    obtain ⟨s1, e1, v1⟩ := setColor_spec (p := .L pa pc pv t :: rest) .RED h
    have hs1 := Linked.node_eq (p := .L pa pc pv t :: rest) v1.linked
    obtain ⟨s2, e2, v2⟩ := setColor_spec
      (p := .R sa .RED sl sv :: .L pa pc pv t :: rest) .BLACK v1.linked
    obtain ⟨s3, e3, v3⟩ := leftRotation_spec (p := .L pa pc pv t :: rest) v2.linked
    have hEq : deleteLevel5Traced s t.ptr (some pa)
        = (deleteLevel6 s3 t.ptr (some pa) >>= fun out =>
            pure (out, [(⟨6, s3, t.ptr, some pa⟩ : StageEntry α)])) := by
      simp [deleteLevel5Traced, siblingOf, load_eq hp, load_eq hs1, hb, hk, hk1', andAlso, bind,
        Except.bind, pure, Except.pure, Step.fill, e1, e2, e3, hne]
    rw [hEq] at hrun
    refine holds_stage6 hrun ?_
    exact @farChildRed_R _ s3 rest pa ra sa pc pv rv sv rr sl rl t v3.linked
  · have h1 : ¬ (k = 1) := fun h1 => hcond (hk1.1 h1)
    have hEq : deleteLevel5Traced s t.ptr (some pa)
        = (deleteLevel6 s t.ptr (some pa) >>= fun out =>
            pure (out, [(⟨6, s, t.ptr, some pa⟩ : StageEntry α)])) := by
      simp [deleteLevel5Traced, siblingOf, load_eq hp, hb, hk, andAlso, bind, Except.bind, pure,
        Except.pure, Step.fill, h1, hne]
    rw [hEq] at hrun
    refine holds_stage6 hrun ?_
    have hsl : ¬ sl.isBlack = true := by
      intro hsl
      have hsr : ¬ sr.isBlack = true := fun hsr => hnb ⟨hsl, hsr⟩
      obtain ⟨a, l, v, r, rfl⟩ := red_of_not_black hsr
      exact hcond ⟨hsl, by simp⟩
    obtain ⟨la, ll, lv, lr, rfl⟩ := red_of_not_black hsl
    exact farChildRed_R h

theorem holds_nil {β : Type} {y : Except Fault β} {k : β → RBTree α} {s' : RBTree α}
    {log : List (StageEntry α)}
    (h : (y >>= fun out => pure (k out, ([] : List (StageEntry α)))) = .ok (s', log)) :
    ∀ e ∈ log, e.Holds := by
  simp only [bind_ok, pure_ok, Prod.mk.injEq] at h
  obtain ⟨out, -, -, rfl⟩ := h
  intro e he
  simp at he

theorem deleteLevel4Traced_holds {s : RBTree α} {rest : Path α} {f : Step α} {t : Tree α}
    (h : Linked s (plug (f :: rest) t)) (hb : f.sib.isBlack = true)
    (hg : f.color = .BLACK →
      ∃ a c l v r, f.sib = .node a c l v r ∧ ¬ (l.isBlack = true ∧ r.isBlack = true))
    {s' : RBTree α} {log : List (StageEntry α)}
    (hrun : deleteLevel4Traced s t.ptr (some f.addr) = .ok (s', log)) : ∀ e ∈ log, e.Holds := by
  cases f with
  | L pa pc pv S =>
    have hp := Linked.node_eq (p := rest) h
    simp only [Step.sib_L, Step.color] at hb hg
    simp only [Step.addr_L] at hrun
    cases S with
    | nil =>
      have hpc : pc = .RED := by
        cases pc with
        | RED => rfl
        | BLACK => obtain ⟨a, c, l, v, r, e, -⟩ := hg rfl; cases e
      subst hpc
      have hEq : deleteLevel4Traced s t.ptr (some pa)
          = (setColor s (some pa) .BLACK >>= fun out =>
              pure (out, ([] : List (StageEntry α)))) := by
        simp [deleteLevel4Traced, siblingOf, load_eq hp, nodeAndthoSunsAreBlack, andAlso, bind,
          Except.bind, pure, Except.pure]
      rw [hEq] at hrun
      exact holds_nil hrun
    | node sa sc sl sv sr =>
      have hsc : sc = .BLACK := by simpa [Tree.isBlack] using hb
      subst hsc
      have hS := Linked.rep_sib h
      simp only [Step.sib_L, Step.addr_L] at hS
      have hbb := nodeAndthoSunsAreBlack_rep hS
      by_cases hcond : pc = .RED ∧ sl.isBlack = true ∧ sr.isBlack = true
      · obtain ⟨hpc, hsl, hsr⟩ := hcond
        have hEq : deleteLevel4Traced s t.ptr (some pa)
            = ((setColor s (some sa) .RED >>= fun t1 => setColor t1 (some pa) .BLACK)
                >>= fun out => pure (out, ([] : List (StageEntry α)))) := by
          simp [deleteLevel4Traced, siblingOf, load_eq hp, hbb, andAlso, bind, Except.bind, pure,
            Except.pure, hpc, hsl, hsr]
          cases setColor s (some sa) .RED <;> rfl
        rw [hEq] at hrun
        exact holds_nil hrun
      · have hnb : ¬ (sl.isBlack = true ∧ sr.isBlack = true) := by
          cases pc with
          | RED => exact fun hh => hcond ⟨rfl, hh⟩
          | BLACK =>
            obtain ⟨a, c, l, v, r, e, hn⟩ := hg rfl
            cases e
            exact hn
        have hEq : deleteLevel4Traced s t.ptr (some pa) = deleteLevel5Traced s t.ptr (some pa) := by
          have : (decide (pc = .RED) && (decide (Color.BLACK = .BLACK)
              && (sl.isBlack && sr.isBlack))) = false := by
            rw [Bool.eq_false_iff]
            intro hh
            simp only [Bool.and_eq_true, decide_eq_true_eq] at hh
            exact hcond ⟨hh.1, hh.2.2.1, hh.2.2.2⟩
          simp only [deleteLevel4Traced, siblingOf, load_eq hp, hbb, andAlso, bind, Except.bind,
            pure, Except.pure, Tree.ptr_node, if_true]
          cases hpc : decide (pc = .RED)
          · simp
          · simp only [hpc, Bool.true_and] at this
            simp [this]
            intro h1 h2
            exact absurd ⟨h1, h2⟩ hnb
        rw [hEq] at hrun
        exact deleteLevel5Traced_holdsL h hnb hrun
  | R pa pc S pv =>
    have hp := Linked.node_eq (p := rest) h
    simp only [Step.sib_R, Step.color] at hb hg
    simp only [Step.addr_R] at hrun
    cases S with
    | nil =>
      have hpc : pc = .RED := by
        cases pc with
        | RED => rfl
        | BLACK => obtain ⟨a, c, l, v, r, e, -⟩ := hg rfl; cases e
      subst hpc
      have hEq : deleteLevel4Traced s t.ptr (some pa)
          = (setColor s (some pa) .BLACK >>= fun out =>
              pure (out, ([] : List (StageEntry α)))) := by
        cases t <;>
          simp [deleteLevel4Traced, siblingOf, load_eq hp, nodeAndthoSunsAreBlack, andAlso, bind,
            Except.bind, pure, Except.pure]
      rw [hEq] at hrun
      exact holds_nil hrun
    | node sa sc sl sv sr =>
      have hsc : sc = .BLACK := by simpa [Tree.isBlack] using hb
      subst hsc
      have hS := Linked.rep_sib h
      simp only [Step.sib_R, Step.addr_R] at hS
      have hbb := nodeAndthoSunsAreBlack_rep hS
      have hne := Linked.sib_ptr_ne h (by simp)
      simp only [Step.sib_R, Tree.ptr_node] at hne
      by_cases hcond : pc = .RED ∧ sl.isBlack = true ∧ sr.isBlack = true
      · obtain ⟨hpc, hsl, hsr⟩ := hcond
        have hEq : deleteLevel4Traced s t.ptr (some pa)
            = ((setColor s (some sa) .RED >>= fun t1 => setColor t1 (some pa) .BLACK)
                >>= fun out => pure (out, ([] : List (StageEntry α)))) := by
          simp [deleteLevel4Traced, siblingOf, load_eq hp, hbb, andAlso, bind, Except.bind, pure,
            Except.pure, hpc, hsl, hsr, hne]
          cases setColor s (some sa) .RED <;> rfl
        rw [hEq] at hrun
        exact holds_nil hrun
      · have hnb : ¬ (sl.isBlack = true ∧ sr.isBlack = true) := by
          cases pc with
          | RED => exact fun hh => hcond ⟨rfl, hh⟩
          | BLACK =>
            obtain ⟨a, c, l, v, r, e, hn⟩ := hg rfl
            cases e
            exact hn
        have hEq : deleteLevel4Traced s t.ptr (some pa) = deleteLevel5Traced s t.ptr (some pa) := by
          have : (decide (pc = .RED) && (decide (Color.BLACK = .BLACK)
              && (sl.isBlack && sr.isBlack))) = false := by
            rw [Bool.eq_false_iff]
            intro hh
            simp only [Bool.and_eq_true, decide_eq_true_eq] at hh
            exact hcond ⟨hh.1, hh.2.2.1, hh.2.2.2⟩
          simp only [deleteLevel4Traced, siblingOf, load_eq hp, hbb, andAlso, bind, Except.bind,
            pure, Except.pure, Tree.ptr_node, hne, if_false]
          cases hpc : decide (pc = .RED)
          · simp
          · simp only [hpc, Bool.true_and] at this
            simp [this]
            intro h1 h2
            exact absurd ⟨h1, h2⟩ hnb
        rw [hEq] at hrun
        exact deleteLevel5Traced_holdsR h hnb hrun

theorem holds_cons {x : Except Fault (RBTree α × List (StageEntry α))} {entry : StageEntry α}
    {s' : RBTree α} {log : List (StageEntry α)}
    (h : (x >>= fun r => pure (r.1, entry :: r.2)) = .ok (s', log)) (he : entry.Holds)
    (hx : ∀ s'' log', x = .ok (s'', log') → ∀ e ∈ log', e.Holds) : ∀ e ∈ log, e.Holds := by
  simp only [bind_ok, pure_ok, Prod.mk.injEq] at h
  obtain ⟨⟨s'', log'⟩, h1, -, rfl⟩ := h
  intro e hmem
  simp only [List.mem_cons] at hmem
  rcases hmem with rfl | hmem
  · exact he
  · exact hx s'' log' h1 e hmem

theorem deleteLevel1Traced_fuel {fuel : Nat} {s : RBTree α} {n : Ptr} {a : Nat}
    {r : RBTree α × List (StageEntry α)}
    (h : deleteLevel1Traced fuel s n (some a) = .ok r) : ∃ k, fuel = k + 3 := by
  match fuel with
  | 0 => simp [deleteLevel1Traced] at h
  | 1 => simp [deleteLevel1Traced, deleteLevel2Traced] at h
  | 2 =>
    simp only [deleteLevel1Traced, deleteLevel2Traced, deleteLevel3Traced, bind_ok] at h
    obtain ⟨sb, -, b, -, h⟩ := h
    cases b <;> simp [bind_ok] at h
  | k + 3 => exact ⟨k, rfl⟩

theorem deleteLevel1Traced_holds :
    ∀ (p : Path α) (fuel : Nat) (t : Tree α) (s : RBTree α), Linked s (plug p t) →
      (∀ f ∈ p, f.sib.NoRedRed) → ∀ (s' : RBTree α) (log : List (StageEntry α)),
      deleteLevel1Traced fuel s t.ptr (pathPtr p) = .ok (s', log) → ∀ e ∈ log, e.Holds := by
  intro p
  induction p with
  | nil =>
    intro fuel t s _ _ s' log hrun
    match fuel with
    | 0 => simp [deleteLevel1Traced] at hrun
    | k + 1 =>
      simp only [deleteLevel1Traced, pathPtr_nil, pure_ok, Prod.mk.injEq] at hrun
      obtain ⟨-, rfl⟩ := hrun
      intro e he
      simp at he
  | cons f rest ih =>
    intro fuel t s hl hnr s' log hrun
    simp only [pathPtr_cons] at hrun
    obtain ⟨k, rfl⟩ := deleteLevel1Traced_fuel hrun
    have hnr' : ∀ g ∈ rest, g.sib.NoRedRed := fun g hg => hnr g (List.mem_cons_of_mem _ hg)
    have hsn : f.sib.NoRedRed := hnr f (List.mem_cons_self _ _)
    cases f with
    | L pa pc pv S =>
      simp only [Step.addr_L] at hrun
      simp only [Step.sib_L] at hsn
      have hp := Linked.node_eq (p := rest) hl
      cases S with
      | nil =>
        have h3 := siblingBlack_of_linked hl rfl
        cases pc with
        | BLACK =>
          have hEq : deleteLevel1Traced (k + 3) s t.ptr (some pa)
              = (deleteLevel1Traced k s (some pa) (pathPtr rest) >>= fun r =>
                  pure (r.1, (⟨3, s, t.ptr, some pa⟩ : StageEntry α) :: r.2)) := by
            simp [deleteLevel1Traced, deleteLevel2Traced, deleteLevel3Traced, siblingOf,
              load_eq hp, isRedNode, nodeAndthoSunsAreBlack, andAlso, bind, Except.bind, pure,
              Except.pure]
          rw [hEq] at hrun
          exact holds_cons hrun (Or.inl ⟨rfl, h3⟩)
            (fun s'' log' h => ih k (.node pa .BLACK t pv .nil) s hl hnr' s'' log' h)
        | RED =>
          have hEq : deleteLevel1Traced (k + 3) s t.ptr (some pa)
              = (deleteLevel4Traced s t.ptr (some pa) >>= fun r =>
                  pure (r.1, (⟨3, s, t.ptr, some pa⟩ : StageEntry α) :: r.2)) := by
            simp [deleteLevel1Traced, deleteLevel2Traced, deleteLevel3Traced, siblingOf,
              load_eq hp, isRedNode, nodeAndthoSunsAreBlack, andAlso, bind, Except.bind, pure,
              Except.pure]
          rw [hEq] at hrun
          exact holds_cons hrun (Or.inl ⟨rfl, h3⟩)
            (fun s'' log' h => @deleteLevel4Traced_holds _ s rest (.L pa .RED pv .nil) t hl rfl
              (fun hc => by simp [Step.color] at hc) s'' log' h)
      | node sa sc sl sv sr =>
        have hS := Linked.rep_sib hl
        simp only [Step.sib_L, Step.addr_L] at hS
        have hred := isRedNode_rep hS
        have hb := nodeAndthoSunsAreBlack_rep hS
        simp only [Tree.ptr_node, Tree.isRed_node] at hred
        cases sc with
        | RED =>
          obtain ⟨hbl, -, -⟩ := hsn
          obtain ⟨hsl, hsr⟩ := hbl rfl
          obtain ⟨s1, e1, v1⟩ := setColor_spec (p := rest) .RED hl
          obtain ⟨s2, e2, v2⟩ := setColor_spec (p := .R pa .RED t pv :: rest) .BLACK v1.linked
          have hp2 := Linked.node_eq (p := rest) v2.linked
          obtain ⟨s3, e3, v3⟩ := leftRotation_spec (p := rest) v2.linked
          have hp3 := Linked.node_eq (p := .L sa .BLACK sv sr :: rest) v3.linked
          have hl3 : Linked s3 (plug (.L pa .RED pv sl :: .L sa .BLACK sv sr :: rest) t) :=
            v3.linked
          have hEq : deleteLevel1Traced (k + 3) s t.ptr (some pa)
              = (deleteLevel4Traced s3 t.ptr (some pa) >>= fun r =>
                  pure (r.1, (⟨3, s3, t.ptr, some pa⟩ : StageEntry α) :: r.2)) := by
            simp [deleteLevel1Traced, deleteLevel2Traced, deleteLevel3Traced, siblingOf,
              load_eq hp, load_eq hp2, load_eq hp3, hred, andAlso, bind, Except.bind, pure,
              Except.pure, Step.fill, e1, e2, e3]
          rw [hEq] at hrun
          exact holds_cons hrun (Or.inl ⟨rfl, siblingBlack_of_linked hl3 hsl⟩)
            (fun s'' log' h => @deleteLevel4Traced_holds _ s3 (.L sa .BLACK sv sr :: rest)
              (.L pa .RED pv sl) t hl3 hsl (fun hc => by simp [Step.color] at hc) s'' log' h)
        | BLACK =>
          have h3 := siblingBlack_of_linked hl (by simp [Tree.isBlack])
          by_cases hcond : pc = .BLACK ∧ sl.isBlack = true ∧ sr.isBlack = true
          · obtain ⟨hpc, hsl, hsr⟩ := hcond
            subst hpc
            obtain ⟨s1, e1, v1⟩ := setColor_spec (p := .R pa .BLACK t pv :: rest) .RED hl
            have hp1 := Linked.node_eq (p := rest) v1.linked
            have hEq : deleteLevel1Traced (k + 3) s t.ptr (some pa)
                = (deleteLevel1Traced k s1 (some pa) (pathPtr rest) >>= fun r =>
                    pure (r.1, (⟨3, s, t.ptr, some pa⟩ : StageEntry α) :: r.2)) := by
              simp [deleteLevel1Traced, deleteLevel2Traced, deleteLevel3Traced, siblingOf,
                load_eq hp, load_eq hp1, hred, hb, andAlso, bind, Except.bind, pure,
                Except.pure, Step.fill, hsl, hsr, e1]
            rw [hEq] at hrun
            exact holds_cons hrun (Or.inl ⟨rfl, h3⟩)
              (fun s'' log' h => ih k (.node pa .BLACK t pv (.node sa .RED sl sv sr)) s1
                v1.linked hnr' s'' log' h)
          · have hEq : deleteLevel1Traced (k + 3) s t.ptr (some pa)
                = (deleteLevel4Traced s t.ptr (some pa) >>= fun r =>
                    pure (r.1, (⟨3, s, t.ptr, some pa⟩ : StageEntry α) :: r.2)) := by
              have : (decide (pc = .BLACK) && (sl.isBlack && sr.isBlack)) = false := by
                rw [Bool.eq_false_iff]
                intro hh
                simp only [Bool.and_eq_true, decide_eq_true_eq] at hh
                exact hcond ⟨hh.1, hh.2.1, hh.2.2⟩
              simp only [deleteLevel1Traced, deleteLevel2Traced, deleteLevel3Traced, siblingOf,
                load_eq hp, hred, hb, andAlso, bind, Except.bind, pure, Except.pure, Step.fill,
                Tree.ptr_node, if_true, pathPtr_cons, Step.addr_L, decide_True, decide_False,
                Bool.true_and, reduceCtorEq, Bool.false_eq_true, if_false]
              cases hpc : decide (pc = .BLACK)
              · simp
              · simp only [hpc, Bool.true_and] at this
                simp [this]
            rw [hEq] at hrun
            exact holds_cons hrun (Or.inl ⟨rfl, h3⟩)
              (fun s'' log' h => @deleteLevel4Traced_holds _ s rest
                (.L pa pc pv (.node sa .BLACK sl sv sr)) t hl (by simp [Tree.isBlack])
                (fun hc => ⟨sa, .BLACK, sl, sv, sr, rfl, fun hh => hcond ⟨hc, hh⟩⟩) s'' log' h)
    | R pa pc S pv =>
      simp only [Step.addr_R] at hrun
      simp only [Step.sib_R] at hsn
      have hp := Linked.node_eq (p := rest) hl
      cases S with
      | nil =>
        have h3 := siblingBlack_of_linked hl rfl
        cases pc with
        | BLACK =>
          have hEq : deleteLevel1Traced (k + 3) s t.ptr (some pa)
              = (deleteLevel1Traced k s (some pa) (pathPtr rest) >>= fun r =>
                  pure (r.1, (⟨3, s, t.ptr, some pa⟩ : StageEntry α) :: r.2)) := by
            cases t <;>
              simp [deleteLevel1Traced, deleteLevel2Traced, deleteLevel3Traced, siblingOf,
                load_eq hp, isRedNode, nodeAndthoSunsAreBlack, andAlso, bind, Except.bind, pure,
                Except.pure]
          rw [hEq] at hrun
          exact holds_cons hrun (Or.inl ⟨rfl, h3⟩)
            (fun s'' log' h => ih k (.node pa .BLACK .nil pv t) s hl hnr' s'' log' h)
        | RED =>
          have hEq : deleteLevel1Traced (k + 3) s t.ptr (some pa)
              = (deleteLevel4Traced s t.ptr (some pa) >>= fun r =>
                  pure (r.1, (⟨3, s, t.ptr, some pa⟩ : StageEntry α) :: r.2)) := by
            cases t <;>
              simp [deleteLevel1Traced, deleteLevel2Traced, deleteLevel3Traced, siblingOf,
                load_eq hp, isRedNode, nodeAndthoSunsAreBlack, andAlso, bind, Except.bind, pure,
                Except.pure]
          rw [hEq] at hrun
          exact holds_cons hrun (Or.inl ⟨rfl, h3⟩)
            (fun s'' log' h => @deleteLevel4Traced_holds _ s rest (.R pa .RED .nil pv) t hl rfl
              (fun hc => by simp [Step.color] at hc) s'' log' h)
      | node sa sc sl sv sr =>
        have hS := Linked.rep_sib hl
        simp only [Step.sib_R, Step.addr_R] at hS
        have hred := isRedNode_rep hS
        have hb := nodeAndthoSunsAreBlack_rep hS
        have hne := Linked.sib_ptr_ne hl (by simp)
        simp only [Step.sib_R, Tree.ptr_node] at hne
        simp only [Tree.ptr_node, Tree.isRed_node] at hred
        cases sc with
        | RED =>
          obtain ⟨hbl, -, -⟩ := hsn
          obtain ⟨hsl, hsr⟩ := hbl rfl
          obtain ⟨s1, e1, v1⟩ := setColor_spec (p := rest) .RED hl
          obtain ⟨s2, e2, v2⟩ := setColor_spec (p := .L pa .RED pv t :: rest) .BLACK v1.linked
          have hp2 := Linked.node_eq (p := rest) v2.linked
          obtain ⟨s3, e3, v3⟩ := rightRotation_spec (p := rest) v2.linked
          have hp3 := Linked.node_eq (p := .R sa .BLACK sl sv :: rest) v3.linked
          have hl3 : Linked s3 (plug (.R pa .RED sr pv :: .R sa .BLACK sl sv :: rest) t) :=
            v3.linked
          have hEq : deleteLevel1Traced (k + 3) s t.ptr (some pa)
              = (deleteLevel4Traced s3 t.ptr (some pa) >>= fun r =>
                  pure (r.1, (⟨3, s3, t.ptr, some pa⟩ : StageEntry α) :: r.2)) := by
            by_cases hsr0 : sr = .nil
            · subst hsr0
              cases t with
              | nil =>
                simp [deleteLevel1Traced, deleteLevel2Traced, deleteLevel3Traced, siblingOf,
                  load_eq hp, load_eq hp2, load_eq hp3, hred, andAlso, bind, Except.bind, pure,
                  Except.pure, Step.fill, e1, e2, e3]
              | node a c l v r =>
                have hne' : sa ≠ a := by simpa using hne
                simp [deleteLevel1Traced, deleteLevel2Traced, deleteLevel3Traced, siblingOf,
                  load_eq hp, load_eq hp2, load_eq hp3, hred, andAlso, bind, Except.bind, pure,
                  Except.pure, Step.fill, hne', e1, e2, e3]
            · have hne3 : sr.ptr ≠ t.ptr :=
                Linked.sib_ptr_ne (f := .R pa .RED sr pv) (p := .R sa .BLACK sl sv :: rest)
                  v3.linked hsr0
              simp [deleteLevel1Traced, deleteLevel2Traced, deleteLevel3Traced, siblingOf,
                load_eq hp, load_eq hp2, load_eq hp3, hred, andAlso, bind, Except.bind, pure,
                Except.pure, Step.fill, hne, hne3, e1, e2, e3]
          rw [hEq] at hrun
          exact holds_cons hrun (Or.inl ⟨rfl, siblingBlack_of_linked hl3 hsr⟩)
            (fun s'' log' h => @deleteLevel4Traced_holds _ s3 (.R sa .BLACK sl sv :: rest)
              (.R pa .RED sr pv) t hl3 hsr (fun hc => by simp [Step.color] at hc) s'' log' h)
        | BLACK =>
          have h3 := siblingBlack_of_linked hl (by simp [Tree.isBlack])
          by_cases hcond : pc = .BLACK ∧ sl.isBlack = true ∧ sr.isBlack = true
          · obtain ⟨hpc, hsl, hsr⟩ := hcond
            subst hpc
            obtain ⟨s1, e1, v1⟩ := setColor_spec (p := .L pa .BLACK pv t :: rest) .RED hl
            have hp1 := Linked.node_eq (p := rest) v1.linked
            have hEq : deleteLevel1Traced (k + 3) s t.ptr (some pa)
                = (deleteLevel1Traced k s1 (some pa) (pathPtr rest) >>= fun r =>
                    pure (r.1, (⟨3, s, t.ptr, some pa⟩ : StageEntry α) :: r.2)) := by
              simp [deleteLevel1Traced, deleteLevel2Traced, deleteLevel3Traced, siblingOf,
                load_eq hp, load_eq hp1, hred, hb, andAlso, bind, Except.bind, pure,
                Except.pure, Step.fill, hsl, hsr, hne, e1]
            rw [hEq] at hrun
            exact holds_cons hrun (Or.inl ⟨rfl, h3⟩)
              (fun s'' log' h => ih k (.node pa .BLACK (.node sa .RED sl sv sr) pv t) s1
                v1.linked hnr' s'' log' h)
          · have hEq : deleteLevel1Traced (k + 3) s t.ptr (some pa)
                = (deleteLevel4Traced s t.ptr (some pa) >>= fun r =>
                    pure (r.1, (⟨3, s, t.ptr, some pa⟩ : StageEntry α) :: r.2)) := by
              have : (decide (pc = .BLACK) && (sl.isBlack && sr.isBlack)) = false := by
                rw [Bool.eq_false_iff]
                intro hh
                simp only [Bool.and_eq_true, decide_eq_true_eq] at hh
                exact hcond ⟨hh.1, hh.2.1, hh.2.2⟩
              simp only [deleteLevel1Traced, deleteLevel2Traced, deleteLevel3Traced, siblingOf,
                load_eq hp, hred, hb, andAlso, bind, Except.bind, pure, Except.pure, Step.fill,
                Tree.ptr_node, hne, pathPtr_cons, Step.addr_R, decide_True, decide_False,
                Bool.true_and, reduceCtorEq, Bool.false_eq_true, if_false]
              cases hpc : decide (pc = .BLACK)
              · simp
              · simp only [hpc, Bool.true_and] at this
                simp [this]
            rw [hEq] at hrun
            exact holds_cons hrun (Or.inl ⟨rfl, h3⟩)
              (fun s'' log' h => @deleteLevel4Traced_holds _ s rest
                (.R pa pc (.node sa .BLACK sl sv sr) pv) t hl (by simp [Tree.isBlack])
                (fun hc => ⟨sa, .BLACK, sl, sv, sr, rfl, fun hh => hcond ⟨hc, hh⟩⟩) s'' log' h)

theorem noRedRed_sibs {p : Path α} {t : Tree α} (h : (plug p t).NoRedRed) :
    ∀ g ∈ p, g.sib.NoRedRed := by
  induction p generalizing t with
  | nil => intro g hg; simp at hg
  | cons f p ih =>
    intro g hg
    simp only [List.mem_cons] at hg
    rcases hg with rfl | hg
    · have hsub := noRedRed_of_plug (p := p) (t := g.fill t) h
      cases g with
      | L a c v r => exact hsub.2.2
      | R a c l v => exact hsub.2.1
    · exact ih (t := f.fill t) h g hg

theorem deleteOneChildTraced_holds {s : RBTree α} {p : Path α} {n : Nat} {c : Color}
    {l r : Tree α} {v : α} {fuel : Nat} (h : Linked s (plug p (.node n c l v r)))
    (hnr : ∀ g ∈ p, g.sib.NoRedRed) {s' : RBTree α} {log : List (StageEntry α)}
    (hrun : deleteOneChildTraced fuel s (some n) = .ok (s', log)) : ∀ e ∈ log, e.Holds := by
  have hn := h.node_eq
  have hchild := onlyChild_ptr n c l r v
  simp only [deleteOneChildTraced, bind_ok, pure_ok, Prod.mk.injEq] at hrun
  obtain ⟨nn, h1, s1, h2, nn2, h3, ⟨s2, lg⟩, h4, nn3, h5, -, rfl⟩ := hrun
  rw [load_eq hn] at h1
  cases h1
  simp only [← hchild] at h2 h4
  have hnil : ∀ e ∈ ([] : List (StageEntry α)), e.Holds := fun e he => by simp at he
  cases p with
  | nil =>
    have hpar : nn2.parent = none := by
      simp only [replaceNode, load_eq hn, bind, Except.bind, pathPtr_nil] at h2
      cases hc : (Tree.node n c l v r).onlyChild.ptr with
      | none =>
        simp only [hc, pure, Except.pure, Except.ok.injEq] at h2
        subst h2
        rw [load_eq hn] at h3
        cases h3
        rfl
      | some ca =>
        simp only [hc, setParent] at h2
        cases hca : s.mem ca with
        | none => simp [hca] at h2
        | some cn =>
          simp only [hca, Except.ok.injEq] at h2
          subst h2
          by_cases e : n = ca
          · subst e
            simp [load, store] at h3
            rw [← h3]
          · have : (store s ca { cn with parent := none }).mem n = s.mem n := by
              simp [store, Function.update_apply, e]
            rw [load, this, hn] at h3
            simp only [Except.ok.injEq] at h3
            rw [← h3]
            rfl
    by_cases hb : nn2.color = .BLACK
    · simp only [hb, if_true, bind_ok] at h4
      obtain ⟨b, -, h4⟩ := h4
      cases b with
      | true =>
        simp only [if_true, bind_ok, pure_ok, Prod.mk.injEq] at h4
        obtain ⟨-, -, -, rfl⟩ := h4
        exact hnil
      | false =>
        simp only [Bool.false_eq_true, if_false, hpar] at h4
        match fuel, h4 with
        | 0, h4 => simp [deleteLevel1Traced] at h4
        | k + 1, h4 =>
          simp only [deleteLevel1Traced, pure_ok, Prod.mk.injEq] at h4
          obtain ⟨-, rfl⟩ := h4
          exact hnil
    · simp only [hb, if_false, pure_ok, Prod.mk.injEq] at h4
      obtain ⟨-, rfl⟩ := h4
      exact hnil
  | cons f rest =>
    obtain ⟨s1', e1, l1, -, m1⟩ := replaceNode_spec h
    rw [e1] at h2
    cases h2
    have hn1 : s1.mem n = some ⟨v, pathPtr (f :: rest), l.ptr, r.ptr, c⟩ := m1.trans hn
    rw [load_eq hn1] at h3
    cases h3
    have hred := isRedNode_rep l1.rep_focus
    cases c with
    | RED =>
      simp only [reduceCtorEq, if_false, pure_ok, Prod.mk.injEq] at h4
      obtain ⟨-, rfl⟩ := h4
      exact hnil
    | BLACK =>
      simp only [if_true, bind_ok, hred] at h4
      obtain ⟨b, hb, h4⟩ := h4
      cases b with
      | true =>
        simp only [if_true, bind_ok, pure_ok, Prod.mk.injEq] at h4
        obtain ⟨-, -, -, rfl⟩ := h4
        exact hnil
      | false =>
        simp only [Bool.false_eq_true, if_false] at h4
        exact deleteLevel1Traced_holds (f :: rest) fuel _ s1 l1 hnr s2 lg h4

/-- On a tree object with the colour invariants, every entry in the log of a
deletion is as claimed. -/
theorem deleteFromRBTreeTraced_holds {s : RBTree α} {t : Tree α} {d : Option α} {fuel : Nat}
    (hm : Models s t) (hc : t.Coloured) (hfuel : 3 * t.height < fuel)
    {r : Bool × Option (RBTree α)} {log : List (StageEntry α)}
    (hrun : deleteFromRBTreeTraced fuel (some s) d = .ok (r, log)) : ∀ e ∈ log, e.Holds := by
  have hnil : ∀ e ∈ ([] : List (StageEntry α)), e.Holds := fun e he => by simp at he
  simp only [deleteFromRBTreeTraced, bind_ok] at hrun
  obtain ⟨i, h1, h⟩ := hrun
  cases d with
  | none =>
    obtain ⟨k, rfl⟩ : ∃ k, fuel = k + 1 := ⟨fuel - 1, by omega⟩
    have : i = none := by
      cases hr : s.root <;> simp [findXNormalBST, hr, pure, Except.pure] at h1 <;> exact h1.symm
    subst this
    simp only [pure_ok, Prod.mk.injEq] at h
    obtain ⟨-, rfl⟩ := h
    exact hnil
  | some d =>
    have hfind := findXNormalBST_sim s d t fuel none [] (by omega) hm.linked.rep
    rw [← hm.linked.root] at hfind
    rw [hfind] at h1
    cases h1
    cases hX : descend s.compFunc d t [] with
    | mk p u =>
      cases u with
      | nil =>
        simp only [hX, Tree.ptr_nil, pure_ok, Prod.mk.injEq] at h
        obtain ⟨-, rfl⟩ := h
        exact hnil
      | node x c l v r =>
        have hplug : plug p (.node x c l v r) = t := by
          have := descend_plug s.compFunc d t []
          rw [hX] at this
          simpa using this
        have hlen := descend_length s.compFunc d t []
        rw [hX] at hlen
        simp only [List.length_nil, Nat.zero_add] at hlen
        subst hplug
        obtain ⟨q, m, mc, ml, mr, hsw, -, -, hqR, -, -, -⟩ :=
          swapDown_spec hc.rootBlack hc.noRedRed hc.balanced
        obtain ⟨s1, e1, v1⟩ := deleteNormalBST_sim fuel hm.linked (by simp) (by omega)
        rw [hsw] at v1 e1
        simp only [Tree.ptr_node] at e1
        simp only [hX, Tree.ptr_node, bind_ok, pure_ok, Prod.mk.injEq] at h
        obtain ⟨⟨nd, sx⟩, e1', ⟨s2, lg⟩, h6, -, rfl⟩ := h
        rw [e1] at e1'
        cases e1'
        exact deleteOneChildTraced_holds v1.linked (noRedRed_sibs hqR) h6

/-! ## The contracts, continued -/

/-- C20: in a tree with consistent parent links whose in-order sequence is
strictly increasing under a total-order comparator, `getSuccessor` on a node
returns the node holding the value that comes right after the node's value in
the in-order sequence, and returns `NULL` exactly when no value comes after
it, that is, exactly when the node holds the maximum. -/
theorem getSuccessor_next {s : RBTree α} {t : Tree α} {a fuel : Nat} (hm : Models s t)
    (ho : t.Ordered s.compFunc) (hc : TotalCmp s.compFunc) (ha : a ∈ t.addrs)
    (hfuel : t.height ≤ fuel) :
    ∃ n res, s.mem a = some n ∧ getSuccessor fuel s (some a) = .ok res ∧
      n.data ∈ t.inorder ∧
      (∀ A B, t.inorder = A ++ n.data :: B →
        (B = [] ↔ res = none) ∧
        ∀ w B', B = w :: B' →
          ∃ b m, res = some b ∧ b ∈ t.addrs ∧ s.mem b = some m ∧ m.data = w) ∧
      (res = none ↔ ∀ x ∈ t.inorder, s.compFunc x n.data ≤ 0) := by
  obtain ⟨n, A0, B0, hn, hio, h1, h2⟩ := getSuccessor_spec hm.linked ha hfuel
  have hnd : (A0 ++ n.data :: B0).Nodup := by
    rw [← hio]; exact nodup_of_ordered hc ho
  have hpw : (A0 ++ n.data :: B0).Pairwise (fun a b => s.compFunc a b < 0) := by
    rw [← hio]; exact ho
  have hA : ∀ x ∈ A0, s.compFunc x n.data < 0 := fun x hx =>
    (List.pairwise_append.1 hpw).2.2 x hx _ (List.mem_cons_self _ _)
  have hB : ∀ x ∈ B0, s.compFunc n.data x < 0 := fun x hx =>
    (List.pairwise_cons.1 (List.pairwise_append.1 hpw).2.1).1 x hx
  cases B0 with
  | nil =>
    refine ⟨n, none, hn, h1 rfl, by rw [hio]; simp, ?_, ?_⟩
    · intro A B e
      obtain ⟨-, rfl⟩ := append_cons_unique hnd (hio.symm.trans e)
      exact ⟨by simp, fun w B' e' => by simp at e'⟩
    · refine ⟨fun _ x hx => ?_, fun _ => rfl⟩
      rw [hio] at hx
      rcases List.mem_append.1 hx with hx | hx
      · exact Int.le_of_lt (hA x hx)
      · simp only [List.mem_singleton] at hx
        rw [hx, hc.self_eq]
  | cons w B' =>
    obtain ⟨b, m, e1, e2, e3, e4⟩ := h2 w B' rfl
    refine ⟨n, some b, hn, e1, by rw [hio]; simp, ?_, ?_⟩
    · intro A B e
      obtain ⟨-, rfl⟩ := append_cons_unique hnd (hio.symm.trans e)
      refine ⟨by simp, fun w' B'' e' => ?_⟩
      simp only [List.cons.injEq] at e'
      exact ⟨b, m, rfl, e2, e3, e4.trans e'.1⟩
    · refine ⟨fun e => by simp at e, fun hall => ?_⟩
      have h3 := hall w (by rw [hio]; simp)
      have h4 := (hc.swap _ _).1 (hB w (List.mem_cons_self _ _))
      omega

/-- C20, at the tree built from 7, 3, 18, 10, 22, 8, 11, 26, for the node at
address 7, which holds 11: the successor is the node holding 18. -/
theorem getSuccessor_next_witness :
    ∃ n res, (stateOf cmpInt tree8).mem 7 = some n ∧
      getSuccessor 4 (stateOf cmpInt tree8) (some 7) = .ok res ∧
      n.data ∈ tree8.inorder ∧
      (∀ A B, tree8.inorder = A ++ n.data :: B →
        (B = [] ↔ res = none) ∧
        ∀ w B', B = w :: B' →
          ∃ b m, res = some b ∧ b ∈ tree8.addrs ∧ (stateOf cmpInt tree8).mem b = some m ∧
            m.data = w) ∧
      (res = none ↔ ∀ x ∈ tree8.inorder, cmpInt x n.data ≤ 0) :=
  getSuccessor_next (models_stateOf cmpInt (by decide)) tree8_redBlack.ordered totalCmp_cmpInt
    (by decide) (by decide)

/-- C19: in a tree with consistent parent links, for a node `x` at any
position, `leftRotation` and `rightRotation` leave the state exactly as it is
when the required child (right for `leftRotation`, left for `rightRotation`)
is absent; otherwise that child `y` takes the position of `x`, with the former
parent of `x` as its parent and as the new root when `x` had no parent, and
`x` becomes its child on the opposite side.  The in-order sequence of values
is the same afterwards, and every address holds the colour and the value it
held before. -/
theorem rotation_spec {s : RBTree α} {p : Path α} {x : Nat} {cx : Color} {L R : Tree α}
    {vx : α} (hm : Models s (plug p (.node x cx L vx R))) :
    (R = .nil → leftRotation s (some x) = .ok s) ∧
      (L = .nil → rightRotation s (some x) = .ok s) ∧
      (∀ y cy B vy C, R = .node y cy B vy C →
        ∃ s', leftRotation s (some x) = .ok s' ∧
          Models s' (plug p (.node y cy (.node x cx L vx B) vy C)) ∧
          (plug p (.node y cy (.node x cx L vx B) vy C)).inorder
            = (plug p (.node x cx L vx R)).inorder ∧
          SameTags s s' ∧
          s'.mem y = some ⟨vy, pathPtr p, some x, C.ptr, cy⟩ ∧
          s'.mem x = some ⟨vx, some y, L.ptr, B.ptr, cx⟩ ∧
          (p = [] → s'.root = some y)) ∧
      ∀ y cy C vy B, L = .node y cy C vy B →
        ∃ s', rightRotation s (some x) = .ok s' ∧
          Models s' (plug p (.node y cy C vy (.node x cx B vx R))) ∧
          (plug p (.node y cy C vy (.node x cx B vx R))).inorder
            = (plug p (.node x cx L vx R)).inorder ∧
          SameTags s s' ∧
          s'.mem y = some ⟨vy, pathPtr p, C.ptr, some x, cy⟩ ∧
          s'.mem x = some ⟨vx, some y, B.ptr, R.ptr, cx⟩ ∧
          (p = [] → s'.root = some y) := by
  refine ⟨?_, ?_, ?_, ?_⟩
  · rintro rfl; exact leftRotation_noop hm.linked
  · rintro rfl; exact rightRotation_noop hm.linked
  · rintro y cy B vy C rfl
    obtain ⟨s', e, v⟩ := leftRotation_spec hm.linked
    refine ⟨s', e, ⟨v.linked, ?_⟩, by simp [inorder_plug, Tree.inorder], leftRotation_tags e,
      v.linked.node_eq, Linked.node_eq (p := .L y cy vy C :: p) v.linked, ?_⟩
    · rw [v.frame.size, hm.size, count_plug, count_plug]
      simp [Tree.count]; omega
    · rintro rfl; exact v.linked.root
  · rintro y cy C vy B rfl
    obtain ⟨s', e, v⟩ := rightRotation_spec hm.linked
    refine ⟨s', e, ⟨v.linked, ?_⟩, by simp [inorder_plug, Tree.inorder], rightRotation_tags e,
      v.linked.node_eq, Linked.node_eq (p := .R y cy C vy :: p) v.linked, ?_⟩
    · rw [v.frame.size, hm.size, count_plug, count_plug]
      simp [Tree.count]; omega
    · rintro rfl; exact v.linked.root

/-- C19, at the tree built from 7, 3, 18, 10, 22, 8, 11, 26, for the root. -/
theorem rotation_spec_witness :
    (Tree.node 3 .RED
        (Tree.node 4 .BLACK (.node 6 .RED .nil 8 .nil) 10 (.node 7 .RED .nil 11 .nil)) 18
        (.node 5 .BLACK .nil 22 (.node 8 .RED .nil 26 .nil)) = (.nil : Tree Int) →
      leftRotation (stateOf cmpInt tree8) (some 1) = .ok (stateOf cmpInt tree8)) ∧
    ∃ s', leftRotation (stateOf cmpInt tree8) (some 1) = .ok s' ∧ s'.root = some 3 ∧
      SameTags (stateOf cmpInt tree8) s' :=
  have h := @rotation_spec Int (stateOf cmpInt tree8) [] 1 .BLACK (.node 2 .BLACK .nil 3 .nil)
    (.node 3 .RED
        (.node 4 .BLACK (.node 6 .RED .nil 8 .nil) 10 (.node 7 .RED .nil 11 .nil)) 18
        (.node 5 .BLACK .nil 22 (.node 8 .RED .nil 26 .nil)))
    7 (models_stateOf cmpInt (by decide))
  ⟨h.1, (h.2.2.1 _ _ _ _ _ rfl).imp (fun _ hs => ⟨hs.1, hs.2.2.2.2.2.2 rfl, hs.2.2.2.1⟩)⟩

/-! ### Absent arguments -/

/-- C14 fails as stated for the visitor: `forEachRBTree` never compares `func`
with `NULL`.  On an empty tree it returns true, not false, and on a tree with
a node it calls through the null pointer. -/
theorem forEachRBTree_null_visitor :
    forEachRBTree 1 (some (newRBTree cmpInt)) (none : Option (Int → Nat → Int × Nat)) 0
        = .ok (true, 0, []) ∧
      Models redRoot redRootTree ∧
      (∀ fuel, forEachRBTree (fuel + 1) (some redRoot) (none : Option (Int → Nat → Int × Nat)) 0
        = .error .nullCall) ∧
      ∀ fuel r, forEachRBTree fuel (some redRoot) (none : Option (Int → Nat → Int × Nat)) 0
        ≠ .ok r := by
  have key : ∀ fuel,
      forEachRBTree (fuel + 1) (some redRoot) (none : Option (Int → Nat → Int × Nat)) 0
        = .error .nullCall := by
    intro fuel
    simp [forEachRBTree, forEachLoop, findMin, load, redRoot, bind, Except.bind, pure,
      Except.pure]
  refine ⟨rfl, models_redRoot, key, ?_⟩
  intro fuel r
  match fuel with
  | 0 => simp [forEachRBTree, findMin, redRoot, bind, Except.bind]
  | fuel + 1 => rw [key fuel]; simp

/-- C14, amended: each of `insertToRBTree`, `RBTreeContains`,
`deleteFromRBTree` and `forEachRBTree` returns false when the tree is absent,
and each of the first three returns false when the value is absent; the tree
object, the visitor's `args` and the destructor log stay as they are, the
allocator is not consulted and the visitor is not called. -/
theorem absent_arguments_rejected {σ : Type} (fuel : Nat) (s : RBTree α) (d : Option α)
    (fresh : Ptr) (f : Option (α → σ → Int × σ)) (args : σ) :
    insertToRBTree (fuel + 1) none d fresh = .ok (false, none) ∧
      insertToRBTree fuel (some s) none fresh = .ok (false, some s) ∧
      RBTreeContains fuel none d = .ok false ∧
      RBTreeContains fuel (some s) none = .ok false ∧
      deleteFromRBTree fuel none d = .ok (false, none) ∧
      deleteFromRBTree (fuel + 1) (some s) none = .ok (false, some s) ∧
      forEachRBTree fuel none f args = .ok (false, args, []) := by
  refine ⟨?_, rfl, ?_, rfl, rfl, ?_, rfl⟩
  · cases d <;> simp [insertToRBTree, insertToNormalBst, bind, Except.bind, pure, Except.pure]
  · cases d <;> rfl
  · cases hr : s.root <;>
      simp [deleteFromRBTree, findXNormalBST, hr, bind, Except.bind, pure, Except.pure]

/-! ### Reachable states -/

theorem reachable_grown1 : Reachable cmpInt grown1 :=
  .insert .start (fun _ _ => rfl)
    (by rfl : insertToRBTree 2 (some (newRBTree cmpInt)) (some 5) (some 1)
      = .ok (true, some grown1))

theorem reachable_grown2 : Reachable cmpInt grown2 :=
  .insert reachable_grown1 (by intro a h; cases h; rfl)
    (by rfl : insertToRBTree 3 (some grown1) (some 9) (some 2) = .ok (true, some grown2))

theorem reachable_grown3 : Reachable cmpInt grown3 :=
  .delete reachable_grown2
    (by rfl : deleteFromRBTree 7 (some grown2) (some 5) = .ok (true, some grown3))

/-- C11: in every state reachable from `newRBTree` by calls of
`insertToRBTree` and `deleteFromRBTree`, whatever they returned, the `size`
field is the number of nodes reachable from the root, and it is the number of
values a traversal by `forEachRBTree` visits when the visitor never reports
failure; such a traversal returns true, with enough fuel. -/
theorem size_counts_nodes {σ : Type} {cmp : α → α → Int} {s : RBTree α} (h : Reachable cmp s)
    (f : α → σ → Int × σ) (hf : ∀ x a, (f x a).1 ≠ 0) (args : σ) :
    ∃ (nodes : List Nat) (vals : List α) (n : Nat),
      nodes.Nodup ∧ (∀ a, a ∈ nodes ↔ Reaches s a) ∧ s.size = nodes.length ∧
      s.size = vals.length ∧
      ∀ fuel, n ≤ fuel →
        forEachRBTree fuel (some s) (some f) args = .ok (true, argsAfter f vals args, vals) := by
  obtain ⟨t, hm, -, -⟩ := reachable_inv h
  refine ⟨t.addrs, t.inorder, t.count + t.height + 1, hm.linked.nodup,
    fun a => (reaches_iff hm.linked a).symm, ?_, ?_, ?_⟩
  · rw [hm.size, count_eq_length_addrs]
  · rw [hm.size, length_inorder]
  · intro fuel hfuel
    rw [forEachRBTree_sim f hm.linked (by omega) args, visitList_all hf]
    simp

/-- C11, at the state reached by inserting 5 and 9 and deleting 5, for the
visitor that counts its calls. -/
theorem size_counts_nodes_witness :
    Reachable cmpInt grown3 ∧ (∀ (x : Int) (a : Nat), (countCalls x a).1 ≠ 0) ∧
      ∃ (nodes : List Nat) (vals : List Int) (n : Nat),
        nodes.Nodup ∧ (∀ a, a ∈ nodes ↔ Reaches grown3 a) ∧ grown3.size = nodes.length ∧
        grown3.size = vals.length ∧
        ∀ fuel, n ≤ fuel →
          forEachRBTree fuel (some grown3) (some countCalls) 0
            = .ok (true, argsAfter countCalls vals 0, vals) :=
  ⟨reachable_grown3, fun _ _ => by simp [countCalls],
    size_counts_nodes reachable_grown3 countCalls (fun _ _ => by simp [countCalls]) 0⟩

/-- C12: in every state reachable from the empty tree by calls of
`insertToRBTree` and `deleteFromRBTree`, the links spell out exactly one
tree, and its height, the number of nodes on the longest path from the root
down, is at most twice the binary logarithm of `size + 1`, rounded down; put
without logarithms, two to the height is at most the square of `size + 1`. -/
theorem reachable_height_bound {cmp : α → α → Int} {s : RBTree α} (h : Reachable cmp s) :
    ∃ t, Models s t ∧ (∀ t', Models s t' → t' = t) ∧
      t.height ≤ 2 * Nat.log 2 (s.size.toNat + 1) ∧
      2 ^ t.height ≤ (s.size.toNat + 1) ^ 2 := by
  obtain ⟨t, hm, hc, -⟩ := reachable_inv h
  have hs : s.size.toNat = t.count := by rw [hm.size]; simp
  refine ⟨t, hm, fun t' hm' => hm.linked.unique hm'.linked, ?_, ?_⟩
  · rw [hs]; exact height_le_log hc
  · rw [hs]; exact pow_height_le hc

/-- C12, at the state reached by inserting 5 and then 9. -/
theorem reachable_height_bound_witness :
    Reachable cmpInt grown2 ∧
      ∃ t, Models grown2 t ∧ (∀ t', Models grown2 t' → t' = t) ∧
        t.height ≤ 2 * Nat.log 2 (grown2.size.toNat + 1) ∧
        2 ^ t.height ≤ (grown2.size.toNat + 1) ^ 2 :=
  ⟨reachable_grown2, reachable_height_bound reachable_grown2⟩

/-! ### Release -/

/-- C13: on a tree object with node count `size`, `freeRBTree` returns, with
fuel above the height, an absent tree reference; the destructor has then been
called on the contained values, once for each entry of the in-order
sequence and on nothing else, `size` calls in all, and every node has been
released.  On an empty tree no call is made.  On an absent reference, which
is what a first call leaves, `freeRBTree` returns without doing anything. -/
theorem freeRBTree_releases {s : RBTree α} {t : Tree α} {fuel : Nat} (hm : Models s t)
    (hf : t.height < fuel) :
    ∃ s' calls, freeRBTree fuel (some s) = .ok (none, some s') ∧
      s'.freed = s.freed ++ calls ∧ calls.Perm t.inorder ∧ (calls.length : Int) = s.size ∧
      (∀ a ∈ t.addrs, s'.mem a = none) ∧ (t = .nil → calls = []) ∧
      freeRBTree fuel (none : Option (RBTree α)) = .ok (none, none) := by
  obtain ⟨s', e, hfreed, hmem, -⟩ := freeRBTree_spec hm.linked hf
  refine ⟨s', t.postorder, e, hfreed, postorder_perm t, ?_, hmem, ?_, rfl⟩
  · rw [length_postorder, hm.size]
  · rintro rfl; rfl

/-- C13, at the tree built from 7, 3, 18, 10, 22, 8, 11, 26. -/
theorem freeRBTree_releases_witness :
    Models (stateOf cmpInt tree8) tree8 ∧ tree8.height < 5 ∧
      ∃ s' calls, freeRBTree 5 (some (stateOf cmpInt tree8)) = .ok (none, some s') ∧
        s'.freed = (stateOf cmpInt tree8).freed ++ calls ∧ calls.Perm tree8.inorder ∧
        (calls.length : Int) = (stateOf cmpInt tree8).size ∧
        (∀ a ∈ tree8.addrs, s'.mem a = none) ∧ (tree8 = .nil → calls = []) ∧
        freeRBTree 5 (none : Option (RBTree Int)) = .ok (none, none) :=
  ⟨models_stateOf cmpInt (by decide), by decide,
    freeRBTree_releases (models_stateOf cmpInt (by decide)) (by decide)⟩

/-! ### Parent links -/

theorem Tree.RedBlack.coloured {cmp : α → α → Int} {t : Tree α} (h : t.RedBlack cmp) :
    t.Coloured :=
  ⟨h.rootBlack, h.noRedRed, h.balanced⟩

/-- C15: on a tree object whose colours satisfy the red-black invariants
(black root, no red node with a red child, equal black counts), the parent
links are inverse to the child links; `insertToRBTree` and `deleteFromRBTree`
return on it, whatever the value, and in the state any such call leaves the
parent links are again inverse to the child links.  When `malloc` hands out a
node, its address holds no live node. -/
theorem parent_links_preserved {s : RBTree α} {t : Tree α} (hm : Models s t) (hc : t.Coloured)
    (d : Option α) (fresh : Ptr) (hfresh : ∀ a, fresh = some a → s.mem a = none) :
    ParentLinks s ∧
      (∃ fuel b s', insertToRBTree fuel (some s) d fresh = .ok (b, some s')) ∧
      (∀ fuel b o, insertToRBTree fuel (some s) d fresh = .ok (b, o) →
        ∃ s', o = some s' ∧ ParentLinks s') ∧
      (∃ fuel b s', deleteFromRBTree fuel (some s) d = .ok (b, some s')) ∧
      (∀ fuel b o, deleteFromRBTree fuel (some s) d = .ok (b, o) →
        ∃ s', o = some s' ∧ ParentLinks s') := by
  refine ⟨hm.linked.parentLinks, ?_, ?_, ?_, ?_⟩
  · obtain ⟨b, s', -, e, -⟩ := insert_at d fresh hm hc hfresh
    exact ⟨_, b, s', e⟩
  · intro fuel b o e
    obtain ⟨s', t', e1, hm', -, -⟩ := insert_result hm hc hfresh e
    exact ⟨s', e1, hm'.linked.parentLinks⟩
  · obtain ⟨b, s', -, e, -⟩ := delete_at d hm hc
    exact ⟨_, b, s', e⟩
  · intro fuel b o e
    obtain ⟨s', t', e1, hm', -, -⟩ := delete_result hm hc e
    exact ⟨s', e1, hm'.linked.parentLinks⟩

/-- C15, at the tree built from 7, 3, 18, 10, 22, 8, 11, 26, for the value 10
and a new node at address 9. -/
theorem parent_links_preserved_witness :
    Models (stateOf cmpInt tree8) tree8 ∧ tree8.Coloured ∧
      (∀ a, some 9 = some a → (stateOf cmpInt tree8).mem a = none) ∧
      ParentLinks (stateOf cmpInt tree8) ∧
      (∃ fuel b s', insertToRBTree fuel (some (stateOf cmpInt tree8)) (some 10) (some 9)
        = .ok (b, some s')) ∧
      (∀ fuel b o, insertToRBTree fuel (some (stateOf cmpInt tree8)) (some 10) (some 9)
        = .ok (b, o) → ∃ s', o = some s' ∧ ParentLinks s') ∧
      (∃ fuel b s', deleteFromRBTree fuel (some (stateOf cmpInt tree8)) (some 10)
        = .ok (b, some s')) ∧
      (∀ fuel b o, deleteFromRBTree fuel (some (stateOf cmpInt tree8)) (some 10) = .ok (b, o) →
        ∃ s', o = some s' ∧ ParentLinks s') :=
  ⟨models_stateOf cmpInt (by decide), tree8_redBlack.coloured,
    fun a h => by cases h; exact stateOf_free cmpInt (by decide),
    parent_links_preserved (models_stateOf cmpInt (by decide)) tree8_redBlack.coloured (some 10)
      (some 9) (fun a h => by cases h; exact stateOf_free cmpInt (by decide))⟩

/-! ### Vectors -/

/-- C16: for vectors whose coordinate arrays hold `len` entries of a linear
order and whose lengths differ by less than `2 ^ 31` either way,
`vectorCompare1By1` returns a negative number exactly when the first vector
is lexicographically less than the second (smaller coordinate at the first
difference, or proper prefix), zero exactly when lengths and coordinates are
the same, and a positive number in all other cases; the call with the
arguments swapped returns a number of the opposite sign. -/
theorem vectorCompare1By1_lexicographic {K : Type} [LinearOrder K] (a b : Vector K)
    (ha : (a.coords.length : Int) = a.len) (hb : (b.coords.length : Int) = b.len)
    (h1 : a.len - b.len < 2 ^ 31) (h2 : b.len - a.len < 2 ^ 31) :
    ∃ r r', vectorCompare1By1 a b = .ok r ∧ vectorCompare1By1 b a = .ok r' ∧
      (r < 0 ↔ LexLess a.coords b.coords) ∧
      (r = 0 ↔ a.len = b.len ∧ a.coords = b.coords) ∧
      (0 < r ↔ ¬ LexLess a.coords b.coords ∧ ¬ (a.len = b.len ∧ a.coords = b.coords)) ∧
      r.sign = -r'.sign := by
  obtain ⟨r, r', e, e', hlt, heq, -, hs⟩ := vectorCompare1By1_signs a b ha hb h1 h2
  have heq' : r = 0 ↔ a.len = b.len ∧ a.coords = b.coords :=
    ⟨fun h => ⟨by rw [← ha, ← hb, heq.1 h], heq.1 h⟩, fun h => heq.2 h.2⟩
  refine ⟨r, r', e, e', hlt, heq', ?_, hs⟩
  rw [← hlt, ← heq']
  omega

/-- C16, at the vectors (1, 2) and (1, 2, 5) over the integers. -/
theorem vectorCompare1By1_lexicographic_witness :
    ((vecShort.coords.length : Int) = vecShort.len ∧
      (vecLong.coords.length : Int) = vecLong.len ∧
      vecShort.len - vecLong.len < 2 ^ 31 ∧ vecLong.len - vecShort.len < 2 ^ 31) ∧
    ∃ r r', vectorCompare1By1 vecShort vecLong = .ok r ∧
      vectorCompare1By1 vecLong vecShort = .ok r' ∧
      (r < 0 ↔ LexLess vecShort.coords vecLong.coords) ∧
      (r = 0 ↔ vecShort.len = vecLong.len ∧ vecShort.coords = vecLong.coords) ∧
      (0 < r ↔ ¬ LexLess vecShort.coords vecLong.coords ∧
        ¬ (vecShort.len = vecLong.len ∧ vecShort.coords = vecLong.coords)) ∧
      r.sign = -r'.sign :=
  ⟨⟨by decide, by decide, by decide, by decide⟩,
    vectorCompare1By1_lexicographic vecShort vecLong (by decide) (by decide) (by decide)
      (by decide)⟩

/-- Rounding at work: the squared norm of (100000000, 1) is 10^16 + 1, the
sum the code computes for it is 10^16, the squared norm of (100000000); the
comparison reports equality and `findMaxNormVectorInTree` returns a copy of
(100000000), which does not have the greatest squared norm. -/
theorem rounding_example :
    calculateTheNormSquared ⟨2, some [.ofNat 100000000, .ofNat 1]⟩
        = .ok (.finite false 5000000000000000 1) ∧
      calculateTheNormSquared ⟨1, some [.ofNat 100000000]⟩
        = .ok (.finite false 5000000000000000 1) ∧
      findMaxNormVectorInTree 6 true true (some (stateOf (fun _ _ => 0) roundTree))
        = .ok (some ⟨1, some [.ofNat 100000000]⟩) :=
  ⟨by rfl, by rfl, by rfl⟩

/-- C18: on a tree object whose colours satisfy the red-black invariants,
`deleteFromRBTree` with the stages logged returns, with fuel above three
times the height, the same result as `deleteFromRBTree`, and every logged
entry is as claimed: at an entry into stage 3 the sibling of the deficient
position is absent or black; at an entry into stage 6 the sibling is a
present black node whose far child is a present red node, and `deleteLevel6`
runs from there without a fault.  The deficient position `node` may be
absent at either entry. -/
theorem fixup_stage_entries {s : RBTree α} {t : Tree α} {fuel : Nat} (d : Option α)
    (hm : Models s t) (hc : t.Coloured) (hfuel : 3 * t.height < fuel) :
    ∃ r log, deleteFromRBTreeTraced fuel (some s) d = .ok (r, log) ∧
      deleteFromRBTree fuel (some s) d = .ok r ∧
      ∀ e ∈ log, (e.stage = 3 ∧ e.SiblingBlack) ∨
        (e.stage = 6 ∧ e.FarChildRed ∧ ∃ out, deleteLevel6 e.tree e.node e.parent = .ok out) := by
  obtain ⟨b, s', t', e, -⟩ := delete_at d hm hc
  have e' := deleteFromRBTree_mono (show 3 * t.height + 1 ≤ fuel by omega) e
  obtain ⟨log, hl⟩ := (deleteFromRBTreeTraced_erase fuel (some s) d (b, some s')).1 e'
  exact ⟨(b, some s'), log, hl, e', deleteFromRBTreeTraced_holds hm hc hfuel hl⟩

/-- Deleting 3 from the tree built from 7, 3, 18, 10, 22, 8, 11, 26 removes a
black node without children: the fix-up enters stage 3 and then stage 6, both
times with an absent `node` below the node at address 1. -/
theorem fixup_log_example :
    (match deleteFromRBTreeTraced 13 (some (stateOf cmpInt tree8)) (some 3) with
      | .ok (_, [e3, e6]) =>
        decide (e3.stage = 3 ∧ e3.node = none ∧ e3.parent = some 1 ∧
          e6.stage = 6 ∧ e6.node = none ∧ e6.parent = some 1)
      | _ => false) = true := by
  rfl

/-- C18, at the tree built from 7, 3, 18, 10, 22, 8, 11, 26, for the value
3. -/
theorem fixup_stage_entries_witness :
    Models (stateOf cmpInt tree8) tree8 ∧ tree8.Coloured ∧ 3 * tree8.height < 13 ∧
      ∃ r log, deleteFromRBTreeTraced 13 (some (stateOf cmpInt tree8)) (some 3) = .ok (r, log) ∧
        deleteFromRBTree 13 (some (stateOf cmpInt tree8)) (some 3) = .ok r ∧
        ∀ e ∈ log, (e.stage = 3 ∧ e.SiblingBlack) ∨
          (e.stage = 6 ∧ e.FarChildRed ∧
            ∃ out, deleteLevel6 e.tree e.node e.parent = .ok out) :=
  ⟨models_stateOf cmpInt (by decide), tree8_redBlack.coloured, by decide,
    fixup_stage_entries (some 3) (models_stateOf cmpInt (by decide)) tree8_redBlack.coloured
      (by decide)⟩

/-! ## Values stay at their addresses during a deletion -/

theorem SameData.data_refl (s : RBTree α) : SameData s s := fun _ => rfl

theorem SameData.data_comp {s₁ s₂ s₃ : RBTree α} (h₁ : SameData s₁ s₂) (h₂ : SameData s₂ s₃) :
    SameData s₁ s₃ := fun a => (h₂ a).trans (h₁ a)

theorem SameTags.sameData {s s' : RBTree α} (h : SameTags s s') : SameData s s' := by
  intro a
  have := congrArg (Option.map Prod.snd) (h a)
  simpa [Option.map_map, Function.comp_def] using this

theorem setColor_data {s s' : RBTree α} {p : Ptr} {c : Color} (h : setColor s p c = .ok s') :
    SameData s s' := by
  intro a
  cases p with
  | none => simp [setColor] at h
  | some b =>
    simp only [setColor] at h
    cases hb : s.mem b with
    | none => simp [hb] at h
    | some n =>
      simp only [hb, Except.ok.injEq] at h
      subst h
      by_cases e : a = b
      · subst e; simp [store, hb]
      · simp [store, Function.update_noteq e]

theorem replaceNode_data {s s' : RBTree α} {n child : Ptr} (h : replaceNode s n child = .ok s') :
    SameData s s' := by
  simp only [replaceNode, bind_ok] at h
  obtain ⟨nn, -, h⟩ := h
  split at h
  · simp only [pure_ok] at h; subst h; exact SameData.data_refl _
  · exact (setParent_tags h).sameData
  · simp only [bind_ok] at h
    obtain ⟨pn, -, h⟩ := h
    split_ifs at h
    · exact (setLeft_tags h).sameData
    · exact (setRight_tags h).sameData
  · simp only [bind_ok] at h
    obtain ⟨s1, h1, nn2, -, pn, -, h⟩ := h
    refine (setParent_tags h1).sameData.data_comp ?_
    split_ifs at h
    · exact (setLeft_tags h).sameData
    · exact (setRight_tags h).sameData

theorem deleteLevel6_data {s s' : RBTree α} {n p : Ptr} (h : deleteLevel6 s n p = .ok s') :
    SameData s s' := by
  simp only [deleteLevel6, bind_ok] at h
  obtain ⟨sb, -, pn, -, s1, e1, s2, e2, pn2, -, h⟩ := h
  refine (setColor_data e1).data_comp ((setColor_data e2).data_comp ?_)
  split_ifs at h
  · simp only [bind_ok] at h
    obtain ⟨sn, -, s3, e3, h⟩ := h
    exact (setColor_data e3).data_comp (leftRotation_tags h).sameData
  · simp only [bind_ok] at h
    obtain ⟨sn, -, s3, e3, h⟩ := h
    exact (setColor_data e3).data_comp (rightRotation_tags h).sameData

theorem deleteLevel5_data {s s' : RBTree α} {n p : Ptr} (h : deleteLevel5 s n p = .ok s') :
    SameData s s' := by
  simp only [deleteLevel5, bind_ok] at h
  obtain ⟨sb, -, s5, ⟨b, -, hb⟩, h6⟩ := h
  refine SameData.data_comp ?_ (deleteLevel6_data h6)
  cases b with
  | false => simp only [Bool.false_eq_true, if_false, pure_ok] at hb; subst hb; exact .data_refl _
  | true =>
    simp only [if_true, bind_ok] at hb
    obtain ⟨pn, -, b2, -, hb⟩ := hb
    cases b2 with
    | true =>
      simp only [if_true, bind_ok] at hb
      obtain ⟨s1, e1, sn, -, s2, e2, hb⟩ := hb
      exact (setColor_data e1).data_comp ((setColor_data e2).data_comp
        (rightRotation_tags hb).sameData)
    | false =>
      simp only [Bool.false_eq_true, if_false, bind_ok] at hb
      obtain ⟨b3, -, hb⟩ := hb
      cases b3 with
      | true =>
        simp only [if_true, bind_ok] at hb
        obtain ⟨s1, e1, sn, -, s2, e2, hb⟩ := hb
        exact (setColor_data e1).data_comp ((setColor_data e2).data_comp
          (leftRotation_tags hb).sameData)
      | false =>
        simp only [Bool.false_eq_true, if_false, pure_ok] at hb
        subst hb
        exact .data_refl _

theorem deleteLevel4_data {s s' : RBTree α} {n p : Ptr} (h : deleteLevel4 s n p = .ok s') :
    SameData s s' := by
  simp only [deleteLevel4, bind_ok] at h
  obtain ⟨sb, -, pn, -, b, -, h⟩ := h
  cases b with
  | false =>
    simp only [Bool.false_eq_true, if_false] at h
    exact deleteLevel5_data h
  | true =>
    simp only [if_true, bind_ok] at h
    obtain ⟨s1, h1, h⟩ := h
    refine SameData.data_comp ?_ (setColor_data h)
    cases sb with
    | none => simp only [pure_ok] at h1; subst h1; exact .data_refl _
    | some a => exact setColor_data h1

theorem deleteLevel_data : ∀ (fuel : Nat),
    (∀ (s s' : RBTree α) (n p : Ptr), deleteLevel1 fuel s n p = .ok s' → SameData s s') ∧
    (∀ (s s' : RBTree α) (n p : Ptr), deleteLevel2 fuel s n p = .ok s' → SameData s s') ∧
    (∀ (s s' : RBTree α) (n p : Ptr), deleteLevel3 fuel s n p = .ok s' → SameData s s') := by
  intro fuel
  induction fuel with
  | zero =>
    refine ⟨?_, ?_, ?_⟩ <;> intro s s' n p h
    · simp [deleteLevel1] at h
    · simp [deleteLevel2] at h
    · simp [deleteLevel3] at h
  | succ k ih =>
    obtain ⟨ih1, ih2, ih3⟩ := ih
    refine ⟨?_, ?_, ?_⟩ <;> intro s s' n p h
    · cases p with
      | none => simp only [deleteLevel1, pure_ok] at h; subst h; exact .data_refl _
      | some a => simp only [deleteLevel1] at h; exact ih2 _ _ _ _ h
    · simp only [deleteLevel2, bind_ok] at h
      obtain ⟨sb, -, b, -, h⟩ := h
      cases b with
      | false =>
        simp only [Bool.false_eq_true, if_false] at h
        exact ih3 _ _ _ _ h
      | true =>
        simp only [if_true, bind_ok] at h
        obtain ⟨s1, e1, s2, e2, pn, -, s3, e3, h⟩ := h
        refine (setColor_data e1).data_comp ((setColor_data e2).data_comp
          (SameData.data_comp ?_ (ih3 _ _ _ _ h)))
        split_ifs at e3
        · exact (leftRotation_tags e3).sameData
        · exact (rightRotation_tags e3).sameData
    · simp only [deleteLevel3, bind_ok] at h
      obtain ⟨sb, -, pn, -, b, -, h⟩ := h
      cases b with
      | false =>
        simp only [Bool.false_eq_true, if_false] at h
        exact deleteLevel4_data h
      | true =>
        simp only [if_true, bind_ok] at h
        obtain ⟨s1, e1, pn2, -, h⟩ := h
        refine SameData.data_comp ?_ (ih1 _ _ _ _ h)
        cases sb with
        | none => simp only [pure_ok] at e1; subst e1; exact .data_refl _
        | some a => exact setColor_data e1

/-- `deleteOneChild` releases the node it is given and leaves every other
address with the value it held. -/
theorem deleteOneChild_data {fuel : Nat} {s s' : RBTree α} {n : Nat}
    (h : deleteOneChild fuel s (some n) = .ok s') :
    s'.mem n = none ∧
      ∀ a, a ≠ n → (s'.mem a).map (fun x => x.data) = (s.mem a).map (fun x => x.data) := by
  simp only [deleteOneChild, bind_ok, pure_ok] at h
  obtain ⟨nn, -, s1, h1, nn2, -, s2, h2, nn3, -, h⟩ := h
  have d1 := replaceNode_data h1
  have d2 : SameData s1 s2 := by
    by_cases hcol : nn2.color = .BLACK
    · rw [if_pos hcol] at h2
      simp only [bind_ok] at h2
      obtain ⟨b, -, h2⟩ := h2
      cases b with
      | true => simp only [if_true] at h2; exact setColor_data h2
      | false =>
        simp only [Bool.false_eq_true, if_false] at h2
        exact (deleteLevel_data fuel).1 _ _ _ _ h2
    · rw [if_neg hcol] at h2
      simp only [pure_ok] at h2
      subst h2
      exact .data_refl _
  have d := d1.data_comp d2
  have hmem : s'.mem = Function.update s2.mem n none := by
    rw [← h]
    split_ifs <;> rfl
  constructor
  · simp [hmem]
  · intro a ha
    rw [← d a, hmem, Function.update_noteq ha]

/-! ## Presence: the three descents -/

theorem models_redRed : Models redRed redRedTree :=
  ⟨⟨rfl, by simp [Rep, redRedTree, redRed], by simp [redRedTree, Tree.addrs]⟩, rfl⟩

theorem RBTreeContains_mono {tree : Option (RBTree α)} {d : Option α} {r : Bool} {n m : Nat}
    (hnm : n ≤ m) (h : RBTreeContains n tree d = .ok r) : RBTreeContains m tree d = .ok r := by
  cases tree with
  | none => simpa [RBTreeContains] using h
  | some s =>
    cases d with
    | none => simpa [RBTreeContains] using h
    | some d =>
      simp only [RBTreeContains, bind_ok] at h ⊢
      obtain ⟨p, hp, h⟩ := h
      exact ⟨p, @mono_of_step _ (fun fuel => findXNormalBST fuel s s.root (some d))
        (fun k r h => findXNormalBST_step k s s.root (some d) r h) n m p hnm hp, h⟩

/-- `RBTreeContains` answers `true` exactly when the descent by the comparator
ends at a node. -/
theorem contains_true_iff {s : RBTree α} {t : Tree α} {d : α} (h : Linked s t) :
    (∃ fuel, RBTreeContains fuel (some s) (some d) = .ok true) ↔
      (descend s.compFunc d t []).2 ≠ .nil := by
  have key : ∀ b, (∃ fuel, RBTreeContains fuel (some s) (some d) = .ok b) →
      b = (descend s.compFunc d t []).2.ptr.isSome := by
    rintro b ⟨fuel, hf⟩
    have h1 := RBTreeContains_mono (Nat.le_max_left fuel (t.height + 1)) hf
    rw [contains_sim h (lt_of_lt_of_le (Nat.lt_succ_self _) (Nat.le_max_right fuel _))] at h1
    exact (Except.ok.inj h1).symm
  constructor
  · intro hx
    have := key true hx
    intro hnil
    rw [hnil] at this
    simp [Tree.ptr] at this
  · intro hne
    refine ⟨t.height + 1, ?_⟩
    rw [contains_sim h (Nat.lt_succ_self _)]
    cases hd : (descend s.compFunc d t []).2 with
    | nil => exact absurd hd hne
    | node x c l v r => simp [Tree.ptr]

/-- `insertToRBTree` answers `false` exactly when the descent by the
comparator ends at a node. -/
theorem insert_false_iff {s : RBTree α} {t : Tree α} {d : α} {a : Nat} (h : Linked s t)
    (ha : s.mem a = none) :
    (∃ fuel o, insertToRBTree fuel (some s) (some d) (some a) = .ok (false, o)) ↔
      (descend s.compFunc d t []).2 ≠ .nil := by
  constructor
  · rintro ⟨fuel, o, hf⟩ hnil
    have h1 := insertToRBTree_mono (Nat.le_max_left fuel (t.height + 1)) hf
    obtain ⟨s1, e1, -⟩ := (insertToNormalBst_sim d a t (max fuel (t.height + 1)) [] s
      (lt_of_lt_of_le (Nat.lt_succ_self _) (Nat.le_max_right fuel _)) h ha).1
        (descend s.compFunc d t []).1 (by rw [← hnil])
    simp only [pathPtr, pathLink] at e1
    simp only [insertToRBTree, e1, bind, Except.bind, pure, Except.pure] at h1
    cases hfix : fixInsertToRBTree (max fuel (t.height + 1)) { s1 with size := s1.size + 1 }
        (some a) with
    | error e => simp [hfix, Functor.map, Except.map] at h1
    | ok s2 => simp [hfix, Functor.map, Except.map] at h1
  · intro hne
    refine ⟨t.height + 1, some s, ?_⟩
    have e1 := insertToNormalBst_found d (some a) t (t.height + 1) [] s (Nat.lt_succ_self _) h hne
    simp only [pathPtr, pathLink] at e1
    simp only [insertToRBTree, e1, bind, Except.bind, pure, Except.pure]

/-- A call of `deleteFromRBTree` that returns `true` found its node by the
search `RBTreeContains` runs. -/
theorem delete_true_contains {s : RBTree α} {d : α} {fuel : Nat} {o : Option (RBTree α)}
    (h : deleteFromRBTree fuel (some s) (some d) = .ok (true, o)) :
    RBTreeContains fuel (some s) (some d) = .ok true := by
  simp only [deleteFromRBTree, bind_ok] at h
  obtain ⟨p, hp, h⟩ := h
  cases p with
  | none => simp [pure, Except.pure] at h
  | some x => simp [RBTreeContains, hp, bind, Except.bind, pure, Except.pure]

/-- On a tree whose colours satisfy the red-black invariants,
`deleteFromRBTree` returns, and it answers `true` exactly when the descent by
the comparator ends at a node. -/
theorem delete_true_iff {s : RBTree α} {t : Tree α} {d : α} (hm : Models s t) (hc : t.Coloured) :
    (∃ fuel o, deleteFromRBTree fuel (some s) (some d) = .ok (true, o)) ↔
      (descend s.compFunc d t []).2 ≠ .nil := by
  constructor
  · rintro ⟨fuel, o, hf⟩
    exact (contains_true_iff hm.linked).1 ⟨fuel, delete_true_contains hf⟩
  · intro hne
    cases hd : (descend s.compFunc d t []).2 with
    | nil => exact absurd hd hne
    | node x c l v r =>
      have hd' : descend s.compFunc d t [] = ((descend s.compFunc d t []).1, .node x c l v r) := by
        rw [← hd]
      obtain ⟨s', t', e, -⟩ := @delete_core _ s t d (3 * t.height + 1) _ x c l r v hm hc.rootBlack hc.noRedRed
        hc.balanced hd' (Nat.lt_succ_self _)
      exact ⟨_, _, e⟩

/-! ## The node a deletion releases -/

theorem swapDown_one {p : Path α} {x : Nat} {c : Color} {l r : Tree α} {v : α}
    (h : l = .nil ∨ r = .nil) : swapDown p (.node x c l v r) = (p, .node x c l v r) := by
  rcases h with rfl | rfl
  · rfl
  · cases l <;> rfl

theorem swapDown_two {p : Path α} {x : Nat} {c : Color} {l r : Tree α} {v : α}
    (hl : l ≠ .nil) (hr : r ≠ .nil) :
    ∃ q m mc mv mr, descendMin r [] = (q, .node m mc .nil mv mr) ∧
      swapDown p (.node x c l v r) = (q ++ .R x c l mv :: p, .node m mc .nil v mr) ∧
      r = plug q (.node m mc .nil mv mr) ∧ r.inorder = mv :: (mr.inorder ++ pathPost q) := by
  obtain ⟨m, mc, mv, mr, hmin⟩ := descendMin_shape r [] hr
  have hq : descendMin r [] = ((descendMin r []).1, .node m mc .nil mv mr) := by rw [← hmin]
  refine ⟨(descendMin r []).1, m, mc, mv, mr, hq, ?_, ?_, ?_⟩
  · cases l with
    | nil => exact absurd rfl hl
    | node la lc ll lv lr =>
      cases r with
      | nil => exact absurd rfl hr
      | node ra rc rl rv rr =>
        simp only [swapDown]
        rw [hq]
  · have := descendMin_plug r []
    rw [hmin] at this
    simpa using this.symm
  · have := descendMin_post r []
    rw [hmin] at this
    simpa [Tree.inorder, pathPost] using this.symm

/-- The two stages of a deletion on a well-coloured tree: `deleteNormalBST`
hands on the node `swapDown` names, in a state linked as the tree with the
two values exchanged, and `deleteOneChild` removes that node. -/
theorem delete_stages {s : RBTree α} {t : Tree α} {d : α} {fuel : Nat} {p : Path α} {x : Nat}
    {c : Color} {l r : Tree α} {v : α}
    (hm : Models s t) (hB : t.isBlack = true) (hR : t.NoRedRed) (hBal : t.Balanced)
    (hd : descend s.compFunc d t [] = (p, .node x c l v r)) (hfuel : 3 * t.height < fuel) :
    ∃ s1 s' t' q m mc ml mr, swapDown p (.node x c l v r) = (q, .node m mc ml v mr) ∧
      t = plug p (.node x c l v r) ∧
      deleteNormalBST fuel s (some x) = .ok (some m, s1) ∧
      Linked s1 (plug q (.node m mc ml v mr)) ∧
      deleteOneChild fuel s1 (some m) = .ok s' ∧
      deleteFromRBTree fuel (some s) (some d) = .ok (true, some s') ∧ Linked s' t' ∧
      t'.addrs.Perm (plug q (Tree.node m mc ml v mr).onlyChild).addrs := by
  have hplug : plug p (.node x c l v r) = t := by
    have := descend_plug s.compFunc d t []
    rw [hd] at this
    simpa using this
  have hlen := descend_length s.compFunc d t []
  rw [hd] at hlen
  simp only [List.length_nil, Nat.zero_add] at hlen
  have hfind := findXNormalBST_sim s d t fuel none [] (by omega) hm.linked.rep
  rw [hd, ← hm.linked.root] at hfind
  simp only [Tree.ptr_node] at hfind
  subst hplug
  obtain ⟨q, m, mc, ml, mr, hsw, hml, hqB, hqR, hqBal, hqio, hqlen⟩ := swapDown_spec hB hR hBal
  obtain ⟨s1, e1, v1⟩ := deleteNormalBST_sim fuel hm.linked (by simp) (by omega)
  rw [hsw] at v1 e1
  simp only [Tree.ptr_node] at e1
  obtain ⟨t', hz, hB', hR', hBal', hio', hcnt⟩ := removeZ_spec hqB hqR hqBal hml
  have hsz1 : s1.size = (plug q (.node m mc ml v mr)).count := by
    rw [v1.frame.size, hm.size, count_eq_length_addrs, count_eq_length_addrs, v1.nodes.length_eq]
  have hdel : ∀ s', deleteOneChild fuel s1 (some m) = .ok s' →
      deleteFromRBTree fuel (some s) (some d) = .ok (true, some s') := by
    intro s' h'
    simp only [deleteFromRBTree, hfind, bind, Except.bind, pure, Except.pure, e1, h']
  cases q with
  | nil =>
    obtain ⟨k, rfl⟩ : ∃ k, fuel = k + 1 := ⟨fuel - 1, by omega⟩
    obtain ⟨s', h1, h2, -, -, -, h6⟩ := deleteOneChild_sim_root k v1.linked hsz1 hml hcnt hz
    exact ⟨s1, s', t', _, m, mc, ml, mr, hsw, rfl, e1, v1.linked, h1, hdel s' h1, h2, h6⟩
  | cons f rest =>
    obtain ⟨s', h1, h2, -, -, -, h6⟩ := deleteOneChild_sim_inner fuel v1.linked hsz1 hml hz
      (by simp only [List.length_cons] at hqlen ⊢; omega)
    exact ⟨s1, s', t', _, m, mc, ml, mr, hsw, rfl, e1, v1.linked, h1, hdel s' h1, h2, h6⟩

/-- Under a total-order comparator an ordered tree holds at most one value
that compares equal to `d`. -/
theorem found_unique {cmp : α → α → Int} (hc : TotalCmp cmp) {t : Tree α} (ho : t.Ordered cmp)
    {d v w : α} (hv : v ∈ t.inorder) (hw : w ∈ t.inorder) (hdv : cmp d v = 0)
    (hdw : cmp d w = 0) : w = v := by
  have e1 := hc.eq_swap hdw
  have e2 := hc.eq_swap hdv
  have h1 := hc.trans w d v (by omega) (by omega)
  have h2 := hc.trans v d w (by omega) (by omega)
  have h3 := hc.swap w v
  exact (ordered_eq_of_cmp_zero hc ho hv hw (by omega)).symm

/-- What a deletion does to the node the descent finds: the destructor
receives that node's value once; a node with at most one child is released
itself, for a node with two children the values of the node and of its
successor are exchanged and the successor is released. -/
theorem delete_target {s : RBTree α} {t : Tree α} {d : α} {fuel : Nat} {p : Path α} {x : Nat}
    {c : Color} {l r : Tree α} {v : α} (hm : Models s t) (hrb : t.RedBlack s.compFunc)
    (hd : descend s.compFunc d t [] = (p, .node x c l v r)) (hfuel : 3 * t.height < fuel) :
    ∃ s' t' A B m s1,
      deleteFromRBTree fuel (some s) (some d) = .ok (true, some s') ∧ Models s' t' ∧
      t'.RedBlack s'.compFunc ∧
      s.mem x = some ⟨v, pathPtr p, l.ptr, r.ptr, c⟩ ∧ s.compFunc d v = 0 ∧
      (TotalCmp s.compFunc → ∀ w ∈ t.inorder, s.compFunc d w = 0 → w = v) ∧
      s'.freed = s.freed ++ [v] ∧ t.inorder = A ++ v :: B ∧ t'.inorder = A ++ B ∧
      deleteNormalBST fuel s (some x) = .ok (some m, s1) ∧
      deleteOneChild fuel s1 (some m) = .ok s' ∧ s'.mem m = none ∧ m ∉ t'.addrs ∧
      (l = .nil ∨ r = .nil → m = x) ∧
      (l ≠ .nil → r ≠ .nil → ∃ nm mv B',
        getSuccessor fuel s (some x) = .ok (some m) ∧ s.mem m = some nm ∧ nm.data = mv ∧
        nm.left = none ∧ B = mv :: B' ∧
        (s1.mem x).map (fun n => n.data) = some mv ∧
        (s1.mem m).map (fun n => n.data) = some v ∧
        x ∈ t'.addrs ∧ (s'.mem x).map (fun n => n.data) = some mv) := by
  obtain ⟨s', t', h1, h2, h3, h4, h5, -, h7, h8, h9, h10, -⟩ :=
    delete_core hm hrb.rootBlack hrb.noRedRed hrb.balanced hd hfuel
  obtain ⟨s1, s'', t'', q, m, mc, ml, mr, hsw, hplug, e1, l1, e2, e3, l2, hperm⟩ :=
    delete_stages hm hrb.rootBlack hrb.noRedRed hrb.balanced hd hfuel
  have hs : s'' = s' := by
    rw [h1] at e3
    simp only [Except.ok.injEq, Prod.mk.injEq, Option.some.injEq, true_and] at e3
    exact e3.symm
  subst hs
  have ht : t'' = t' := (l2.unique h2.linked).symm
  subst ht
  have hA : t.inorder = (pathPre p ++ l.inorder) ++ v :: (r.inorder ++ pathPost p) := by
    rw [h9]; simp
  have hB : t''.inorder = (pathPre p ++ l.inorder) ++ (r.inorder ++ pathPost p) := by
    rw [h10]; simp
  have ho : t''.Ordered s''.compFunc := by
    rw [h8]
    unfold Tree.Ordered
    rw [hB]
    refine ordered_of_append (x := v) ?_
    rw [← hA]
    exact hrb.ordered
  have hlink : Linked s (plug p (.node x c l v r)) := hplug ▸ hm.linked
  have hx := hlink.node_eq
  have hfree := deleteOneChild_data e2
  have hmt : m ∉ t''.addrs := h2.linked.not_mem_of_free hfree.1
  have hv : v ∈ t.inorder := by rw [hA]; simp
  refine ⟨s'', t'', _, _, m, s1, h1, h2, ⟨h3, h4, h5, ho⟩, hx, descend_found hd, ?_, h7, hA, hB,
    e1, e2, hfree.1, hmt, ?_, ?_⟩
  · intro hc w hw hdw
    exact found_unique hc hrb.ordered hv hw (descend_found hd) hdw
  · intro h
    rw [swapDown_one h] at hsw
    simp only [Prod.mk.injEq, Tree.node.injEq] at hsw
    exact hsw.2.1.symm
  · intro hl hr
    obtain ⟨q0, m', mc', mv, mr', hmin, hsw2, hrplug, hrio⟩ :=
      @swapDown_two _ p x c l r v hl hr
    rw [hsw2] at hsw
    simp only [Prod.mk.injEq, Tree.node.injEq] at hsw
    obtain ⟨rfl, rfl, rfl, rfl, -, rfl⟩ := hsw
    have hsm : Linked s (plug (q0 ++ .R x c l v :: p) (.node m' mc' .nil mv mr')) := by
      rw [plug_append, plug_cons, ← hrplug]
      exact hlink
    have hxm : Linked s1 (plug p (.node x c l mv (plug q0 (.node m' mc' .nil v mr')))) := by
      have := l1
      rw [plug_append, plug_cons] at this
      exact this
    have hxt : x ∈ t''.addrs := by
      refine hperm.symm.subset ?_
      rw [plug_append, plug_cons]
      exact mem_addrs_plug.2 (Or.inr (by simp [Step.fill, Tree.addrs]))
    have hne : x ≠ m' := fun e => hmt (e ▸ hxt)
    have hsucc : getSuccessor fuel s (some x) = .ok (some m') := by
      simp only [deleteNormalBST, bind_ok] at e1
      obtain ⟨n, hn, e1⟩ := e1
      rw [load_eq hx] at hn
      simp only [Except.ok.injEq] at hn
      subst hn
      cases l with
      | nil => exact absurd rfl hl
      | node la lc ll lv lr =>
        cases r with
        | nil => exact absurd rfl hr
        | node ra rc rl rv rr =>
          simp only [Tree.ptr_node, ne_eq, not_false_eq_true, and_self, if_true, bind_ok, pure_ok,
            Prod.mk.injEq, reduceCtorEq] at e1
          obtain ⟨sc, hsc, -, -, -, -, -, -, rfl, -⟩ := e1
          exact hsc
    refine ⟨_, mv, (mr'.inorder ++ pathPost q0) ++ pathPost p, hsucc, hsm.node_eq, rfl, rfl, ?_,
      ?_, ?_, hxt, ?_⟩
    · rw [hrio]; simp
    · rw [hxm.node_eq]; rfl
    · rw [l1.node_eq]; rfl
    · rw [hfree.2 x hne, hxm.node_eq]; rfl

/-! ## The value handed to the destructor; presence -/

/-- C21: when a call of `deleteFromRBTree` on a red-black tree returns `true`,
the descent by the comparator has found a node `x` holding a value `v` that
compares equal to the requested one (under a total-order comparator the only
such value in the tree), and the destructor has been called exactly once, on
`v`.  The tree left is a red-black tree with the in-order sequence of the old
one without `v`.  The node `m` that `deleteNormalBST` hands to
`deleteOneChild` is released and no longer in the tree.  When `x` has at most
one child, `m` is `x`.  When `x` has two children, `m` is the node
`getSuccessor` returns for `x`: it has no left child and holds the value `mv`
that follows `v` in order; `deleteNormalBST` exchanges the two values, and
after the call `x` is still in the tree and holds `mv`. -/
theorem deleteFromRBTree_destroys_target {s : RBTree α} {t : Tree α} {d : α} {fuel : Nat}
    {o : Option (RBTree α)} (hm : Models s t) (hrb : t.RedBlack s.compFunc)
    (hrun : deleteFromRBTree fuel (some s) (some d) = .ok (true, o)) :
    ∃ s' t' p x c l v r A B m k s1,
      o = some s' ∧ Models s' t' ∧ t'.RedBlack s'.compFunc ∧
      descend s.compFunc d t [] = (p, .node x c l v r) ∧
      s.mem x = some ⟨v, pathPtr p, l.ptr, r.ptr, c⟩ ∧ s.compFunc d v = 0 ∧
      (TotalCmp s.compFunc → ∀ w ∈ t.inorder, s.compFunc d w = 0 → w = v) ∧
      s'.freed = s.freed ++ [v] ∧ t.inorder = A ++ v :: B ∧ t'.inorder = A ++ B ∧
      deleteNormalBST k s (some x) = .ok (some m, s1) ∧
      deleteOneChild k s1 (some m) = .ok s' ∧ s'.mem m = none ∧ m ∉ t'.addrs ∧
      (l = .nil ∨ r = .nil → m = x) ∧
      (l ≠ .nil → r ≠ .nil → ∃ nm mv B',
        getSuccessor k s (some x) = .ok (some m) ∧ s.mem m = some nm ∧ nm.data = mv ∧
        nm.left = none ∧ B = mv :: B' ∧
        (s1.mem x).map (fun n => n.data) = some mv ∧
        (s1.mem m).map (fun n => n.data) = some v ∧
        x ∈ t'.addrs ∧ (s'.mem x).map (fun n => n.data) = some mv) := by
  have hne := (contains_true_iff hm.linked).1 ⟨fuel, delete_true_contains hrun⟩
  cases hd : (descend s.compFunc d t []).2 with
  | nil => exact absurd hd hne
  | node x c l v r =>
    have hd' : descend s.compFunc d t [] = ((descend s.compFunc d t []).1, .node x c l v r) := by
      rw [← hd]
    obtain ⟨s', t', A, B, m, s1, h1, h2, h3, h4, h5, h6, h7, h8, h9, h10, h11, h12, h13, h14,
      h15⟩ := @delete_target _ s t d (max fuel (3 * t.height + 1)) _ x c l r v hm hrb hd'
        (lt_of_lt_of_le (Nat.lt_succ_self _) (Nat.le_max_right fuel _))
    have hrun' := deleteFromRBTree_mono (Nat.le_max_left fuel (3 * t.height + 1)) hrun
    rw [h1] at hrun'
    simp only [Except.ok.injEq, Prod.mk.injEq, true_and] at hrun'
    exact ⟨s', t', _, x, c, l, v, r, A, B, m, _, s1, hrun'.symm, h2, h3, hd', h4, h5, h6, h7, h8,
      h9, h10, h11, h12, h13, h14, h15⟩

theorem deleteFromRBTree_destroys_target_witness :
    Models (stateOf cmpInt tree8) tree8 ∧ tree8.RedBlack cmpInt ∧
      deleteFromRBTree 13 (some (stateOf cmpInt tree8)) (some 18) = .ok (true, some without18) ∧
      ∃ s' t' p x c l v r A B m k s1,
        some without18 = some s' ∧ Models s' t' ∧ t'.RedBlack s'.compFunc ∧
        descend cmpInt 18 tree8 [] = (p, .node x c l v r) ∧
        (stateOf cmpInt tree8).mem x = some ⟨v, pathPtr p, l.ptr, r.ptr, c⟩ ∧ cmpInt 18 v = 0 ∧
        (TotalCmp cmpInt → ∀ w ∈ tree8.inorder, cmpInt 18 w = 0 → w = v) ∧
        s'.freed = (stateOf cmpInt tree8).freed ++ [v] ∧ tree8.inorder = A ++ v :: B ∧
        t'.inorder = A ++ B ∧
        deleteNormalBST k (stateOf cmpInt tree8) (some x) = .ok (some m, s1) ∧
        deleteOneChild k s1 (some m) = .ok s' ∧ s'.mem m = none ∧ m ∉ t'.addrs ∧
        (l = .nil ∨ r = .nil → m = x) ∧
        (l ≠ .nil → r ≠ .nil → ∃ nm mv B',
          getSuccessor k (stateOf cmpInt tree8) (some x) = .ok (some m) ∧
          (stateOf cmpInt tree8).mem m = some nm ∧ nm.data = mv ∧
          nm.left = none ∧ B = mv :: B' ∧
          (s1.mem x).map (fun n => n.data) = some mv ∧
          (s1.mem m).map (fun n => n.data) = some v ∧
          x ∈ t'.addrs ∧ (s'.mem x).map (fun n => n.data) = some mv) :=
  ⟨models_stateOf cmpInt (by decide), tree8_redBlack, by rfl,
    deleteFromRBTree_destroys_target (models_stateOf cmpInt (by decide)) tree8_redBlack
      (by rfl : deleteFromRBTree 13 (some (stateOf cmpInt tree8)) (some 18)
        = .ok (true, some without18))⟩

/-- C22 fails on a tree in which a red node has a red child: in `redRed`
(black root 5, black leaf 3 to its left, red 8 to its right with the red left
child 7) `RBTreeContains` finds 3, yet no call of `deleteFromRBTree` for 3
returns: once the leaf is unlinked, `deleteLevel2` rotates the red sibling 8
to the top, the new sibling 7 is red, so `deleteLevel3` to `deleteLevel5` do
nothing, and `deleteLevel6` writes the colour of the sibling's right child,
which is `NULL`. -/
theorem deleteFromRBTree_red_red_faults :
    Models redRed redRedTree ∧
      RBTreeContains 2 (some redRed) (some 3) = .ok true ∧
      (∀ fuel, deleteFromRBTree (fuel + 5) (some redRed) (some 3) = .error .nullDeref) ∧
      ¬ ∃ fuel o, deleteFromRBTree fuel (some redRed) (some 3) = .ok (true, o) := by
  have key : ∀ fuel, deleteFromRBTree (fuel + 5) (some redRed) (some 3) = .error .nullDeref := by
    intro fuel
    simp [deleteFromRBTree, findXNormalBST, deleteNormalBST, deleteOneChild, replaceNode,
      deleteLevel1, deleteLevel2, deleteLevel3, deleteLevel4, deleteLevel5, deleteLevel6,
      siblingOf, isRedNode, isBlackOrNull, nodeAndthoSunsAreBlack, theColorOfchildrenAre, andAlso,
      leftRotation, rightRotation, setColor, setParent, setLeft, setRight, load, store, redRed,
      cmpInt, bind, Except.bind, pure, Except.pure, Function.update_apply]
  refine ⟨models_redRed, by rfl, key, ?_⟩
  rintro ⟨fuel, o, h⟩
  have h' := deleteFromRBTree_mono (Nat.le_add_right fuel 5) h
  rw [key fuel] at h'
  exact absurd h' (by simp)

/-- C22, amended: on every tree object, ordered or not, for every comparator,
value `d` and node address `a` handed out by `malloc`, `RBTreeContains`
returns, and it returns `true` exactly when the descent by the comparator from
the root ends at a node; `insertToRBTree` returns `false` for some fuel exactly
when `RBTreeContains` returns `true`; and a call of `deleteFromRBTree` that
returns `true` implies that `RBTreeContains` returns `true`.  On a tree whose
colours satisfy the red-black invariants, both `insertToRBTree` and
`deleteFromRBTree` return, and `deleteFromRBTree` returns `true` exactly when
`RBTreeContains` returns `true`. -/
theorem presence_agrees {s : RBTree α} {t : Tree α} (d : α) (a : Nat) (hm : Models s t)
    (ha : s.mem a = none) :
    (∃ b, ∀ fuel, t.height < fuel → RBTreeContains fuel (some s) (some d) = .ok b) ∧
      ((∃ fuel, RBTreeContains fuel (some s) (some d) = .ok true) ↔
        (descend s.compFunc d t []).2 ≠ .nil) ∧
      ((∃ fuel o, insertToRBTree fuel (some s) (some d) (some a) = .ok (false, o)) ↔
        ∃ fuel, RBTreeContains fuel (some s) (some d) = .ok true) ∧
      (∀ fuel o, deleteFromRBTree fuel (some s) (some d) = .ok (true, o) →
        RBTreeContains fuel (some s) (some d) = .ok true) ∧
      (t.Coloured →
        (∃ fuel b o, insertToRBTree fuel (some s) (some d) (some a) = .ok (b, o)) ∧
        (∃ fuel b o, deleteFromRBTree fuel (some s) (some d) = .ok (b, o)) ∧
        ((∃ fuel o, deleteFromRBTree fuel (some s) (some d) = .ok (true, o)) ↔
          ∃ fuel, RBTreeContains fuel (some s) (some d) = .ok true)) := by
  refine ⟨⟨_, fun fuel hf => contains_sim hm.linked hf⟩, contains_true_iff hm.linked,
    (insert_false_iff hm.linked ha).trans (contains_true_iff hm.linked).symm,
    fun fuel o h => delete_true_contains h, fun hc => ⟨?_, ?_, ?_⟩⟩
  · obtain ⟨b, s', t', h, -⟩ := insert_at (some d) (some a) hm hc
      (fun a' e => by cases e; exact ha)
    exact ⟨_, b, some s', h⟩
  · obtain ⟨b, s', t', h, -⟩ := delete_at (some d) hm hc
    exact ⟨_, b, some s', h⟩
  · exact (delete_true_iff hm hc).trans (contains_true_iff hm.linked).symm

theorem presence_agrees_witness :
    Models (stateOf cmpInt tree8) tree8 ∧ (stateOf cmpInt tree8).mem 9 = none ∧ tree8.Coloured ∧
      (∃ b, ∀ fuel, tree8.height < fuel →
        RBTreeContains fuel (some (stateOf cmpInt tree8)) (some 10) = .ok b) ∧
      ((∃ fuel, RBTreeContains fuel (some (stateOf cmpInt tree8)) (some 10) = .ok true) ↔
        (descend cmpInt 10 tree8 []).2 ≠ .nil) ∧
      ((∃ fuel o, insertToRBTree fuel (some (stateOf cmpInt tree8)) (some 10) (some 9)
          = .ok (false, o)) ↔
        ∃ fuel, RBTreeContains fuel (some (stateOf cmpInt tree8)) (some 10) = .ok true) ∧
      (∀ fuel o, deleteFromRBTree fuel (some (stateOf cmpInt tree8)) (some 10) = .ok (true, o) →
        RBTreeContains fuel (some (stateOf cmpInt tree8)) (some 10) = .ok true) ∧
      (tree8.Coloured →
        (∃ fuel b o, insertToRBTree fuel (some (stateOf cmpInt tree8)) (some 10) (some 9)
          = .ok (b, o)) ∧
        (∃ fuel b o, deleteFromRBTree fuel (some (stateOf cmpInt tree8)) (some 10) = .ok (b, o)) ∧
        ((∃ fuel o, deleteFromRBTree fuel (some (stateOf cmpInt tree8)) (some 10)
            = .ok (true, o)) ↔
          ∃ fuel, RBTreeContains fuel (some (stateOf cmpInt tree8)) (some 10) = .ok true)) :=
  ⟨models_stateOf cmpInt (by decide), stateOf_free cmpInt (by decide),
    ⟨tree8_redBlack.rootBlack, tree8_redBlack.noRedRed, tree8_redBlack.balanced⟩,
    presence_agrees 10 9 (models_stateOf cmpInt (by decide)) (stateOf_free cmpInt (by decide))⟩

end RBT
